import Mathlib

/-!
# Agnes Sorel patience (`open_spiel/games/agnes_sorel`)

A shallow embedding of `agnes_sorel.h` / `agnes_sorel.cc`: the card model, the
pile model, the move codec and the game state machine, followed by theorems
about them.

Conventions of the embedding.

* The enumerations `SuitType` and `RankType` are kept as the integer value of
  their enumerators (type `Int`), `PileID` likewise (type `Nat`), because the
  source converts between them and `int` with `static_cast`: the move codec is
  integer arithmetic on them. The enumerators keep their names, for example
  `SuitType.kSpades = 1` and `RankType.kK = 13`.
* `Action` is `int64_t` in the source and an unbounded integer (`Int`) here;
  the only arithmetic on it is `action - 52`.
* C++ `/` and `%` on integers truncate towards zero: `Int.tdiv`, `Int.tmod`.
* A function that can reach `SpielFatalError`, an uncaught `std::out_of_range`
  (`std::map::at`, `std::vector::at`) or undefined behaviour (`back()` of an
  empty vector) returns `Option`; `none` is the abort.
* `double` rewards and returns are integer valued throughout (multiples of
  ten far below `2^53`), so they are kept as integers.
* `std::hash<std::string> hasher` is implementation defined; the functions
  that reach it take the hash function as their first argument.
-/

namespace AgnesSorel

/-! ## Enumerations and constants -/

def SuitType.kNone : Int := 0
def SuitType.kSpades : Int := 1
def SuitType.kHearts : Int := 2
def SuitType.kClubs : Int := 3
def SuitType.kDiamonds : Int := 4
def SuitType.kHidden : Int := 5

def RankType.kNone : Int := 0
def RankType.kA : Int := 1
def RankType.k2 : Int := 2
def RankType.kQ : Int := 12
def RankType.kK : Int := 13
def RankType.kHidden : Int := 14

/-- Enumeration `LocationType` -/
inductive LocationType where
  | kDeck
  | kWaste
  | kFoundation
  | kTableau
  | kMissing
deriving DecidableEq, Repr

def PileID.kWaste : Nat := 0
def PileID.kSpades : Nat := 1
def PileID.kHearts : Nat := 2
def PileID.kClubs : Nat := 3
def PileID.kDiamonds : Nat := 4
def PileID.k1stTableau : Nat := 5
def PileID.k7thTableau : Nat := 11
def PileID.kMissing : Nat := 12

def kDefaultDepthLimit : Int := 150
def kDefaultIsColored : Bool := false
def kHiddenCard : Int := 99
def kNumRanks : Int := 13
def kMaxSizeWaste : Nat := 23
def kMaxSizeFoundation : Nat := 13
def kMaxSizeTableau : Nat := 26
def kEnd : Int := 0
def kRevealStart : Int := 1
def kRevealEnd : Int := 52
def kMoveStart : Int := 53
def kMoveEnd : Int := 365
def kDeal : Int := 366
def kEmptySpadeCard : Int := -5
def kEmptyHeartCard : Int := -4
def kEmptyClubCard : Int := -3
def kEmptyDiamondCard : Int := -2
def kEmptyTableauCard : Int := -1
def kActionOffset : Int := 52

/-- Constant `kSuits`, the order of suits -/
def kSuits : List Int := [1, 2, 3, 4]

/-- Constant `kRanks`, all valid ranks -/
def kRanks : List Int := [1, 2, 3, 4, 5, 6, 7, 8, 9, 10, 11, 12, 13]

/-- Lookup `kFoundationPoints.at(rank)`: the reward for moving a card of that
rank to a foundation; `none` when the rank is not a key (`std::out_of_range`) -/
def kFoundationPoints (rank : Int) : Option Int :=
  if rank = 1 then some 100
  else if rank = 2 then some 90
  else if rank = 3 then some 80
  else if rank = 4 then some 70
  else if rank = 5 then some 60
  else if rank = 6 then some 50
  else if rank = 7 then some 40
  else if rank = 8 then some 30
  else if rank = 9 then some 20
  else if rank = 10 then some 10
  else if rank = 11 then some 10
  else if rank = 12 then some 10
  else if rank = 13 then some 10
  else none

/-- Lookup `kSuitToPile.at(suit)`: the pile id of the foundation of a suit -/
def kSuitToPile (suit : Int) : Option Nat :=
  if suit = 1 then some PileID.kSpades
  else if suit = 2 then some PileID.kHearts
  else if suit = 3 then some PileID.kClubs
  else if suit = 4 then some PileID.kDiamonds
  else none

/-- Lookup `kIntToPile.at(i)`: the pile id of the `i`-th tableau -/
def kIntToPile (i : Nat) : Option Nat :=
  if 1 ≤ i ∧ i ≤ 7 then some (i + 4) else none

/-! ## Miscellaneous -/

/-- Function `GetSameColorSuits`; `none` is the fatal error of the default case -/
def GetSameColorSuits (suit : Int) : Option (List Int) :=
  if suit = SuitType.kSpades then some [SuitType.kSpades, SuitType.kClubs]
  else if suit = SuitType.kHearts then some [SuitType.kHearts, SuitType.kDiamonds]
  else if suit = SuitType.kClubs then some [SuitType.kSpades, SuitType.kClubs]
  else if suit = SuitType.kDiamonds then some [SuitType.kHearts, SuitType.kDiamonds]
  else if suit = SuitType.kNone then
    some [SuitType.kSpades, SuitType.kHearts, SuitType.kClubs, SuitType.kDiamonds]
  else none

/-- Function `GetCardIndex`; `none` is the fatal error `Failed to get card index_` -/
def GetCardIndex (rank : Int) (suit : Int) : Option Int :=
  if rank = RankType.kHidden ∨ suit = SuitType.kHidden then some kHiddenCard
  else if rank = RankType.kNone then
    if suit = SuitType.kNone then some kEmptyTableauCard
    else if suit = SuitType.kSpades then some kEmptySpadeCard
    else if suit = SuitType.kHearts then some kEmptyHeartCard
    else if suit = SuitType.kClubs then some kEmptyClubCard
    else if suit = SuitType.kDiamonds then some kEmptyDiamondCard
    else none
  else some ((suit - 1) * kNumRanks + rank)

/-- Function `GetMaxSize` -/
def GetMaxSize (location : LocationType) : Nat :=
  match location with
  | .kDeck => kMaxSizeWaste
  | .kWaste => kMaxSizeWaste
  | .kFoundation => kMaxSizeFoundation
  | .kTableau => kMaxSizeTableau
  | .kMissing => 0

/-! ## Card -/

/-- Class `Card` with its five data members -/
structure Card where
  rank_ : Int
  suit_ : Int
  location_ : LocationType
  hidden_ : Bool
  index_ : Int
deriving DecidableEq, Repr

/-- Constructor `Card(bool hidden, SuitType suit, RankType rank, LocationType
location)`; `index_` keeps its default member initialiser `kHiddenCard` -/
def Card.new (hidden : Bool) (suit : Int) (rank : Int)
    (location : LocationType) : Card :=
  { rank_ := rank, suit_ := suit, location_ := location, hidden_ := hidden,
    index_ := kHiddenCard }

/-- Constructor `Card(int index, bool hidden, LocationType location)` -/
def Card.ofIndex (index : Int) (hidden : Bool) (location : LocationType) : Card :=
  if hidden then
    { rank_ := RankType.kHidden, suit_ := SuitType.kHidden, location_ := location,
      hidden_ := hidden, index_ := index }
  else if index = kHiddenCard then
    { rank_ := RankType.kHidden, suit_ := SuitType.kHidden, location_ := location,
      hidden_ := hidden, index_ := index }
  else if index = kEmptyTableauCard then
    { rank_ := RankType.kNone, suit_ := SuitType.kNone, location_ := location,
      hidden_ := hidden, index_ := index }
  else if index = kEmptySpadeCard then
    { rank_ := RankType.kNone, suit_ := SuitType.kSpades, location_ := location,
      hidden_ := hidden, index_ := index }
  else if index = kEmptyHeartCard then
    { rank_ := RankType.kNone, suit_ := SuitType.kHearts, location_ := location,
      hidden_ := hidden, index_ := index }
  else if index = kEmptyClubCard then
    { rank_ := RankType.kNone, suit_ := SuitType.kClubs, location_ := location,
      hidden_ := hidden, index_ := index }
  else if index = kEmptyDiamondCard then
    { rank_ := RankType.kNone, suit_ := SuitType.kDiamonds, location_ := location,
      hidden_ := hidden, index_ := index }
  else
    { rank_ := 1 + Int.tmod (index - 1) kNumRanks,
      suit_ := 1 + Int.fdiv (index - 1) 13,
      location_ := location, hidden_ := hidden, index_ := index }

/-- Method `Card::GetIndex` -/
def Card.GetIndex (c : Card) : Option Int :=
  if c.hidden_ then some kHiddenCard else GetCardIndex c.rank_ c.suit_

/-- Method `Card::SetLocation` -/
def Card.SetLocation (c : Card) (new_location : LocationType) : Card :=
  { c with location_ := new_location }

/-- Operator `Card::operator==`: equality on rank and suit only -/
def Card.equals (c other_card : Card) : Bool :=
  decide (c.rank_ = other_card.rank_) && decide (c.suit_ = other_card.suit_)

/-- Operator `Card::operator<`: by suit, then by rank -/
def Card.less (c other_card : Card) : Bool :=
  if c.suit_ ≠ other_card.suit_ then decide (c.suit_ < other_card.suit_)
  else if c.rank_ ≠ other_card.rank_ then decide (c.rank_ < other_card.rank_)
  else false

/-- Call `std::find(cards.begin(), cards.end(), c) != cards.end()` -/
def Card.isIn (c : Card) (cards : List Card) : Bool :=
  cards.any (fun x => x.equals c)

/-- The final loops of both `LegalChildren` overloads: one child per suit and
rank, suits outermost -/
def Card.children (child_suits : List Int) (child_ranks : List Int) :
    List Card :=
  child_suits.flatMap (fun child_suit =>
    child_ranks.map (fun child_rank =>
      Card.new false child_suit child_rank LocationType.kMissing))

/-- Method `Card::LegalChildren()`; `none` is a fatal error (of
`GetSameColorSuits`, or `child_suits should not be empty`) -/
def Card.LegalChildren (c : Card) : Option (List Card) :=
  if c.hidden_ then some []
  else
    match c.location_ with
    | .kTableau =>
      if c.rank_ = RankType.kNone then
        if c.suit_ = SuitType.kNone then
          (if kSuits.isEmpty then none else some (Card.children kSuits kRanks))
        else some []
      else if RankType.k2 ≤ c.rank_ ∧ c.rank_ ≤ RankType.kK then
        match GetSameColorSuits c.suit_ with
        | none => none
        | some child_suits =>
          if child_suits.isEmpty then none
          else some (Card.children child_suits [c.rank_ - 1])
      else if c.rank_ = RankType.kA then
        match GetSameColorSuits c.suit_ with
        | none => none
        | some child_suits =>
          if child_suits.isEmpty then none
          else some (Card.children child_suits [RankType.kK])
      else some []
    | .kFoundation => some []
    | _ => some []

/-- Method `Card::LegalChildren(RankType foundation_rank)`; `none` is a fatal
error -/
def Card.LegalChildrenOf (c : Card) (foundation_rank : Int) :
    Option (List Card) :=
  if c.hidden_ then some []
  else if foundation_rank = RankType.kHidden then none
  else
    match c.location_ with
    | .kTableau => c.LegalChildren
    | .kFoundation =>
      if foundation_rank = RankType.kNone then some []
      else if c.rank_ = RankType.kNone then
        if c.suit_ ≠ SuitType.kNone then
          some (Card.children [c.suit_] [foundation_rank])
        else some []
      else if RankType.kA ≤ c.rank_ ∧ c.rank_ ≤ RankType.kQ then
        some (Card.children [c.suit_] [c.rank_ + 1])
      else if c.rank_ = RankType.kK then
        some (Card.children [c.suit_] [RankType.kA])
      else some []
    | _ => some []

/-! ## Move and the move codec -/

/-- Class `Move`: a target card and a source card -/
structure Move where
  target_ : Card
  source_ : Card
deriving DecidableEq, Repr

/-- Equality of two moves by the rank and suit of target and source -/
def Move.equals (m other_move : Move) : Bool :=
  m.target_.equals other_move.target_ && m.source_.equals other_move.source_

/-- Constructor `Move(RankType, SuitType, RankType, SuitType)` -/
def Move.ofRanksSuits (target_rank : Int) (target_suit : Int)
    (source_rank : Int) (source_suit : Int) : Move :=
  { target_ := Card.new false target_suit target_rank LocationType.kMissing,
    source_ := Card.new false source_suit source_rank LocationType.kMissing }

/-- The branches of `Move::Move(Action action)`: the four integers
`(target_rank, target_suit, source_rank, source_suit)` they assign; `none` is
the fatal error `action provided does not correspond with a move` -/
def Move.decodeFields (action_id : Int) : Option (Int × Int × Int × Int) :=
  let action := action_id - kActionOffset
  if 1 ≤ action ∧ action ≤ 52 then
    let source_rank := Int.tmod (action - 1) 13 + 1
    let source_suit := Int.tdiv ((action - 1) - (source_rank - 1)) 13 + 1
    some (0, source_suit, source_rank, source_suit)
  else if 53 ≤ action ∧ action ≤ 100 then
    let source_rank := Int.tmod (action - 53) 12 + 2
    let source_suit := Int.tdiv ((action - 53) - (source_rank - 2)) 12 + 1
    some (source_rank - 1, source_suit, source_rank, source_suit)
  else if 101 ≤ action ∧ action ≤ 104 then
    let source_rank := 1
    let source_suit := action - (101 - 1)
    some (13, source_suit, source_rank, source_suit)
  else if 105 ≤ action ∧ action ≤ 152 then
    let source_rank := Int.tmod (action - 105) 12 + 1
    let source_suit := Int.tdiv ((action - 105) - (source_rank - 1)) 12 + 1
    some (source_rank + 1, source_suit, source_rank, source_suit)
  else if 153 ≤ action ∧ action ≤ 156 then
    let source_rank := 13
    let source_suit := Int.tdiv (action - 153) 4 + 1
    some (1, source_suit, source_rank, source_suit)
  else if 157 ≤ action ∧ action ≤ 204 then
    let source_rank := Int.tmod (action - 157) 12 + 1
    let source_suit := Int.tdiv ((action - 157) - (source_rank - 1)) 12 + 1
    some (source_rank + 1, Int.tmod (source_suit + 1) 4 + 1, source_rank, source_suit)
  else if 205 ≤ action ∧ action ≤ 208 then
    let source_rank := 13
    let source_suit := Int.tdiv (action - 205) 4 + 1
    some (source_rank + 1, Int.tmod (source_suit + 1) 4 + 1, source_rank, source_suit)
  else if 209 ≤ action ∧ action ≤ 260 then
    let source_rank := Int.tmod (action - 209) 13 + 1
    let source_suit := Int.tdiv ((action - 209) - (source_rank - 1)) 13 + 1
    some (0, 0, source_rank, source_suit)
  else if 261 ≤ action ∧ action ≤ 312 then
    let target_rank := Int.tmod (action - 261) 13 + 1
    let target_suit := Int.tdiv ((action - 261) - (target_rank - 1)) 13 + 1
    some (target_rank, target_suit, 14, 5)
  else if action = 313 then
    some (0, 0, 14, 5)
  else none

/-- Constructor `Move::Move(Action action)`, the decoder: the branches, then
the two cards `Card(false, suit, rank)` built from the four integers -/
def Move.ofAction (action_id : Int) : Option Move :=
  (Move.decodeFields action_id).map (fun fields =>
    Move.ofRanksSuits fields.1 fields.2.1 fields.2.2.1 fields.2.2.2)

/-- Expression `abs(target_suit - source_suit) % 4` of `Move::ActionId` -/
def suitDistance (target_suit source_suit : Int) : Int :=
  Int.tmod (Int.natAbs (target_suit - source_suit) : Int) 4

/-- Method `Move::ActionId`, the encoder; `none` is the fatal error
`move not found` -/
def Move.ActionId (m : Move) : Option Int :=
  let target_rank : Int := m.target_.rank_
  let source_rank : Int := m.source_.rank_
  let target_suit : Int := m.target_.suit_
  let source_suit : Int := m.source_.suit_
  let offset : Int := 52
  if target_rank = 0 ∧ target_suit = 0 ∧ source_rank = 14 ∧ source_suit = 5 then
    some (313 + offset)
  else if source_rank = 14 ∧ source_suit = 5 ∧ target_rank ≠ 0 ∧
      target_rank ≠ 14 ∧ target_suit ≠ 0 ∧ target_suit ≠ 5 then
    some ((261 + offset) + (target_suit - 1) * 13 + (target_rank - 1))
  else if target_rank = 0 ∧ target_suit = 0 ∧ source_rank ≠ 0 ∧
      source_rank ≠ 14 ∧ source_suit ≠ 0 ∧ source_suit ≠ 5 then
    some ((209 + offset) + (source_suit - 1) * 13 + (source_rank - 1))
  else if target_rank = 0 ∧ target_suit ≠ 0 ∧ target_suit ≠ 5 ∧
      source_rank ≠ 0 ∧ source_rank ≠ 14 ∧ source_suit ≠ 0 ∧
      source_suit ≠ 5 then
    some ((1 + offset) + (source_suit - 1) * 13 + (source_rank - 1))
  else if target_rank ≠ 0 ∧ target_rank ≠ 14 ∧ source_rank ≠ 0 ∧
      source_rank ≠ 14 ∧ target_suit ≠ 0 ∧ target_suit ≠ 5 ∧
      source_suit ≠ 0 ∧ source_suit ≠ 5 then
    if source_rank = 13 ∧ target_rank = 1 ∧
        suitDistance target_suit source_suit = 2 then
      some ((205 + offset) + (source_suit - 1))
    else if target_rank - source_rank = 1 ∧
        suitDistance target_suit source_suit = 2 then
      some ((157 + offset) + (source_suit - 1) * 12 + (source_rank - 1))
    else if target_rank = 1 ∧ source_rank = 13 ∧ target_suit = source_suit then
      some ((153 + offset) + (source_suit - 1))
    else if target_rank - source_rank = 1 ∧ target_suit = source_suit then
      some ((105 + offset) + (source_suit - 1) * 12 + (source_rank - 1))
    else if source_rank = 1 ∧ target_rank = 13 ∧ target_suit = source_suit then
      some ((101 + offset) + (source_suit - 1))
    else if target_suit = source_suit ∧ source_rank - target_rank = 1 then
      some ((53 + offset) + (source_suit - 1) * 12 + (source_rank - 2))
    else none
  else none

/-! ## Pile, Tableau, Foundation, Waste

Every pile object of the program is a `Tableau`, a `Foundation` or a `Waste`,
so only the overriding methods of the three derived classes are embedded; the
class of a pile is fixed by the container that holds it. -/

/-- Class `Pile` with its data members -/
structure Pile where
  cards_ : List Card
  type_ : LocationType
  suit_ : Int
  id_ : Nat
  max_size_ : Nat
deriving DecidableEq, Repr

/-- Constructor `Pile(LocationType type, PileID id, SuitType suit)` -/
def Pile.new (type : LocationType) (id : Nat) (suit : Int) : Pile :=
  { cards_ := [], type_ := type, suit_ := suit, id_ := id, max_size_ := GetMaxSize type }

/-- Constructor `Tableau(PileID id)` -/
def Tableau.new (id : Nat) : Pile :=
  Pile.new LocationType.kTableau id SuitType.kNone

/-- Constructor `Foundation(PileID id, SuitType suit)` -/
def Foundation.new (id : Nat) (suit : Int) : Pile :=
  Pile.new LocationType.kFoundation id suit

/-- Constructor `Waste()` -/
def Waste.new : Pile :=
  Pile.new LocationType.kWaste PileID.kWaste SuitType.kNone

/-- Method `Pile::GetIsEmpty` -/
def Pile.GetIsEmpty (p : Pile) : Bool := p.cards_.isEmpty

/-- Method `Pile::GetFirstCard`, `cards_.front()`; `none` on an empty pile -/
def Pile.GetFirstCard (p : Pile) : Option Card := p.cards_.head?

/-- Method `Pile::GetLastCard`, `cards_.back()`; `none` on an empty pile -/
def Pile.GetLastCard (p : Pile) : Option Card := p.cards_.getLast?

/-- Method `Pile::SetCards` -/
def Pile.SetCards (p : Pile) (new_cards : List Card) : Pile :=
  { p with cards_ := new_cards }

/-- Method `Pile::Extend`: every card is tagged with the pile kind and pushed
to the back -/
def Pile.Extend (p : Pile) (source_cards : List Card) : Pile :=
  { p with cards_ := p.cards_ ++ source_cards.map (fun card => card.SetLocation p.type_) }

/-- Method `Tableau::Targets` -/
def Tableau.Targets (p : Pile) : List Card :=
  match p.cards_.getLast? with
  | some back_card => if back_card.hidden_ then [] else [back_card]
  | none => [Card.new false SuitType.kNone RankType.kNone LocationType.kTableau]

/-- The loop of `Tableau::Sources` over `cards_.rbegin() .. cards_.rend()`.
In the source `prev_card` is declared inside the loop body, so at every
iteration it is the top card `*cards_.rbegin()`, here `top` -/
def Tableau.SourcesLoop (top : Card) : List Card → Option (List Card)
  | [] => some []
  | card :: rest =>
    if card.hidden_ then some []
    else if card.equals top then
      (Tableau.SourcesLoop top rest).map (fun sources => card :: sources)
    else
      match card.LegalChildren with
      | none => none
      | some children =>
        if top.isIn children then
          (Tableau.SourcesLoop top rest).map (fun sources => card :: sources)
        else some []

/-- Method `Tableau::Sources` -/
def Tableau.Sources (p : Pile) : Option (List Card) :=
  match p.cards_.getLast? with
  | none => some []
  | some top => Tableau.SourcesLoop top p.cards_.reverse

/-- The loop of `Tableau::Split`: the pair (cards kept, cards split off);
`split_flag` is the flag of the source -/
def Tableau.SplitLoop (card : Card) : Bool → List Card → List Card × List Card
  | _, [] => ([], [])
  | split_flag, c :: rest =>
    if split_flag || c.equals card then
      let r := Tableau.SplitLoop card true rest
      (r.1, c :: r.2)
    else
      let r := Tableau.SplitLoop card false rest
      (c :: r.1, r.2)

/-- Method `Tableau::Split`: the cards split off and the pile left behind -/
def Tableau.Split (p : Pile) (card : Card) : List Card × Pile :=
  let r := Tableau.SplitLoop card false p.cards_
  (r.2, { p with cards_ := r.1 })

/-- The loop of `Tableau::Reveal` and `Waste::Reveal`: the first hidden card
takes the rank and suit of the revealed card -/
def RevealLoop (card_to_reveal : Card) : List Card → List Card
  | [] => []
  | card :: rest =>
    if card.hidden_ then
      { card with rank_ := card_to_reveal.rank_, suit_ := card_to_reveal.suit_,
                  hidden_ := false } :: rest
    else card :: RevealLoop card_to_reveal rest

/-- Method `Tableau::Reveal` -/
def Tableau.Reveal (p : Pile) (card_to_reveal : Card) : Pile :=
  { p with cards_ := RevealLoop card_to_reveal p.cards_ }

/-- Method `Foundation::Targets` -/
def Foundation.Targets (p : Pile) : List Card :=
  match p.cards_.getLast? with
  | some back_card => [back_card]
  | none => [Card.new false p.suit_ RankType.kNone LocationType.kFoundation]

/-- Method `Foundation::Sources` -/
def Foundation.Sources (p : Pile) : List Card :=
  match p.cards_.getLast? with
  | some back_card => [back_card]
  | none => []

/-- Method `Foundation::Split`; `cards_.back()` of an empty pile is undefined
behaviour, here `none` -/
def Foundation.Split (p : Pile) (card : Card) : Option (List Card × Pile) :=
  match p.cards_.getLast? with
  | none => none
  | some back_card =>
    if back_card.equals card then some ([back_card], { p with cards_ := p.cards_.dropLast })
    else some ([], p)

/-- Method `Waste::Targets` -/
def Waste.Targets (_p : Pile) : List Card := []

/-- Method `Waste::Sources`: the non-hidden cards from the front up to the
first hidden card -/
def Waste.Sources (p : Pile) : List Card :=
  p.cards_.takeWhile (fun card => !card.hidden_)

/-- The loop of `Waste::Split`: the pair (cards kept, cards split off); only
the first card equal to `card` is removed -/
def Waste.SplitLoop (card : Card) : List Card → List Card × List Card
  | [] => ([], [])
  | c :: rest =>
    if c.equals card then (rest, [c])
    else
      let r := Waste.SplitLoop card rest
      (c :: r.1, r.2)

/-- Method `Waste::Split`: the cards split off and the pile left behind -/
def Waste.Split (p : Pile) (card : Card) : List Card × Pile :=
  let r := Waste.SplitLoop card p.cards_
  (r.2, { p with cards_ := r.1 })

/-- Method `Waste::Reveal` -/
def Waste.Reveal (p : Pile) (card_to_reveal : Card) : Pile :=
  { p with cards_ := RevealLoop card_to_reveal p.cards_ }

/-! ## Rendering (`ToString`) -/

def kReset : String := "\x1b[0m"
def kRed : String := "\x1b[31m"
def kBlack : String := "\x1b[37m"
def kGlyphHidden : String := String.singleton (Char.ofNat 0x1F0A0)
def kGlyphEmpty : String := String.singleton (Char.ofNat 0x1F0BF)
def kGlyphSpades : String := String.singleton (Char.ofNat 0x2660)
def kGlyphHearts : String := String.singleton (Char.ofNat 0x2665)
def kGlyphClubs : String := String.singleton (Char.ofNat 0x2663)
def kGlyphDiamonds : String := String.singleton (Char.ofNat 0x2666)
def kGlyphArrow : String := String.singleton (Char.ofNat 0x2190)

/-- Constant `kSuitStrs`, indexed by the enumerator value -/
def kSuitStrs : List String :=
  ["", kGlyphSpades, kGlyphHearts, kGlyphClubs, kGlyphDiamonds, ""]

/-- Constant `kRankStrs`, indexed by the enumerator value -/
def kRankStrs : List String :=
  ["", "A", "2", "3", "4", "5", "6", "7", "8", "9", "T", "J", "Q", "K", ""]

/-- Call `v.at(i)` of a vector with an `int` index; `none` is
`std::out_of_range` -/
def vectorAt {α : Type} (v : List α) (i : Int) : Option α :=
  if i < 0 then none else v[i.toNat]?

/-- Method `Card::ToString` -/
def Card.ToString (c : Card) (colored : Bool) : Option String :=
  let colour : String :=
    if colored && !c.hidden_ then
      if c.suit_ = SuitType.kSpades ∨ c.suit_ = SuitType.kClubs then kBlack
      else if c.suit_ = SuitType.kHearts ∨ c.suit_ = SuitType.kDiamonds then kRed
      else ""
    else ""
  let reset : String := if colored then kReset else ""
  if c.rank_ = RankType.kHidden ∨ c.suit_ = SuitType.kHidden then
    some (colour ++ kGlyphHidden ++ " " ++ reset)
  else if c.rank_ = RankType.kNone ∧ c.suit_ = SuitType.kNone then
    some (colour ++ kGlyphEmpty ++ reset)
  else
    match vectorAt kRankStrs c.rank_, vectorAt kSuitStrs c.suit_ with
    | some r, some s => some (colour ++ r ++ s ++ reset)
    | _, _ => none

/-- The loops `for card : cards: StrAppend(result, card.ToString(colored), " ")` -/
def cardsToString (colored : Bool) : List Card → Option String
  | [] => some ""
  | card :: rest =>
    match card.ToString colored, cardsToString colored rest with
    | some a, some b => some (a ++ " " ++ b)
    | _, _ => none

/-- Method `Pile::ToString` -/
def Pile.ToString (p : Pile) (colored : Bool) : Option String :=
  cardsToString colored p.cards_

/-- Method `Move::ToString` -/
def Move.ToString (m : Move) (colored : Bool) : Option String :=
  match m.target_.ToString colored, m.source_.ToString colored with
  | some a, some b => some (a ++ " " ++ kGlyphArrow ++ " " ++ b)
  | _, _ => none

/-! ## AgnesSorelState -/

/-- A pointer `Pile*` into the state: the waste, a foundation by its position
in `foundations_`, or a tableau by its position in `tableaus_` -/
inductive PileRef where
  | waste
  | foundation (i : Nat)
  | tableau (i : Nat)
deriving DecidableEq, Repr

/-- Key of `std::map<Card, PileID>`: `Card::operator<` compares suit, then
rank, so two cards are the same key exactly when suit and rank agree -/
abbrev CardKey := Int × Int

/-- Key of a card in `card_map_` -/
def Card.key (c : Card) : CardKey := (c.suit_, c.rank_)

/-- Strict order of the keys of `card_map_` (`Card::operator<`) -/
def CardKey.less (a b : CardKey) : Bool :=
  if a.1 ≠ b.1 then decide (a.1 < b.1)
  else if a.2 ≠ b.2 then decide (a.2 < b.2)
  else false

/-- Type `std::map<Card, PileID>` as the list of its entries in key order -/
abbrev CardMap := List (CardKey × Nat)

/-- Call `card_map_.insert_or_assign(card, id)` on the key of the card -/
def CardMap.insert_or_assign : CardMap → CardKey → Nat → CardMap
  | [], key, id => [(key, id)]
  | (k, v) :: rest, key, id =>
    if k = key then (k, id) :: rest
    else if CardKey.less key k then (key, id) :: (k, v) :: rest
    else (k, v) :: CardMap.insert_or_assign rest key id

/-- Call `card_map_.at(card)` on the key of the card; `none` is
`std::out_of_range` -/
def CardMap.at : CardMap → CardKey → Option Nat
  | [], _ => none
  | (k, v) :: rest, key => if k = key then some v else CardMap.at rest key

/-- Call `previous_states_.insert(h)` of `std::set<std::size_t>`, kept as the
ascending list of its elements -/
def setInsert : List Nat → Nat → List Nat
  | [], h => [h]
  | x :: rest, h =>
    if h = x then x :: rest
    else if h < x then h :: x :: rest
    else x :: setInsert rest h

/-- Class `AgnesSorelState` with its data members -/
structure AgnesSorelState where
  waste_ : Pile
  foundations_ : List Pile
  tableaus_ : List Pile
  revealed_cards_ : List Int
  is_finished_ : Bool
  is_known_foundation_ : Bool
  is_reversible_ : Bool
  current_depth_ : Int
  foundation_rank_ : Int
  previous_states_ : List Nat
  card_map_ : CardMap
  current_returns_ : Int
  current_rewards_ : Int
  depth_limit_ : Int
  is_colored_ : Bool
deriving DecidableEq, Repr

/-- The hidden card `Card(true, kHidden, kHidden, location)` of the initial deal -/
def hiddenCard (location : LocationType) : Card :=
  Card.new true SuitType.kHidden RankType.kHidden location

/-- Constructor `AgnesSorelState(game)`; the two game parameters it reads are
arguments -/
def AgnesSorelState.new (is_colored : Bool) (depth_limit : Int) : AgnesSorelState :=
  { waste_ :=
      (List.range 23).foldl
        (fun waste _ => waste.Extend [hiddenCard LocationType.kWaste]) Waste.new
    foundations_ :=
      kSuits.filterMap (fun suit =>
        (kSuitToPile suit).map (fun id => Foundation.new id suit))
    tableaus_ :=
      (List.range 7).filterMap (fun k =>
        (kIntToPile (k + 1)).map (fun id =>
          (Tableau.new id).SetCards
            (List.replicate (k + 1) (hiddenCard LocationType.kTableau))))
    revealed_cards_ := []
    is_finished_ := false
    is_known_foundation_ := false
    is_reversible_ := false
    current_depth_ := 0
    foundation_rank_ := RankType.kNone
    previous_states_ := []
    card_map_ := []
    current_returns_ := 0
    current_rewards_ := 0
    depth_limit_ := depth_limit
    is_colored_ := is_colored }

/-- Method `IsKnownFoundation` -/
def AgnesSorelState.IsKnownFoundation (s : AgnesSorelState) : Bool :=
  s.is_known_foundation_

/-- Method `IsTerminal` -/
def AgnesSorelState.IsTerminal (s : AgnesSorelState) : Bool := s.is_finished_

/-- Method `IsChanceNode`: some tableau card is hidden, or the foundation rank
is not known yet -/
def AgnesSorelState.IsChanceNode (s : AgnesSorelState) : Bool :=
  s.tableaus_.any (fun tableau =>
      !tableau.GetIsEmpty && tableau.cards_.any (fun card => card.hidden_))
    || !s.is_known_foundation_

/-- Method `Returns` (one player) -/
def AgnesSorelState.Returns (s : AgnesSorelState) : List Int := [s.current_returns_]

/-- Method `Rewards` (one player) -/
def AgnesSorelState.Rewards (s : AgnesSorelState) : List Int := [s.current_rewards_]

/-- Method `AgnesSorelState::Targets(location)` -/
def AgnesSorelState.Targets (s : AgnesSorelState) (loc : LocationType) : List Card :=
  (if loc = LocationType.kTableau ∨ loc = LocationType.kMissing then
      s.tableaus_.flatMap Tableau.Targets else [])
  ++ (if loc = LocationType.kFoundation ∨ loc = LocationType.kMissing then
      s.foundations_.flatMap Foundation.Targets else [])

/-- The loop of `AgnesSorelState::Sources` over the tableaus -/
def tableauSources : List Pile → Option (List Card)
  | [] => some []
  | tableau :: rest =>
    match Tableau.Sources tableau, tableauSources rest with
    | some a, some b => some (a ++ b)
    | _, _ => none

/-- Method `AgnesSorelState::Sources(location)` -/
def AgnesSorelState.Sources (s : AgnesSorelState) (loc : LocationType) :
    Option (List Card) :=
  match (if loc = LocationType.kTableau ∨ loc = LocationType.kMissing then
      tableauSources s.tableaus_ else some []) with
  | none => none
  | some fromTableaus =>
    some (fromTableaus
      ++ (if loc = LocationType.kFoundation ∨ loc = LocationType.kMissing then
          s.foundations_.flatMap Foundation.Sources else [])
      ++ (if loc = LocationType.kWaste ∨ loc = LocationType.kMissing then
          Waste.Sources s.waste_ else []))

/-- Position of the first element that satisfies `p` -/
def firstIndexWhere {α : Type} (p : α → Bool) : List α → Option Nat
  | [] => none
  | x :: xs => if p x then some 0 else (firstIndexWhere p xs).map (fun i => i + 1)

/-- The pile a `PileRef` points to -/
def AgnesSorelState.pileAt (s : AgnesSorelState) : PileRef → Option Pile
  | .waste => some s.waste_
  | .foundation i => s.foundations_[i]?
  | .tableau i => s.tableaus_[i]?

/-- Replace element `i` of a list by `f` of it -/
def modifyAt {α : Type} (f : α → α) : Nat → List α → List α
  | _, [] => []
  | 0, x :: xs => f x :: xs
  | i + 1, x :: xs => x :: modifyAt f i xs

/-- Mutation of the pile a `PileRef` points to -/
def AgnesSorelState.modifyPile (s : AgnesSorelState) (r : PileRef) (f : Pile → Pile) :
    AgnesSorelState :=
  match r with
  | .waste => { s with waste_ := f s.waste_ }
  | .foundation i => { s with foundations_ := modifyAt f i s.foundations_ }
  | .tableau i => { s with tableaus_ := modifyAt f i s.tableaus_ }

/-- Method `AgnesSorelState::GetPile` (both overloads have the same body);
`none` is the fatal error `The pile containing the card wasn't found`, or the
`std::out_of_range` of `card_map_.at`, `foundations_.at`, `tableaus_.at` -/
def AgnesSorelState.GetPile (s : AgnesSorelState) (card : Card) : Option PileRef :=
  if card.rank_ = RankType.kNone then
    if card.suit_ = SuitType.kNone then
      (firstIndexWhere (fun tableau => tableau.GetIsEmpty) s.tableaus_).map PileRef.tableau
    else if card.suit_ ≠ SuitType.kHidden then
      (firstIndexWhere (fun foundation => decide (foundation.suit_ = card.suit_))
        s.foundations_).map PileRef.foundation
    else none
  else
    match CardMap.at s.card_map_ card.key with
    | none => none
    | some pile_id =>
      if pile_id = PileID.kWaste then some PileRef.waste
      else if PileID.kSpades ≤ pile_id ∧ pile_id ≤ PileID.kDiamonds then
        (if pile_id - 1 < s.foundations_.length then
          some (PileRef.foundation (pile_id - 1)) else none)
      else if PileID.k1stTableau ≤ pile_id ∧ pile_id ≤ PileID.k7thTableau then
        (if pile_id - 5 < s.tableaus_.length then
          some (PileRef.tableau (pile_id - 5)) else none)
      else none

/-- Virtual call `pile->Split(card)` through a `Pile*` -/
def PileRef.Split (r : PileRef) (p : Pile) (card : Card) : Option (List Card × Pile) :=
  match r with
  | .waste => some (Waste.Split p card)
  | .foundation _ => Foundation.Split p card
  | .tableau _ => some (Tableau.Split p card)

/-- The loops `for (auto& card : split_cards)` of `MoveCards` and of the deal
branch of `DoApplyAction`: `card_map_.insert_or_assign(card, pile->GetID())`
followed by `pile->Extend(card)`, for the pile behind `r` whose id is `id` -/
def AgnesSorelState.extendWithMap (s : AgnesSorelState) (r : PileRef) (id : Nat) :
    List Card → AgnesSorelState
  | [] => s
  | card :: rest =>
    let s1 : AgnesSorelState :=
      { s with card_map_ := CardMap.insert_or_assign s.card_map_ card.key id }
    AgnesSorelState.extendWithMap (s1.modifyPile r (fun pile => pile.Extend [card])) r id rest

/-- The loop over the children of one target in `CandidateMoves` -/
def AgnesSorelState.candidatesFor (s : AgnesSorelState) (sources : List Card)
    (target : Card) : List Card → Option (List Move)
  | [] => some []
  | source :: rest =>
    match AgnesSorelState.candidatesFor s sources target rest with
    | none => none
    | some more =>
      if source.isIn sources then
        match (s.GetPile source).bind s.pileAt with
        | none => none
        | some source_pile =>
          if target.location_ = LocationType.kFoundation ∧
              source_pile.type_ = LocationType.kTableau then
            match source_pile.GetLastCard with
            | none => none
            | some last =>
              if last.equals source then some (Move.mk target source :: more) else some more
          else if target.suit_ = SuitType.kNone ∧ target.rank_ = RankType.kNone then
            if source_pile.type_ = LocationType.kWaste then
              some (Move.mk target source :: more)
            else if source_pile.type_ = LocationType.kTableau then
              match source_pile.GetFirstCard with
              | none => none
              | some first =>
                if first.equals source then some more
                else some (Move.mk target source :: more)
            else some more
          else some (Move.mk target source :: more)
      else some more

/-- The loop over the targets in `CandidateMoves`; `found_empty_tableau` is the
flag of the source -/
def AgnesSorelState.candidatesLoop (s : AgnesSorelState) (sources : List Card) :
    Bool → List Card → Option (List Move)
  | _, [] => some []
  | found_empty_tableau, target :: rest =>
    if target.suit_ = SuitType.kNone ∧ target.rank_ = RankType.kNone ∧
        found_empty_tableau = true then
      AgnesSorelState.candidatesLoop s sources found_empty_tableau rest
    else
      match target.LegalChildrenOf s.foundation_rank_ with
      | none => none
      | some children =>
        match s.candidatesFor sources target children,
          AgnesSorelState.candidatesLoop s sources
            (found_empty_tableau ||
              decide (target.suit_ = SuitType.kNone ∧ target.rank_ = RankType.kNone)) rest with
        | some a, some b => some (a ++ b)
        | _, _ => none

/-- Method `AgnesSorelState::CandidateMoves` -/
def AgnesSorelState.CandidateMoves (s : AgnesSorelState) : Option (List Move) :=
  match s.Sources LocationType.kMissing with
  | none => none
  | some sources => s.candidatesLoop sources false (s.Targets LocationType.kMissing)

/-- Method `AgnesSorelState::IsReversible`; `front()` of an empty source pile
and `rbegin()[1]` of a pile of fewer than two cards are undefined behaviour,
here `none` -/
def AgnesSorelState.IsReversible (source : Card) (source_pile : Pile) (target : Card)
    (_target_pile : Pile) : Option Bool :=
  match source.location_ with
  | .kWaste => some false
  | .kFoundation => some true
  | .kTableau =>
    match source_pile.GetFirstCard with
    | none => none
    | some first =>
      if first.equals source then
        (target.LegalChildren).map (fun target_children => source.isIn target_children)
      else
        match source_pile.cards_.reverse[1]? with
        | none => none
        | some second_to_last =>
          match second_to_last.LegalChildren with
          | none => none
          | some source_children =>
            if source.isIn source_children then
              (target.LegalChildren).map (fun target_children =>
                source.isIn target_children)
            else some false
  | _ => some false

/-- Method `AgnesSorelState::MoveCards` -/
def AgnesSorelState.MoveCards (s : AgnesSorelState) (move : Move) :
    Option AgnesSorelState :=
  let target := move.target_
  let source := move.source_
  match s.GetPile target, s.GetPile source with
  | some target_ref, some source_ref =>
    match s.pileAt target_ref, s.pileAt source_ref with
    | some target_pile, some source_pile =>
      match source_ref.Split source_pile source with
      | none => none
      | some (split_cards, rest_pile) =>
        let s1 := s.modifyPile source_ref (fun _ => rest_pile)
        let s2 := s1.extendWithMap target_ref target_pile.id_ split_cards
        match s2.pileAt source_ref with
        | none => none
        | some source_after =>
          let foundation_reward : Option Int :=
            if target_pile.type_ = LocationType.kFoundation then
              kFoundationPoints source.rank_
            else if source_pile.type_ = LocationType.kFoundation then
              (kFoundationPoints source.rank_).map (fun points => 0 - points)
            else some 0
          match foundation_reward with
          | none => none
          | some r0 =>
            let r1 : Int :=
              if source_after.type_ = LocationType.kTableau ∧
                  source_after.GetIsEmpty = false ∧
                  (source_after.GetLastCard.map (fun c => c.hidden_)) = some true then
                r0 + 20 else r0
            let r2 : Int :=
              if source_after.type_ = LocationType.kWaste then r1 + 20 else r1
            some { s2 with current_rewards_ := r2 }
    | _, _ => none
  | _, _ => none

/-- The loop over the foundations in `ToString`:
`foundation.Targets()[0].ToString(is_colored_)` followed by a blank -/
def foundationsToString (colored : Bool) : List Pile → Option String
  | [] => some ""
  | foundation :: rest =>
    match (Foundation.Targets foundation).head?.bind (fun c => c.ToString colored),
      foundationsToString colored rest with
    | some a, some b => some (a ++ " " ++ b)
    | _, _ => none

/-- The loop over the tableaus in `ToString`: a new line and the pile, for
every non-empty tableau -/
def tableausToString (colored : Bool) : List Pile → Option String
  | [] => some ""
  | tableau :: rest =>
    match (if tableau.GetIsEmpty then some "" else
        (tableau.ToString colored).map (fun t => "\n" ++ t)),
      tableausToString colored rest with
    | some a, some b => some (a ++ b)
    | _, _ => none

/-- Method `AgnesSorelState::ToString` -/
def AgnesSorelState.ToString (s : AgnesSorelState) : Option String :=
  match s.waste_.ToString s.is_colored_,
    foundationsToString s.is_colored_ s.foundations_,
    tableausToString s.is_colored_ s.tableaus_,
    cardsToString s.is_colored_ (s.Targets LocationType.kMissing),
    (s.Sources LocationType.kMissing).bind (cardsToString s.is_colored_) with
  | some w, some f, some t, some tg, some sr =>
    some ("WASTE       : " ++ w ++ "\nFOUNDATIONS : " ++ f ++ "\nTABLEAUS    : " ++ t
      ++ "\nTARGETS : " ++ tg ++ "\nSOURCES : " ++ sr)
  | _, _, _, _, _ => none

/-- Method `AgnesSorelState::ObservationString(player)` for the single player
`0`, for which both `SPIEL_CHECK`s pass -/
def AgnesSorelState.ObservationString (s : AgnesSorelState) : Option String :=
  s.ToString

/-- The loop over `tableaus_` in the reveal branch of `DoApplyAction`: the
first tableau that holds a hidden card reveals it; the result is the new
tableaus and the id of that tableau, `none` when no tableau card is hidden -/
def revealInTableaus (revealed_card : Card) : List Pile → Option (List Pile × Nat)
  | [] => none
  | tableau :: rest =>
    if !tableau.GetIsEmpty && tableau.cards_.any (fun card => card.hidden_) then
      some (Tableau.Reveal tableau revealed_card :: rest, tableau.id_)
    else
      (revealInTableaus revealed_card rest).map (fun r => (tableau :: r.1, r.2))

/-- The reveal branch of `DoApplyAction` -/
def AgnesSorelState.applyReveal (s : AgnesSorelState) (action : Int) :
    Option AgnesSorelState :=
  let revealed_card := Card.ofIndex action false LocationType.kMissing
  let found : Option AgnesSorelState :=
    (revealInTableaus revealed_card s.tableaus_).map (fun r =>
      { s with tableaus_ := r.1
               card_map_ := CardMap.insert_or_assign s.card_map_ revealed_card.key r.2 })
  let found_card : Bool := found.isSome
  let s1 : AgnesSorelState := found.getD s
  if !s1.is_known_foundation_ && !found_card then
    match kSuitToPile revealed_card.suit_ with
    | none => none
    | some pile_id =>
      some { s1 with
        foundation_rank_ := revealed_card.rank_
        is_known_foundation_ := true
        foundations_ := s1.foundations_.map (fun foundation =>
          if foundation.suit_ = revealed_card.suit_ then foundation.Extend [revealed_card]
          else foundation)
        card_map_ := CardMap.insert_or_assign s1.card_map_ revealed_card.key pile_id
        revealed_cards_ := s1.revealed_cards_ ++ [action] }
  else some { s1 with revealed_cards_ := s1.revealed_cards_ ++ [action] }

/-- The loop condition of the deal loops besides `it != tableaus_.end()`: none
for the full deal (`limit = none`), and
`std::distance(tableaus_.begin(), it) < waste_size` for the partial deal
(`limit = some waste_size`) -/
def dealGuard (limit : Option Int) (idx : Nat) : Bool :=
  match limit with
  | none => true
  | some waste_size => decide ((idx : Int) < waste_size)

/-- The two loops over `tableaus_` in the deal branch of `DoApplyAction`, as
one loop over the positions `idx, idx + 1, ..` of the `count` tableaus left.
`waste_.GetLastCard()` of an empty waste is undefined behaviour, here `none` -/
def AgnesSorelState.dealLoop (limit : Option Int) :
    Nat → Nat → AgnesSorelState → Option AgnesSorelState
  | 0, _, s => some s
  | count + 1, idx, s =>
    if dealGuard limit idx then
      match s.waste_.GetLastCard, s.tableaus_[idx]? with
      | some last, some tableau =>
        let r := Waste.Split s.waste_ last
        let s1 : AgnesSorelState := { s with waste_ := r.2 }
        AgnesSorelState.dealLoop limit count (idx + 1)
          (s1.extendWithMap (PileRef.tableau idx) tableau.id_ r.1)
      | _, _ => none
    else some s

/-- The deal branch of `DoApplyAction` -/
def AgnesSorelState.applyDeal (s : AgnesSorelState) : Option AgnesSorelState :=
  if s.waste_.GetIsEmpty then none
  else if s.waste_.cards_.length ≥ 7 then
    (AgnesSorelState.dealLoop none s.tableaus_.length 0 s).map (fun s1 =>
      { s1 with is_reversible_ := false, previous_states_ := [] })
  else
    AgnesSorelState.dealLoop (some (s.waste_.cards_.length : Int)) s.tableaus_.length 0 s

/-- The move branch of `DoApplyAction`; `hasher` is `std::hash<std::string>` -/
def AgnesSorelState.applyMove (hasher : String → Nat) (s : AgnesSorelState)
    (action : Int) : Option AgnesSorelState :=
  match Move.ofAction action with
  | none => none
  | some selected_move =>
    match (s.GetPile selected_move.source_).bind s.pileAt,
      (s.GetPile selected_move.target_).bind s.pileAt with
    | some source_pile, some target_pile =>
      match AgnesSorelState.IsReversible selected_move.source_ source_pile
          selected_move.target_ target_pile with
      | none => none
      | some reversible =>
        let guarded : Option AgnesSorelState :=
          if reversible then
            s.ObservationString.map (fun current_observation =>
              { s with is_reversible_ := true
                       previous_states_ :=
                         setInsert s.previous_states_ (hasher current_observation) })
          else some { s with is_reversible_ := false, previous_states_ := [] }
        match guarded.bind (fun s1 => s1.MoveCards selected_move) with
        | none => none
        | some s2 =>
          some { s2 with current_returns_ := s2.current_returns_ + s2.current_rewards_ }
    | _, _ => none

/-- Method `AgnesSorelState::DoApplyAction`; `hasher` is
`std::hash<std::string>`, whose values the C++ standard leaves open -/
def AgnesSorelState.DoApplyAction (hasher : String → Nat) (s : AgnesSorelState)
    (action : Int) : Option AgnesSorelState :=
  let branch : Option AgnesSorelState :=
    if action = kEnd then some { s with is_finished_ := true, current_rewards_ := 0 }
    else if kRevealStart ≤ action ∧ action ≤ kRevealEnd then s.applyReveal action
    else if kMoveStart ≤ action ∧ action ≤ kMoveEnd then s.applyMove hasher action
    else if action = kDeal then s.applyDeal
    else some s
  branch.map (fun s1 =>
    let s2 : AgnesSorelState := { s1 with current_depth_ := s1.current_depth_ + 1 }
    if s2.current_depth_ ≥ s2.depth_limit_ then { s2 with is_finished_ := true } else s2)

/-- A value of the C++ type `double` (IEEE 754 binary64) as far as
`ChanceOutcomes` produces one: a finite number, held as the rational number it
stands for, or positive infinity -/
inductive DoubleValue where
  | finite (value : ℚ)
  | infinity
deriving DecidableEq

/-- Conversion of an unsigned 64-bit integer to `double`: exact below `2^53`,
otherwise rounded to 53 significant bits, to nearest, ties to even. The
result is an integer -/
def doubleOfUnsigned (u : Nat) : Nat :=
  if u < 2 ^ 53 then u
  else
    let shift := Nat.log2 u - 52
    let q := u / 2 ^ shift
    let r := u % 2 ^ shift
    let m := if 2 * r > 2 ^ shift then q + 1 else if 2 * r = 2 ^ shift then q + q % 2 else q
    m * 2 ^ shift

/-- The quotient `1.0 / x` of type `double` for a `double` `x` that is a
positive integer up to `2^64`: `1 / x` rounded to 53 significant bits, to
nearest, ties to even (the result is in the normal range) -/
def doubleReciprocal (x : Nat) : ℚ :=
  let scale := 2 ^ (Nat.log2 x + 53)
  let q := scale / x
  let r := scale % x
  let m := if 2 * r > x then q + 1 else if 2 * r = x then q + q % 2 else q
  (m : ℚ) / (scale : ℚ)

/-- Method `AgnesSorelState::ChanceOutcomes`: the ids `1..52` that are not in
`revealed_cards_`, each with `p = 1.0 / (52 - revealed_cards_.size())`. The
difference is computed in the unsigned 64-bit type of `size()`, converted to
`double`, and `1.0` is divided by it in `double`; `1.0 / 0.0` is positive
infinity -/
def AgnesSorelState.ChanceOutcomes (s : AgnesSorelState) : List (Int × DoubleValue) :=
  let remaining : Nat := (((52 : Int) - (s.revealed_cards_.length : Int)) % 2 ^ 64).toNat
  let p : DoubleValue :=
    if remaining = 0 then DoubleValue.infinity
    else DoubleValue.finite (doubleReciprocal (doubleOfUnsigned remaining))
  ((List.range 52).map (fun k => ((k : Int) + 1))).filterMap (fun i =>
    if i ∈ s.revealed_cards_ then none else some (i, p))

/-- Modelled from the spec: `State::LegalChanceOutcomes` of the host framework
(`spiel.h`, not part of the two source files), which `LegalActions` returns at
a chance node: the Reveal ids offered by `ChanceOutcomes`, without their
probabilities -/
def AgnesSorelState.LegalChanceOutcomes (s : AgnesSorelState) : List Int :=
  s.ChanceOutcomes.map (fun outcome => outcome.1)

/-- Modelled from the spec: `State::Child` of the host framework (`spiel.h`),
which `LegalActions` uses for the state that results from applying a candidate
move: a copy of the state with the action applied -/
def AgnesSorelState.Child (hasher : String → Nat) (s : AgnesSorelState)
    (action : Int) : Option AgnesSorelState :=
  s.DoApplyAction hasher action

/-- Test `CurrentPlayer() == kChancePlayerId` -/
def AgnesSorelState.isChancePlayer (s : AgnesSorelState) : Bool :=
  !s.IsTerminal && s.IsChanceNode

/-- The loop over the candidate moves in the reversible branch of
`LegalActions` -/
def AgnesSorelState.reversibleLoop (hasher : String → Nat) (s : AgnesSorelState) :
    List Move → Option (List Int)
  | [] => some []
  | move :: rest =>
    match (s.GetPile move.source_).bind s.pileAt,
      (s.GetPile move.target_).bind s.pileAt with
    | some source_pile, some target_pile =>
      match AgnesSorelState.IsReversible move.source_ source_pile move.target_ target_pile,
        move.ActionId with
      | some true, some action_id =>
        match s.Child hasher action_id with
        | none => none
        | some child =>
          if child.isChancePlayer then
            (AgnesSorelState.reversibleLoop hasher s rest).map (fun more => action_id :: more)
          else
            match child.ObservationString with
            | none => none
            | some observation =>
              if hasher observation ∈ s.previous_states_ then
                AgnesSorelState.reversibleLoop hasher s rest
              else
                (AgnesSorelState.reversibleLoop hasher s rest).map
                  (fun more => action_id :: more)
      | some false, some action_id =>
        (AgnesSorelState.reversibleLoop hasher s rest).map (fun more => action_id :: more)
      | _, _ => none
    | _, _ => none

/-- The loop over the candidate moves in the other branch of `LegalActions` -/
def actionIds : List Move → Option (List Int)
  | [] => some []
  | move :: rest =>
    match move.ActionId, actionIds rest with
    | some action_id, some more => some (action_id :: more)
    | _, _ => none

/-- Method `AgnesSorelState::LegalActions`; `none` is an abort -/
def AgnesSorelState.LegalActions (hasher : String → Nat) (s : AgnesSorelState) :
    Option (List Int) :=
  if s.IsTerminal then some []
  else if s.IsChanceNode then some s.LegalChanceOutcomes
  else
    match s.CandidateMoves with
    | none => none
    | some candidates =>
      match (if s.is_reversible_ then s.reversibleLoop hasher candidates
             else actionIds candidates) with
      | none => none
      | some move_ids =>
        let legal_actions : List Int :=
          if s.waste_.GetIsEmpty then move_ids else move_ids ++ [kDeal]
        if legal_actions.isEmpty then some [kEnd]
        else some (legal_actions.insertionSort (fun a b => a ≤ b))

/-- States the program can be in: the initial state of a game, and every state
obtained from one of them by applying an action that `LegalActions` offers -/
inductive Reachable (hasher : String → Nat) : AgnesSorelState → Prop where
  | initial (is_colored : Bool) (depth_limit : Int) :
      Reachable hasher (AgnesSorelState.new is_colored depth_limit)
  | step (s s' : AgnesSorelState) (legal : List Int) (action : Int) :
      Reachable hasher s →
      s.LegalActions hasher = some legal →
      action ∈ legal →
      s.DoApplyAction hasher action = some s' →
      Reachable hasher s'

/-- Apply a list of actions in turn, each one only if `LegalActions` offers it
in the state it is applied to -/
def AgnesSorelState.playLegal (hasher : String → Nat) :
    AgnesSorelState → List Int → Option AgnesSorelState
  | s, [] => some s
  | s, action :: rest =>
    match s.LegalActions hasher with
    | none => none
    | some legal =>
      if action ∈ legal then
        match s.DoApplyAction hasher action with
        | none => none
        | some s' => AgnesSorelState.playLegal hasher s' rest
      else none

/-! ## Predicates and sample data used in the statements -/

/-- A card is ordinary: rank Ace..King and one of the four suits -/
def Card.ordinary (c : Card) : Prop :=
  1 ≤ c.rank_ ∧ c.rank_ ≤ 13 ∧ 1 ≤ c.suit_ ∧ c.suit_ ≤ 4

instance Card.decidableOrdinary (c : Card) : Decidable c.ordinary := by
  unfold Card.ordinary
  infer_instance

/-- Two suits have the same colour: the second is one of `GetSameColorSuits`
of the first -/
def sameColour (a b : Int) : Prop :=
  ∃ suits, GetSameColorSuits a = some suits ∧ b ∈ suits

/-- The move categories of the codec in the words of the specification, on
the rank and suit of target and source: card to the empty foundation of its
own suit; card to foundation card one rank below; Ace onto King on a
foundation; card to tableau card one rank above, same suit or same colour;
King onto Ace on a tableau, same suit or same colour; card to empty tableau;
hidden card to an ordinary tableau card; hidden card to empty tableau -/
def Move.InCategory (m : Move) : Prop :=
  (m.target_.rank_ = 0 ∧ m.target_.suit_ = m.source_.suit_ ∧ m.source_.ordinary)
  ∨ (m.target_.ordinary ∧ m.source_.ordinary ∧ m.target_.suit_ = m.source_.suit_ ∧
      m.source_.rank_ = m.target_.rank_ + 1)
  ∨ (m.target_.ordinary ∧ m.source_.ordinary ∧ m.target_.suit_ = m.source_.suit_ ∧
      m.source_.rank_ = 1 ∧ m.target_.rank_ = 13)
  ∨ (m.target_.ordinary ∧ m.source_.ordinary ∧ sameColour m.target_.suit_ m.source_.suit_ ∧
      m.target_.rank_ = m.source_.rank_ + 1)
  ∨ (m.target_.ordinary ∧ m.source_.ordinary ∧ sameColour m.target_.suit_ m.source_.suit_ ∧
      m.source_.rank_ = 13 ∧ m.target_.rank_ = 1)
  ∨ (m.target_.rank_ = 0 ∧ m.target_.suit_ = 0 ∧ m.source_.ordinary)
  ∨ (m.source_.rank_ = 14 ∧ m.source_.suit_ = 5 ∧ m.target_.ordinary)
  ∨ (m.source_.rank_ = 14 ∧ m.source_.suit_ = 5 ∧ m.target_.rank_ = 0 ∧ m.target_.suit_ = 0)

/-- The ten closed ranges of `action - 52` that the branches of `Move(Action)`
test, in the order of the branches -/
def categoryRanges : List (Int × Int) :=
  [(1, 52), (53, 100), (101, 104), (105, 152), (153, 156), (157, 204), (205, 208),
   (209, 260), (261, 312), (313, 313)]

/-- All piles of a state: the waste, the four foundations, the seven tableaus -/
def AgnesSorelState.piles (s : AgnesSorelState) : List Pile :=
  s.waste_ :: (s.foundations_ ++ s.tableaus_)

/-- All cards of a state, pile after pile -/
def AgnesSorelState.allCards (s : AgnesSorelState) : List Card :=
  s.piles.flatMap (fun p => p.cards_)

/-- The location invariant: the piles carry the twelve pile ids in order, and
every non-hidden card held in a pile is equal (rank and suit) to exactly one
card over all piles and is mapped by `card_map_` to the id of its pile -/
def AgnesSorelState.LocationInvariant (s : AgnesSorelState) : Prop :=
  s.piles.map (fun p => p.id_) = List.range 12 ∧
  ∀ p ∈ s.piles, ∀ c ∈ p.cards_, c.hidden_ = false →
    s.allCards.countP (fun x => x.equals c) = 1 ∧
    CardMap.at s.card_map_ c.key = some p.id_

/-- Keys of the non-hidden cards of a list of cards -/
def cardKeys (cards : List Card) : List CardKey :=
  (cards.filter (fun c => !c.hidden_)).map Card.key

/-- Keys of the non-hidden cards of a pile -/
def Pile.keys (p : Pile) : List CardKey := cardKeys p.cards_

/-- Keys of the non-hidden cards of all piles -/
def AgnesSorelState.visibleKeys (s : AgnesSorelState) : List CardKey :=
  s.piles.flatMap Pile.keys

/-- A card as the constructor and `Reveal` leave it: hidden with the hidden
rank and suit, or an ordinary card whose index was revealed -/
def Card.wellFormed (revealed : List Int) (c : Card) : Prop :=
  (c.hidden_ = true → c.rank_ = 14 ∧ c.suit_ = 5) ∧
  (c.hidden_ = false → c.ordinary ∧ (c.suit_ - 1) * 13 + c.rank_ ∈ revealed)

/-- The invariant of the board that every action preserves -/
structure AgnesSorelState.BoardInvariant (s : AgnesSorelState) : Prop where
  waste_id : s.waste_.id_ = 0
  foundation_ids : s.foundations_.map (fun f => (f.suit_, f.id_)) = [(1, 1), (2, 2), (3, 3), (4, 4)]
  tableau_ids : s.tableaus_.map (fun t => t.id_) = [5, 6, 7, 8, 9, 10, 11]
  cards : ∀ p ∈ s.piles, ∀ c ∈ p.cards_, c.wellFormed s.revealed_cards_
  nodup : s.visibleKeys.Nodup
  located : ∀ p ∈ s.piles, ∀ c ∈ p.cards_, c.hidden_ = false →
    CardMap.at s.card_map_ c.key = some p.id_

/-- The reveals of a sample deal: six of spades on the first tableau, hearts,
clubs and the ace of diamonds on the others, five of spades as the 29th card -/
def sampleReveals : List Int :=
  [6, 14, 15, 16, 17, 18, 19, 20, 21, 22, 23, 24, 25, 26, 27, 28, 29, 30, 31, 32, 33, 34,
   35, 36, 37, 38, 39, 40, 5]

/-- A state whose waste holds five hidden cards -/
def fiveCardWasteState : AgnesSorelState :=
  { AgnesSorelState.new false 150 with
    waste_ := Waste.new.Extend (List.replicate 5 (hiddenCard LocationType.kWaste)) }

/-- A constant hash function, used to evaluate plays whose result does not
depend on the hash -/
def constantHasher : String → Nat := fun _ => 0

/-- The data members of a state other than the piles and `card_map_` -/
def AgnesSorelState.control (s : AgnesSorelState) :
    List Int × Bool × Bool × Bool × Int × Int × List Nat × Int × Int × Int × Bool :=
  (s.revealed_cards_, s.is_finished_, s.is_known_foundation_, s.is_reversible_,
    s.current_depth_, s.foundation_rank_, s.previous_states_, s.current_returns_,
    s.current_rewards_, s.depth_limit_, s.is_colored_)

/-- The entries of `card_map_` after `insert_or_assign(key, id)` for each of
the keys in turn -/
def CardMap.insertAll (m : CardMap) (keys : List CardKey) (id : Nat) : CardMap :=
  keys.foldl (fun acc key => CardMap.insert_or_assign acc key id) m

/-- Number of iterations of `dealLoop` from position `idx` with `count`
tableaus left -/
def dealIterations (limit : Option Int) (count idx : Nat) : Nat :=
  match limit with
  | none => count
  | some waste_size => min count (waste_size - (idx : Int)).toNat

/-! ## Sequences of actions and more sample data -/

/-- Method `DoApplyAction` for each action of a list in turn, whether
`LegalActions` offers it or not; `none` as soon as one application aborts -/
def AgnesSorelState.applyActions (hasher : String → Nat) :
    AgnesSorelState → List Int → Option AgnesSorelState
  | s, [] => some s
  | s, action :: rest =>
    match s.DoApplyAction hasher action with
    | none => none
    | some s' => AgnesSorelState.applyActions hasher s' rest

/-- The step rewards `Rewards()` that a play of legal actions exposes, one
entry per action: the value read in the state right after that action -/
def AgnesSorelState.rewardsAlong (hasher : String → Nat) :
    AgnesSorelState → List Int → Option (List Int)
  | _, [] => some []
  | s, action :: rest =>
    match s.playLegal hasher [action] with
    | none => none
    | some s' =>
      (AgnesSorelState.rewardsAlong hasher s' rest).map (fun later => s'.Rewards ++ later)

/-- Cut a list into consecutive pieces of the given sizes -/
def chunks {α : Type} : List Nat → List α → List (List α)
  | [], _ => []
  | n :: sizes, l => l.take n :: chunks sizes (l.drop n)

/-- The tableau card that `Tableau::Reveal` leaves in a slot of the initial
deal when the Reveal id `action` is applied: rank and suit of
`Card(action)`, not hidden; location and index are those of the slot -/
def revealedSlot (action : Int) : Card :=
  { rank_ := (Card.ofIndex action false LocationType.kMissing).rank_
    suit_ := (Card.ofIndex action false LocationType.kMissing).suit_
    location_ := LocationType.kTableau
    hidden_ := false
    index_ := kHiddenCard }

/-- The cards of a pile whose slots have been overwritten, from the front, by
the rank and suit of the cards of `revealed` -/
def fillSlots : List Card → List Card → List Card
  | [], _ => []
  | slot :: slots, [] => slot :: slots
  | slot :: slots, card :: rest =>
    { slot with rank_ := card.rank_, suit_ := card.suit_, hidden_ := false } ::
      fillSlots slots rest

/-- The piles whose slots have been overwritten in deal order (pile by pile,
each from the front) by the cards of `revealed` -/
def fillPiles : List Pile → List Card → List Pile
  | [], _ => []
  | pile :: rest, revealed =>
    { pile with cards_ := fillSlots pile.cards_ revealed } ::
      fillPiles rest (revealed.drop pile.cards_.length)

/-- The initial state of a game with depth limit 150 after `End` -/
def endedState : AgnesSorelState :=
  { AgnesSorelState.new false 150 with is_finished_ := true, current_depth_ := 1 }

/-- A decision node with the five of spades on its foundation and the six of
spades alone on the first tableau; the other piles are empty (tableau `k` has
the pile id `k + 4`) -/
def rewardSampleState : AgnesSorelState :=
  { AgnesSorelState.new false 150 with
    waste_ := Waste.new
    foundations_ :=
      [(Foundation.new PileID.kSpades SuitType.kSpades).Extend
          [Card.new false SuitType.kSpades 5 LocationType.kMissing],
        Foundation.new PileID.kHearts SuitType.kHearts,
        Foundation.new PileID.kClubs SuitType.kClubs,
        Foundation.new PileID.kDiamonds SuitType.kDiamonds]
    tableaus_ :=
      [(Tableau.new PileID.k1stTableau).Extend
          [Card.new false SuitType.kSpades 6 LocationType.kMissing],
        Tableau.new 6, Tableau.new 7, Tableau.new 8,
        Tableau.new 9, Tableau.new 10,
        Tableau.new 11]
    is_known_foundation_ := true
    foundation_rank_ := 5
    card_map_ :=
      CardMap.insert_or_assign
        (CardMap.insert_or_assign [] (SuitType.kSpades, 5) PileID.kSpades)
        (SuitType.kSpades, 6) PileID.k1stTableau }

/-- A state whose waste is empty -/
def emptyWasteState : AgnesSorelState :=
  { AgnesSorelState.new false 150 with waste_ := Waste.new }

/-! ## Sample piles -/

/-- The first tableau holding, bottom to top, the five, the four and the three
of spades, all face up -/
def spadeRunPile : Pile :=
  (Tableau.new PileID.k1stTableau).Extend
    [Card.new false SuitType.kSpades 5 LocationType.kMissing,
     Card.new false SuitType.kSpades 4 LocationType.kMissing,
     Card.new false SuitType.kSpades 3 LocationType.kMissing]

/-- The spade foundation holding, bottom to top, the five and the six of
spades -/
def spadeFoundationPile : Pile :=
  (Foundation.new PileID.kSpades SuitType.kSpades).Extend
    [Card.new false SuitType.kSpades 5 LocationType.kMissing,
     Card.new false SuitType.kSpades 6 LocationType.kMissing]

/-- The rank and the suit of a card are values of the enumerations `RankType`
(0..14) and `SuitType` (0..5) -/
def Card.enumValued (c : Card) : Prop :=
  0 ≤ c.rank_ ∧ c.rank_ ≤ 14 ∧ 0 ≤ c.suit_ ∧ c.suit_ ≤ 5

instance Card.decidableEnumValued (c : Card) : Decidable c.enumValued := by
  unfold Card.enumValued
  infer_instance

/-- Every pile of the state has a suit of `SuitType`, and every card in it a
rank of `RankType` and a suit of `SuitType` -/
def AgnesSorelState.enumValued (s : AgnesSorelState) : Prop :=
  ∀ p ∈ s.piles, (0 ≤ p.suit_ ∧ p.suit_ ≤ 5) ∧ ∀ c ∈ p.cards_, c.enumValued

/-! ## More sample data -/

/-- A decision node with the six and the five of spades on the first tableau,
six empty tableaus and four empty foundations of starting rank nine -/
def emptyTableauSampleState : AgnesSorelState :=
  { AgnesSorelState.new false 150 with
    waste_ := Waste.new
    tableaus_ :=
      [(Tableau.new PileID.k1stTableau).Extend
          [Card.new false SuitType.kSpades 6 LocationType.kMissing,
           Card.new false SuitType.kSpades 5 LocationType.kMissing],
        Tableau.new 6, Tableau.new 7, Tableau.new 8,
        Tableau.new 9, Tableau.new 10,
        Tableau.new 11]
    is_known_foundation_ := true
    foundation_rank_ := 9
    card_map_ :=
      CardMap.insert_or_assign
        (CardMap.insert_or_assign [] (SuitType.kSpades, 6) PileID.k1stTableau)
        (SuitType.kSpades, 5) PileID.k1stTableau }

/-- A tableau holding the five of clubs alone -/
def clubFivePile : Pile :=
  (Tableau.new 6).Extend [Card.new false SuitType.kClubs 5 LocationType.kMissing]

/-- Rank, suit and hidden flag of a card -/
def Card.face (c : Card) : Int × Int × Bool := (c.rank_, c.suit_, c.hidden_)

/-- The cards of a state by rank, suit and hidden flag, pile after pile -/
def AgnesSorelState.faces (s : AgnesSorelState) : List (Int × Int × Bool) :=
  s.allCards.map Card.face

/-- The invariant behind the waste: every waste card is hidden, `card_map_`
sends no card to the waste, and every pile has the kind of its place and,
the waste apart, an id other than `kWaste` -/
structure AgnesSorelState.WasteInvariant (s : AgnesSorelState) : Prop where
  hidden : ∀ c ∈ s.waste_.cards_, c.hidden_ = true
  mapped : ∀ key id, CardMap.at s.card_map_ key = some id → id ≠ PileID.kWaste
  waste_type : s.waste_.type_ = LocationType.kWaste
  foundations : ∀ f ∈ s.foundations_,
    f.type_ = LocationType.kFoundation ∧ f.id_ ≠ PileID.kWaste
  tableaus : ∀ t ∈ s.tableaus_, t.type_ = LocationType.kTableau ∧ t.id_ ≠ PileID.kWaste

/-! ## The observation tensor -/

/-- Constant `kFoundationTensorLength` -/
def kFoundationTensorLength : Int := 14

/-- Constant `kTableauTensorLength` -/
def kTableauTensorLength : Int := 59

/-- Constant `kWasteTensorLength` -/
def kWasteTensorLength : Int := 53

/-- Constant `kMaxHiddenCard` -/
def kMaxHiddenCard : Int := 6

/-- Method `AgnesSorelGame::NumPlayers` -/
def NumPlayers : Int := 1

/-- Method `AgnesSorelGame::ObservationTensorShape` -/
def ObservationTensorShape : List Int := [1647]

/-- Modelled from the spec: the observation tensor is a flat vector, its size
is the product of the entries of `ObservationTensorShape` (method
`Game::ObservationTensorSize` of the host framework) -/
def ObservationTensorSize : Int := ObservationTensorShape.prod

/-- The assignment `ptr[index] = 1` for a pointer at offset `ptr` of the
buffer; `none` when it writes outside the buffer -/
def writeOne (values : List Int) (ptr : Int) (index : Int) : Option (List Int) :=
  if 0 ≤ ptr + index ∧ ptr + index < values.length then
    some (values.set (ptr + index).toNat 1)
  else none

/-- The loop over `foundations_` of `ObservationTensor`: the buffer and the
pointer after it -/
def tensorFoundations : List Pile → List Int → Int → Option (List Int × Int)
  | [], values, ptr => some (values, ptr)
  | foundation :: rest, values, ptr =>
    let written :=
      if foundation.GetIsEmpty then writeOne values ptr 0
      else
        match foundation.GetLastCard with
        | none => none
        | some last =>
          if RankType.kA ≤ last.rank_ ∧ last.rank_ ≤ RankType.kK then
            writeOne values ptr last.rank_
          else some values
    match written with
    | none => none
    | some values' => tensorFoundations rest values' (ptr + kFoundationTensorLength)

/-- The loop over the cards of one tableau of `ObservationTensor`: the buffer
after it, from the buffer and `num_hidden_cards` before it -/
def tensorTableauCards : List Card → List Int → Int → Int → Option (List Int)
  | [], values, _, _ => some values
  | card :: rest, values, ptr, num_hidden_cards =>
    if card.hidden_ = true ∧ num_hidden_cards ≤ kMaxHiddenCard then
      match writeOne values ptr num_hidden_cards with
      | none => none
      | some values' => tensorTableauCards rest values' ptr (num_hidden_cards + 1)
    else
      match card.GetIndex with
      | none => none
      | some index =>
        match writeOne values ptr (index + kMaxHiddenCard) with
        | none => none
        | some values' => tensorTableauCards rest values' ptr num_hidden_cards

/-- The loop over `tableaus_` of `ObservationTensor` -/
def tensorTableaus : List Pile → List Int → Int → Option (List Int × Int)
  | [], values, ptr => some (values, ptr)
  | tableau :: rest, values, ptr =>
    let written :=
      if tableau.GetIsEmpty then writeOne values ptr 7
      else tensorTableauCards tableau.cards_ values ptr 0
    match written with
    | none => none
    | some values' => tensorTableaus rest values' (ptr + kTableauTensorLength)

/-- The loop over the cards of the waste of `ObservationTensor` -/
def tensorWaste : List Card → List Int → Int → Option (List Int × Int)
  | [], values, ptr => some (values, ptr)
  | card :: rest, values, ptr =>
    let written :=
      if card.hidden_ then writeOne values ptr 0
      else
        match card.GetIndex with
        | none => none
        | some index => writeOne values ptr index
    match written with
    | none => none
    | some values' => tensorWaste rest values' (ptr + kWasteTensorLength)

/-- The three loops of `ObservationTensor` on a buffer filled with zeros: the
buffer and the pointer `ptr` they end with; `none` when a write falls
outside the buffer or a card has no index -/
def AgnesSorelState.tensorLoops (s : AgnesSorelState) (values : List Int) :
    Option (List Int × Int) :=
  match tensorFoundations s.foundations_ (List.replicate values.length 0) 0 with
  | none => none
  | some (values1, ptr1) =>
    match tensorTableaus s.tableaus_ values1 ptr1 with
    | none => none
    | some (values2, ptr2) => tensorWaste s.waste_.cards_ values2 ptr2

/-- Method `AgnesSorelState::ObservationTensor`: the buffer it leaves, the
floats 0.0 and 1.0 as integers; `none` when one of its checks fails or a write
falls outside the buffer -/
def AgnesSorelState.ObservationTensor (s : AgnesSorelState) (player : Int)
    (values : List Int) : Option (List Int) :=
  if ¬ (0 ≤ player) then none
  else if ¬ (player < NumPlayers) then none
  else if ¬ ((values.length : Int) = ObservationTensorSize) then none
  else
    match s.tensorLoops values with
    | none => none
    | some (values', ptr) =>
      if ptr ≤ (values.length : Int) then some values' else none

/-! ## The move codec -/

theorem ofAction_none_of_outside (id : Int) (h : ¬ (53 ≤ id ∧ id ≤ 365)) :
    Move.ofAction id = none := by
  have h1 : ¬ (1 ≤ id - 52 ∧ id - 52 ≤ 52) := by omega
  have h2 : ¬ (53 ≤ id - 52 ∧ id - 52 ≤ 100) := by omega
  have h3 : ¬ (101 ≤ id - 52 ∧ id - 52 ≤ 104) := by omega
  have h4 : ¬ (105 ≤ id - 52 ∧ id - 52 ≤ 152) := by omega
  have h5 : ¬ (153 ≤ id - 52 ∧ id - 52 ≤ 156) := by omega
  have h6 : ¬ (157 ≤ id - 52 ∧ id - 52 ≤ 204) := by omega
  have h7 : ¬ (205 ≤ id - 52 ∧ id - 52 ≤ 208) := by omega
  have h8 : ¬ (209 ≤ id - 52 ∧ id - 52 ≤ 260) := by omega
  have h9 : ¬ (261 ≤ id - 52 ∧ id - 52 ≤ 312) := by omega
  have h10 : ¬ (id - 52 = 313) := by omega
  unfold Move.ofAction Move.decodeFields kActionOffset
  simp only [h1, h2, h3, h4, h5, h6, h7, h8, h9, h10, if_false, Option.map_none']

theorem ofAction_some_of_inside : ∀ id : Int, 53 ≤ id → id ≤ 365 →
    (Move.ofAction id).isSome = true := by
  decide!

theorem inRange_iff_of_inside : ∀ id : Int, 53 ≤ id → id ≤ 365 →
    (categoryRanges.filter (fun r => decide (r.1 ≤ id - 52 ∧ id - 52 ≤ r.2))).length = 1 := by
  decide!

theorem suitDistance_eq_two (ts ss : Int) (h1 : 1 ≤ ts) (h2 : ts ≤ 4) (h3 : 1 ≤ ss) (h4 : ss ≤ 4) :
    suitDistance ts ss = 2 ↔ (ts = ss + 2 ∨ ss = ts + 2) := by
  interval_cases ts <;> interval_cases ss <;> decide

theorem sameColour_iff (ts ss : Int) (h1 : 1 ≤ ts) (h2 : ts ≤ 4) (h3 : 1 ≤ ss) (h4 : ss ≤ 4) :
    sameColour ts ss ↔ (ts = ss ∨ ts = ss + 2 ∨ ss = ts + 2) := by
  unfold sameColour
  interval_cases ts <;> interval_cases ss <;>
    simp [GetSameColorSuits, SuitType.kSpades, SuitType.kHearts, SuitType.kClubs,
      SuitType.kDiamonds, SuitType.kNone]

/-- The encoder on a pair of ordinary cards, as a function of ranks and suits -/
theorem ActionId_ordinary (m : Move)
    (ht : m.target_.ordinary) (hs : m.source_.ordinary) :
    m.ActionId =
      if m.source_.rank_ = 13 ∧ m.target_.rank_ = 1 ∧
          (m.target_.suit_ = m.source_.suit_ + 2 ∨ m.source_.suit_ = m.target_.suit_ + 2) then
        some (257 + (m.source_.suit_ - 1))
      else if m.target_.rank_ - m.source_.rank_ = 1 ∧
          (m.target_.suit_ = m.source_.suit_ + 2 ∨ m.source_.suit_ = m.target_.suit_ + 2) then
        some (209 + (m.source_.suit_ - 1) * 12 + (m.source_.rank_ - 1))
      else if m.target_.rank_ = 1 ∧ m.source_.rank_ = 13 ∧ m.target_.suit_ = m.source_.suit_ then
        some (205 + (m.source_.suit_ - 1))
      else if m.target_.rank_ - m.source_.rank_ = 1 ∧ m.target_.suit_ = m.source_.suit_ then
        some (157 + (m.source_.suit_ - 1) * 12 + (m.source_.rank_ - 1))
      else if m.source_.rank_ = 1 ∧ m.target_.rank_ = 13 ∧ m.target_.suit_ = m.source_.suit_ then
        some (153 + (m.source_.suit_ - 1))
      else if m.target_.suit_ = m.source_.suit_ ∧ m.source_.rank_ - m.target_.rank_ = 1 then
        some (105 + (m.source_.suit_ - 1) * 12 + (m.source_.rank_ - 2))
      else none := by
  obtain ⟨t1, t2, t3, t4⟩ := ht
  obtain ⟨s1, s2, s3, s4⟩ := hs
  have e := suitDistance_eq_two m.target_.suit_ m.source_.suit_ t3 t4 s3 s4
  have c1 : ¬ (m.target_.rank_ = 0 ∧ m.target_.suit_ = 0 ∧ m.source_.rank_ = 14 ∧ m.source_.suit_ = 5) := by omega
  have c2 : ¬ (m.source_.rank_ = 14 ∧ m.source_.suit_ = 5 ∧ m.target_.rank_ ≠ 0 ∧
      m.target_.rank_ ≠ 14 ∧ m.target_.suit_ ≠ 0 ∧ m.target_.suit_ ≠ 5) := by omega
  have c3 : ¬ (m.target_.rank_ = 0 ∧ m.target_.suit_ = 0 ∧ m.source_.rank_ ≠ 0 ∧
      m.source_.rank_ ≠ 14 ∧ m.source_.suit_ ≠ 0 ∧ m.source_.suit_ ≠ 5) := by omega
  have c4 : ¬ (m.target_.rank_ = 0 ∧ m.target_.suit_ ≠ 0 ∧ m.target_.suit_ ≠ 5 ∧
      m.source_.rank_ ≠ 0 ∧ m.source_.rank_ ≠ 14 ∧ m.source_.suit_ ≠ 0 ∧
      m.source_.suit_ ≠ 5) := by omega
  have c5 : (m.target_.rank_ ≠ 0 ∧ m.target_.rank_ ≠ 14 ∧ m.source_.rank_ ≠ 0 ∧
      m.source_.rank_ ≠ 14 ∧ m.target_.suit_ ≠ 0 ∧ m.target_.suit_ ≠ 5 ∧
      m.source_.suit_ ≠ 0 ∧ m.source_.suit_ ≠ 5) := by omega
  unfold Move.ActionId
  simp only [e]
  rw [if_neg c1, if_neg c2, if_neg c3, if_neg c4, if_pos c5]
  norm_num

/-- The encoder on a move whose source is ordinary and whose target has rank `kNone` -/
theorem ActionId_to_sentinel (m : Move) (ht : m.target_.rank_ = 0)
    (hts : 0 ≤ m.target_.suit_ ∧ m.target_.suit_ ≤ 4) (hs : m.source_.ordinary) :
    m.ActionId = some ((if m.target_.suit_ = 0 then 261 else 53)
      + (m.source_.suit_ - 1) * 13 + (m.source_.rank_ - 1)) := by
  obtain ⟨s1, s2, s3, s4⟩ := hs
  have c1 : ¬ (m.target_.rank_ = 0 ∧ m.target_.suit_ = 0 ∧ m.source_.rank_ = 14 ∧ m.source_.suit_ = 5) := by omega
  have c2 : ¬ (m.source_.rank_ = 14 ∧ m.source_.suit_ = 5 ∧ m.target_.rank_ ≠ 0 ∧
      m.target_.rank_ ≠ 14 ∧ m.target_.suit_ ≠ 0 ∧ m.target_.suit_ ≠ 5) := by omega
  unfold Move.ActionId
  simp only []
  rw [if_neg c1, if_neg c2]
  by_cases h0 : m.target_.suit_ = 0
  · rw [if_pos (by omega), if_pos h0]; norm_num
  · rw [if_neg (by omega), if_pos (by omega), if_neg h0]; norm_num

/-- The encoder on a move whose source is the hidden card -/
theorem ActionId_hidden_source (m : Move) (hr : m.source_.rank_ = 14) (hs : m.source_.suit_ = 5)
    (ht : m.target_.ordinary ∨ (m.target_.rank_ = 0 ∧ m.target_.suit_ = 0)) :
    m.ActionId = some (if m.target_.rank_ = 0 then 365
      else 313 + (m.target_.suit_ - 1) * 13 + (m.target_.rank_ - 1)) := by
  unfold Move.ActionId
  simp only []
  rcases ht with ⟨t1, t2, t3, t4⟩ | ⟨t1, t2⟩
  · rw [if_neg (by omega), if_pos (by omega), if_neg (by omega)]; norm_num
  · rw [if_pos (by omega), if_pos t1]; norm_num

/-- The id of a move of one of the categories, with the arithmetic facts that tie it to
the ranks and suits of the move -/
theorem ActionId_of_category (m : Move) (h : m.InCategory) :
    ∃ a, m.ActionId = some a ∧
      ((m.target_.rank_ = 0 ∧ m.target_.suit_ = m.source_.suit_ ∧ m.source_.ordinary ∧
          a = 53 + (m.source_.suit_ - 1) * 13 + (m.source_.rank_ - 1))
      ∨ (m.target_.ordinary ∧ m.source_.ordinary ∧ m.target_.suit_ = m.source_.suit_ ∧
          m.source_.rank_ = m.target_.rank_ + 1 ∧
          a = 105 + (m.source_.suit_ - 1) * 12 + (m.source_.rank_ - 2))
      ∨ (m.target_.ordinary ∧ m.source_.ordinary ∧ m.target_.suit_ = m.source_.suit_ ∧
          m.source_.rank_ = 1 ∧ m.target_.rank_ = 13 ∧ a = 153 + (m.source_.suit_ - 1))
      ∨ (m.target_.ordinary ∧ m.source_.ordinary ∧ m.target_.suit_ = m.source_.suit_ ∧
          m.target_.rank_ = m.source_.rank_ + 1 ∧
          a = 157 + (m.source_.suit_ - 1) * 12 + (m.source_.rank_ - 1))
      ∨ (m.target_.ordinary ∧ m.source_.ordinary ∧ m.target_.suit_ = m.source_.suit_ ∧
          m.source_.rank_ = 13 ∧ m.target_.rank_ = 1 ∧ a = 205 + (m.source_.suit_ - 1))
      ∨ (m.target_.ordinary ∧ m.source_.ordinary ∧
          (m.target_.suit_ = m.source_.suit_ + 2 ∨ m.source_.suit_ = m.target_.suit_ + 2) ∧
          m.target_.rank_ = m.source_.rank_ + 1 ∧
          a = 209 + (m.source_.suit_ - 1) * 12 + (m.source_.rank_ - 1))
      ∨ (m.target_.ordinary ∧ m.source_.ordinary ∧
          (m.target_.suit_ = m.source_.suit_ + 2 ∨ m.source_.suit_ = m.target_.suit_ + 2) ∧
          m.source_.rank_ = 13 ∧ m.target_.rank_ = 1 ∧ a = 257 + (m.source_.suit_ - 1))
      ∨ (m.target_.rank_ = 0 ∧ m.target_.suit_ = 0 ∧ m.source_.ordinary ∧
          a = 261 + (m.source_.suit_ - 1) * 13 + (m.source_.rank_ - 1))
      ∨ (m.source_.rank_ = 14 ∧ m.source_.suit_ = 5 ∧ m.target_.ordinary ∧
          a = 313 + (m.target_.suit_ - 1) * 13 + (m.target_.rank_ - 1))
      ∨ (m.source_.rank_ = 14 ∧ m.source_.suit_ = 5 ∧ m.target_.rank_ = 0 ∧
          m.target_.suit_ = 0 ∧ a = 365)) := by
  unfold Move.InCategory at h
  rcases h with ⟨h1, h2, h3⟩ | ⟨ht, hs, h1, h2⟩ | ⟨ht, hs, h1, h2, h3⟩ | ⟨ht, hs, h1, h2⟩ |
    ⟨ht, hs, h1, h2, h3⟩ | ⟨h1, h2, h3⟩ | ⟨h1, h2, h3⟩ | ⟨h1, h2, h3, h4⟩
  · have hb : 0 ≤ m.target_.suit_ ∧ m.target_.suit_ ≤ 4 := by
      unfold Card.ordinary at h3; omega
    have hne : ¬ m.target_.suit_ = 0 := by unfold Card.ordinary at h3; omega
    refine ⟨_, ActionId_to_sentinel m h1 hb h3, Or.inl ⟨h1, h2, h3, ?_⟩⟩
    rw [if_neg hne]
  · refine ⟨105 + (m.source_.suit_ - 1) * 12 + (m.source_.rank_ - 2), ?_,
      Or.inr (Or.inl ⟨ht, hs, h1, h2, rfl⟩)⟩
    rw [ActionId_ordinary m ht hs]
    unfold Card.ordinary at ht hs
    rw [if_neg (by omega), if_neg (by omega), if_neg (by omega), if_neg (by omega),
      if_neg (by omega), if_pos (by omega)]
  · refine ⟨153 + (m.source_.suit_ - 1), ?_,
      Or.inr (Or.inr (Or.inl ⟨ht, hs, h1, h2, h3, rfl⟩))⟩
    rw [ActionId_ordinary m ht hs]
    unfold Card.ordinary at ht hs
    rw [if_neg (by omega), if_neg (by omega), if_neg (by omega), if_neg (by omega),
      if_pos (by omega)]
  · have hc := (sameColour_iff _ _ ht.2.2.1 ht.2.2.2 hs.2.2.1 hs.2.2.2).1 h1
    rw [ActionId_ordinary m ht hs]
    unfold Card.ordinary at ht hs
    rcases hc with hc | hc
    · refine ⟨157 + (m.source_.suit_ - 1) * 12 + (m.source_.rank_ - 1), ?_,
        Or.inr (Or.inr (Or.inr (Or.inl ⟨ht, hs, hc, h2, rfl⟩)))⟩
      rw [if_neg (by omega), if_neg (by omega), if_neg (by omega), if_pos (by omega)]
    · refine ⟨209 + (m.source_.suit_ - 1) * 12 + (m.source_.rank_ - 1), ?_,
        Or.inr (Or.inr (Or.inr (Or.inr (Or.inr (Or.inl ⟨ht, hs, hc, h2, rfl⟩)))))⟩
      rw [if_neg (by omega), if_pos (by omega)]
  · have hc := (sameColour_iff _ _ ht.2.2.1 ht.2.2.2 hs.2.2.1 hs.2.2.2).1 h1
    rw [ActionId_ordinary m ht hs]
    unfold Card.ordinary at ht hs
    rcases hc with hc | hc
    · refine ⟨205 + (m.source_.suit_ - 1), ?_,
        Or.inr (Or.inr (Or.inr (Or.inr (Or.inl ⟨ht, hs, hc, h2, h3, rfl⟩))))⟩
      rw [if_neg (by omega), if_neg (by omega), if_pos (by omega)]
    · refine ⟨257 + (m.source_.suit_ - 1), ?_,
        Or.inr (Or.inr (Or.inr (Or.inr (Or.inr (Or.inr (Or.inl ⟨ht, hs, hc, h2, h3, rfl⟩))))))⟩
      rw [if_pos (by omega)]
  · refine ⟨_, ActionId_to_sentinel m h1 (by omega) h3,
      Or.inr (Or.inr (Or.inr (Or.inr (Or.inr (Or.inr (Or.inr (Or.inl ⟨h1, h2, h3, ?_⟩)))))))⟩
    rw [if_pos h2]
  · have hne : ¬ m.target_.rank_ = 0 := by unfold Card.ordinary at h3; omega
    refine ⟨_, ActionId_hidden_source m h1 h2 (Or.inl h3),
      Or.inr (Or.inr (Or.inr (Or.inr (Or.inr (Or.inr (Or.inr (Or.inr (Or.inl
        ⟨h1, h2, h3, ?_⟩))))))))⟩
    rw [if_neg hne]
  · refine ⟨_, ActionId_hidden_source m h1 h2 (Or.inr ⟨h3, h4⟩),
      Or.inr (Or.inr (Or.inr (Or.inr (Or.inr (Or.inr (Or.inr (Or.inr (Or.inr
        ⟨h1, h2, h3, h4, ?_⟩))))))))⟩
    rw [if_pos h3]


theorem Move.equals_eq_false_iff (m1 m2 : Move) :
    m1.equals m2 = false ↔
      ¬ (m1.target_.rank_ = m2.target_.rank_ ∧ m1.target_.suit_ = m2.target_.suit_ ∧
         m1.source_.rank_ = m2.source_.rank_ ∧ m1.source_.suit_ = m2.source_.suit_) := by
  unfold Move.equals Card.equals
  rw [← Bool.not_eq_true]
  simp only [Bool.and_eq_true, decide_eq_true_eq]
  tauto

/-- C1 (defect): decoding and re-encoding does not return the id for the
seven King-onto-Ace ids. The decoder computes the suit of `206, 207, 208` with
`(action - 153) / 4 + 1`, always spades, so they re-encode to `205`; for
`257 .. 260` it sets the target rank to `source_rank + 1 = 14`, the hidden
rank, which the encoder rejects. -/
theorem decode_encode_differs_at_king_ids :
    (Move.ofAction 206).bind Move.ActionId = some 205 ∧
    (Move.ofAction 207).bind Move.ActionId = some 205 ∧
    (Move.ofAction 208).bind Move.ActionId = some 205 ∧
    (Move.ofAction 257).bind Move.ActionId = none ∧
    (Move.ofAction 258).bind Move.ActionId = none ∧
    (Move.ofAction 259).bind Move.ActionId = none ∧
    (Move.ofAction 260).bind Move.ActionId = none := by
  decide

/-- C2 (defect): encoding and decoding does not return the move for the
wrap-around moves. The King of hearts is a legal child of the Ace of hearts on
a tableau and the move is encoded as `206`, which decodes to King of spades
onto Ace of spades; the King of clubs is a legal child of the Ace of spades
and the move is encoded as `259`, which decodes to a target of rank 14. -/
theorem encode_decode_differs_on_king_onto_ace :
    ((Card.new false 2 1 LocationType.kTableau).LegalChildrenOf 5).map
        (fun children => (Card.new false 2 13 LocationType.kMissing).isIn children) = some true ∧
    (Move.mk (Card.new false 2 1 LocationType.kTableau)
        (Card.new false 2 13 LocationType.kMissing)).ActionId = some 206 ∧
    Move.ofAction 206 = some (Move.ofRanksSuits 1 1 13 1) ∧
    (Move.ofRanksSuits 1 1 13 1).equals
      (Move.mk (Card.new false 2 1 LocationType.kTableau)
        (Card.new false 2 13 LocationType.kMissing)) = false ∧
    ((Card.new false 1 1 LocationType.kTableau).LegalChildrenOf 5).map
        (fun children => (Card.new false 3 13 LocationType.kMissing).isIn children) = some true ∧
    (Move.mk (Card.new false 1 1 LocationType.kTableau)
        (Card.new false 3 13 LocationType.kMissing)).ActionId = some 259 ∧
    Move.ofAction 259 = some (Move.ofRanksSuits 14 3 13 1) ∧
    (Move.ofRanksSuits 14 3 13 1).equals
      (Move.mk (Card.new false 1 1 LocationType.kTableau)
        (Card.new false 3 13 LocationType.kMissing)) = false := by
  decide

/-- C6: `Move(Action)` succeeds exactly on the ids `53 .. 365` and aborts on
every other id; the ten ranges it tests are pairwise disjoint, lie in
`1 .. 313`, hold 313 ids together, and every id of the band lies in exactly
one of them. -/
theorem ofAction_isSome_iff_move_band :
    (∀ id : Int, (Move.ofAction id).isSome = true ↔ 53 ≤ id ∧ id ≤ 365) ∧
    (∀ id : Int, ¬ (53 ≤ id ∧ id ≤ 365) → Move.ofAction id = none) ∧
    Move.ofAction kEnd = none ∧ Move.ofAction kDeal = none ∧
    (∀ id : Int, kRevealStart ≤ id → id ≤ kRevealEnd → Move.ofAction id = none) ∧
    categoryRanges.length = 10 ∧
    categoryRanges.Pairwise (fun r1 r2 => r1.2 < r2.1) ∧
    (∀ r ∈ categoryRanges, 1 ≤ r.1 ∧ r.1 ≤ r.2 ∧ r.2 ≤ 313) ∧
    (categoryRanges.map (fun r => r.2 - r.1 + 1)).sum = 313 ∧
    (∀ id : Int, 53 ≤ id → id ≤ 365 →
      (categoryRanges.filter (fun r => decide (r.1 ≤ id - 52 ∧ id - 52 ≤ r.2))).length = 1) ∧
    (∀ id : Int, (Move.ofAction id).isSome = true ↔
      ∃ r ∈ categoryRanges, r.1 ≤ id - 52 ∧ id - 52 ≤ r.2) := by
  have dom : ∀ id : Int, (Move.ofAction id).isSome = true ↔ 53 ≤ id ∧ id ≤ 365 := by
    intro id
    constructor
    · intro h
      by_contra hc
      rw [ofAction_none_of_outside id hc] at h
      exact absurd h (by decide)
    · rintro ⟨h1, h2⟩
      exact ofAction_some_of_inside id h1 h2
  refine ⟨dom, ofAction_none_of_outside, by decide, by decide, ?_, by decide, by decide,
    by decide, by decide, inRange_iff_of_inside, ?_⟩
  · intro id h1 h2
    apply ofAction_none_of_outside
    unfold kRevealEnd at h2
    omega
  · intro id
    rw [dom]
    unfold categoryRanges
    simp only [List.mem_cons, List.mem_singleton, List.not_mem_nil, or_false, exists_eq_or_imp,
      exists_eq_left]
    omega

/-- C7: on two ordinary cards `Move::ActionId` succeeds exactly when the suits
are equal and the ranks are cyclically adjacent in either direction, or the
suits differ, have the same colour and the source is the cyclic predecessor of
the target; otherwise it is the fatal error `move not found`. -/
theorem ActionId_ordinary_isSome_iff (target source : Card)
    (ht : target.ordinary) (hs : source.ordinary) :
    ((Move.mk target source).ActionId).isSome = true ↔
      (target.suit_ = source.suit_ ∧
        (target.rank_ = source.rank_ + 1 ∨ source.rank_ = target.rank_ + 1 ∨
          (source.rank_ = 13 ∧ target.rank_ = 1) ∨ (source.rank_ = 1 ∧ target.rank_ = 13)))
      ∨ (target.suit_ ≠ source.suit_ ∧ sameColour target.suit_ source.suit_ ∧
        (target.rank_ = source.rank_ + 1 ∨ (source.rank_ = 13 ∧ target.rank_ = 1))) := by
  rw [ActionId_ordinary (Move.mk target source) ht hs]
  rw [sameColour_iff _ _ ht.2.2.1 ht.2.2.2 hs.2.2.1 hs.2.2.2]
  unfold Card.ordinary at ht hs
  simp only []
  split_ifs <;> simp only [Option.isSome_some, Option.isSome_none, true_iff, false_iff,
    Bool.false_eq_true] <;> omega

/-- C7, at the six of spades as target: the five of clubs is accepted -/
theorem ActionId_ordinary_isSome_iff_witness :
    (Card.new false 1 6 LocationType.kTableau).ordinary ∧
    (Card.new false 3 5 LocationType.kMissing).ordinary ∧
    (((Move.mk (Card.new false 1 6 LocationType.kTableau)
        (Card.new false 3 5 LocationType.kMissing)).ActionId).isSome = true ↔
      ((1 : Int) = 3 ∧ ((6 : Int) = 5 + 1 ∨ (5 : Int) = 6 + 1 ∨
          ((5 : Int) = 13 ∧ (6 : Int) = 1) ∨ ((5 : Int) = 1 ∧ (6 : Int) = 13)))
      ∨ ((1 : Int) ≠ 3 ∧ sameColour 1 3 ∧
        ((6 : Int) = 5 + 1 ∨ ((5 : Int) = 13 ∧ (6 : Int) = 1)))) :=
  ⟨by decide, by decide,
    ActionId_ordinary_isSome_iff (Card.new false 1 6 LocationType.kTableau)
      (Card.new false 3 5 LocationType.kMissing) (by decide) (by decide)⟩

/-- C8: `Move::ActionId` is injective on the move categories: two moves that
each belong to a category and differ in target or source (by rank and suit)
are both encoded, to different ids. -/
theorem ActionId_injective_on_categories (m1 m2 : Move) (h1 : m1.InCategory)
    (h2 : m2.InCategory) (hne : m1.equals m2 = false) :
    ∃ a b, m1.ActionId = some a ∧ m2.ActionId = some b ∧ a ≠ b := by
  obtain ⟨a, ha, hA⟩ := ActionId_of_category m1 h1
  obtain ⟨b, hb, hB⟩ := ActionId_of_category m2 h2
  refine ⟨a, b, ha, hb, ?_⟩
  rw [Move.equals_eq_false_iff] at hne
  unfold Card.ordinary at hA hB
  intro hab
  apply hne
  rcases hA with hA | hA | hA | hA | hA | hA | hA | hA | hA | hA <;>
  rcases hB with hB | hB | hB | hB | hB | hB | hB | hB | hB | hB <;>
  omega

/-- C8, at King of hearts onto Ace of hearts and King of diamonds onto Ace of
hearts -/
theorem ActionId_injective_on_categories_witness :
    (Move.ofRanksSuits 1 2 13 2).InCategory ∧ (Move.ofRanksSuits 1 2 13 4).InCategory ∧
    (Move.ofRanksSuits 1 2 13 2).equals (Move.ofRanksSuits 1 2 13 4) = false ∧
    ∃ a b, (Move.ofRanksSuits 1 2 13 2).ActionId = some a ∧
      (Move.ofRanksSuits 1 2 13 4).ActionId = some b ∧ a ≠ b :=
  have c1 : (Move.ofRanksSuits 1 2 13 2).InCategory :=
    Or.inr (Or.inr (Or.inr (Or.inr (Or.inl
      ⟨by decide, by decide, ⟨[2, 4], by decide, by decide⟩, by decide, by decide⟩))))
  have c2 : (Move.ofRanksSuits 1 2 13 4).InCategory :=
    Or.inr (Or.inr (Or.inr (Or.inr (Or.inl
      ⟨by decide, by decide, ⟨[2, 4], by decide, by decide⟩, by decide, by decide⟩))))
  ⟨c1, c2, by decide,
    ActionId_injective_on_categories (Move.ofRanksSuits 1 2 13 2)
      (Move.ofRanksSuits 1 2 13 4) c1 c2 (by decide)⟩

/-! ## The reversible flag and the hash function -/

theorem ofAction_shape (a : Int) (m : Move) (h : Move.ofAction a = some m) :
    ∃ tr ts sr ss, m = Move.ofRanksSuits tr ts sr ss := by
  unfold Move.ofAction at h
  rw [Option.map_eq_some'] at h
  obtain ⟨f, -, hf⟩ := h
  exact ⟨_, _, _, _, hf.symm⟩

theorem ofAction_source_location (a : Int) (m : Move) (h : Move.ofAction a = some m) :
    m.source_.location_ = LocationType.kMissing := by
  obtain ⟨tr, ts, sr, ss, rfl⟩ := ofAction_shape a m h
  rfl

theorem IsReversible_of_missing (source : Card) (source_pile : Pile) (target : Card)
    (target_pile : Pile) (h : source.location_ = LocationType.kMissing) :
    AgnesSorelState.IsReversible source source_pile target target_pile = some false := by
  unfold AgnesSorelState.IsReversible
  rw [h]

theorem control_modifyPile (s : AgnesSorelState) (r : PileRef) (f : Pile → Pile) :
    (s.modifyPile r f).control = s.control := by
  cases r <;> rfl

theorem control_extendWithMap (r : PileRef) (id : Nat) (cards : List Card) :
    ∀ s : AgnesSorelState, (s.extendWithMap r id cards).control = s.control := by
  induction cards with
  | nil => intro s; rfl
  | cons c rest ih =>
    intro s
    unfold AgnesSorelState.extendWithMap
    simp only []
    rw [ih, control_modifyPile]
    rfl

theorem control_dealLoop (limit : Option Int) :
    ∀ (count idx : Nat) (s s' : AgnesSorelState),
      AgnesSorelState.dealLoop limit count idx s = some s' → s'.control = s.control := by
  intro count
  induction count with
  | zero =>
    intro idx s s' h
    unfold AgnesSorelState.dealLoop at h
    cases h
    rfl
  | succ n ih =>
    intro idx s s' h
    unfold AgnesSorelState.dealLoop at h
    split at h
    · split at h
      · rw [ih _ _ _ h, control_extendWithMap]
        rfl
      · exact absurd h (by simp)
    · cases h
      rfl

theorem is_reversible_of_control {s s' : AgnesSorelState} (h : s'.control = s.control) :
    s'.is_reversible_ = s.is_reversible_ := by
  have := congrArg (fun c => c.2.2.2.1) h
  exact this

theorem previous_states_of_control {s s' : AgnesSorelState} (h : s'.control = s.control) :
    s'.previous_states_ = s.previous_states_ := by
  have := congrArg (fun c => c.2.2.2.2.2.2.1) h
  exact this

theorem revealed_cards_of_control {s s' : AgnesSorelState} (h : s'.control = s.control) :
    s'.revealed_cards_ = s.revealed_cards_ := by
  have := congrArg (fun c => c.1) h
  exact this

/-- The part of `MoveCards` before the reward: the state after the split and
the extension -/
theorem MoveCards_eq_some (s s' : AgnesSorelState) (move : Move)
    (h : s.MoveCards move = some s') :
    ∃ target_ref source_ref target_pile source_pile split_cards rest_pile reward,
      s.GetPile move.target_ = some target_ref ∧ s.GetPile move.source_ = some source_ref ∧
      s.pileAt target_ref = some target_pile ∧ s.pileAt source_ref = some source_pile ∧
      source_ref.Split source_pile move.source_ = some (split_cards, rest_pile) ∧
      s' = { (s.modifyPile source_ref (fun _ => rest_pile)).extendWithMap target_ref
              target_pile.id_ split_cards with current_rewards_ := reward } := by
  unfold AgnesSorelState.MoveCards at h
  simp only [] at h
  split at h
  · rename_i target_ref source_ref ht hs
    split at h
    · rename_i target_pile source_pile htp hsp
      split at h
      · exact absurd h (by simp)
      · rename_i split_cards rest_pile hsplit
        split at h
        · exact absurd h (by simp)
        · split at h
          · exact absurd h (by simp)
          · exact ⟨target_ref, source_ref, target_pile, source_pile, split_cards, rest_pile, _,
              ht, hs, htp, hsp, hsplit, (Option.some.inj h).symm⟩
    · exact absurd h (by simp)
  · exact absurd h (by simp)

theorem control_MoveCards (s s' : AgnesSorelState) (move : Move)
    (h : s.MoveCards move = some s') :
    s'.is_reversible_ = s.is_reversible_ ∧ s'.previous_states_ = s.previous_states_ ∧
    s'.revealed_cards_ = s.revealed_cards_ := by
  obtain ⟨tr, sr, tp, sp, split, rest, reward, -, -, -, -, -, rfl⟩ := MoveCards_eq_some s s' move h
  have hc := control_extendWithMap tr tp.id_ split (s.modifyPile sr (fun _ => rest))
  rw [control_modifyPile] at hc
  have e1 := is_reversible_of_control hc
  have e2 := previous_states_of_control hc
  have e3 := revealed_cards_of_control hc
  exact ⟨e1, e2, e3⟩

/-- The move branch never takes its reversible path: the decoded source card
carries the location `kMissing` -/
theorem applyMove_eq (hasher : String → Nat) (s : AgnesSorelState) (action : Int) :
    s.applyMove hasher action =
      match Move.ofAction action with
      | none => none
      | some selected_move =>
        match (s.GetPile selected_move.source_).bind s.pileAt,
          (s.GetPile selected_move.target_).bind s.pileAt with
        | some _, some _ =>
          match ({ s with is_reversible_ := false, previous_states_ := [] } :
              AgnesSorelState).MoveCards selected_move with
          | none => none
          | some s2 =>
            some { s2 with current_returns_ := s2.current_returns_ + s2.current_rewards_ }
        | _, _ => none := by
  unfold AgnesSorelState.applyMove
  cases hm : Move.ofAction action with
  | none => rfl
  | some m =>
    simp only []
    cases h1 : (s.GetPile m.source_).bind s.pileAt with
    | none => rfl
    | some sp =>
      cases h2 : (s.GetPile m.target_).bind s.pileAt with
      | none => rfl
      | some tp =>
        simp only []
        rw [IsReversible_of_missing _ _ _ _ (ofAction_source_location action m hm)]
        rfl

theorem applyMove_hasher (h1 h2 : String → Nat) (s : AgnesSorelState) (action : Int) :
    s.applyMove h1 action = s.applyMove h2 action := by
  rw [applyMove_eq, applyMove_eq]

theorem DoApplyAction_hasher (h1 h2 : String → Nat) (s : AgnesSorelState) (action : Int) :
    s.DoApplyAction h1 action = s.DoApplyAction h2 action := by
  unfold AgnesSorelState.DoApplyAction
  rw [applyMove_hasher h1 h2]

theorem applyMove_flag (hasher : String → Nat) (s s' : AgnesSorelState) (action : Int)
    (h : s.applyMove hasher action = some s') :
    s'.is_reversible_ = false ∧ s'.previous_states_ = [] := by
  rw [applyMove_eq] at h
  split at h
  · exact absurd h (by simp)
  · split at h
    · split at h
      · exact absurd h (by simp)
      · rename_i s2 hmc
        obtain ⟨e1, e2, -⟩ := control_MoveCards _ _ _ hmc
        cases h
        exact ⟨e1, e2⟩
    · exact absurd h (by simp)

theorem applyReveal_flag (s s' : AgnesSorelState) (action : Int)
    (h : s.applyReveal action = some s') :
    s'.is_reversible_ = s.is_reversible_ ∧ s'.previous_states_ = s.previous_states_ := by
  unfold AgnesSorelState.applyReveal at h
  simp only [] at h
  cases hr : revealInTableaus (Card.ofIndex action false LocationType.kMissing) s.tableaus_ with
  | none =>
    rw [hr] at h
    simp only [Option.map_none', Option.getD_none, Option.isSome_none] at h
    split at h
    · split at h
      · exact absurd h (by simp)
      · cases h; exact ⟨rfl, rfl⟩
    · cases h; exact ⟨rfl, rfl⟩
  | some r =>
    rw [hr] at h
    simp only [Option.map_some', Option.getD_some, Option.isSome_some] at h
    split at h
    · split at h
      · exact absurd h (by simp)
      · cases h; exact ⟨rfl, rfl⟩
    · cases h; exact ⟨rfl, rfl⟩

theorem applyDeal_flag (s s' : AgnesSorelState) (h : s.applyDeal = some s')
    (hf : s.is_reversible_ = false) : s'.is_reversible_ = false := by
  unfold AgnesSorelState.applyDeal at h
  split at h
  · exact absurd h (by simp)
  · split at h
    · rw [Option.map_eq_some'] at h
      obtain ⟨s1, -, rfl⟩ := h
      rfl
    · rw [is_reversible_of_control (control_dealLoop _ _ _ _ _ h)]
      exact hf

theorem DoApplyAction_flag (hasher : String → Nat) (s s' : AgnesSorelState) (action : Int)
    (h : s.DoApplyAction hasher action = some s') (hf : s.is_reversible_ = false) :
    s'.is_reversible_ = false := by
  unfold AgnesSorelState.DoApplyAction at h
  simp only [] at h
  rw [Option.map_eq_some'] at h
  obtain ⟨s1, hb, rfl⟩ := h
  have h1 : s1.is_reversible_ = false := by
    split at hb
    · cases hb; exact hf
    · split at hb
      · rw [(applyReveal_flag _ _ _ hb).1]; exact hf
      · split at hb
        · exact (applyMove_flag _ _ _ _ hb).1
        · split at hb
          · exact applyDeal_flag _ _ hb hf
          · cases hb; exact hf
  split <;> exact h1

theorem LegalActions_hasher (h1 h2 : String → Nat) (s : AgnesSorelState)
    (hf : s.is_reversible_ = false) :
    s.LegalActions h1 = s.LegalActions h2 := by
  unfold AgnesSorelState.LegalActions
  simp only [hf, Bool.false_eq_true, if_false]

theorem playLegal_hasher (h1 h2 : String → Nat) (actions : List Int) :
    ∀ s : AgnesSorelState, s.is_reversible_ = false →
      s.playLegal h1 actions = s.playLegal h2 actions := by
  induction actions with
  | nil => intro s _; rfl
  | cons a rest ih =>
    intro s hf
    unfold AgnesSorelState.playLegal
    rw [LegalActions_hasher h1 h2 s hf, DoApplyAction_hasher h1 h2]
    cases s.LegalActions h2 with
    | none => rfl
    | some legal =>
      simp only []
      split
      · cases hd : s.DoApplyAction h2 a with
        | none => rfl
        | some s' =>
          simp only []
          exact ih s' (DoApplyAction_flag h2 s s' a hd hf)
      · rfl

theorem playLegal_flag (hasher : String → Nat) (actions : List Int) :
    ∀ s s' : AgnesSorelState, s.playLegal hasher actions = some s' →
      s.is_reversible_ = false → s'.is_reversible_ = false := by
  induction actions with
  | nil =>
    intro s s' h hf
    unfold AgnesSorelState.playLegal at h
    cases h
    exact hf
  | cons a rest ih =>
    intro s s' h hf
    unfold AgnesSorelState.playLegal at h
    split at h
    · exact absurd h (by simp)
    · split at h
      · split at h
        · exact absurd h (by simp)
        · rename_i s1 hd
          exact ih s1 s' h (DoApplyAction_flag hasher s s1 a hd hf)
      · exact absurd h (by simp)

theorem playLegal_bind_LegalActions_hasher (h1 h2 : String → Nat) (actions : List Int)
    (s : AgnesSorelState) (hf : s.is_reversible_ = false) :
    (s.playLegal h1 actions).bind (fun s' => s'.LegalActions h1) =
      (s.playLegal h2 actions).bind (fun s' => s'.LegalActions h2) := by
  rw [playLegal_hasher h1 h2 actions s hf]
  cases hp : s.playLegal h2 actions with
  | none => rfl
  | some s' =>
    simp only [Option.some_bind]
    exact LegalActions_hasher h1 h2 s' (playLegal_flag h2 actions s s' hp hf)

/-! ## Plays from the initial state -/

set_option maxRecDepth 1000000 in
theorem samplePlay_board :
    ((AgnesSorelState.new false 150).playLegal constantHasher sampleReveals).map
        (fun s => (s.IsChanceNode, s.IsTerminal)) = some (false, false)
    ∧ ((AgnesSorelState.new false 150).playLegal constantHasher sampleReveals).map
        (fun s => s.foundations_.map (fun f => f.cards_.map (fun c => (c.rank_, c.suit_))))
      = some [[(5, 1)], [], [], []]
    ∧ ((AgnesSorelState.new false 150).playLegal constantHasher sampleReveals).map
        (fun s => s.foundations_.map (fun f => f.cards_.map (fun c => c.location_)))
      = some [[LocationType.kFoundation], [], [], []]
    ∧ ((AgnesSorelState.new false 150).playLegal constantHasher sampleReveals).map
        (fun s => (s.tableaus_.take 1).map (fun t => t.cards_.map (fun c => (c.rank_, c.suit_))))
      = some [[(6, 1)]]
    ∧ ((AgnesSorelState.new false 150).playLegal constantHasher sampleReveals).bind
        (fun s => s.LegalActions constantHasher) = some [70, 109, 161, 214, 245, 366] := by
  refine ⟨by decide!, by decide!, by decide!, by decide!, by decide!⟩

set_option maxRecDepth 1000000 in
theorem samplePlay_move :
    ((AgnesSorelState.new false 150).playLegal constantHasher (sampleReveals ++ [161])).bind
        (fun s => s.LegalActions constantHasher) = some [57, 70, 214, 245, 366]
    ∧ ((AgnesSorelState.new false 150).playLegal constantHasher (sampleReveals ++ [161])).map
        (fun s => (s.is_reversible_, s.previous_states_)) = some (false, [])
    ∧ ((AgnesSorelState.new false 150).playLegal constantHasher (sampleReveals ++ [161])).map
        (fun s => s.foundations_.map (fun f => f.cards_.map (fun c => (c.rank_, c.suit_))))
      = some [[], [], [], []]
    ∧ ((AgnesSorelState.new false 150).playLegal constantHasher (sampleReveals ++ [161])).map
        (fun s => (s.tableaus_.take 1).map (fun t => t.cards_.map (fun c => (c.rank_, c.suit_))))
      = some [[(6, 1), (5, 1)]]
    ∧ ((AgnesSorelState.new false 150).playLegal constantHasher (sampleReveals ++ [161])).map
        (fun s => (s.Returns, s.Rewards)) = some ([-60], [-60]) := by
  refine ⟨by decide!, by decide!, by decide!, by decide!, by decide!⟩

set_option maxRecDepth 1000000 in
theorem samplePlay_undo :
    ((AgnesSorelState.new false 150).playLegal constantHasher (sampleReveals ++ [161, 57])).map
        (fun s => (s.waste_, s.foundations_, s.tableaus_))
      = ((AgnesSorelState.new false 150).playLegal constantHasher sampleReveals).map
        (fun s => (s.waste_, s.foundations_, s.tableaus_))
    ∧ ((AgnesSorelState.new false 150).playLegal constantHasher (sampleReveals ++ [161, 57])).bind
        (fun s => s.ObservationString)
      = ((AgnesSorelState.new false 150).playLegal constantHasher sampleReveals).bind
        (fun s => s.ObservationString)
    ∧ (((AgnesSorelState.new false 150).playLegal constantHasher sampleReveals).bind
        (fun s => s.ObservationString)).isSome = true := by
  refine ⟨by decide!, by decide!, by decide!⟩

/-- C3 (defect): the cycle guard does not block the undo of a reversible move.
After the 29 reveals of the sample deal the state is a decision node with the
five of spades on its foundation and the six of spades on the first tableau.
Action 161 (five of spades from the foundation onto the six of spades) is
legal; afterwards the reversible flag is false, no state is recorded, and
`LegalActions` offers 57 (five of spades back to the empty spade foundation),
which restores the piles and the observation string of the earlier state. -/
theorem undo_move_offered_after_reversible_move (hasher : String → Nat) :
    ((AgnesSorelState.new false 150).playLegal hasher sampleReveals).map
        (fun s => (s.IsChanceNode, s.IsTerminal)) = some (false, false)
    ∧ ((AgnesSorelState.new false 150).playLegal hasher sampleReveals).map
        (fun s => s.foundations_.map (fun f => f.cards_.map (fun c => (c.rank_, c.suit_))))
      = some [[(5, 1)], [], [], []]
    ∧ ((AgnesSorelState.new false 150).playLegal hasher sampleReveals).map
        (fun s => (s.tableaus_.take 1).map (fun t => t.cards_.map (fun c => (c.rank_, c.suit_))))
      = some [[(6, 1)]]
    ∧ ((AgnesSorelState.new false 150).playLegal hasher sampleReveals).bind
        (fun s => s.LegalActions hasher) = some [70, 109, 161, 214, 245, 366]
    ∧ ((AgnesSorelState.new false 150).playLegal hasher (sampleReveals ++ [161])).map
        (fun s => s.foundations_.map (fun f => f.cards_.map (fun c => (c.rank_, c.suit_))))
      = some [[], [], [], []]
    ∧ ((AgnesSorelState.new false 150).playLegal hasher (sampleReveals ++ [161])).map
        (fun s => (s.tableaus_.take 1).map (fun t => t.cards_.map (fun c => (c.rank_, c.suit_))))
      = some [[(6, 1), (5, 1)]]
    ∧ ((AgnesSorelState.new false 150).playLegal hasher (sampleReveals ++ [161])).map
        (fun s => (s.is_reversible_, s.previous_states_)) = some (false, [])
    ∧ ((AgnesSorelState.new false 150).playLegal hasher (sampleReveals ++ [161])).bind
        (fun s => s.LegalActions hasher) = some [57, 70, 214, 245, 366]
    ∧ ((AgnesSorelState.new false 150).playLegal hasher (sampleReveals ++ [161, 57])).map
        (fun s => (s.waste_, s.foundations_, s.tableaus_))
      = ((AgnesSorelState.new false 150).playLegal hasher sampleReveals).map
        (fun s => (s.waste_, s.foundations_, s.tableaus_))
    ∧ ((AgnesSorelState.new false 150).playLegal hasher (sampleReveals ++ [161, 57])).bind
        (fun s => s.ObservationString)
      = ((AgnesSorelState.new false 150).playLegal hasher sampleReveals).bind
        (fun s => s.ObservationString)
    ∧ (((AgnesSorelState.new false 150).playLegal hasher sampleReveals).bind
        (fun s => s.ObservationString)).isSome = true := by
  rw [playLegal_bind_LegalActions_hasher hasher constantHasher _ _ rfl,
    playLegal_bind_LegalActions_hasher hasher constantHasher _ _ rfl,
    playLegal_hasher hasher constantHasher sampleReveals _ rfl,
    playLegal_hasher hasher constantHasher (sampleReveals ++ [161]) _ rfl,
    playLegal_hasher hasher constantHasher (sampleReveals ++ [161, 57]) _ rfl]
  exact ⟨samplePlay_board.1, samplePlay_board.2.1, samplePlay_board.2.2.2.1,
    samplePlay_board.2.2.2.2, samplePlay_move.2.2.1, samplePlay_move.2.2.2.1,
    samplePlay_move.2.1, samplePlay_move.1, samplePlay_undo.1, samplePlay_undo.2.1,
    samplePlay_undo.2.2⟩

/-- C4 (defect): the cumulative return becomes negative. After the 29 reveals
of the sample deal the legal action 161 moves the five of spades, which the
29th reveal placed on its foundation without any reward, onto the six of
spades; the step reward is -60 and `Returns()` is -60. -/
theorem returns_negative_after_foundation_move (hasher : String → Nat) :
    ((AgnesSorelState.new false 150).playLegal hasher (sampleReveals ++ [161])).map
      (fun s => (s.Returns, s.Rewards)) = some ([-60], [-60]) := by
  rw [playLegal_hasher hasher constantHasher (sampleReveals ++ [161]) _ rfl]
  exact samplePlay_move.2.2.2.2

/-! ## Piles inside a state -/

theorem modifyAt_length {α : Type} (f : α → α) : ∀ (i : Nat) (l : List α),
    (modifyAt f i l).length = l.length := by
  intro i l
  induction l generalizing i with
  | nil => cases i <;> simp [modifyAt]
  | cons x xs ih =>
    cases i with
    | zero => rfl
    | succ i => simp only [modifyAt, List.length_cons, ih]

theorem modifyAt_getElem? {α : Type} (f : α → α) : ∀ (i j : Nat) (l : List α),
    (modifyAt f i l)[j]? = if j = i then (l[j]?).map f else l[j]? := by
  intro i j l
  induction l generalizing i j with
  | nil => simp [modifyAt]
  | cons x xs ih =>
    cases i with
    | zero =>
      cases j with
      | zero => simp [modifyAt]
      | succ j => simp [modifyAt]
    | succ i =>
      cases j with
      | zero => simp [modifyAt]
      | succ j => simp [modifyAt, ih]

theorem modifyAt_split {α : Type} : ∀ (i : Nat) (l : List α) (x : α),
    l[i]? = some x →
    ∃ pre post, l = pre ++ x :: post ∧ ∀ f : α → α, modifyAt f i l = pre ++ f x :: post := by
  intro i l
  induction l generalizing i with
  | nil => intro x h; simp at h
  | cons y ys ih =>
    intro x h
    cases i with
    | zero =>
      simp only [List.getElem?_cons_zero, Option.some.injEq] at h
      subst h
      exact ⟨[], ys, rfl, fun f => rfl⟩
    | succ i =>
      simp only [List.getElem?_cons_succ] at h
      obtain ⟨pre, post, h1, h2⟩ := ih i x h
      refine ⟨y :: pre, post, ?_, ?_⟩
      · simp only [h1, List.cons_append]
      · intro f
        simp only [modifyAt, h2, List.cons_append]

theorem modifyAt_congr {α : Type} (f g : α → α) : ∀ (i : Nat) (l : List α) (x : α),
    l[i]? = some x → f x = g x → modifyAt f i l = modifyAt g i l := by
  intro i l x h hfg
  obtain ⟨pre, post, -, h2⟩ := modifyAt_split i l x h
  rw [h2 f, h2 g, hfg]

theorem modifyAt_map {α β : Type} (f : α → α) (g : α → β) (hg : ∀ x, g (f x) = g x) :
    ∀ (i : Nat) (l : List α), (modifyAt f i l).map g = l.map g := by
  intro i l
  induction l generalizing i with
  | nil => cases i <;> simp [modifyAt]
  | cons x xs ih =>
    cases i with
    | zero => simp only [modifyAt, List.map_cons, hg]
    | succ i => simp only [modifyAt, List.map_cons, ih]

theorem modifyAt_modifyAt {α : Type} (f g : α → α) : ∀ (i : Nat) (l : List α),
    modifyAt g i (modifyAt f i l) = modifyAt (fun x => g (f x)) i l := by
  intro i l
  induction l generalizing i with
  | nil => cases i <;> simp [modifyAt]
  | cons x xs ih =>
    cases i with
    | zero => rfl
    | succ i => simp only [modifyAt, ih]

theorem modifyAt_id {α : Type} (f : α → α) (hf : ∀ x, f x = x) : ∀ (i : Nat) (l : List α),
    modifyAt f i l = l := by
  intro i l
  induction l generalizing i with
  | nil => cases i <;> simp [modifyAt]
  | cons x xs ih =>
    cases i with
    | zero => simp only [modifyAt, hf]
    | succ i => simp only [modifyAt, ih]

theorem Pile.Extend_nil (p : Pile) : p.Extend [] = p := by
  unfold Pile.Extend
  simp only [List.map_nil, List.append_nil]

theorem Pile.Extend_Extend (p : Pile) (a b : List Card) :
    (p.Extend a).Extend b = p.Extend (a ++ b) := by
  unfold Pile.Extend
  simp only [List.map_append, List.append_assoc]

theorem modifyPile_modifyPile (s : AgnesSorelState) (r : PileRef) (f g : Pile → Pile) :
    (s.modifyPile r f).modifyPile r g = s.modifyPile r (fun p => g (f p)) := by
  cases r with
  | waste => rfl
  | foundation i =>
    simp only [AgnesSorelState.modifyPile, modifyAt_modifyAt]
  | tableau i =>
    simp only [AgnesSorelState.modifyPile, modifyAt_modifyAt]

theorem modifyPile_id (s : AgnesSorelState) (r : PileRef) (f : Pile → Pile)
    (hf : ∀ p, f p = p) : s.modifyPile r f = s := by
  cases r with
  | waste => simp only [AgnesSorelState.modifyPile, hf]
  | foundation i => simp only [AgnesSorelState.modifyPile, modifyAt_id f hf]
  | tableau i => simp only [AgnesSorelState.modifyPile, modifyAt_id f hf]

/-- The loop of `extendWithMap` as one update of the map and one extension of
the pile -/
theorem extendWithMap_eq (r : PileRef) (id : Nat) (cards : List Card) :
    ∀ s : AgnesSorelState, s.extendWithMap r id cards =
      ({ s with card_map_ := CardMap.insertAll s.card_map_ (cards.map Card.key) id } :
        AgnesSorelState).modifyPile r (fun p => p.Extend cards) := by
  induction cards with
  | nil =>
    intro s
    rw [modifyPile_id _ _ _ Pile.Extend_nil]
    rfl
  | cons c rest ih =>
    intro s
    unfold AgnesSorelState.extendWithMap
    simp only []
    rw [ih]
    cases r with
    | waste =>
      simp only [AgnesSorelState.modifyPile, Pile.Extend_Extend, List.singleton_append,
        CardMap.insertAll, List.map_cons, List.foldl_cons]
    | foundation i =>
      simp only [AgnesSorelState.modifyPile, modifyAt_modifyAt, Pile.Extend_Extend,
        List.singleton_append, CardMap.insertAll, List.map_cons, List.foldl_cons]
    | tableau i =>
      simp only [AgnesSorelState.modifyPile, modifyAt_modifyAt, Pile.Extend_Extend,
        List.singleton_append, CardMap.insertAll, List.map_cons, List.foldl_cons]

theorem Card.equals_refl (c : Card) : c.equals c = true := by
  unfold Card.equals
  simp only [decide_True, Bool.and_self]

/-- The loop of `Waste::Split` removes exactly one card when some card equals
the argument -/
theorem Waste.SplitLoop_found (card : Card) : ∀ cards : List Card,
    (∃ c ∈ cards, c.equals card = true) →
    ∃ c0 kept, Waste.SplitLoop card cards = (kept, [c0]) ∧ c0.equals card = true ∧
      (kept ++ [c0]).Perm cards := by
  intro cards
  induction cards with
  | nil => rintro ⟨c, hc, -⟩; simp at hc
  | cons x xs ih =>
    rintro ⟨c, hc, he⟩
    unfold Waste.SplitLoop
    by_cases hx : x.equals card = true
    · rw [if_pos hx]
      refine ⟨x, xs, rfl, hx, ?_⟩
      exact List.perm_append_singleton x xs
    · rw [if_neg hx]
      have hc' : c ∈ xs := by
        rcases List.mem_cons.1 hc with h | h
        · subst h; exact absurd he hx
        · exact h
      obtain ⟨c0, kept, h1, h2, h3⟩ := ih ⟨c, hc', he⟩
      refine ⟨c0, x :: kept, ?_, h2, ?_⟩
      · simp only [h1]
      · simpa using h3

theorem Waste.SplitLoop_not_found (card : Card) : ∀ cards : List Card,
    (∀ c ∈ cards, c.equals card = false) → Waste.SplitLoop card cards = (cards, []) := by
  intro cards
  induction cards with
  | nil => intro _; rfl
  | cons x xs ih =>
    intro h
    unfold Waste.SplitLoop
    have hx : ¬ x.equals card = true := by
      rw [h x (List.mem_cons_self _ _)]; exact Bool.false_ne_true
    rw [if_neg hx, ih (fun c hc => h c (List.mem_cons_of_mem _ hc))]

/-! ## The deal -/

/-- One iteration of the deal loop: the first waste card equal to the last one
goes on top of tableau `idx` -/
theorem dealLoop_step (limit : Option Int) (count idx : Nat) (s : AgnesSorelState)
    (t : Pile) (hg : dealGuard limit idx = true)
    (hw : s.waste_.cards_ ≠ []) (ht : s.tableaus_[idx]? = some t) :
    ∃ c0 kept, (kept ++ [c0]).Perm s.waste_.cards_ ∧
      AgnesSorelState.dealLoop limit (count + 1) idx s =
        AgnesSorelState.dealLoop limit count (idx + 1)
          { s with
            waste_ := { s.waste_ with cards_ := kept }
            card_map_ := CardMap.insert_or_assign s.card_map_ c0.key t.id_
            tableaus_ := modifyAt (fun p => p.Extend [c0]) idx s.tableaus_ } := by
  obtain ⟨last, hlast⟩ : ∃ last, s.waste_.cards_.getLast? = some last := by
    cases h : s.waste_.cards_.getLast? with
    | none => exact absurd (List.getLast?_eq_none_iff.1 h) hw
    | some last => exact ⟨last, rfl⟩
  have hmem := List.mem_of_getLast?_eq_some hlast
  obtain ⟨c0, kept, h1, -, h3⟩ :=
    Waste.SplitLoop_found last s.waste_.cards_ ⟨last, hmem, Card.equals_refl last⟩
  have hsplit : Waste.Split s.waste_ last = ([c0], { s.waste_ with cards_ := kept }) := by
    unfold Waste.Split
    simp only [h1]
  refine ⟨c0, kept, h3, ?_⟩
  conv => lhs; unfold AgnesSorelState.dealLoop
  rw [if_pos hg]
  simp only [Pile.GetLastCard, hlast, ht, hsplit]
  rw [extendWithMap_eq]
  simp only [AgnesSorelState.modifyPile, CardMap.insertAll, List.map_cons, List.map_nil,
    List.foldl_cons, List.foldl_nil]

theorem dealIterations_zero (limit : Option Int) (idx : Nat) :
    dealIterations limit 0 idx = 0 := by
  unfold dealIterations
  cases limit <;> simp

theorem dealIterations_succ (limit : Option Int) (count idx : Nat)
    (hg : dealGuard limit idx = true) :
    dealIterations limit (count + 1) idx = dealIterations limit count (idx + 1) + 1 := by
  unfold dealIterations
  cases limit with
  | none => rfl
  | some L =>
    simp only [dealGuard, decide_eq_true_eq] at hg
    simp only []
    omega

theorem dealIterations_stop (limit : Option Int) (count idx : Nat)
    (hg : ¬ dealGuard limit idx = true) :
    dealIterations limit count idx = 0 := by
  unfold dealIterations
  cases limit with
  | none => simp [dealGuard] at hg
  | some L =>
    simp only [dealGuard, decide_eq_true_eq] at hg
    simp only []
    omega

/-- The deal loop: it succeeds when the waste holds enough cards, moves one
waste card onto each of the tableaus `idx .. idx + k - 1` and leaves everything
else in place -/
theorem dealLoop_spec (limit : Option Int) : ∀ (count idx : Nat) (s : AgnesSorelState),
    idx + count ≤ s.tableaus_.length →
    dealIterations limit count idx ≤ s.waste_.cards_.length →
    ∃ s' dealt, AgnesSorelState.dealLoop limit count idx s = some s' ∧
      dealt.length = dealIterations limit count idx ∧
      (s'.waste_.cards_ ++ dealt).Perm s.waste_.cards_ ∧
      s'.foundations_ = s.foundations_ ∧
      s'.tableaus_.length = s.tableaus_.length ∧
      (∀ i, s'.tableaus_[i]? =
        if idx ≤ i ∧ i < idx + dealIterations limit count idx then
          (s.tableaus_[i]?).bind (fun t => (dealt[i - idx]?).map (fun c => t.Extend [c]))
        else s.tableaus_[i]?) := by
  intro count
  induction count with
  | zero =>
    intro idx s _ _
    refine ⟨s, [], rfl, ?_, ?_, rfl, rfl, ?_⟩
    · rw [dealIterations_zero]; rfl
    · simp
    · intro i
      rw [dealIterations_zero, if_neg (by omega)]
  | succ n ih =>
    intro idx s hlen hwaste
    by_cases hg : dealGuard limit idx = true
    · have hit := dealIterations_succ limit n idx hg
      rw [hit] at hwaste
      have hw : s.waste_.cards_ ≠ [] := by
        intro h0; rw [h0] at hwaste; simp at hwaste
      obtain ⟨t, ht⟩ : ∃ t, s.tableaus_[idx]? = some t := by
        have : idx < s.tableaus_.length := by omega
        exact ⟨s.tableaus_[idx], List.getElem?_eq_getElem this⟩
      obtain ⟨c0, kept, hperm, hstep⟩ := dealLoop_step limit n idx s t hg hw ht
      have hklen : kept.length + 1 = s.waste_.cards_.length := by
        have := hperm.length_eq
        simpa using this
      obtain ⟨s', dealt', h1, h2, h3, h4, h5, h6⟩ := ih (idx + 1)
        { s with
          waste_ := { s.waste_ with cards_ := kept }
          card_map_ := CardMap.insert_or_assign s.card_map_ c0.key t.id_
          tableaus_ := modifyAt (fun p => p.Extend [c0]) idx s.tableaus_ }
        (by simp only [modifyAt_length]; omega)
        (by simp only []; omega)
      refine ⟨s', c0 :: dealt', ?_, ?_, ?_, h4, ?_, ?_⟩
      · rw [hstep]; exact h1
      · rw [hit, List.length_cons, h2]
      · simp only [] at h3
        have e1 : (s'.waste_.cards_ ++ c0 :: dealt').Perm ((s'.waste_.cards_ ++ dealt') ++ [c0]) := by
          rw [List.append_assoc]
          exact List.Perm.append_left _ (List.perm_append_singleton c0 dealt').symm
        exact e1.trans ((List.Perm.append_right [c0] h3).trans hperm)
      · rw [h5]; simp only [modifyAt_length]
      · intro i
        rw [h6 i, hit]
        simp only [modifyAt_getElem?]
        by_cases hi : i = idx
        · subst hi
          rw [if_neg (by omega), if_pos rfl, if_pos (by omega)]
          simp only [Nat.sub_self, List.getElem?_cons_zero, Option.map_some']
          cases s.tableaus_[i]? <;> rfl
        · by_cases hlt : i < idx
          · rw [if_neg (by omega), if_neg hi, if_neg (by omega)]
          · have hge : idx + 1 ≤ i := by omega
            have hsub : i - idx = (i - (idx + 1)) + 1 := by omega
            by_cases hup : i < idx + 1 + dealIterations limit n (idx + 1)
            · rw [if_pos ⟨hge, hup⟩, if_neg hi, if_pos ⟨by omega, by omega⟩, hsub,
                List.getElem?_cons_succ]
            · rw [if_neg (by omega), if_neg hi, if_neg (by omega)]
    · have hit := dealIterations_stop limit (n + 1) idx hg
      refine ⟨s, [], ?_, ?_, ?_, rfl, rfl, ?_⟩
      · unfold AgnesSorelState.dealLoop
        rw [if_neg hg]
      · rw [hit]; rfl
      · simp
      · intro i
        rw [hit, if_neg (by omega)]

theorem DoApplyAction_deal (hasher : String → Nat) (s : AgnesSorelState) :
    s.DoApplyAction hasher kDeal = s.applyDeal.map (fun s1 =>
      if s1.current_depth_ + 1 ≥ s1.depth_limit_ then
        { s1 with current_depth_ := s1.current_depth_ + 1, is_finished_ := true }
      else { s1 with current_depth_ := s1.current_depth_ + 1 }) := by
  unfold AgnesSorelState.DoApplyAction
  have h1 : ¬ (kDeal = kEnd) := by decide
  have h2 : ¬ (kRevealStart ≤ kDeal ∧ kDeal ≤ kRevealEnd) := by decide
  have h3 : ¬ (kMoveStart ≤ kDeal ∧ kDeal ≤ kMoveEnd) := by decide
  simp only [h1, h2, h3, if_false, if_true]

/-- C10: `Deal` on a state with `n >= 1` waste cards (and the seven tableaus)
succeeds and moves exactly `k = min 7 n` cards out of the waste: the waste
keeps `n - k` cards, which together with the dealt cards are the old waste;
tableau `i < k` gains the dealt card `i` on top (tagged as a tableau card),
the tableaus `i >= k` and all foundations are unchanged. -/
theorem deal_moves_min_seven_cards (hasher : String → Nat) (s : AgnesSorelState)
    (hw : 1 ≤ s.waste_.cards_.length) (ht : s.tableaus_.length = 7) :
    ∃ s' dealt, s.DoApplyAction hasher kDeal = some s' ∧
      dealt.length = min 7 s.waste_.cards_.length ∧
      (s'.waste_.cards_ ++ dealt).Perm s.waste_.cards_ ∧
      s'.waste_.cards_.length = s.waste_.cards_.length - min 7 s.waste_.cards_.length ∧
      s'.foundations_ = s.foundations_ ∧
      s'.tableaus_.length = 7 ∧
      ∀ i t, s.tableaus_[i]? = some t →
        (i < min 7 s.waste_.cards_.length →
          ∃ c, dealt[i]? = some c ∧ s'.tableaus_[i]? = some (t.Extend [c])) ∧
        (min 7 s.waste_.cards_.length ≤ i → s'.tableaus_[i]? = some t) := by
  have hne : s.waste_.GetIsEmpty = false := by
    unfold Pile.GetIsEmpty
    cases hc : s.waste_.cards_ with
    | nil => rw [hc] at hw; simp at hw
    | cons x xs => rfl
  -- the loop, for both branches of the deal
  have key : ∃ limit, dealIterations limit 7 0 = min 7 s.waste_.cards_.length ∧
      ∃ s1, AgnesSorelState.dealLoop limit 7 0 s = some s1 ∧
        s.applyDeal.map (fun x => (x.waste_, x.foundations_, x.tableaus_)) =
          some (s1.waste_, s1.foundations_, s1.tableaus_) ∧
        ∃ dealt : List Card, dealt.length = dealIterations limit 7 0 ∧
          (s1.waste_.cards_ ++ dealt).Perm s.waste_.cards_ ∧
          s1.foundations_ = s.foundations_ ∧
          s1.tableaus_.length = s.tableaus_.length ∧
          (∀ i, s1.tableaus_[i]? =
            if 0 ≤ i ∧ i < 0 + dealIterations limit 7 0 then
              (s.tableaus_[i]?).bind (fun t => (dealt[i - 0]?).map (fun c => t.Extend [c]))
            else s.tableaus_[i]?) := by
    by_cases h7 : s.waste_.cards_.length ≥ 7
    · have hit : dealIterations none 7 0 = min 7 s.waste_.cards_.length := by
        unfold dealIterations; simp only []; omega
      obtain ⟨s1, dealt, h1, h2, h3, h4, h5, h6⟩ :=
        dealLoop_spec none 7 0 s (by omega) (by rw [hit]; omega)
      refine ⟨none, hit, s1, h1, ?_, dealt, h2, h3, h4, h5, h6⟩
      unfold AgnesSorelState.applyDeal
      rw [hne, ht]
      simp only [Bool.false_eq_true, if_false, if_pos h7, h1, Option.map_some']
    · have hit : dealIterations (some (s.waste_.cards_.length : Int)) 7 0 =
          min 7 s.waste_.cards_.length := by
        unfold dealIterations; simp only []; omega
      obtain ⟨s1, dealt, h1, h2, h3, h4, h5, h6⟩ :=
        dealLoop_spec (some (s.waste_.cards_.length : Int)) 7 0 s (by omega)
          (by rw [hit]; omega)
      refine ⟨_, hit, s1, h1, ?_, dealt, h2, h3, h4, h5, h6⟩
      unfold AgnesSorelState.applyDeal
      rw [hne, ht]
      simp only [Bool.false_eq_true, if_false, if_neg h7, h1, Option.map_some']
  obtain ⟨limit, hit, s1, -, hap, dealt, h2, h3, h4, h5, h6⟩ := key
  rw [hit] at h2 h6
  obtain ⟨s2, hs2, hw2, hf2, ht2⟩ : ∃ s2, s.applyDeal = some s2 ∧ s2.waste_ = s1.waste_ ∧
      s2.foundations_ = s1.foundations_ ∧ s2.tableaus_ = s1.tableaus_ := by
    cases hd : s.applyDeal with
    | none => rw [hd] at hap; simp at hap
    | some s2 =>
      rw [hd] at hap
      simp only [Option.map_some', Option.some.injEq, Prod.mk.injEq] at hap
      exact ⟨s2, rfl, hap.1, hap.2.1, hap.2.2⟩
  have hdo := DoApplyAction_deal hasher s
  rw [hs2, Option.map_some'] at hdo
  have hlen : s1.waste_.cards_.length + dealt.length = s.waste_.cards_.length := by
    have := h3.length_eq
    simpa using this
  refine ⟨_, dealt, hdo, h2, ?_, ?_, ?_, ?_, ?_⟩
  · split <;> (simp only [hw2]; exact h3)
  · split <;> (simp only [hw2]; omega)
  · split <;> (simp only [hf2]; exact h4)
  · split <;> (simp only [ht2]; omega)
  · intro i t hti
    have hi := h6 i
    rw [hti] at hi
    constructor
    · intro hlt
      rw [if_pos ⟨by omega, by omega⟩] at hi
      have hd : i < dealt.length := by omega
      refine ⟨dealt[i], List.getElem?_eq_getElem hd, ?_⟩
      simp only [Nat.sub_zero, List.getElem?_eq_getElem hd, Option.map_some',
        Option.some_bind] at hi
      split <;> (simp only [ht2]; exact hi)
    · intro hge
      rw [if_neg (by omega)] at hi
      split <;> (simp only [ht2]; exact hi)

/-- C10, with five waste cards: the first five tableaus get one card each and
the last two are untouched -/
theorem deal_moves_min_seven_cards_witness :
    1 ≤ fiveCardWasteState.waste_.cards_.length ∧
    fiveCardWasteState.tableaus_.length = 7 ∧
    fiveCardWasteState.waste_.cards_.length = 5 ∧
    ∃ s' dealt, fiveCardWasteState.DoApplyAction constantHasher kDeal = some s' ∧
      dealt.length = min 7 fiveCardWasteState.waste_.cards_.length ∧
      (s'.waste_.cards_ ++ dealt).Perm fiveCardWasteState.waste_.cards_ ∧
      s'.waste_.cards_.length = fiveCardWasteState.waste_.cards_.length
        - min 7 fiveCardWasteState.waste_.cards_.length ∧
      s'.foundations_ = fiveCardWasteState.foundations_ ∧
      s'.tableaus_.length = 7 ∧
      ∀ i t, fiveCardWasteState.tableaus_[i]? = some t →
        (i < min 7 fiveCardWasteState.waste_.cards_.length →
          ∃ c, dealt[i]? = some c ∧ s'.tableaus_[i]? = some (t.Extend [c])) ∧
        (min 7 fiveCardWasteState.waste_.cards_.length ≤ i → s'.tableaus_[i]? = some t) :=
  ⟨by decide, by decide, by decide,
    deal_moves_min_seven_cards constantHasher fiveCardWasteState (by decide) (by decide)⟩

/-! ## The card map -/

theorem CardMap.at_insert_or_assign (key : CardKey) (id : Nat) : ∀ (m : CardMap) (k : CardKey),
    CardMap.at (CardMap.insert_or_assign m key id) k =
      if k = key then some id else CardMap.at m k := by
  intro m
  induction m with
  | nil =>
    intro k
    simp only [CardMap.insert_or_assign, CardMap.at]
    by_cases h : k = key
    · rw [if_pos h.symm, if_pos h]
    · rw [if_neg (fun e => h e.symm), if_neg h]
  | cons e rest ih =>
    intro k
    obtain ⟨k0, v0⟩ := e
    unfold CardMap.insert_or_assign
    by_cases h0 : k0 = key
    · rw [if_pos h0]
      simp only [CardMap.at]
      by_cases h : k = key
      · rw [if_pos (h0.trans h.symm), if_pos h]
      · rw [if_neg (fun e => h (e.symm.trans h0)), if_neg h, if_neg (fun e => h (e.symm.trans h0))]
    · rw [if_neg h0]
      by_cases hl : CardKey.less key k0 = true
      · rw [if_pos hl]
        simp only [CardMap.at]
        by_cases h : k = key
        · rw [if_pos h.symm, if_pos h]
        · rw [if_neg (fun e => h e.symm), if_neg h]
      · rw [if_neg hl]
        simp only [CardMap.at]
        by_cases h : k = key
        · rw [if_neg (fun e => h0 (e.trans h)), ih, if_pos h, if_pos h]
        · rw [ih, if_neg h, if_neg h]

theorem CardMap.at_insertAll (id : Nat) : ∀ (keys : List CardKey) (m : CardMap) (k : CardKey),
    CardMap.at (CardMap.insertAll m keys id) k =
      if k ∈ keys then some id else CardMap.at m k := by
  intro keys
  induction keys with
  | nil => intro m k; simp [CardMap.insertAll]
  | cons key rest ih =>
    intro m k
    have e : CardMap.insertAll m (key :: rest) id =
        CardMap.insertAll (CardMap.insert_or_assign m key id) rest id := rfl
    rw [e, ih, CardMap.at_insert_or_assign]
    by_cases h1 : k ∈ rest
    · rw [if_pos h1, if_pos (List.mem_cons_of_mem _ h1)]
    · rw [if_neg h1]
      by_cases h2 : k = key
      · rw [if_pos h2, if_pos (by rw [h2]; exact List.mem_cons_self _ _)]
      · rw [if_neg h2, if_neg (by
          intro hm
          rcases List.mem_cons.1 hm with h | h
          · exact h2 h
          · exact h1 h)]

/-! ## Piles of a state and their modification -/

theorem pileAt_mem (s : AgnesSorelState) (r : PileRef) (p : Pile)
    (h : s.pileAt r = some p) :
    ∃ pre post, s.piles = pre ++ p :: post ∧
      ∀ f : Pile → Pile, (s.modifyPile r f).piles = pre ++ f p :: post := by
  cases r with
  | waste =>
    simp only [AgnesSorelState.pileAt, Option.some.injEq] at h
    subst h
    exact ⟨[], s.foundations_ ++ s.tableaus_, rfl, fun f => rfl⟩
  | foundation i =>
    simp only [AgnesSorelState.pileAt] at h
    obtain ⟨pre, post, h1, h2⟩ := modifyAt_split i s.foundations_ p h
    refine ⟨s.waste_ :: pre, post ++ s.tableaus_, ?_, ?_⟩
    · simp only [AgnesSorelState.piles, h1, List.cons_append, List.append_assoc]
    · intro f
      simp only [AgnesSorelState.piles, AgnesSorelState.modifyPile, h2 f, List.cons_append,
        List.append_assoc]
  | tableau i =>
    simp only [AgnesSorelState.pileAt] at h
    obtain ⟨pre, post, h1, h2⟩ := modifyAt_split i s.tableaus_ p h
    refine ⟨s.waste_ :: (s.foundations_ ++ pre), post, ?_, ?_⟩
    · simp only [AgnesSorelState.piles, h1, List.cons_append, List.append_assoc]
    · intro f
      simp only [AgnesSorelState.piles, AgnesSorelState.modifyPile, h2 f, List.cons_append,
        List.append_assoc]

theorem modifyPile_congr (s : AgnesSorelState) (r : PileRef) (p : Pile) (f g : Pile → Pile)
    (h : s.pileAt r = some p) (hfg : f p = g p) : s.modifyPile r f = s.modifyPile r g := by
  cases r with
  | waste =>
    simp only [AgnesSorelState.pileAt, Option.some.injEq] at h
    subst h
    simp only [AgnesSorelState.modifyPile, hfg]
  | foundation i =>
    simp only [AgnesSorelState.pileAt] at h
    simp only [AgnesSorelState.modifyPile, modifyAt_congr f g i _ p h hfg]
  | tableau i =>
    simp only [AgnesSorelState.pileAt] at h
    simp only [AgnesSorelState.modifyPile, modifyAt_congr f g i _ p h hfg]

theorem pileAt_modifyPile (s : AgnesSorelState) (r r' : PileRef) (f : Pile → Pile) (q : Pile)
    (h : s.pileAt r' = some q) :
    (s.modifyPile r f).pileAt r' = some q ∨ (s.modifyPile r f).pileAt r' = some (f q) := by
  cases r with
  | waste =>
    cases r' with
    | waste =>
      simp only [AgnesSorelState.pileAt, Option.some.injEq] at h
      subst h
      exact Or.inr rfl
    | foundation j => exact Or.inl h
    | tableau j => exact Or.inl h
  | foundation i =>
    cases r' with
    | waste => exact Or.inl h
    | foundation j =>
      simp only [AgnesSorelState.pileAt] at h
      simp only [AgnesSorelState.pileAt, AgnesSorelState.modifyPile, modifyAt_getElem?, h]
      by_cases e : j = i
      · rw [if_pos e]; exact Or.inr rfl
      · rw [if_neg e]; exact Or.inl rfl
    | tableau j => exact Or.inl h
  | tableau i =>
    cases r' with
    | waste => exact Or.inl h
    | foundation j => exact Or.inl h
    | tableau j =>
      simp only [AgnesSorelState.pileAt] at h
      simp only [AgnesSorelState.pileAt, AgnesSorelState.modifyPile, modifyAt_getElem?, h]
      by_cases e : j = i
      · rw [if_pos e]; exact Or.inr rfl
      · rw [if_neg e]; exact Or.inl rfl

/-- The pile ids and foundation suits of a state, which no operation changes -/
theorem ids_modifyPile (s : AgnesSorelState) (r : PileRef) (f : Pile → Pile)
    (hf : ∀ p, (f p).id_ = p.id_ ∧ (f p).suit_ = p.suit_) :
    (s.modifyPile r f).waste_.id_ = s.waste_.id_ ∧
    (s.modifyPile r f).foundations_.map (fun x => (x.suit_, x.id_)) =
      s.foundations_.map (fun x => (x.suit_, x.id_)) ∧
    (s.modifyPile r f).tableaus_.map (fun x => x.id_) = s.tableaus_.map (fun x => x.id_) := by
  cases r with
  | waste => exact ⟨(hf _).1, rfl, rfl⟩
  | foundation i =>
    refine ⟨rfl, ?_, rfl⟩
    exact modifyAt_map f _ (fun x => by rw [(hf x).1, (hf x).2]) i _
  | tableau i =>
    refine ⟨rfl, rfl, ?_⟩
    exact modifyAt_map f _ (fun x => (hf x).1) i _

theorem card_map_modifyPile (s : AgnesSorelState) (r : PileRef) (f : Pile → Pile) :
    (s.modifyPile r f).card_map_ = s.card_map_ := by
  cases r <;> rfl

/-- A property of the cards of every pile survives the modification of one
pile when the cards of the new pile have it -/
theorem forall_cards_modifyPile (Q : Pile → Card → Prop) (s : AgnesSorelState) (r : PileRef)
    (f : Pile → Pile) (p : Pile) (h : s.pileAt r = some p)
    (hs : ∀ q ∈ s.piles, ∀ c ∈ q.cards_, Q q c)
    (hp : ∀ c ∈ (f p).cards_, Q (f p) c) :
    ∀ q ∈ (s.modifyPile r f).piles, ∀ c ∈ q.cards_, Q q c := by
  obtain ⟨pre, post, h1, h2⟩ := pileAt_mem s r p h
  intro q hq c hc
  rw [h2 f] at hq
  rcases List.mem_append.1 hq with hq | hq
  · exact hs q (by rw [h1]; exact List.mem_append_left _ hq) c hc
  · rcases List.mem_cons.1 hq with hq | hq
    · subst hq; exact hp c hc
    · exact hs q (by rw [h1]; exact List.mem_append_right _ (List.mem_cons_of_mem _ hq)) c hc

/-- The visible keys of a state follow the visible keys of the modified pile -/
theorem visibleKeys_modifyPile (s : AgnesSorelState) (r : PileRef) (f : Pile → Pile)
    (p : Pile) (h : s.pileAt r = some p) (a b : List CardKey)
    (hk : ((f p).keys ++ a).Perm (p.keys ++ b)) :
    ((s.modifyPile r f).visibleKeys ++ a).Perm (s.visibleKeys ++ b) := by
  obtain ⟨pre, post, h1, h2⟩ := pileAt_mem s r p h
  unfold AgnesSorelState.visibleKeys
  rw [h2 f, h1]
  simp only [List.flatMap_append, List.flatMap_cons, List.append_assoc]
  refine List.Perm.append_left _ ?_
  have e1 : ((f p).keys ++ (post.flatMap Pile.keys ++ a)).Perm
      (((f p).keys ++ a) ++ post.flatMap Pile.keys) := by
    rw [List.append_assoc]
    exact List.Perm.append_left _ List.perm_append_comm
  have e2 : ((p.keys ++ b) ++ post.flatMap Pile.keys).Perm
      (p.keys ++ (post.flatMap Pile.keys ++ b)) := by
    rw [List.append_assoc]
    exact List.Perm.append_left _ List.perm_append_comm
  exact e1.trans ((List.Perm.append_right _ hk).trans e2)

theorem mem_visibleKeys (s : AgnesSorelState) (k : CardKey) :
    k ∈ s.visibleKeys ↔ ∃ p ∈ s.piles, ∃ c ∈ p.cards_, c.hidden_ = false ∧ c.key = k := by
  unfold AgnesSorelState.visibleKeys Pile.keys cardKeys
  simp only [List.mem_flatMap, List.mem_map, List.mem_filter, Bool.not_eq_true',
    and_assoc]

/-! ## Splitting a pile -/

theorem cardKeys_append (a b : List Card) : cardKeys (a ++ b) = cardKeys a ++ cardKeys b := by
  unfold cardKeys
  simp only [List.filter_append, List.map_append]

theorem cardKeys_perm {a b : List Card} (h : a.Perm b) : (cardKeys a).Perm (cardKeys b) := by
  unfold cardKeys
  exact (h.filter _).map _

theorem cardKeys_setLocation (ty : LocationType) (l : List Card) :
    cardKeys (l.map (fun c => c.SetLocation ty)) = cardKeys l := by
  induction l with
  | nil => rfl
  | cons c rest ih =>
    unfold cardKeys at ih ⊢
    simp only [List.map_cons, List.filter_cons]
    have e : (c.SetLocation ty).hidden_ = c.hidden_ := rfl
    rw [e]
    by_cases h : (!c.hidden_) = true
    · rw [if_pos h, if_pos h, List.map_cons, List.map_cons, ih]
      rfl
    · rw [if_neg h, if_neg h, ih]

theorem mem_cardKeys (l : List Card) (k : CardKey) :
    k ∈ cardKeys l ↔ ∃ c ∈ l, c.hidden_ = false ∧ c.key = k := by
  unfold cardKeys
  simp only [List.mem_map, List.mem_filter, Bool.not_eq_true', and_assoc]

theorem tableauSplitLoop_perm (card : Card) : ∀ (flag : Bool) (cards : List Card),
    ((Tableau.SplitLoop card flag cards).1 ++ (Tableau.SplitLoop card flag cards).2).Perm
      cards := by
  intro flag cards
  induction cards generalizing flag with
  | nil => simp [Tableau.SplitLoop]
  | cons c rest ih =>
    unfold Tableau.SplitLoop
    by_cases h : (flag || c.equals card) = true
    · rw [if_pos h]
      simp only []
      exact List.perm_middle.trans (List.Perm.cons c (ih true))
    · rw [if_neg h]
      simp only [List.cons_append]
      exact List.Perm.cons c (ih false)

theorem wasteSplitLoop_perm (card : Card) : ∀ cards : List Card,
    ((Waste.SplitLoop card cards).1 ++ (Waste.SplitLoop card cards).2).Perm cards := by
  intro cards
  induction cards with
  | nil => simp [Waste.SplitLoop]
  | cons c rest ih =>
    unfold Waste.SplitLoop
    by_cases h : c.equals card = true
    · rw [if_pos h]
      simp only []
      exact (List.perm_append_singleton c rest)
    · rw [if_neg h]
      simp only [List.cons_append]
      exact List.Perm.cons c ih

/-- Every `Split` keeps the cards of the pile: the cards left behind and the
cards split off are together the old pile -/
theorem PileRef.Split_perm (r : PileRef) (p : Pile) (card : Card) (split : List Card)
    (rest : Pile) (h : r.Split p card = some (split, rest)) :
    ∃ kept, rest = p.SetCards kept ∧ (kept ++ split).Perm p.cards_ := by
  cases r with
  | waste =>
    simp only [PileRef.Split, Waste.Split, Option.some.injEq, Prod.mk.injEq] at h
    obtain ⟨h1, h2⟩ := h
    subst h1 h2
    exact ⟨_, rfl, wasteSplitLoop_perm card p.cards_⟩
  | tableau i =>
    simp only [PileRef.Split, Tableau.Split, Option.some.injEq, Prod.mk.injEq] at h
    obtain ⟨h1, h2⟩ := h
    subst h1 h2
    exact ⟨_, rfl, tableauSplitLoop_perm card false p.cards_⟩
  | foundation i =>
    simp only [PileRef.Split, Foundation.Split] at h
    cases hl : p.cards_.getLast? with
    | none => rw [hl] at h; simp at h
    | some back =>
      rw [hl] at h
      simp only [] at h
      by_cases hb : back.equals card = true
      · rw [if_pos hb] at h
        simp only [Option.some.injEq, Prod.mk.injEq] at h
        obtain ⟨h1, h2⟩ := h
        subst h1 h2
        refine ⟨_, rfl, ?_⟩
        obtain ⟨ys, hys⟩ := List.getLast?_eq_some_iff.1 hl
        rw [hys, List.dropLast_concat]
      · rw [if_neg hb] at h
        simp only [Option.some.injEq, Prod.mk.injEq] at h
        obtain ⟨h1, h2⟩ := h
        subst h1 h2
        exact ⟨p.cards_, rfl, by simp⟩

/-! ## The board invariant -/

theorem pileAt_mem_piles (s : AgnesSorelState) (r : PileRef) (p : Pile)
    (h : s.pileAt r = some p) : p ∈ s.piles := by
  obtain ⟨pre, post, h1, -⟩ := pileAt_mem s r p h
  rw [h1]
  exact List.mem_append_right _ (List.mem_cons_self _ _)

theorem wellFormed_setLocation (revealed : List Int) (c : Card) (ty : LocationType)
    (h : c.wellFormed revealed) : (c.SetLocation ty).wellFormed revealed := h

/-- A visible well-formed card and a hidden well-formed card have different keys -/
theorem key_ne_of_hidden (revealed : List Int) (c c0 : Card) (hc : c.wellFormed revealed)
    (hc0 : c0.wellFormed revealed) (hv : c.hidden_ = false) (hh : c0.hidden_ = true) :
    c0.key ≠ c.key := by
  intro e
  have h1 := (hc.2 hv).1
  have h2 := hc0.1 hh
  unfold Card.key at e
  simp only [Prod.mk.injEq] at e
  unfold Card.ordinary at h1
  omega

/-- The invariant only reads the piles, the card map and the revealed ids -/
theorem BoardInvariant_of_eq (s s' : AgnesSorelState) (h : s.BoardInvariant)
    (hw : s'.waste_ = s.waste_) (hf : s'.foundations_ = s.foundations_)
    (ht : s'.tableaus_ = s.tableaus_) (hm : s'.card_map_ = s.card_map_)
    (hr : s'.revealed_cards_ = s.revealed_cards_) : s'.BoardInvariant := by
  have hp : s'.piles = s.piles := by
    unfold AgnesSorelState.piles; rw [hw, hf, ht]
  have hk : s'.visibleKeys = s.visibleKeys := by
    unfold AgnesSorelState.visibleKeys; rw [hp]
  refine ⟨?_, ?_, ?_, ?_, ?_, ?_⟩
  · rw [hw]; exact h.waste_id
  · rw [hf]; exact h.foundation_ids
  · rw [ht]; exact h.tableau_ids
  · rw [hp, hr]; exact h.cards
  · rw [hk]; exact h.nodup
  · rw [hp, hm]; exact h.located

/-- Moving the cards `split` from the pile behind `rs`, which keeps `kept`, onto
the pile behind `rt` preserves the invariant -/
theorem transfer_invariant (s : AgnesSorelState) (rs rt : PileRef) (sp tp : Pile)
    (kept split : List Card) (hinv : s.BoardInvariant)
    (hs : s.pileAt rs = some sp) (ht : s.pileAt rt = some tp)
    (hperm : (kept ++ split).Perm sp.cards_) :
    ((s.modifyPile rs (fun _ => sp.SetCards kept)).extendWithMap rt tp.id_
      split).BoardInvariant := by
  have hcongr : s.modifyPile rs (fun _ => sp.SetCards kept) =
      s.modifyPile rs (fun p => p.SetCards kept) :=
    modifyPile_congr s rs sp _ _ hs rfl
  rw [hcongr, extendWithMap_eq]
  -- the state after the split
  have hsp_mem := pileAt_mem_piles s rs sp hs
  have hkept : ∀ c ∈ kept, c ∈ sp.cards_ := fun c hc =>
    hperm.subset (List.mem_append_left _ hc)
  have hsplit : ∀ c ∈ split, c ∈ sp.cards_ := fun c hc =>
    hperm.subset (List.mem_append_right _ hc)
  have ids1 := ids_modifyPile s rs (fun p => p.SetCards kept) (fun p => ⟨rfl, rfl⟩)
  have map1 := card_map_modifyPile s rs (fun p => p.SetCards kept)
  have rev1 := revealed_cards_of_control (control_modifyPile s rs (fun p => p.SetCards kept))
  have cards1 : ∀ q ∈ (s.modifyPile rs (fun p => p.SetCards kept)).piles, ∀ c ∈ q.cards_,
      c.wellFormed s.revealed_cards_ :=
    forall_cards_modifyPile (fun _ c => c.wellFormed s.revealed_cards_) s rs _ sp hs hinv.cards
      (fun c hc => hinv.cards sp hsp_mem c (hkept c hc))
  have located1 : ∀ q ∈ (s.modifyPile rs (fun p => p.SetCards kept)).piles, ∀ c ∈ q.cards_,
      c.hidden_ = false → CardMap.at s.card_map_ c.key = some q.id_ :=
    forall_cards_modifyPile
      (fun q c => c.hidden_ = false → CardMap.at s.card_map_ c.key = some q.id_) s rs _ sp hs
      hinv.located (fun c hc => hinv.located sp hsp_mem c (hkept c hc))
  have keys1 : ((s.modifyPile rs (fun p => p.SetCards kept)).visibleKeys ++
      cardKeys split).Perm s.visibleKeys := by
    have := visibleKeys_modifyPile s rs (fun p => p.SetCards kept) sp hs (cardKeys split) []
      (by
        rw [List.append_nil]
        show (cardKeys kept ++ cardKeys split).Perm (cardKeys sp.cards_)
        rw [← cardKeys_append]
        exact cardKeys_perm hperm)
    rwa [List.append_nil] at this
  have nodup1 := (List.Perm.nodup_iff keys1).2 hinv.nodup
  -- a visible card left on the board has a key that no split card has
  have hfresh : ∀ q ∈ (s.modifyPile rs (fun p => p.SetCards kept)).piles, ∀ c ∈ q.cards_,
      c.hidden_ = false → c.key ∉ split.map Card.key := by
    intro q hq c hc hv hmem
    obtain ⟨c0, hc0, hkey⟩ := List.mem_map.1 hmem
    have wf0 := hinv.cards sp hsp_mem c0 (hsplit c0 hc0)
    have wf := cards1 q hq c hc
    cases hh : c0.hidden_ with
    | true => exact key_ne_of_hidden _ c c0 wf wf0 hv hh hkey
    | false =>
      have m1 : c.key ∈ (s.modifyPile rs (fun p => p.SetCards kept)).visibleKeys :=
        (mem_visibleKeys _ _).2 ⟨q, hq, c, hc, hv, rfl⟩
      have m2 : c.key ∈ cardKeys split := (mem_cardKeys _ _).2 ⟨c0, hc0, hh, hkey⟩
      exact (List.disjoint_of_nodup_append nodup1) m1 m2
  -- the target pile after the split
  obtain ⟨tp1, htp1, hid1⟩ : ∃ tp1,
      (s.modifyPile rs (fun p => p.SetCards kept)).pileAt rt = some tp1 ∧ tp1.id_ = tp.id_ := by
    rcases pileAt_modifyPile s rs rt (fun p => p.SetCards kept) tp ht with h | h
    · exact ⟨_, h, rfl⟩
    · exact ⟨_, h, rfl⟩
  have htp1_mem := pileAt_mem_piles _ rt tp1 htp1
  -- the state with the new map
  let s1' : AgnesSorelState :=
    { s.modifyPile rs (fun p => p.SetCards kept) with
      card_map_ := CardMap.insertAll (s.modifyPile rs (fun p => p.SetCards kept)).card_map_
        (split.map Card.key) tp.id_ }
  have hpiles : s1'.piles = (s.modifyPile rs (fun p => p.SetCards kept)).piles := rfl
  have hpileAt : s1'.pileAt rt = some tp1 := by
    cases rt <;> exact htp1
  have ids2 := ids_modifyPile s1' rt (fun p => p.Extend split) (fun p => ⟨rfl, rfl⟩)
  have rev2 : (s1'.modifyPile rt (fun p => p.Extend split)).revealed_cards_ =
      s.revealed_cards_ := by
    rw [revealed_cards_of_control (control_modifyPile s1' rt _)]
    exact rev1
  have map2 : (s1'.modifyPile rt (fun p => p.Extend split)).card_map_ =
      CardMap.insertAll s.card_map_ (split.map Card.key) tp.id_ := by
    rw [card_map_modifyPile]
    show CardMap.insertAll (s.modifyPile rs (fun p => p.SetCards kept)).card_map_ _ _ = _
    rw [map1]
  refine ⟨?_, ?_, ?_, ?_, ?_, ?_⟩
  · rw [ids2.1]; exact ids1.1.trans hinv.waste_id
  · rw [ids2.2.1]; exact ids1.2.1.trans hinv.foundation_ids
  · rw [ids2.2.2]; exact ids1.2.2.trans hinv.tableau_ids
  · rw [rev2]
    refine forall_cards_modifyPile (fun _ c => c.wellFormed s.revealed_cards_) s1' rt _ tp1
      hpileAt cards1 ?_
    intro c hc
    simp only [Pile.Extend, List.mem_append, List.mem_map] at hc
    rcases hc with hc | ⟨c0, hc0, rfl⟩
    · exact cards1 tp1 htp1_mem c hc
    · exact wellFormed_setLocation _ _ _ (hinv.cards sp hsp_mem c0 (hsplit c0 hc0))
  · have k2 := visibleKeys_modifyPile s1' rt (fun p => p.Extend split) tp1 hpileAt []
      (cardKeys split) (by
        rw [List.append_nil]
        show (cardKeys (tp1.cards_ ++ split.map (fun c => c.SetLocation tp1.type_))).Perm
          (cardKeys tp1.cards_ ++ cardKeys split)
        rw [cardKeys_append, cardKeys_setLocation])
    rw [List.append_nil] at k2
    exact (List.Perm.nodup_iff k2).2 nodup1
  · rw [map2]
    refine forall_cards_modifyPile
      (fun q c => c.hidden_ = false →
        CardMap.at (CardMap.insertAll s.card_map_ (split.map Card.key) tp.id_) c.key =
          some q.id_) s1' rt _ tp1 hpileAt ?_ ?_
    · intro q hq c hc hv
      rw [CardMap.at_insertAll, if_neg (hfresh q hq c hc hv)]
      exact located1 q hq c hc hv
    · intro c hc hv
      rw [CardMap.at_insertAll]
      show (if c.key ∈ split.map Card.key then some tp.id_ else CardMap.at s.card_map_ c.key) =
        some tp1.id_
      rw [hid1]
      by_cases hk : c.key ∈ split.map Card.key
      · rw [if_pos hk]
      · rw [if_neg hk]
        simp only [Pile.Extend, List.mem_append, List.mem_map] at hc
        rcases hc with hc | ⟨c0, hc0, rfl⟩
        · rw [← hid1]; exact located1 tp1 htp1_mem c hc hv
        · exact absurd (List.mem_map.2 ⟨c0, hc0, rfl⟩) hk

/-! ## Moves and deals preserve the board invariant -/

theorem MoveCards_invariant (s s' : AgnesSorelState) (move : Move) (hinv : s.BoardInvariant)
    (h : s.MoveCards move = some s') : s'.BoardInvariant := by
  obtain ⟨tr, sr, tp, sp, split, rest, reward, -, -, htp, hsp, hsplit, rfl⟩ :=
    MoveCards_eq_some s s' move h
  obtain ⟨kept, rfl, hperm⟩ := PileRef.Split_perm sr sp move.source_ split rest hsplit
  have := transfer_invariant s sr tr sp tp kept split hinv hsp htp hperm
  exact BoardInvariant_of_eq _ _ this rfl rfl rfl rfl rfl

theorem applyMove_invariant (hasher : String → Nat) (s s' : AgnesSorelState) (action : Int)
    (hinv : s.BoardInvariant) (h : s.applyMove hasher action = some s') :
    s'.BoardInvariant := by
  rw [applyMove_eq] at h
  split at h
  · exact absurd h (by simp)
  · split at h
    · split at h
      · exact absurd h (by simp)
      · rename_i s2 hmc
        have h0 : ({ s with is_reversible_ := false, previous_states_ := [] } :
            AgnesSorelState).BoardInvariant :=
          BoardInvariant_of_eq s _ hinv rfl rfl rfl rfl rfl
        have h2 := MoveCards_invariant _ s2 _ h0 hmc
        cases h
        exact BoardInvariant_of_eq s2 _ h2 rfl rfl rfl rfl rfl
    · exact absurd h (by simp)

theorem dealLoop_invariant (limit : Option Int) :
    ∀ (count idx : Nat) (s s' : AgnesSorelState), s.BoardInvariant →
      AgnesSorelState.dealLoop limit count idx s = some s' → s'.BoardInvariant := by
  intro count
  induction count with
  | zero =>
    intro idx s s' hinv h
    unfold AgnesSorelState.dealLoop at h
    cases h
    exact hinv
  | succ n ih =>
    intro idx s s' hinv h
    unfold AgnesSorelState.dealLoop at h
    split at h
    · split at h
      · rename_i last tableau hlast htab
        refine ih (idx + 1) _ s' ?_ h
        exact transfer_invariant s PileRef.waste (PileRef.tableau idx) s.waste_ tableau
          (Waste.SplitLoop last s.waste_.cards_).1 (Waste.SplitLoop last s.waste_.cards_).2
          hinv rfl htab (wasteSplitLoop_perm last s.waste_.cards_)
      · exact absurd h (by simp)
    · cases h
      exact hinv

theorem applyDeal_invariant (s s' : AgnesSorelState) (hinv : s.BoardInvariant)
    (h : s.applyDeal = some s') : s'.BoardInvariant := by
  unfold AgnesSorelState.applyDeal at h
  split at h
  · exact absurd h (by simp)
  · split at h
    · rw [Option.map_eq_some'] at h
      obtain ⟨s1, h1, rfl⟩ := h
      exact BoardInvariant_of_eq s1 _ (dealLoop_invariant _ _ _ _ _ hinv h1) rfl rfl rfl rfl rfl
    · exact dealLoop_invariant _ _ _ _ _ hinv h

/-! ## The initial state -/

theorem initial_piles (is_colored : Bool) (depth_limit : Int) :
    (AgnesSorelState.new is_colored depth_limit).piles = (AgnesSorelState.new false 0).piles :=
  rfl

theorem initial_cards_hidden :
    ∀ p ∈ (AgnesSorelState.new false 0).piles, ∀ c ∈ p.cards_,
      c.hidden_ = true ∧ c.rank_ = 14 ∧ c.suit_ = 5 := by
  decide

theorem initial_invariant (is_colored : Bool) (depth_limit : Int) :
    (AgnesSorelState.new is_colored depth_limit).BoardInvariant := by
  have hc : ∀ p ∈ (AgnesSorelState.new is_colored depth_limit).piles, ∀ c ∈ p.cards_,
      c.hidden_ = true ∧ c.rank_ = 14 ∧ c.suit_ = 5 := by
    rw [initial_piles]; exact initial_cards_hidden
  refine ⟨rfl, rfl, rfl, ?_, ?_, ?_⟩
  · intro p hp c hcm
    obtain ⟨h1, h2, h3⟩ := hc p hp c hcm
    exact ⟨fun _ => ⟨h2, h3⟩, fun hv => absurd (h1.symm.trans hv) (by decide)⟩
  · have : (AgnesSorelState.new is_colored depth_limit).visibleKeys = [] := by
      apply List.eq_nil_iff_forall_not_mem.2
      intro k hk
      obtain ⟨p, hp, c, hcm, hv, -⟩ := (mem_visibleKeys _ _).1 hk
      exact absurd ((hc p hp c hcm).1.symm.trans hv) (by decide)
    rw [this]
    exact List.nodup_nil
  · intro p hp c hcm hv
    exact absurd ((hc p hp c hcm).1.symm.trans hv) (by decide)

/-! ## From the board invariant to the location invariant -/

theorem countP_eq_one_of_nodup (a : CardKey) : ∀ l : List CardKey, l.Nodup → a ∈ l →
    l.countP (fun k => decide (k = a)) = 1 := by
  intro l
  induction l with
  | nil => intro _ h; simp at h
  | cons x xs ih =>
    intro hn hm
    obtain ⟨hx, hxs⟩ := List.nodup_cons.1 hn
    rw [List.countP_cons]
    by_cases e : x = a
    · subst e
      have h0 : xs.countP (fun k => decide (k = x)) = 0 := by
        rw [List.countP_eq_zero]
        intro k hk
        simp only [decide_eq_true_eq]
        intro e
        exact hx (e ▸ hk)
      rw [h0]
      simp
    · have hm' : a ∈ xs := by
        rcases List.mem_cons.1 hm with h | h
        · exact absurd h.symm e
        · exact h
      rw [ih hxs hm']
      simp [e]

theorem equals_iff_key (x c : Card) : x.equals c = decide (x.key = c.key) := by
  unfold Card.equals Card.key
  by_cases h1 : x.rank_ = c.rank_ <;> by_cases h2 : x.suit_ = c.suit_ <;> simp [h1, h2]

theorem countP_equals_eq_count (revealed : List Int) (c : Card) (hv : c.hidden_ = false)
    (hc : c.wellFormed revealed) : ∀ l : List Card, (∀ x ∈ l, x.wellFormed revealed) →
    l.countP (fun x => x.equals c) = (cardKeys l).countP (fun k => decide (k = c.key)) := by
  intro l
  induction l with
  | nil => intro _; rfl
  | cons x xs ih =>
    intro hl
    have hx := hl x (List.mem_cons_self _ _)
    have ih' := ih (fun y hy => hl y (List.mem_cons_of_mem _ hy))
    rw [List.countP_cons, ih', equals_iff_key]
    cases hh : x.hidden_ with
    | true =>
      have hne : x.key ≠ c.key := key_ne_of_hidden revealed c x hc hx hv hh
      have ek : cardKeys (x :: xs) = cardKeys xs := by
        unfold cardKeys
        simp [List.filter_cons, hh]
      rw [ek]
      simp [hne]
    | false =>
      have ek : cardKeys (x :: xs) = x.key :: cardKeys xs := by
        unfold cardKeys
        simp [List.filter_cons, hh]
      rw [ek, List.countP_cons]

theorem cardKeys_allCards (ps : List Pile) :
    cardKeys (ps.flatMap (fun p => p.cards_)) = ps.flatMap Pile.keys := by
  induction ps with
  | nil => rfl
  | cons p rest ih =>
    simp only [List.flatMap_cons, cardKeys_append, ih]
    rfl

theorem LocationInvariant_of_BoardInvariant (s : AgnesSorelState) (h : s.BoardInvariant) :
    s.LocationInvariant := by
  refine ⟨?_, ?_⟩
  · have e : s.piles.map (fun p => p.id_) =
        s.waste_.id_ :: ((s.foundations_.map (fun f => (f.suit_, f.id_))).map (fun x => x.2)
          ++ s.tableaus_.map (fun t => t.id_)) := by
      simp only [AgnesSorelState.piles, List.map_cons, List.map_append, List.map_map]
      rfl
    rw [e, h.waste_id, h.foundation_ids, h.tableau_ids]
    decide
  · intro p hp c hc hv
    refine ⟨?_, h.located p hp c hc hv⟩
    have hall : ∀ x ∈ s.allCards, x.wellFormed s.revealed_cards_ := by
      intro x hx
      unfold AgnesSorelState.allCards at hx
      obtain ⟨q, hq, hxq⟩ := List.mem_flatMap.1 hx
      exact h.cards q hq x hxq
    rw [countP_equals_eq_count s.revealed_cards_ c hv (h.cards p hp c hc) s.allCards hall]
    unfold AgnesSorelState.allCards
    rw [cardKeys_allCards]
    have hmem : c.key ∈ s.piles.flatMap Pile.keys :=
      (mem_visibleKeys s c.key).2 ⟨p, hp, c, hc, hv, rfl⟩
    exact countP_eq_one_of_nodup c.key _ h.nodup hmem

/-! ## Reveals preserve the board invariant -/

theorem ofIndex_facts : ∀ a : Int, 1 ≤ a → a ≤ 52 →
    (Card.ofIndex a false LocationType.kMissing).hidden_ = false ∧
    (Card.ofIndex a false LocationType.kMissing).ordinary ∧
    ((Card.ofIndex a false LocationType.kMissing).suit_ - 1) * 13
      + (Card.ofIndex a false LocationType.kMissing).rank_ = a := by
  decide!

theorem wellFormed_mono (revealed : List Int) (a : Int) (c : Card)
    (h : c.wellFormed revealed) : c.wellFormed (revealed ++ [a]) :=
  ⟨h.1, fun hv => ⟨(h.2 hv).1, List.mem_append_left _ (h.2 hv).2⟩⟩

theorem BoardInvariant_revealed_append (s s' : AgnesSorelState) (a : Int)
    (h : s.BoardInvariant) (hw : s'.waste_ = s.waste_) (hf : s'.foundations_ = s.foundations_)
    (ht : s'.tableaus_ = s.tableaus_) (hm : s'.card_map_ = s.card_map_)
    (hr : s'.revealed_cards_ = s.revealed_cards_ ++ [a]) : s'.BoardInvariant := by
  have hp : s'.piles = s.piles := by
    unfold AgnesSorelState.piles; rw [hw, hf, ht]
  have hk : s'.visibleKeys = s.visibleKeys := by
    unfold AgnesSorelState.visibleKeys; rw [hp]
  refine ⟨?_, ?_, ?_, ?_, ?_, ?_⟩
  · rw [hw]; exact h.waste_id
  · rw [hf]; exact h.foundation_ids
  · rw [ht]; exact h.tableau_ids
  · rw [hp, hr]; exact fun p hp c hc => wellFormed_mono _ a c (h.cards p hp c hc)
  · rw [hk]; exact h.nodup
  · rw [hp, hm]; exact h.located

/-- One pile gains the revealed card, the map records it, the id joins the
revealed ids: the invariant is preserved when the id is new -/
theorem reveal_invariant (s s' : AgnesSorelState) (r : PileRef) (p : Pile) (f : Pile → Pile)
    (a : Int) (hinv : s.BoardInvariant) (ha : 1 ≤ a ∧ a ≤ 52) (hnew : a ∉ s.revealed_cards_)
    (hp : s.pileAt r = some p) (hf : ∀ q, (f q).id_ = q.id_ ∧ (f q).suit_ = q.suit_)
    (hk : ((f p).keys ++ []).Perm
      (p.keys ++ [(Card.ofIndex a false LocationType.kMissing).key]))
    (hc : ∀ c ∈ (f p).cards_, c ∈ p.cards_ ∨
      (c.hidden_ = false ∧ c.rank_ = (Card.ofIndex a false LocationType.kMissing).rank_ ∧
        c.suit_ = (Card.ofIndex a false LocationType.kMissing).suit_))
    (hw : s'.waste_ = (s.modifyPile r f).waste_)
    (hfo : s'.foundations_ = (s.modifyPile r f).foundations_)
    (hta : s'.tableaus_ = (s.modifyPile r f).tableaus_)
    (hm : s'.card_map_ = CardMap.insert_or_assign s.card_map_
      (Card.ofIndex a false LocationType.kMissing).key p.id_)
    (hr : s'.revealed_cards_ = s.revealed_cards_ ++ [a]) : s'.BoardInvariant := by
  obtain ⟨rc_vis, rc_ord, rc_idx⟩ := ofIndex_facts a ha.1 ha.2
  have hpiles : s'.piles = (s.modifyPile r f).piles := by
    unfold AgnesSorelState.piles; rw [hw, hfo, hta]
  have hkeys : s'.visibleKeys = (s.modifyPile r f).visibleKeys := by
    unfold AgnesSorelState.visibleKeys; rw [hpiles]
  have ids := ids_modifyPile s r f hf
  have hp_mem := pileAt_mem_piles s r p hp
  -- no visible card of the board has the key of the revealed card
  have hfresh : ∀ q ∈ s.piles, ∀ c ∈ q.cards_, c.hidden_ = false →
      c.key ≠ (Card.ofIndex a false LocationType.kMissing).key := by
    intro q hq c hcq hv e
    have wf := (hinv.cards q hq c hcq).2 hv
    unfold Card.key at e
    simp only [Prod.mk.injEq] at e
    apply hnew
    have : (c.suit_ - 1) * 13 + c.rank_ = a := by rw [e.1, e.2]; exact rc_idx
    rw [← this]
    exact wf.2
  refine ⟨?_, ?_, ?_, ?_, ?_, ?_⟩
  · rw [hw, ids.1]; exact hinv.waste_id
  · rw [hfo, ids.2.1]; exact hinv.foundation_ids
  · rw [hta, ids.2.2]; exact hinv.tableau_ids
  · rw [hpiles, hr]
    refine forall_cards_modifyPile (fun _ c => c.wellFormed (s.revealed_cards_ ++ [a])) s r f p hp
      (fun q hq c hcq => wellFormed_mono _ a c (hinv.cards q hq c hcq)) ?_
    intro c hcm
    rcases hc c hcm with h | ⟨h1, h2, h3⟩
    · exact wellFormed_mono _ a c (hinv.cards p hp_mem c h)
    · refine ⟨fun hh => absurd (h1.symm.trans hh) (by decide), fun _ => ⟨?_, ?_⟩⟩
      · unfold Card.ordinary at rc_ord ⊢
        rw [h2, h3]; exact rc_ord
      · rw [h2, h3, rc_idx]
        exact List.mem_append_right _ (List.mem_singleton_self a)
  · rw [hkeys]
    have k := visibleKeys_modifyPile s r f p hp []
      [(Card.ofIndex a false LocationType.kMissing).key] hk
    rw [List.append_nil] at k
    rw [List.Perm.nodup_iff k]
    rw [List.nodup_append]
    refine ⟨hinv.nodup, List.nodup_singleton _, ?_⟩
    intro x hx1 hx2
    rw [List.mem_singleton] at hx2
    obtain ⟨q, hq, c, hcq, hv, hkey⟩ := (mem_visibleKeys s x).1 hx1
    exact hfresh q hq c hcq hv (hkey.trans hx2)
  · rw [hpiles, hm]
    refine forall_cards_modifyPile
      (fun q c => c.hidden_ = false →
        CardMap.at (CardMap.insert_or_assign s.card_map_
          (Card.ofIndex a false LocationType.kMissing).key p.id_) c.key = some q.id_)
      s r f p hp ?_ ?_
    · intro q hq c hcq hv
      rw [CardMap.at_insert_or_assign, if_neg (hfresh q hq c hcq hv)]
      exact hinv.located q hq c hcq hv
    · intro c hcm hv
      rw [CardMap.at_insert_or_assign]
      show _ = some (f p).id_
      rw [(hf p).1]
      rcases hc c hcm with h | ⟨h1, h2, h3⟩
      · rw [if_neg (hfresh p hp_mem c h hv)]
        exact hinv.located p hp_mem c h hv
      · have e : c.key = (Card.ofIndex a false LocationType.kMissing).key := by
          unfold Card.key; rw [h2, h3]
        rw [if_pos e]

theorem RevealLoop_spec (rc : Card) : ∀ cards : List Card,
    cards.any (fun c => c.hidden_) = true →
    (cardKeys (RevealLoop rc cards) ++ []).Perm (cardKeys cards ++ [rc.key]) ∧
    ∀ c ∈ RevealLoop rc cards, c ∈ cards ∨
      (c.hidden_ = false ∧ c.rank_ = rc.rank_ ∧ c.suit_ = rc.suit_) := by
  intro cards
  induction cards with
  | nil => intro h; simp at h
  | cons x xs ih =>
    intro h
    unfold RevealLoop
    cases hh : x.hidden_ with
    | true =>
      simp only [if_true]
      constructor
      · rw [List.append_nil]
        have e1 : cardKeys ({ x with rank_ := rc.rank_, suit_ := rc.suit_, hidden_ := false }
            :: xs) = rc.key :: cardKeys xs := by
          unfold cardKeys
          simp [List.filter_cons]
          rfl
        have e2 : cardKeys (x :: xs) = cardKeys xs := by
          unfold cardKeys
          simp [List.filter_cons, hh]
        rw [e1, e2]
        exact (List.perm_append_singleton _ _).symm
      · intro c hc
        rcases List.mem_cons.1 hc with h1 | h1
        · subst h1
          exact Or.inr ⟨rfl, rfl, rfl⟩
        · exact Or.inl (List.mem_cons_of_mem _ h1)
    | false =>
      simp only [Bool.false_eq_true, if_false]
      have hxs : xs.any (fun c => c.hidden_) = true := by
        simp only [List.any_cons, hh, Bool.false_or] at h
        exact h
      obtain ⟨ih1, ih2⟩ := ih hxs
      constructor
      · have e1 : ∀ l : List Card, cardKeys (x :: l) = x.key :: cardKeys l := by
          intro l
          unfold cardKeys
          simp [List.filter_cons, hh]
        rw [e1, e1]
        simp only [List.cons_append]
        exact List.Perm.cons _ ih1
      · intro c hc
        rcases List.mem_cons.1 hc with h1 | h1
        · exact Or.inl (by rw [h1]; exact List.mem_cons_self _ _)
        · rcases ih2 c h1 with h2 | h2
          · exact Or.inl (List.mem_cons_of_mem _ h2)
          · exact Or.inr h2

theorem revealInTableaus_some (rc : Card) : ∀ (ts : List Pile) (r : List Pile × Nat),
    revealInTableaus rc ts = some r →
    ∃ i t, ts[i]? = some t ∧ r.1 = modifyAt (fun t => Tableau.Reveal t rc) i ts ∧
      r.2 = t.id_ ∧ t.cards_.any (fun c => c.hidden_) = true := by
  intro ts
  induction ts with
  | nil => intro r h; simp [revealInTableaus] at h
  | cons t rest ih =>
    intro r h
    unfold revealInTableaus at h
    by_cases hc : (!t.GetIsEmpty && t.cards_.any (fun card => card.hidden_)) = true
    · rw [if_pos hc] at h
      simp only [Option.some.injEq] at h
      subst h
      simp only [Bool.and_eq_true] at hc
      exact ⟨0, t, List.getElem?_cons_zero, rfl, rfl, hc.2⟩
    · rw [if_neg hc] at h
      rw [Option.map_eq_some'] at h
      obtain ⟨r0, h0, rfl⟩ := h
      obtain ⟨i, t0, h1, h2, h3, h4⟩ := ih r0 h0
      refine ⟨i + 1, t0, ?_, ?_, h3, h4⟩
      · simp only [List.getElem?_cons_succ, h1]
      · simp only [modifyAt, h2]

theorem revealInTableaus_none (rc : Card) : ∀ ts : List Pile,
    ts.any (fun tableau =>
      !tableau.GetIsEmpty && tableau.cards_.any (fun card => card.hidden_)) = false →
    revealInTableaus rc ts = none := by
  intro ts
  induction ts with
  | nil => intro _; rfl
  | cons t rest ih =>
    intro h
    simp only [List.any_cons, Bool.or_eq_false_iff] at h
    unfold revealInTableaus
    rw [if_neg (by rw [h.1]; exact Bool.false_ne_true), ih h.2]
    rfl

/-- The four foundations: the one of a suit is found by the suit, carries the
pile id of `kSuitToPile`, and is the only one the seeding loop extends -/
theorem seed_foundations (fs : List Pile) (suit : Int) (g : Pile → Pile)
    (hids : fs.map (fun f => (f.suit_, f.id_)) = [(1, 1), (2, 2), (3, 3), (4, 4)])
    (hs : 1 ≤ suit ∧ suit ≤ 4) :
    ∃ i p, fs[i]? = some p ∧ kSuitToPile suit = some p.id_ ∧
      fs.map (fun f => if f.suit_ = suit then g f else f) = modifyAt g i fs := by
  rcases fs with _ | ⟨f1, _ | ⟨f2, _ | ⟨f3, _ | ⟨f4, _ | ⟨f5, rest⟩⟩⟩⟩⟩
  · simp at hids
  · simp at hids
  · simp at hids
  · simp at hids
  · simp only [List.map_cons, List.map_nil, List.cons.injEq, Prod.mk.injEq, and_true] at hids
    obtain ⟨⟨s1, i1⟩, ⟨s2, i2⟩, ⟨s3, i3⟩, ⟨s4, i4⟩⟩ := hids
    obtain ⟨h1, h2⟩ := hs
    interval_cases suit
    · exact ⟨0, f1, rfl, by rw [i1]; rfl, by simp [modifyAt, s1, s2, s3, s4]⟩
    · exact ⟨1, f2, rfl, by rw [i2]; rfl, by simp [modifyAt, s1, s2, s3, s4]⟩
    · exact ⟨2, f3, rfl, by rw [i3]; rfl, by simp [modifyAt, s1, s2, s3, s4]⟩
    · exact ⟨3, f4, rfl, by rw [i4]; rfl, by simp [modifyAt, s1, s2, s3, s4]⟩
  · simp at hids

theorem not_chance_facts (s : AgnesSorelState) (h : s.IsChanceNode = false) :
    s.tableaus_.any (fun tableau =>
      !tableau.GetIsEmpty && tableau.cards_.any (fun card => card.hidden_)) = false ∧
    s.is_known_foundation_ = true := by
  unfold AgnesSorelState.IsChanceNode at h
  simp only [Bool.or_eq_false_iff, Bool.not_eq_false'] at h
  exact h

theorem applyReveal_invariant (s s' : AgnesSorelState) (action : Int)
    (hinv : s.BoardInvariant) (ha : 1 ≤ action ∧ action ≤ 52)
    (hlegal : action ∉ s.revealed_cards_ ∨ s.IsChanceNode = false)
    (h : s.applyReveal action = some s') : s'.BoardInvariant := by
  obtain ⟨rc_vis, rc_ord, rc_idx⟩ := ofIndex_facts action ha.1 ha.2
  unfold AgnesSorelState.applyReveal at h
  simp only [] at h
  cases hr : revealInTableaus (Card.ofIndex action false LocationType.kMissing) s.tableaus_ with
  | some r =>
    rw [hr] at h
    simp only [Option.map_some', Option.getD_some, Option.isSome_some, Bool.not_true,
      Bool.and_false, Bool.false_eq_true, if_false, Option.some.injEq] at h
    subst h
    obtain ⟨i, t, h1, h2, h3, h4⟩ := revealInTableaus_some _ _ r hr
    have hnew : action ∉ s.revealed_cards_ := by
      rcases hlegal with hl | hl
      · exact hl
      · rw [revealInTableaus_none _ _ (not_chance_facts s hl).1] at hr
        exact absurd hr (by simp)
    obtain ⟨k1, k2⟩ := RevealLoop_spec (Card.ofIndex action false LocationType.kMissing)
      t.cards_ h4
    exact reveal_invariant s _ (PileRef.tableau i) t
      (fun t => Tableau.Reveal t (Card.ofIndex action false LocationType.kMissing)) action hinv ha
      hnew h1 (fun q => ⟨rfl, rfl⟩) k1 k2 rfl rfl h2 (by rw [h3]) rfl
  | none =>
    rw [hr] at h
    simp only [Option.map_none', Option.getD_none, Option.isSome_none, Bool.not_false,
      Bool.and_true] at h
    cases hk : s.is_known_foundation_ with
    | true =>
      rw [hk] at h
      simp only [Bool.not_true, Bool.false_eq_true, if_false, Option.some.injEq] at h
      subst h
      exact BoardInvariant_revealed_append s _ action hinv rfl rfl rfl rfl rfl
    | false =>
      rw [hk] at h
      simp only [Bool.not_false, if_true] at h
      have hnew : action ∉ s.revealed_cards_ := by
        rcases hlegal with hl | hl
        · exact hl
        · rw [(not_chance_facts s hl).2] at hk
          exact absurd hk (by decide)
      obtain ⟨i, p, hp, hpile, hmap⟩ := seed_foundations s.foundations_
        (Card.ofIndex action false LocationType.kMissing).suit_
        (fun f => f.Extend [Card.ofIndex action false LocationType.kMissing])
        hinv.foundation_ids ⟨rc_ord.2.2.1, rc_ord.2.2.2⟩
      rw [hpile] at h
      simp only [Option.some.injEq] at h
      subst h
      refine reveal_invariant s _ (PileRef.foundation i) p
        (fun f => f.Extend [Card.ofIndex action false LocationType.kMissing]) action hinv ha
        hnew hp (fun q => ⟨rfl, rfl⟩) ?_ ?_ rfl hmap rfl rfl rfl
      · rw [List.append_nil]
        show (cardKeys (p.cards_ ++ [(Card.ofIndex action false LocationType.kMissing).SetLocation
          p.type_])).Perm _
        rw [cardKeys_append]
        have e : cardKeys [(Card.ofIndex action false LocationType.kMissing).SetLocation p.type_]
            = [(Card.ofIndex action false LocationType.kMissing).key] := by
          unfold cardKeys
          have : ((Card.ofIndex action false LocationType.kMissing).SetLocation p.type_).hidden_
              = false := rc_vis
          simp [List.filter_cons, this]
          rfl
        rw [e]
        exact List.Perm.refl _
      · intro c hc
        simp only [Pile.Extend, List.map_cons, List.map_nil, List.mem_append,
          List.mem_singleton] at hc
        rcases hc with hc | hc
        · exact Or.inl hc
        · subst hc
          exact Or.inr ⟨rc_vis, rfl, rfl⟩

theorem DoApplyAction_invariant (hasher : String → Nat) (s s' : AgnesSorelState) (action : Int)
    (hinv : s.BoardInvariant)
    (hlegal : action ∉ s.revealed_cards_ ∨ s.IsChanceNode = false)
    (h : s.DoApplyAction hasher action = some s') : s'.BoardInvariant := by
  unfold AgnesSorelState.DoApplyAction at h
  simp only [] at h
  rw [Option.map_eq_some'] at h
  obtain ⟨s1, hb, rfl⟩ := h
  have h1 : s1.BoardInvariant := by
    split at hb
    · cases hb
      exact BoardInvariant_of_eq s _ hinv rfl rfl rfl rfl rfl
    · split at hb
      · rename_i hrange
        exact applyReveal_invariant s s1 action hinv hrange hlegal hb
      · split at hb
        · exact applyMove_invariant hasher s s1 action hinv hb
        · split at hb
          · exact applyDeal_invariant s s1 hinv hb
          · cases hb; exact hinv
  split
  · exact BoardInvariant_of_eq s1 _ h1 rfl rfl rfl rfl rfl
  · exact BoardInvariant_of_eq s1 _ h1 rfl rfl rfl rfl rfl

/-- An action that `LegalActions` offers at a chance node is a Reveal id that
has not been revealed yet -/
theorem LegalActions_fresh (hasher : String → Nat) (s : AgnesSorelState) (legal : List Int)
    (action : Int) (h : s.LegalActions hasher = some legal) (ha : action ∈ legal) :
    action ∉ s.revealed_cards_ ∨ s.IsChanceNode = false := by
  unfold AgnesSorelState.LegalActions at h
  by_cases ht : s.IsTerminal = true
  · rw [if_pos ht] at h
    cases h
    simp at ha
  · rw [if_neg ht] at h
    by_cases hc : s.IsChanceNode = true
    · rw [if_pos hc] at h
      cases h
      left
      unfold AgnesSorelState.LegalChanceOutcomes AgnesSorelState.ChanceOutcomes at ha
      simp only [List.mem_map, List.mem_filterMap] at ha
      obtain ⟨o, ⟨i, -, hi⟩, rfl⟩ := ha
      by_cases hm : i ∈ s.revealed_cards_
      · rw [if_pos hm] at hi; exact absurd hi (by simp)
      · rw [if_neg hm] at hi
        cases hi
        exact hm
    · right
      simpa using hc

theorem reachable_invariant (hasher : String → Nat) (s : AgnesSorelState)
    (h : Reachable hasher s) : s.BoardInvariant := by
  induction h with
  | initial is_colored depth_limit => exact initial_invariant is_colored depth_limit
  | step s s' legal action _ hl ha hd ih =>
    exact DoApplyAction_invariant hasher s s' action ih
      (LegalActions_fresh hasher s legal action hl ha) hd

theorem playLegal_reachable (hasher : String → Nat) (actions : List Int) :
    ∀ s s' : AgnesSorelState, Reachable hasher s → s.playLegal hasher actions = some s' →
      Reachable hasher s' := by
  induction actions with
  | nil =>
    intro s s' hr h
    unfold AgnesSorelState.playLegal at h
    cases h
    exact hr
  | cons a rest ih =>
    intro s s' hr h
    unfold AgnesSorelState.playLegal at h
    split at h
    · exact absurd h (by simp)
    · rename_i legal hl
      split at h
      · rename_i hmem
        split at h
        · exact absurd h (by simp)
        · rename_i s1 hd
          exact ih s1 s' (Reachable.step s s1 legal a hr hl hmem hd) h
      · exact absurd h (by simp)

/-- C5: in every state reached from the initial state by legal actions the
piles carry the ids 0..11 in order, and every non-hidden card held in a pile
is equal (rank and suit) to exactly one card over the waste, the foundations
and the tableaus, and `card_map_` maps it to the id of the pile that holds
it. -/
theorem location_invariant_of_reachable (hasher : String → Nat) (s : AgnesSorelState)
    (h : Reachable hasher s) : s.LocationInvariant :=
  LocationInvariant_of_BoardInvariant s (reachable_invariant hasher s h)

set_option maxRecDepth 1000000 in
/-- C5, at the state after the 29 reveals of the sample deal and the move of
the five of spades onto the six of spades -/
theorem location_invariant_of_reachable_witness :
    ∃ s, (AgnesSorelState.new false 150).playLegal constantHasher (sampleReveals ++ [161])
        = some s ∧
      Reachable constantHasher s ∧ s.LocationInvariant := by
  have hs : ((AgnesSorelState.new false 150).playLegal constantHasher
      (sampleReveals ++ [161])).isSome = true := by decide!
  obtain ⟨s, hs⟩ := Option.isSome_iff_exists.1 hs
  have hr := playLegal_reachable constantHasher _ _ s (Reachable.initial false 150) hs
  exact ⟨s, hs, hr, location_invariant_of_reachable constantHasher s hr⟩

/-! ## The initial state, `End`, terminal states and `Deal` on an empty waste -/

theorem initial_ChanceOutcomes (is_colored : Bool) (depth_limit : Int) :
    (AgnesSorelState.new is_colored depth_limit).ChanceOutcomes =
      (List.range 52).map (fun (k : Nat) =>
        ((k : Int) + 1, DoubleValue.finite (doubleReciprocal 52))) := by
  unfold AgnesSorelState.ChanceOutcomes
  have hr : (AgnesSorelState.new is_colored depth_limit).revealed_cards_ = [] := rfl
  rw [hr]
  have h52 : (((52 : Int) - (([] : List Int).length : Int)) % 2 ^ 64).toNat = 52 := by decide
  have hd : doubleOfUnsigned 52 = 52 := by decide
  simp only [List.not_mem_nil, if_false, h52, hd]
  rfl

theorem doubleReciprocal_52 : doubleReciprocal 52 = 5542891849071380 / 2 ^ 58 := by
  decide!

/-- C11 (counterexample): in the initial state every chance outcome has the
probability that the `double` division `1.0 / 52` returns, the binary64 number
5542891849071380 / 2^58, and this number is not 1/52. -/
theorem initial_probability_is_not_one_over_52 :
    (AgnesSorelState.new false 150).ChanceOutcomes.map Prod.snd =
      List.replicate 52 (DoubleValue.finite (5542891849071380 / 2 ^ 58))
    ∧ (5542891849071380 / 2 ^ 58 : ℚ) ≠ 1 / 52
    ∧ DoubleValue.finite (5542891849071380 / 2 ^ 58) ≠ DoubleValue.finite (1 / 52) := by
  refine ⟨?_, by norm_num, ?_⟩
  · rw [initial_ChanceOutcomes, doubleReciprocal_52, List.map_map]
    rfl
  · intro h
    have h' : (5542891849071380 / 2 ^ 58 : ℚ) = 1 / 52 := DoubleValue.finite.inj h
    norm_num at h'

/-- C11: the initial state of a game, whatever its two parameters: tableau
`i` (1..7) holds `i` hidden cards, the waste 23 hidden cards, the four
foundations are empty; the state is a chance node and not terminal;
`LegalActions` returns exactly the Reveal ids 1..52 and `ChanceOutcomes` gives
each of them the probability `1.0 / 52` computed in `double`: the binary64
number 5542891849071380 / 2^58, which lies within 2^-59 of 1/52. -/
theorem initial_state_is_chance_node (hasher : String → Nat) (is_colored : Bool)
    (depth_limit : Int) :
    (AgnesSorelState.new is_colored depth_limit).tableaus_.map (fun t => t.cards_) =
        (List.range 7).map (fun k => List.replicate (k + 1) (hiddenCard LocationType.kTableau))
    ∧ (AgnesSorelState.new is_colored depth_limit).waste_.cards_ =
        List.replicate 23 (hiddenCard LocationType.kWaste)
    ∧ (∀ location, (hiddenCard location).hidden_ = true)
    ∧ (AgnesSorelState.new is_colored depth_limit).foundations_.map (fun f => f.cards_) =
        [[], [], [], []]
    ∧ (AgnesSorelState.new is_colored depth_limit).IsChanceNode = true
    ∧ (AgnesSorelState.new is_colored depth_limit).IsTerminal = false
    ∧ (AgnesSorelState.new is_colored depth_limit).LegalActions hasher =
        some ((List.range 52).map (fun (k : Nat) => (k : Int) + 1))
    ∧ (AgnesSorelState.new is_colored depth_limit).ChanceOutcomes =
        (List.range 52).map (fun (k : Nat) =>
          ((k : Int) + 1, DoubleValue.finite (doubleReciprocal 52)))
    ∧ doubleReciprocal 52 = 5542891849071380 / 2 ^ 58
    ∧ (1 / 52 - 1 / 2 ^ 59 ≤ doubleReciprocal 52 ∧ doubleReciprocal 52 ≤ 1 / 52 + 1 / 2 ^ 59) := by
  refine ⟨rfl, rfl, fun _ => rfl, rfl, rfl, rfl, ?_, initial_ChanceOutcomes _ _,
    doubleReciprocal_52, ?_⟩
  · unfold AgnesSorelState.LegalActions
    have ht : (AgnesSorelState.new is_colored depth_limit).IsTerminal = false := rfl
    have hc : (AgnesSorelState.new is_colored depth_limit).IsChanceNode = true := rfl
    rw [ht, hc]
    simp only [Bool.false_eq_true, if_false, if_true]
    unfold AgnesSorelState.LegalChanceOutcomes
    rw [initial_ChanceOutcomes, List.map_map]
    rfl
  · rw [doubleReciprocal_52]
    constructor <;> norm_num

theorem DoApplyAction_end (hasher : String → Nat) (s : AgnesSorelState) :
    s.DoApplyAction hasher kEnd =
      some { s with is_finished_ := true, current_rewards_ := 0,
                    current_depth_ := s.current_depth_ + 1 } := by
  unfold AgnesSorelState.DoApplyAction
  simp only [if_true, Option.map_some']
  split <;> rfl

/-- C15: `End` applied to a state (terminal or not) returns a state that is
terminal and whose step reward is 0; the cumulative return, the waste, the
foundations, the tableaus and the foundation rank are those of the state
before. -/
theorem end_makes_terminal_and_keeps_board (hasher : String → Nat) (s : AgnesSorelState) :
    ∃ s', s.DoApplyAction hasher kEnd = some s' ∧ s'.IsTerminal = true ∧
      s'.Rewards = [0] ∧ s'.Returns = s.Returns ∧ s'.waste_ = s.waste_ ∧
      s'.foundations_ = s.foundations_ ∧ s'.tableaus_ = s.tableaus_ ∧
      s'.foundation_rank_ = s.foundation_rank_ :=
  ⟨_, DoApplyAction_end hasher s, rfl, rfl, rfl, rfl, rfl, rfl, rfl⟩

/-- C16: in a terminal state `LegalActions` returns the empty list. The
state is terminal exactly when `is_finished_` is set, which `DoApplyAction`
does for `End` and when the depth limit is reached. -/
theorem LegalActions_of_terminal (hasher : String → Nat) (s : AgnesSorelState)
    (h : s.IsTerminal = true) : s.LegalActions hasher = some [] := by
  unfold AgnesSorelState.LegalActions
  rw [h]
  rfl

theorem LegalActions_of_terminal_witness :
    (AgnesSorelState.new false 150).DoApplyAction constantHasher kEnd = some endedState ∧
    endedState.IsTerminal = true ∧ endedState.LegalActions constantHasher = some [] :=
  ⟨by decide, rfl, LegalActions_of_terminal constantHasher endedState rfl⟩

/-- C19: `Deal` applied to a state whose waste is empty aborts: `DoApplyAction`
returns no state. -/
theorem deal_on_empty_waste_aborts (hasher : String → Nat) (s : AgnesSorelState)
    (h : s.waste_.GetIsEmpty = true) : s.DoApplyAction hasher kDeal = none := by
  rw [DoApplyAction_deal]
  unfold AgnesSorelState.applyDeal
  rw [if_pos h]
  rfl

theorem deal_on_empty_waste_aborts_witness :
    emptyWasteState.waste_.GetIsEmpty = true ∧
    emptyWasteState.DoApplyAction constantHasher kDeal = none :=
  ⟨rfl, deal_on_empty_waste_aborts constantHasher emptyWasteState rfl⟩

/-! ## Legal children of a tableau card -/

theorem LegalChildren_ordinary : ∀ rank suit : Int, 1 ≤ rank → rank ≤ 13 → 1 ≤ suit → suit ≤ 4 →
    ∀ index : Int,
    Card.LegalChildren { rank_ := rank, suit_ := suit, location_ := LocationType.kTableau,
                         hidden_ := false, index_ := index } =
      some [Card.new false (if suit = 1 ∨ suit = 3 then 1 else 2)
              (if rank = 1 then 13 else rank - 1) LocationType.kMissing,
            Card.new false (if suit = 1 ∨ suit = 3 then 3 else 4)
              (if rank = 1 then 13 else rank - 1) LocationType.kMissing] := by
  intro rank suit h1 h2 h3 h4 index
  interval_cases rank <;> interval_cases suit <;> rfl

/-- C20: `LegalChildren()` of a card that is not hidden and located in a
tableau. For the empty-tableau sentinel (rank and suit `kNone`) the result is
the list of 52 cards whose entry `k` has suit `k / 13 + 1` and rank
`k % 13 + 1`: every entry is an ordinary card, no two entries agree in suit
and rank, so each of the 52 ordinary cards occurs exactly once. For an ordinary
card the result is exactly two cards, both of the rank below (King for an
Ace): spades and clubs for a spade or a club, hearts and diamonds for a heart
or a diamond. -/
theorem LegalChildren_of_tableau_card (p : Card) (hh : p.hidden_ = false)
    (hl : p.location_ = LocationType.kTableau) :
    (p.rank_ = RankType.kNone → p.suit_ = SuitType.kNone →
      p.LegalChildren = some ((List.range 52).map (fun (k : Nat) =>
        Card.new false ((k / 13 : Nat) + 1) ((k % 13 : Nat) + 1) LocationType.kMissing))
      ∧ (∀ c ∈ (List.range 52).map (fun (k : Nat) =>
          Card.new false ((k / 13 : Nat) + 1) ((k % 13 : Nat) + 1) LocationType.kMissing),
          c.ordinary)
      ∧ (((List.range 52).map (fun (k : Nat) =>
          Card.new false ((k / 13 : Nat) + 1) ((k % 13 : Nat) + 1) LocationType.kMissing)).map
            Card.key).Nodup)
    ∧ (p.ordinary →
      p.LegalChildren =
        some [Card.new false (if p.suit_ = 1 ∨ p.suit_ = 3 then 1 else 2)
                (if p.rank_ = 1 then 13 else p.rank_ - 1) LocationType.kMissing,
              Card.new false (if p.suit_ = 1 ∨ p.suit_ = 3 then 3 else 4)
                (if p.rank_ = 1 then 13 else p.rank_ - 1) LocationType.kMissing]) := by
  obtain ⟨rank, suit, location, hidden, index⟩ := p
  simp only at hh hl
  subst hh hl
  refine ⟨?_, ?_⟩
  · intro hr hs
    simp only at hr hs
    subst hr hs
    exact ⟨rfl, by decide, by decide⟩
  · intro ho
    obtain ⟨h1, h2, h3, h4⟩ := ho
    exact LegalChildren_ordinary rank suit h1 h2 h3 h4 index

theorem LegalChildren_of_tableau_card_witness :
    (Card.new false SuitType.kNone RankType.kNone LocationType.kTableau).LegalChildren =
      some ((List.range 52).map (fun (k : Nat) =>
        Card.new false ((k / 13 : Nat) + 1) ((k % 13 : Nat) + 1) LocationType.kMissing))
    ∧ (Card.new false 3 1 LocationType.kTableau).LegalChildren =
      some [Card.new false 1 13 LocationType.kMissing, Card.new false 3 13 LocationType.kMissing]
    ∧ (Card.new false 2 7 LocationType.kTableau).LegalChildren =
      some [Card.new false 2 6 LocationType.kMissing, Card.new false 4 6 LocationType.kMissing] :=
  ⟨((LegalChildren_of_tableau_card
      (Card.new false SuitType.kNone RankType.kNone LocationType.kTableau) rfl rfl).1 rfl rfl).1,
   (LegalChildren_of_tableau_card (Card.new false 3 1 LocationType.kTableau) rfl rfl).2
      (by decide),
   (LegalChildren_of_tableau_card (Card.new false 2 7 LocationType.kTableau) rfl rfl).2
      (by decide)⟩

/-! ## The step depth and the terminal flag -/

theorem clock_of_control {s s' : AgnesSorelState} (h : s'.control = s.control) :
    s'.is_finished_ = s.is_finished_ ∧ s'.current_depth_ = s.current_depth_ ∧
    s'.depth_limit_ = s.depth_limit_ := by
  have e1 := congrArg (fun c => c.2.1) h
  have e2 := congrArg (fun c => c.2.2.2.2.1) h
  have e3 := congrArg (fun c => c.2.2.2.2.2.2.2.2.2.1) h
  exact ⟨e1, e2, e3⟩

theorem applyReveal_clock (s s' : AgnesSorelState) (action : Int)
    (h : s.applyReveal action = some s') :
    s'.is_finished_ = s.is_finished_ ∧ s'.current_depth_ = s.current_depth_ ∧
    s'.depth_limit_ = s.depth_limit_ ∧ s'.current_rewards_ = s.current_rewards_ ∧
    s'.current_returns_ = s.current_returns_ := by
  unfold AgnesSorelState.applyReveal at h
  simp only [] at h
  cases hr : revealInTableaus (Card.ofIndex action false LocationType.kMissing) s.tableaus_ with
  | none =>
    rw [hr] at h
    simp only [Option.map_none', Option.getD_none, Option.isSome_none] at h
    split at h
    · split at h
      · exact absurd h (by simp)
      · cases h; exact ⟨rfl, rfl, rfl, rfl, rfl⟩
    · cases h; exact ⟨rfl, rfl, rfl, rfl, rfl⟩
  | some r =>
    rw [hr] at h
    simp only [Option.map_some', Option.getD_some, Option.isSome_some] at h
    split at h
    · split at h
      · exact absurd h (by simp)
      · cases h; exact ⟨rfl, rfl, rfl, rfl, rfl⟩
    · cases h; exact ⟨rfl, rfl, rfl, rfl, rfl⟩

theorem applyMove_clock (hasher : String → Nat) (s s' : AgnesSorelState) (action : Int)
    (h : s.applyMove hasher action = some s') :
    s'.is_finished_ = s.is_finished_ ∧ s'.current_depth_ = s.current_depth_ ∧
    s'.depth_limit_ = s.depth_limit_ := by
  rw [applyMove_eq] at h
  split at h
  · exact absurd h (by simp)
  · split at h
    · split at h
      · exact absurd h (by simp)
      · rename_i s2 hmc
        obtain ⟨tr, sr, tp, sp, split, rest, reward, -, -, -, -, -, rfl⟩ :=
          MoveCards_eq_some _ _ _ hmc
        have hc := control_extendWithMap tr tp.id_ split
          (({ s with is_reversible_ := false, previous_states_ := [] } :
            AgnesSorelState).modifyPile sr (fun _ => rest))
        rw [control_modifyPile] at hc
        obtain ⟨e1, e2, e3⟩ := clock_of_control hc
        cases h
        exact ⟨e1, e2, e3⟩
    · exact absurd h (by simp)

theorem applyDeal_clock (s s' : AgnesSorelState) (h : s.applyDeal = some s') :
    s'.is_finished_ = s.is_finished_ ∧ s'.current_depth_ = s.current_depth_ ∧
    s'.depth_limit_ = s.depth_limit_ ∧ s'.current_rewards_ = s.current_rewards_ ∧
    s'.current_returns_ = s.current_returns_ := by
  unfold AgnesSorelState.applyDeal at h
  split at h
  · exact absurd h (by simp)
  · split at h
    · rw [Option.map_eq_some'] at h
      obtain ⟨s1, h1, rfl⟩ := h
      have hc := control_dealLoop _ _ _ _ _ h1
      obtain ⟨e1, e2, e3⟩ := clock_of_control hc
      have e4 := congrArg (fun c => c.2.2.2.2.2.2.2.2.1) hc
      have e5 := congrArg (fun c => c.2.2.2.2.2.2.2.1) hc
      exact ⟨e1, e2, e3, e4, e5⟩
    · have hc := control_dealLoop _ _ _ _ _ h
      obtain ⟨e1, e2, e3⟩ := clock_of_control hc
      have e4 := congrArg (fun c => c.2.2.2.2.2.2.2.2.1) hc
      have e5 := congrArg (fun c => c.2.2.2.2.2.2.2.1) hc
      exact ⟨e1, e2, e3, e4, e5⟩

/-- What `DoApplyAction` does to the step depth, the depth limit and the
terminal flag -/
theorem DoApplyAction_clock (hasher : String → Nat) (s s' : AgnesSorelState) (action : Int)
    (h : s.DoApplyAction hasher action = some s') :
    s'.current_depth_ = s.current_depth_ + 1 ∧ s'.depth_limit_ = s.depth_limit_ ∧
    s'.is_finished_ = (s.is_finished_ || decide (action = kEnd) ||
      decide (s.current_depth_ + 1 ≥ s.depth_limit_)) := by
  unfold AgnesSorelState.DoApplyAction at h
  simp only [] at h
  rw [Option.map_eq_some'] at h
  obtain ⟨s1, hb, rfl⟩ := h
  have h1 : s1.is_finished_ = (s.is_finished_ || decide (action = kEnd)) ∧
      s1.current_depth_ = s.current_depth_ ∧ s1.depth_limit_ = s.depth_limit_ := by
    split at hb
    · rename_i he
      cases hb
      simp [he]
    · rename_i he
      have hd : decide (action = kEnd) = false := by simp [he]
      rw [hd, Bool.or_false]
      split at hb
      · obtain ⟨e1, e2, e3, -, -⟩ := applyReveal_clock _ _ _ hb
        exact ⟨e1, e2, e3⟩
      · split at hb
        · exact applyMove_clock _ _ _ _ hb
        · split at hb
          · obtain ⟨e1, e2, e3, -, -⟩ := applyDeal_clock _ _ hb
            exact ⟨e1, e2, e3⟩
          · cases hb; exact ⟨rfl, rfl, rfl⟩
  obtain ⟨f1, f2, f3⟩ := h1
  by_cases hd : s1.current_depth_ + 1 ≥ s1.depth_limit_
  · rw [if_pos hd]
    have hd' : s.current_depth_ + 1 ≥ s.depth_limit_ := by rw [← f2, ← f3]; exact hd
    simp [f2, f3, hd']
  · rw [if_neg hd]
    have hd' : ¬ (s.current_depth_ + 1 ≥ s.depth_limit_) := by rw [← f2, ← f3]; exact hd
    simp only [f1, f2, f3, hd', decide_False, Bool.or_false, and_self]

theorem applyActions_clock (hasher : String → Nat) : ∀ (actions : List Int)
    (s0 s : AgnesSorelState), s0.applyActions hasher actions = some s →
    s.current_depth_ = s0.current_depth_ + actions.length ∧
    s.depth_limit_ = s0.depth_limit_ ∧
    (actions ≠ [] → s.depth_limit_ ≤ s.current_depth_ → s.is_finished_ = true) ∧
    (s.is_finished_ = true → s.current_depth_ < s.depth_limit_ →
      s0.is_finished_ = true ∨ kEnd ∈ actions) := by
  intro actions
  induction actions with
  | nil =>
    intro s0 s h
    unfold AgnesSorelState.applyActions at h
    cases h
    exact ⟨by simp, rfl, fun hne => absurd rfl hne, fun hf _ => Or.inl hf⟩
  | cons a rest ih =>
    intro s0 s h
    unfold AgnesSorelState.applyActions at h
    cases h1 : s0.DoApplyAction hasher a with
    | none => rw [h1] at h; exact absurd h (by simp)
    | some s1 =>
      rw [h1] at h
      simp only [] at h
      obtain ⟨d1, l1, f1⟩ := DoApplyAction_clock _ _ _ _ h1
      obtain ⟨d2, l2, t2, e2⟩ := ih s1 s h
      refine ⟨?_, ?_, ?_, ?_⟩
      · rw [d2, d1, List.length_cons]; push_cast; ring
      · rw [l2, l1]
      · intro _ hle
        rcases rest with _ | ⟨b, rest'⟩
        · unfold AgnesSorelState.applyActions at h
          cases h
          rw [f1]
          have : s0.current_depth_ + 1 ≥ s0.depth_limit_ := by rw [← d1, ← l1]; exact hle
          simp [this]
        · exact t2 (by simp) hle
      · intro hf hlt
        rcases e2 hf hlt with h3 | h3
        · rw [f1] at h3
          simp only [Bool.or_eq_true, decide_eq_true_eq] at h3
          rcases h3 with (h4 | h4) | h4
          · exact Or.inl h4
          · exact Or.inr (by rw [h4]; exact List.mem_cons_self _ _)
          · exfalso
            have hlen : (0 : Int) ≤ (rest.length : Int) := Int.ofNat_nonneg _
            rw [d2, d1, l2, l1] at hlt
            omega
        · exact Or.inr (List.mem_cons_of_mem _ h3)

/-- C18: for every list of actions that `DoApplyAction` applies in turn to the
initial state of a game with depth limit `depth_limit`, giving the state `s`:
the step depth of `s` is the number of applications, and one more
application makes it one larger; after at least one application the state is
terminal as soon as that number has reached `depth_limit`; and while the
number is below `depth_limit` the state is terminal only if `End` is among
the actions applied. -/
theorem depth_counts_applications (hasher : String → Nat) (is_colored : Bool)
    (depth_limit : Int) (actions : List Int) (s : AgnesSorelState)
    (h : (AgnesSorelState.new is_colored depth_limit).applyActions hasher actions = some s) :
    s.current_depth_ = actions.length
    ∧ (∀ action s', s.DoApplyAction hasher action = some s' →
        s'.current_depth_ = s.current_depth_ + 1)
    ∧ (actions ≠ [] → depth_limit ≤ actions.length → s.IsTerminal = true)
    ∧ (s.IsTerminal = true → (actions.length : Int) < depth_limit → kEnd ∈ actions) := by
  obtain ⟨d, l, t, e⟩ := applyActions_clock hasher actions _ s h
  have d0 : (AgnesSorelState.new is_colored depth_limit).current_depth_ = 0 := rfl
  have l0 : (AgnesSorelState.new is_colored depth_limit).depth_limit_ = depth_limit := rfl
  have f0 : (AgnesSorelState.new is_colored depth_limit).is_finished_ = false := rfl
  rw [d0, zero_add] at d
  rw [l0] at l
  refine ⟨d, fun action s' hs' => (DoApplyAction_clock _ _ _ _ hs').1, ?_, ?_⟩
  · intro hne hle
    exact t hne (by rw [l, d]; exact hle)
  · intro hf hlt
    rcases e hf (by rw [l, d]; exact hlt) with h1 | h1
    · rw [f0] at h1
      exact absurd h1 (by simp)
    · exact h1

set_option maxRecDepth 100000 in
theorem depth_counts_applications_witness :
    ∃ s, (AgnesSorelState.new false 3).applyActions constantHasher [7, 20, 33] = some s ∧
      s.current_depth_ = 3 ∧ s.IsTerminal = true ∧
    ∃ t, (AgnesSorelState.new false 3).applyActions constantHasher [7, 0] = some t ∧
      t.current_depth_ = 2 ∧ t.IsTerminal = true ∧ kEnd ∈ [(7 : Int), 0] := by
  have h1 : ((AgnesSorelState.new false 3).applyActions constantHasher [7, 20, 33]).isSome
      = true := by decide!
  have h2 : ((AgnesSorelState.new false 3).applyActions constantHasher [7, 0]).isSome
      = true := by decide!
  have h3 : (((AgnesSorelState.new false 3).applyActions constantHasher [7, 0]).map
      (fun t => t.IsTerminal)) = some true := by decide!
  obtain ⟨s, hs⟩ := Option.isSome_iff_exists.mp h1
  obtain ⟨t, ht⟩ := Option.isSome_iff_exists.mp h2
  have ft : t.IsTerminal = true := by
    rw [ht] at h3
    exact Option.some.inj h3
  have cs := depth_counts_applications constantHasher false 3 [7, 20, 33] s hs
  have ct := depth_counts_applications constantHasher false 3 [7, 0] t ht
  exact ⟨s, hs, cs.1, cs.2.2.1 (by simp) (by simp), t, ht, ct.1, ft,
    ct.2.2.2 ft (by simp)⟩

/-! ## Actions applied to a terminal state -/

theorem kSuitToPile_isSome (suit : Int) (h1 : 1 ≤ suit) (h2 : suit ≤ 4) :
    (kSuitToPile suit).isSome = true := by
  interval_cases suit <;> rfl

theorem DoApplyAction_reveal (hasher : String → Nat) (s : AgnesSorelState) (action : Int)
    (h1 : 1 ≤ action) (h2 : action ≤ 52) :
    s.DoApplyAction hasher action = (s.applyReveal action).map (fun s1 =>
      if s1.current_depth_ + 1 ≥ s1.depth_limit_ then
        { s1 with current_depth_ := s1.current_depth_ + 1, is_finished_ := true }
      else { s1 with current_depth_ := s1.current_depth_ + 1 }) := by
  unfold AgnesSorelState.DoApplyAction
  have e1 : ¬ (action = kEnd) := by unfold kEnd; omega
  have e2 : kRevealStart ≤ action ∧ action ≤ kRevealEnd := by
    unfold kRevealStart kRevealEnd; omega
  simp only [e1, e2, if_false, if_true, and_self]

theorem applyReveal_isSome (s : AgnesSorelState) (action : Int)
    (h1 : 1 ≤ action) (h2 : action ≤ 52) : (s.applyReveal action).isSome = true := by
  obtain ⟨-, ⟨-, -, s1, s2⟩, -⟩ := ofIndex_facts action h1 h2
  obtain ⟨id, hid⟩ := Option.isSome_iff_exists.mp (kSuitToPile_isSome _ s1 s2)
  unfold AgnesSorelState.applyReveal
  simp only [hid]
  split <;> rfl

/-- C17 (counterexample): the initial state after `End` is terminal, with
step depth 1 and a hidden card on the first tableau. `DoApplyAction` with the
Reveal id 1 returns a state: its step depth is 2, the first tableau holds the
ace of spades face up, and the id is recorded as revealed. -/
theorem terminal_state_accepts_reveal :
    endedState.IsTerminal = true
    ∧ endedState.current_depth_ = 1
    ∧ (endedState.tableaus_.take 1).map
        (fun t => t.cards_.map (fun c => (c.rank_, c.suit_, c.hidden_))) = [[(14, 5, true)]]
    ∧ endedState.revealed_cards_ = []
    ∧ (endedState.DoApplyAction constantHasher 1).isSome = true
    ∧ (endedState.DoApplyAction constantHasher 1).map (fun s => s.current_depth_) = some 2
    ∧ (endedState.DoApplyAction constantHasher 1).map (fun s => (s.tableaus_.take 1).map
        (fun t => t.cards_.map (fun c => (c.rank_, c.suit_, c.hidden_))))
        = some [[(1, 1, false)]]
    ∧ (endedState.DoApplyAction constantHasher 1).map (fun s => s.revealed_cards_)
        = some [1] := by
  refine ⟨rfl, rfl, by decide, rfl, by decide, by decide, by decide, by decide⟩

/-- C17 (amended): `DoApplyAction` does not reject an action because the
state is terminal. `End` and every Reveal id 1..52 are carried out on every
terminal state, and whenever `DoApplyAction` returns on a terminal state, the
result is terminal and its step depth is one larger than before. -/
theorem terminal_state_still_applies (hasher : String → Nat) (s : AgnesSorelState)
    (action : Int) (h : s.IsTerminal = true) :
    ((action = kEnd ∨ (kRevealStart ≤ action ∧ action ≤ kRevealEnd)) →
      (s.DoApplyAction hasher action).isSome = true)
    ∧ (∀ s', s.DoApplyAction hasher action = some s' →
        s'.IsTerminal = true ∧ s'.current_depth_ = s.current_depth_ + 1) := by
  refine ⟨?_, ?_⟩
  · intro ha
    rcases ha with ha | ⟨h1, h2⟩
    · rw [ha, DoApplyAction_end]
      rfl
    · rw [DoApplyAction_reveal hasher s action h1 h2]
      obtain ⟨s1, hs1⟩ := Option.isSome_iff_exists.mp (applyReveal_isSome s action h1 h2)
      rw [hs1]
      rfl
  · intro s' hs'
    obtain ⟨d, -, f⟩ := DoApplyAction_clock _ _ _ _ hs'
    refine ⟨?_, d⟩
    have h0 : s.is_finished_ = true := h
    show s'.is_finished_ = true
    rw [f, h0]
    rfl

theorem terminal_state_still_applies_witness :
    endedState.IsTerminal = true
    ∧ (endedState.DoApplyAction constantHasher 1).isSome = true
    ∧ (∀ s', endedState.DoApplyAction constantHasher 1 = some s' →
        s'.IsTerminal = true ∧ s'.current_depth_ = endedState.current_depth_ + 1) :=
  ⟨rfl, (terminal_state_still_applies constantHasher endedState 1 rfl).1 (Or.inr (by decide)),
    (terminal_state_still_applies constantHasher endedState 1 rfl).2⟩

/-! ## The reward of a move to or from a foundation -/

theorem DoApplyAction_move (hasher : String → Nat) (s : AgnesSorelState) (action : Int)
    (h1 : 53 ≤ action) (h2 : action ≤ 365) :
    s.DoApplyAction hasher action = (s.applyMove hasher action).map (fun s1 =>
      if s1.current_depth_ + 1 ≥ s1.depth_limit_ then
        { s1 with current_depth_ := s1.current_depth_ + 1, is_finished_ := true }
      else { s1 with current_depth_ := s1.current_depth_ + 1 }) := by
  unfold AgnesSorelState.DoApplyAction
  have e1 : ¬ (action = kEnd) := by unfold kEnd; omega
  have e2 : ¬ (kRevealStart ≤ action ∧ action ≤ kRevealEnd) := by
    unfold kRevealStart kRevealEnd; omega
  have e3 : kMoveStart ≤ action ∧ action ≤ kMoveEnd := by
    unfold kMoveStart kMoveEnd; omega
  simp only [e1, e2, e3, if_false, if_true, and_self]

/-- The result of `MoveCards` from its intermediate values -/
theorem MoveCards_some (s : AgnesSorelState) (move : Move) (target_ref source_ref : PileRef)
    (target_pile source_pile rest_pile source_after : Pile) (split_cards : List Card) (r0 : Int)
    (h1 : s.GetPile move.target_ = some target_ref)
    (h2 : s.GetPile move.source_ = some source_ref)
    (h3 : s.pileAt target_ref = some target_pile)
    (h4 : s.pileAt source_ref = some source_pile)
    (h5 : source_ref.Split source_pile move.source_ = some (split_cards, rest_pile))
    (h6 : ((s.modifyPile source_ref (fun _ => rest_pile)).extendWithMap target_ref
            target_pile.id_ split_cards).pileAt source_ref = some source_after)
    (h7 : (if target_pile.type_ = LocationType.kFoundation then
             kFoundationPoints move.source_.rank_
           else if source_pile.type_ = LocationType.kFoundation then
             (kFoundationPoints move.source_.rank_).map (fun points => 0 - points)
           else some 0) = some r0) :
    ∃ s', s.MoveCards move = some s' ∧
      s'.current_rewards_ =
        (if source_after.type_ = LocationType.kWaste then
          (if source_after.type_ = LocationType.kTableau ∧ source_after.GetIsEmpty = false ∧
              (source_after.GetLastCard.map (fun c => c.hidden_)) = some true
            then r0 + 20 else r0) + 20
         else
          (if source_after.type_ = LocationType.kTableau ∧ source_after.GetIsEmpty = false ∧
              (source_after.GetLastCard.map (fun c => c.hidden_)) = some true
            then r0 + 20 else r0)) ∧
      s'.current_returns_ = s.current_returns_ := by
  have hc := control_extendWithMap target_ref target_pile.id_ split_cards
    (s.modifyPile source_ref (fun _ => rest_pile))
  rw [control_modifyPile] at hc
  have hret := congrArg (fun c => c.2.2.2.2.2.2.2.1) hc
  simp only [AgnesSorelState.control] at hret
  unfold AgnesSorelState.MoveCards
  simp only [h1, h2, h3, h4, h5, h6, h7]
  exact ⟨_, rfl, rfl, hret⟩

theorem tableauSplitLoop_kept_mem (card : Card) : ∀ (flag : Bool) (cards : List Card) (c : Card),
    c ∈ (Tableau.SplitLoop card flag cards).1 → c ∈ cards := by
  intro flag cards
  induction cards generalizing flag with
  | nil => intro c h; simp [Tableau.SplitLoop] at h
  | cons x xs ih =>
    intro c h
    unfold Tableau.SplitLoop at h
    split at h
    · exact List.mem_cons_of_mem _ (ih _ c h)
    · simp only [List.mem_cons] at h
      rcases h with h | h
      · rw [h]; exact List.mem_cons_self _ _
      · exact List.mem_cons_of_mem _ (ih _ c h)

theorem kFoundationPoints_isSome (rank : Int) (h1 : 1 ≤ rank) (h2 : rank ≤ 13) :
    (kFoundationPoints rank).isSome = true := by
  interval_cases rank <;> rfl

theorem pileAt_tableau_after (s : AgnesSorelState) (i j : Nat) (id : Nat) (cards : List Card)
    (tableau rest : Pile) (ht : s.tableaus_[j]? = some tableau) :
    ((s.modifyPile (PileRef.tableau j) (fun _ => rest)).extendWithMap (PileRef.foundation i)
      id cards).pileAt (PileRef.tableau j) = some rest := by
  rw [extendWithMap_eq]
  show (modifyAt (fun _ => rest) j s.tableaus_)[j]? = some rest
  rw [modifyAt_getElem?, if_pos rfl, ht]
  rfl

theorem pileAt_foundation_after (s : AgnesSorelState) (i j : Nat) (id : Nat) (cards : List Card)
    (foundation rest : Pile) (hf : s.foundations_[i]? = some foundation) :
    ((s.modifyPile (PileRef.foundation i) (fun _ => rest)).extendWithMap (PileRef.tableau j)
      id cards).pileAt (PileRef.foundation i) = some rest := by
  rw [extendWithMap_eq]
  show (modifyAt (fun _ => rest) i s.foundations_)[i]? = some rest
  rw [modifyAt_getElem?, if_pos rfl, hf]
  rfl

theorem DoApplyAction_move_some (hasher : String → Nat) (s s2 : AgnesSorelState) (action : Int)
    (move : Move) (source_pile target_pile : Pile)
    (hm : Move.ofAction action = some move)
    (h1 : (s.GetPile move.source_).bind s.pileAt = some source_pile)
    (h2 : (s.GetPile move.target_).bind s.pileAt = some target_pile)
    (h3 : ({ s with is_reversible_ := false, previous_states_ := [] } :
      AgnesSorelState).MoveCards move = some s2) :
    ∃ s', s.DoApplyAction hasher action = some s' ∧
      s'.current_rewards_ = s2.current_rewards_ ∧
      s'.current_returns_ = s2.current_returns_ + s2.current_rewards_ := by
  have hband : 53 ≤ action ∧ action ≤ 365 := by
    by_contra hn
    rw [ofAction_none_of_outside action hn] at hm
    exact absurd hm (by simp)
  rw [DoApplyAction_move hasher s action hband.1 hband.2, applyMove_eq]
  simp only [hm, h1, h2, h3, Option.map_some']
  refine ⟨_, rfl, ?_, ?_⟩ <;> split <;> rfl

/-- C13: the reward of a move between a foundation and a tableau, for a
move id whose source card has a rank Ace..King. If `GetPile` finds the target
in a foundation and the source in a tableau that holds no hidden card,
`DoApplyAction` returns a state whose step reward is the entry of
`kFoundationPoints` for the rank of the source card, and whose cumulative
return is the one before plus that entry. If `GetPile` finds the source in a
foundation (not empty) and the target in a tableau, the step reward is minus
that entry and the return falls by it. The table is Ace 100, Two 90, ..,
Nine 20, Ten, Jack, Queen and King 10. -/
theorem foundation_move_reward (hasher : String → Nat) (s : AgnesSorelState) (action : Int)
    (move : Move) (i j : Nat) (foundation tableau : Pile)
    (hm : Move.ofAction action = some move)
    (hr : 1 ≤ move.source_.rank_ ∧ move.source_.rank_ ≤ 13)
    (hf : s.foundations_[i]? = some foundation)
    (hft : foundation.type_ = LocationType.kFoundation)
    (ht : s.tableaus_[j]? = some tableau)
    (htt : tableau.type_ = LocationType.kTableau) :
    (s.GetPile move.target_ = some (PileRef.foundation i) →
      s.GetPile move.source_ = some (PileRef.tableau j) →
      (∀ c ∈ tableau.cards_, c.hidden_ = false) →
      ∃ s' points, s.DoApplyAction hasher action = some s' ∧
        kFoundationPoints move.source_.rank_ = some points ∧
        s'.Rewards = [points] ∧ s'.Returns = [s.current_returns_ + points])
    ∧ (s.GetPile move.source_ = some (PileRef.foundation i) →
      s.GetPile move.target_ = some (PileRef.tableau j) →
      foundation.cards_ ≠ [] →
      ∃ s' points, s.DoApplyAction hasher action = some s' ∧
        kFoundationPoints move.source_.rank_ = some points ∧
        s'.Rewards = [0 - points] ∧ s'.Returns = [s.current_returns_ - points])
    ∧ [1, 2, 3, 4, 5, 6, 7, 8, 9, 10, 11, 12, 13].map kFoundationPoints =
        [some 100, some 90, some 80, some 70, some 60, some 50, some 40, some 30, some 20,
          some 10, some 10, some 10, some 10] := by
  obtain ⟨points, hp⟩ := Option.isSome_iff_exists.mp (kFoundationPoints_isSome _ hr.1 hr.2)
  refine ⟨?_, ?_, by decide⟩
  · intro htg hsg hvis
    have b1 : (s.GetPile move.source_).bind s.pileAt = some tableau := by
      rw [hsg]; exact ht
    have b2 : (s.GetPile move.target_).bind s.pileAt = some foundation := by
      rw [htg]; exact hf
    obtain ⟨s2, e1, e2, e3⟩ := MoveCards_some
      ({ s with is_reversible_ := false, previous_states_ := [] } : AgnesSorelState) move
      (PileRef.foundation i) (PileRef.tableau j) foundation tableau
      (Tableau.Split tableau move.source_).2 (Tableau.Split tableau move.source_).2
      (Tableau.Split tableau move.source_).1 points htg hsg hf ht rfl
      (pileAt_tableau_after _ i j _ _ tableau _ ht)
      (by rw [if_pos hft]; exact hp)
    obtain ⟨s', d1, d2, d3⟩ := DoApplyAction_move_some hasher s s2 action move tableau
      foundation hm b1 b2 e1
    have hty : (Tableau.Split tableau move.source_).2.type_ = LocationType.kTableau := htt
    have hnw : ¬ ((Tableau.Split tableau move.source_).2.type_ = LocationType.kWaste) := by
      rw [hty]; decide
    have hnh : ¬ ((Tableau.Split tableau move.source_).2.type_ = LocationType.kTableau ∧
        (Tableau.Split tableau move.source_).2.GetIsEmpty = false ∧
        ((Tableau.Split tableau move.source_).2.GetLastCard.map (fun c => c.hidden_))
          = some true) := by
      rintro ⟨-, -, h3⟩
      rw [Option.map_eq_some'] at h3
      obtain ⟨c, hc, hh⟩ := h3
      have hmem : c ∈ (Tableau.SplitLoop move.source_ false tableau.cards_).1 :=
        List.mem_of_getLast?_eq_some hc
      have := hvis c (tableauSplitLoop_kept_mem _ _ _ c hmem)
      rw [this] at hh
      exact absurd hh (by simp)
    rw [if_neg hnw, if_neg hnh] at e2
    refine ⟨s', points, d1, hp, ?_, ?_⟩
    · show [s'.current_rewards_] = [points]
      rw [d2, e2]
    · show [s'.current_returns_] = [s.current_returns_ + points]
      rw [d3, e2, e3]
  · intro hsg htg hne
    have b1 : (s.GetPile move.source_).bind s.pileAt = some foundation := by
      rw [hsg]; exact hf
    have b2 : (s.GetPile move.target_).bind s.pileAt = some tableau := by
      rw [htg]; exact ht
    have hsplit : ∃ split_cards rest_pile,
        Foundation.Split foundation move.source_ = some (split_cards, rest_pile) ∧
        rest_pile.type_ = LocationType.kFoundation := by
      unfold Foundation.Split
      cases hl : foundation.cards_.getLast? with
      | none =>
        rw [List.getLast?_eq_none_iff] at hl
        exact absurd hl hne
      | some back =>
        simp only []
        split
        · exact ⟨_, _, rfl, hft⟩
        · exact ⟨_, _, rfl, hft⟩
    obtain ⟨split_cards, rest_pile, hs1, hs2⟩ := hsplit
    have hnt : ¬ (tableau.type_ = LocationType.kFoundation) := by rw [htt]; decide
    obtain ⟨s2, e1, e2, e3⟩ := MoveCards_some
      ({ s with is_reversible_ := false, previous_states_ := [] } : AgnesSorelState) move
      (PileRef.tableau j) (PileRef.foundation i) tableau foundation
      rest_pile rest_pile split_cards (0 - points) htg hsg ht hf hs1
      (pileAt_foundation_after _ i j _ _ foundation _ hf)
      (by rw [if_neg hnt, if_pos hft, hp]; rfl)
    obtain ⟨s', d1, d2, d3⟩ := DoApplyAction_move_some hasher s s2 action move foundation
      tableau hm b1 b2 e1
    have hnw : ¬ (rest_pile.type_ = LocationType.kWaste) := by rw [hs2]; decide
    have hnh : ¬ (rest_pile.type_ = LocationType.kTableau ∧
        rest_pile.GetIsEmpty = false ∧
        (rest_pile.GetLastCard.map (fun c => c.hidden_)) = some true) := by
      rintro ⟨h1, -, -⟩
      rw [hs2] at h1
      exact absurd h1 (by decide)
    rw [if_neg hnw, if_neg hnh] at e2
    refine ⟨s', points, d1, hp, ?_, ?_⟩
    · show [s'.current_rewards_] = [0 - points]
      rw [d2, e2]
    · show [s'.current_returns_] = [s.current_returns_ - points]
      rw [d3, e2, e3]
      show [s.current_returns_ + (0 - points)] = [s.current_returns_ - points]
      congr 1
      ring

set_option maxRecDepth 100000 in
theorem foundation_move_reward_witness :
    (∃ s', rewardSampleState.DoApplyAction constantHasher 109 = some s' ∧
      s'.Rewards = [50] ∧ s'.Returns = [50])
    ∧ (∃ s', rewardSampleState.DoApplyAction constantHasher 161 = some s' ∧
      s'.Rewards = [-60] ∧ s'.Returns = [-60]) := by
  have m1 : Move.ofAction 109 = some (Move.ofRanksSuits 5 1 6 1) := by decide
  have m2 : Move.ofAction 161 = some (Move.ofRanksSuits 6 1 5 1) := by decide
  obtain ⟨s1, p1, a1, b1, c1, d1⟩ :=
    (foundation_move_reward constantHasher rewardSampleState 109 (Move.ofRanksSuits 5 1 6 1)
      0 0 _ _ m1 (by decide) rfl rfl rfl rfl).1 (by decide) (by decide) (by decide)
  obtain ⟨s2, p2, a2, b2, c2, d2⟩ :=
    (foundation_move_reward constantHasher rewardSampleState 161 (Move.ofRanksSuits 6 1 5 1)
      0 0 _ _ m2 (by decide) rfl rfl rfl rfl).2.1 (by decide) (by decide) (by decide)
  have q1 : p1 = 50 := by
    have : kFoundationPoints 6 = some p1 := b1
    exact (Option.some.inj this).symm
  have q2 : p2 = 60 := by
    have : kFoundationPoints 5 = some p2 := b2
    exact (Option.some.inj this).symm
  subst q1 q2
  exact ⟨⟨s1, a1, c1, d1⟩, ⟨s2, a2, c2, d2⟩⟩

/-! ## The step reward after a Reveal or a Deal -/

theorem rewardsAlong_hasher (h1 h2 : String → Nat) (actions : List Int) :
    ∀ s : AgnesSorelState, s.is_reversible_ = false →
      s.rewardsAlong h1 actions = s.rewardsAlong h2 actions := by
  induction actions with
  | nil => intro s _; rfl
  | cons a rest ih =>
    intro s hf
    unfold AgnesSorelState.rewardsAlong
    rw [playLegal_hasher h1 h2 [a] s hf]
    cases hp : s.playLegal h2 [a] with
    | none => rfl
    | some s' =>
      simp only []
      rw [ih s' (playLegal_flag h2 [a] s s' hp hf)]

set_option maxRecDepth 1000000 in
theorem samplePlay_rewards :
    (AgnesSorelState.new false 150).rewardsAlong constantHasher
        (sampleReveals ++ [161, 366, 1])
      = some (List.replicate 29 0 ++ [-60, -60, -60])
    ∧ ((AgnesSorelState.new false 150).playLegal constantHasher
        (sampleReveals ++ [161, 366, 1])).map (fun s => (s.Rewards, s.Returns))
      = some ([-60], [-60])
    ∧ ((AgnesSorelState.new false 150).playLegal constantHasher
        (sampleReveals ++ [161, 366])).map (fun s => (s.Rewards, s.Returns))
      = some ([-60], [-60]) := by
  refine ⟨by decide!, by decide!, by decide!⟩

/-- C14 (defect): the step reward is stale after a Deal and after a Reveal.
The play of legal actions is the 29 reveals of the sample deal, the move 161
(five of spades from its foundation onto the six of spades, reward -60), Deal
(366) and the Reveal id 1. `Rewards()` read after each of the 32 actions is 0
for the 29 reveals and then -60 three times: the Deal and the Reveal that
follow the move expose the reward of the move again. `Returns()` is -60 after
the move, after the Deal and after the Reveal, while the exposed step rewards
add up to -180. -/
theorem stale_reward_after_deal_and_reveal (hasher : String → Nat) :
    (AgnesSorelState.new false 150).rewardsAlong hasher (sampleReveals ++ [161, 366, 1])
      = some (List.replicate 29 0 ++ [-60, -60, -60])
    ∧ ((AgnesSorelState.new false 150).playLegal hasher
        (sampleReveals ++ [161, 366])).map (fun s => (s.Rewards, s.Returns))
      = some ([-60], [-60])
    ∧ ((AgnesSorelState.new false 150).playLegal hasher
        (sampleReveals ++ [161, 366, 1])).map (fun s => (s.Rewards, s.Returns))
      = some ([-60], [-60])
    ∧ (List.replicate 29 0 ++ [-60, -60, -60] : List Int).sum = -180 := by
  have hf : (AgnesSorelState.new false 150).is_reversible_ = false := rfl
  rw [rewardsAlong_hasher hasher constantHasher _ _ hf,
    playLegal_hasher hasher constantHasher _ _ hf,
    playLegal_hasher hasher constantHasher _ _ hf]
  exact ⟨samplePlay_rewards.1, samplePlay_rewards.2.2, samplePlay_rewards.2.1, by decide⟩

/-! ## The 29 reveals of the initial deal -/

theorem fillSlots_nil (slots : List Card) : fillSlots slots [] = slots := by
  cases slots <;> rfl

theorem fillSlots_length : ∀ (slots cs : List Card),
    (fillSlots slots cs).length = slots.length := by
  intro slots
  induction slots with
  | nil => intro cs; rfl
  | cons h hs ih =>
    intro cs
    cases cs with
    | nil => rfl
    | cons c cs' => simp only [fillSlots, List.length_cons, ih]

theorem RevealLoop_fillSlots (rc : Card) : ∀ (slots cs : List Card),
    (∀ c ∈ slots, c.hidden_ = true) → cs.length < slots.length →
    RevealLoop rc (fillSlots slots cs) = fillSlots slots (cs ++ [rc]) := by
  intro slots
  induction slots with
  | nil => intro cs _ hl; simp at hl
  | cons h hs ih =>
    intro cs hh hl
    cases cs with
    | nil =>
      have hhid : h.hidden_ = true := hh h (List.mem_cons_self _ _)
      simp only [fillSlots, List.nil_append, RevealLoop, hhid, if_true, fillSlots_nil]
    | cons c cs' =>
      simp only [fillSlots, List.cons_append, RevealLoop, Bool.false_eq_true, if_false,
        List.append_eq]
      rw [ih cs' (fun c hc => hh c (List.mem_cons_of_mem _ hc))
        (by simpa using hl)]

theorem fillSlots_any_hidden : ∀ (slots cs : List Card),
    (∀ c ∈ slots, c.hidden_ = true) →
    (fillSlots slots cs).any (fun c => c.hidden_) = decide (cs.length < slots.length) := by
  intro slots
  induction slots with
  | nil => intro cs _; simp [fillSlots]
  | cons h hs ih =>
    intro cs hh
    cases cs with
    | nil =>
      have hhid : h.hidden_ = true := hh h (List.mem_cons_self _ _)
      simp [fillSlots, hhid]
    | cons c cs' =>
      simp only [fillSlots, List.any_cons, Bool.false_or, List.length_cons]
      rw [ih cs' (fun c hc => hh c (List.mem_cons_of_mem _ hc))]
      simp

theorem fillSlots_append_of_le : ∀ (slots cs extra : List Card),
    slots.length ≤ cs.length → fillSlots slots (cs ++ extra) = fillSlots slots cs := by
  intro slots
  induction slots with
  | nil => intro cs extra _; rfl
  | cons h hs ih =>
    intro cs extra hl
    cases cs with
    | nil => simp at hl
    | cons c cs' =>
      simp only [fillSlots, List.cons_append, List.append_eq]
      rw [ih cs' extra (by simpa using hl)]

theorem hidden_guard_eq (cards : List Card) :
    (!cards.isEmpty && cards.any (fun card => card.hidden_)) =
      cards.any (fun card => card.hidden_) := by
  cases cards <;> simp

theorem guard_fillSlots (t : Pile) (cs : List Card) (ht : ∀ c ∈ t.cards_, c.hidden_ = true) :
    (!({ t with cards_ := fillSlots t.cards_ cs } : Pile).GetIsEmpty &&
      ({ t with cards_ := fillSlots t.cards_ cs } : Pile).cards_.any
        (fun card => card.hidden_)) = decide (cs.length < t.cards_.length) := by
  show (!(fillSlots t.cards_ cs).isEmpty && (fillSlots t.cards_ cs).any
    (fun card => card.hidden_)) = decide (cs.length < t.cards_.length)
  rw [hidden_guard_eq, fillSlots_any_hidden _ _ ht]

theorem revealInTableaus_fillPiles (rc : Card) : ∀ (ts : List Pile) (cs : List Card),
    (∀ t ∈ ts, ∀ c ∈ t.cards_, c.hidden_ = true) →
    cs.length < (ts.map (fun t => t.cards_.length)).sum →
    ∃ id, revealInTableaus rc (fillPiles ts cs) = some (fillPiles ts (cs ++ [rc]), id) := by
  intro ts
  induction ts with
  | nil => intro cs _ hl; simp at hl
  | cons t rest ih =>
    intro cs hh hl
    have ht : ∀ c ∈ t.cards_, c.hidden_ = true := hh t (List.mem_cons_self _ _)
    have hrest : ∀ t' ∈ rest, ∀ c ∈ t'.cards_, c.hidden_ = true :=
      fun t' ht' => hh t' (List.mem_cons_of_mem _ ht')
    simp only [List.map_cons, List.sum_cons] at hl
    unfold fillPiles revealInTableaus
    rw [guard_fillSlots t cs ht]
    by_cases hlt : cs.length < t.cards_.length
    · rw [if_pos (by simpa using hlt)]
      refine ⟨t.id_, ?_⟩
      have d1 : cs.drop t.cards_.length = [] := List.drop_eq_nil_of_le (le_of_lt hlt)
      have d2 : (cs ++ [rc]).drop t.cards_.length = [] :=
        List.drop_eq_nil_of_le (by simp; omega)
      simp only [Tableau.Reveal, RevealLoop_fillSlots rc _ _ ht hlt, d1, d2]
    · rw [if_neg (by simpa using hlt)]
      have hle : t.cards_.length ≤ cs.length := not_lt.mp hlt
      obtain ⟨id, hid⟩ := ih (cs.drop t.cards_.length) hrest
        (by rw [List.length_drop]; omega)
      refine ⟨id, ?_⟩
      rw [hid]
      simp only [Option.map_some', fillSlots_append_of_le _ _ _ hle,
        List.drop_append_of_le_length hle]

theorem fillPiles_no_hidden : ∀ (ts : List Pile) (cs : List Card),
    (∀ t ∈ ts, ∀ c ∈ t.cards_, c.hidden_ = true) →
    (ts.map (fun t => t.cards_.length)).sum ≤ cs.length →
    (fillPiles ts cs).any (fun tableau =>
      !tableau.GetIsEmpty && tableau.cards_.any (fun card => card.hidden_)) = false := by
  intro ts
  induction ts with
  | nil => intro cs _ _; rfl
  | cons t rest ih =>
    intro cs hh hl
    have ht : ∀ c ∈ t.cards_, c.hidden_ = true := hh t (List.mem_cons_self _ _)
    have hrest : ∀ t' ∈ rest, ∀ c ∈ t'.cards_, c.hidden_ = true :=
      fun t' ht' => hh t' (List.mem_cons_of_mem _ ht')
    simp only [List.map_cons, List.sum_cons] at hl
    unfold fillPiles
    rw [List.any_cons, guard_fillSlots t cs ht, Bool.or_eq_false_iff]
    refine ⟨by simp; omega, ?_⟩
    exact ih (cs.drop t.cards_.length) hrest (by rw [List.length_drop]; omega)

theorem fillSlots_replicate (h : Card) : ∀ (n : Nat) (cs : List Card), n ≤ cs.length →
    fillSlots (List.replicate n h) cs =
      (cs.take n).map (fun rc =>
        ({ h with rank_ := rc.rank_, suit_ := rc.suit_, hidden_ := false } : Card)) := by
  intro n
  induction n with
  | zero => intro cs _; rfl
  | succ n ih =>
    intro cs hl
    cases cs with
    | nil => simp at hl
    | cons c cs' =>
      simp only [List.replicate_succ, fillSlots, List.take_succ_cons, List.map_cons]
      rw [ih cs' (by simpa using hl)]

theorem fillPiles_cards (h : Card) : ∀ (ts : List Pile) (cs : List Card),
    (∀ t ∈ ts, t.cards_ = List.replicate t.cards_.length h) →
    (ts.map (fun t => t.cards_.length)).sum ≤ cs.length →
    (fillPiles ts cs).map (fun t => t.cards_) =
      chunks (ts.map (fun t => t.cards_.length)) (cs.map (fun rc =>
        ({ h with rank_ := rc.rank_, suit_ := rc.suit_, hidden_ := false } : Card))) := by
  intro ts
  induction ts with
  | nil => intro cs _ _; rfl
  | cons t rest ih =>
    intro cs hh hl
    simp only [List.map_cons, List.sum_cons] at hl
    have ht := hh t (List.mem_cons_self _ _)
    simp only [fillPiles, List.map_cons, chunks]
    rw [ih (cs.drop t.cards_.length) (fun t' ht' => hh t' (List.mem_cons_of_mem _ ht'))
      (by rw [List.length_drop]; omega)]
    rw [List.map_drop, ← List.map_take]
    congr 1
    conv_lhs => rw [ht]
    rw [fillSlots_replicate h _ cs (by omega)]

theorem DoApplyAction_reveal_found (hasher : String → Nat) (s : AgnesSorelState) (action : Int)
    (r : List Pile × Nat) (h1 : 1 ≤ action) (h2 : action ≤ 52)
    (hr : revealInTableaus (Card.ofIndex action false LocationType.kMissing) s.tableaus_
      = some r)
    (hd : s.current_depth_ + 1 < s.depth_limit_) :
    s.DoApplyAction hasher action = some
      { s with tableaus_ := r.1
               card_map_ := CardMap.insert_or_assign s.card_map_
                 (Card.ofIndex action false LocationType.kMissing).key r.2
               revealed_cards_ := s.revealed_cards_ ++ [action]
               current_depth_ := s.current_depth_ + 1 } := by
  rw [DoApplyAction_reveal hasher s action h1 h2]
  unfold AgnesSorelState.applyReveal
  simp only [hr, Option.map_some', Option.isSome_some, Option.getD_some, Bool.not_true,
    Bool.and_false, Bool.false_eq_true, if_false]
  rw [if_neg (by simp only [ge_iff_le, not_le]; exact hd)]

theorem DoApplyAction_reveal_seed (hasher : String → Nat) (s : AgnesSorelState) (action : Int)
    (id : Nat) (h1 : 1 ≤ action) (h2 : action ≤ 52)
    (hr : revealInTableaus (Card.ofIndex action false LocationType.kMissing) s.tableaus_ = none)
    (hk : s.is_known_foundation_ = false)
    (hid : kSuitToPile (Card.ofIndex action false LocationType.kMissing).suit_ = some id)
    (hd : s.current_depth_ + 1 < s.depth_limit_) :
    s.DoApplyAction hasher action = some
      { s with foundation_rank_ := (Card.ofIndex action false LocationType.kMissing).rank_
               is_known_foundation_ := true
               foundations_ := s.foundations_.map (fun foundation =>
                 if foundation.suit_ = (Card.ofIndex action false LocationType.kMissing).suit_
                 then foundation.Extend [Card.ofIndex action false LocationType.kMissing]
                 else foundation)
               card_map_ := CardMap.insert_or_assign s.card_map_
                 (Card.ofIndex action false LocationType.kMissing).key id
               revealed_cards_ := s.revealed_cards_ ++ [action]
               current_depth_ := s.current_depth_ + 1 } := by
  rw [DoApplyAction_reveal hasher s action h1 h2]
  unfold AgnesSorelState.applyReveal
  simp only [hr, Option.map_none', Option.isSome_none, Option.getD_none, hk, Bool.not_false,
    Bool.and_self, if_true, hid, Option.map_some']
  rw [if_neg (by simp only [ge_iff_le, not_le]; exact hd)]

theorem applyActions_append (hasher : String → Nat) : ∀ (l1 l2 : List Int)
    (s : AgnesSorelState), s.applyActions hasher (l1 ++ l2) =
      (s.applyActions hasher l1).bind (fun s1 => s1.applyActions hasher l2) := by
  intro l1
  induction l1 with
  | nil => intro l2 s; rfl
  | cons a rest ih =>
    intro l2 s
    simp only [List.cons_append, AgnesSorelState.applyActions]
    cases s.DoApplyAction hasher a with
    | none => rfl
    | some s1 => exact ih l2 s1

/-- Reveals on a board whose tableau slots are still partly hidden: each one
overwrites the next slot in deal order and leaves the foundations alone -/
theorem applyActions_reveals (hasher : String → Nat) (ts0 : List Pile)
    (h0 : ∀ t ∈ ts0, ∀ c ∈ t.cards_, c.hidden_ = true) :
    ∀ (ids : List Int) (acc : List Card) (s : AgnesSorelState),
      (∀ a ∈ ids, 1 ≤ a ∧ a ≤ 52) →
      s.tableaus_ = fillPiles ts0 acc →
      acc.length + ids.length ≤ (ts0.map (fun t => t.cards_.length)).sum →
      s.current_depth_ + ids.length < s.depth_limit_ →
      ∃ s', s.applyActions hasher ids = some s' ∧
        s'.tableaus_ = fillPiles ts0
          (acc ++ ids.map (fun a => Card.ofIndex a false LocationType.kMissing)) ∧
        s'.foundations_ = s.foundations_ ∧
        s'.is_known_foundation_ = s.is_known_foundation_ ∧
        s'.is_finished_ = s.is_finished_ ∧
        s'.current_depth_ = s.current_depth_ + ids.length ∧
        s'.depth_limit_ = s.depth_limit_ := by
  intro ids
  induction ids with
  | nil =>
    intro acc s _ ht _ _
    exact ⟨s, rfl, by simpa using ht, rfl, rfl, rfl, by simp, rfl⟩
  | cons a rest ih =>
    intro acc s hids ht hlen hd
    have ha := hids a (List.mem_cons_self _ _)
    simp only [List.length_cons] at hlen
    have hd' : s.current_depth_ + 1 + (rest.length : Int) < s.depth_limit_ := by
      simp only [List.length_cons] at hd
      push_cast at hd
      omega
    have hnn : (0 : Int) ≤ (rest.length : Int) := Int.ofNat_nonneg _
    obtain ⟨id, hid⟩ := revealInTableaus_fillPiles
      (Card.ofIndex a false LocationType.kMissing) ts0 acc h0 (by omega)
    rw [← ht] at hid
    have hstep := DoApplyAction_reveal_found hasher s a _ ha.1 ha.2 hid (by omega)
    obtain ⟨s', e1, e2, e3, e4, e5, e6, e7⟩ := ih
      (acc ++ [Card.ofIndex a false LocationType.kMissing])
      { s with tableaus_ := fillPiles ts0 (acc ++ [Card.ofIndex a false LocationType.kMissing])
               card_map_ := CardMap.insert_or_assign s.card_map_
                 (Card.ofIndex a false LocationType.kMissing).key id
               revealed_cards_ := s.revealed_cards_ ++ [a]
               current_depth_ := s.current_depth_ + 1 }
      (fun b hb => hids b (List.mem_cons_of_mem _ hb)) rfl
      (by simp only [List.length_append, List.length_singleton]; omega) hd'
    refine ⟨s', ?_, ?_, e3, e4, e5, ?_, e7⟩
    · unfold AgnesSorelState.applyActions
      rw [hstep]
      exact e1
    · rw [e2, List.map_cons, List.append_assoc]
      rfl
    · rw [e6, List.length_cons]
      push_cast
      ring

theorem fillPiles_nil : ∀ ts : List Pile, fillPiles ts [] = ts := by
  intro ts
  induction ts with
  | nil => rfl
  | cons t rest ih =>
    simp only [fillPiles, fillSlots_nil, List.drop_nil, ih]

theorem initial_tableaus_facts (is_colored : Bool) (depth_limit : Int) :
    (∀ t ∈ (AgnesSorelState.new is_colored depth_limit).tableaus_,
      ∀ c ∈ t.cards_, c.hidden_ = true)
    ∧ (∀ t ∈ (AgnesSorelState.new is_colored depth_limit).tableaus_,
      t.cards_ = List.replicate t.cards_.length (hiddenCard LocationType.kTableau))
    ∧ (AgnesSorelState.new is_colored depth_limit).tableaus_.map (fun t => t.cards_.length)
      = [1, 2, 3, 4, 5, 6, 7] := by
  have e : (AgnesSorelState.new is_colored depth_limit).tableaus_ =
      (AgnesSorelState.new false 0).tableaus_ := rfl
  rw [e]
  refine ⟨by decide, by decide, by decide⟩

theorem initial_foundations_facts (is_colored : Bool) (depth_limit : Int) :
    (∀ f ∈ (AgnesSorelState.new is_colored depth_limit).foundations_,
      f.cards_ = [] ∧ f.type_ = LocationType.kFoundation)
    ∧ (AgnesSorelState.new is_colored depth_limit).foundations_.map (fun f => f.suit_)
      = [1, 2, 3, 4] := by
  have e : (AgnesSorelState.new is_colored depth_limit).foundations_ =
      (AgnesSorelState.new false 0).foundations_ := rfl
  rw [e]
  refine ⟨by decide, by decide⟩

/-- C12: the 29 reveals that open a game. For every list of 29 Reveal ids
(each in 1..52; they need not even be distinct) and every depth limit above
29, applying them in turn to the initial state returns a state `s` in which:
the tableaus hold, in deal order, the first 28 revealed cards (tableau 1 the
first, tableau 2 the next two, .., tableau 7 the last seven, each bottom to
top), none hidden; `s` is neither a chance node nor terminal; the foundation
rank is the rank of the 29th card; the foundations are those of the four suits
in order; the one of the suit of the 29th card holds exactly that card, and
every other one is empty and has its own empty-foundation sentinel as its only
target. -/
theorem decision_node_after_29_reveals (hasher : String → Nat) (is_colored : Bool)
    (depth_limit : Int) (ids : List Int) (last : Int)
    (hlen : ids.length = 29) (hids : ∀ a ∈ ids, 1 ≤ a ∧ a ≤ 52)
    (hlast : ids.getLast? = some last) (hd : 29 < depth_limit) :
    ∃ s, (AgnesSorelState.new is_colored depth_limit).applyActions hasher ids = some s ∧
      s.tableaus_.map (fun t => t.cards_) =
        chunks [1, 2, 3, 4, 5, 6, 7] ((ids.take 28).map revealedSlot) ∧
      (∀ t ∈ s.tableaus_, ∀ c ∈ t.cards_, c.hidden_ = false) ∧
      s.IsChanceNode = false ∧ s.IsTerminal = false ∧
      s.foundation_rank_ = (Card.ofIndex last false LocationType.kMissing).rank_ ∧
      s.foundations_.map (fun f => f.suit_) = [1, 2, 3, 4] ∧
      ∀ f ∈ s.foundations_,
        (f.suit_ = (Card.ofIndex last false LocationType.kMissing).suit_ →
          f.cards_ = [(Card.ofIndex last false LocationType.kMissing).SetLocation
            LocationType.kFoundation]) ∧
        (f.suit_ ≠ (Card.ofIndex last false LocationType.kMissing).suit_ →
          f.cards_ = [] ∧
          Foundation.Targets f =
            [Card.new false f.suit_ RankType.kNone LocationType.kFoundation]) := by
  obtain ⟨front, hfront⟩ := List.getLast?_eq_some_iff.1 hlast
  subst hfront
  have hflen : front.length = 28 := by
    simp only [List.length_append, List.length_singleton] at hlen
    omega
  have htake : (front ++ [last]).take 28 = front := by
    rw [← hflen]
    exact List.take_left' rfl
  obtain ⟨th, trep, tlen⟩ := initial_tableaus_facts is_colored depth_limit
  obtain ⟨fempty, fsuits⟩ := initial_foundations_facts is_colored depth_limit
  have hsum : ((AgnesSorelState.new is_colored depth_limit).tableaus_.map
      (fun t => t.cards_.length)).sum = 28 := by rw [tlen]; rfl
  have hl := hids last (by simp)
  obtain ⟨s28, e1, e2, e3, e4, e5, e6, e7⟩ := applyActions_reveals hasher
    (AgnesSorelState.new is_colored depth_limit).tableaus_ th front []
    (AgnesSorelState.new is_colored depth_limit)
    (fun a ha => hids a (List.mem_append_left _ ha)) (fillPiles_nil _).symm
    (by rw [hsum, hflen]; rfl)
    (by
      have d0 : (AgnesSorelState.new is_colored depth_limit).current_depth_ = 0 := rfl
      have l0 : (AgnesSorelState.new is_colored depth_limit).depth_limit_ = depth_limit := rfl
      rw [d0, l0, hflen]
      push_cast
      omega)
  rw [List.nil_append] at e2
  have d0 : (AgnesSorelState.new is_colored depth_limit).current_depth_ = 0 := rfl
  have l0 : (AgnesSorelState.new is_colored depth_limit).depth_limit_ = depth_limit := rfl
  have k0 : (AgnesSorelState.new is_colored depth_limit).is_known_foundation_ = false := rfl
  have f0 : (AgnesSorelState.new is_colored depth_limit).is_finished_ = false := rfl
  rw [k0] at e4
  rw [f0] at e5
  rw [d0, hflen] at e6
  rw [l0] at e7
  have hnone : s28.tableaus_.any (fun tableau =>
      !tableau.GetIsEmpty && tableau.cards_.any (fun card => card.hidden_)) = false := by
    rw [e2]
    exact fillPiles_no_hidden _ _ th (by rw [hsum, List.length_map, hflen])
  obtain ⟨-, ⟨-, -, s1, s2⟩, -⟩ := ofIndex_facts last hl.1 hl.2
  obtain ⟨id, hid⟩ := Option.isSome_iff_exists.mp (kSuitToPile_isSome _ s1 s2)
  have hstep := DoApplyAction_reveal_seed hasher s28 last id hl.1 hl.2
    (revealInTableaus_none _ _ hnone) e4 hid
    (by rw [e6, e7]; push_cast; omega)
  have happ : (AgnesSorelState.new is_colored depth_limit).applyActions hasher
      (front ++ [last]) = s28.DoApplyAction hasher last := by
    rw [applyActions_append, e1]
    show (match s28.DoApplyAction hasher last with
      | none => none
      | some s' => AgnesSorelState.applyActions hasher s' []) = _
    cases s28.DoApplyAction hasher last <;> rfl
  rw [happ, hstep]
  refine ⟨_, rfl, ?_, ?_, ?_, ?_, ?_, ?_, ?_⟩
  · show s28.tableaus_.map (fun t => t.cards_) = _
    rw [e2, fillPiles_cards (hiddenCard LocationType.kTableau) _ _ trep
      (by rw [hsum, List.length_map, hflen]), tlen, htake, List.map_map]
    rfl
  · show ∀ t ∈ s28.tableaus_, ∀ c ∈ t.cards_, c.hidden_ = false
    intro t ht c hc
    rw [List.any_eq_false] at hnone
    have h1 := hnone t ht
    have h2 : ¬ (t.cards_.any (fun card => card.hidden_) = true) := by
      intro h
      apply h1
      show (!t.cards_.isEmpty && t.cards_.any (fun card => card.hidden_)) = true
      rw [hidden_guard_eq]
      exact h
    rw [List.any_eq_true] at h2
    cases hh : c.hidden_ with
    | false => rfl
    | true => exact absurd ⟨c, hc, hh⟩ h2
  · show (s28.tableaus_.any (fun tableau =>
      !tableau.GetIsEmpty && tableau.cards_.any (fun card => card.hidden_)) || !true) = false
    rw [hnone]
    rfl
  · show s28.is_finished_ = false
    exact e5
  · rfl
  · show List.map (fun f : Pile => f.suit_) (List.map _ s28.foundations_) = [1, 2, 3, 4]
    rw [e3, List.map_map, ← fsuits]
    apply List.map_congr_left
    intro f _
    simp only [Function.comp]
    split <;> rfl
  · intro f hf
    have hf' : f ∈ s28.foundations_.map (fun foundation =>
        if foundation.suit_ = (Card.ofIndex last false LocationType.kMissing).suit_
        then foundation.Extend [Card.ofIndex last false LocationType.kMissing]
        else foundation) := hf
    rw [e3, List.mem_map] at hf'
    obtain ⟨g, hg, hgf⟩ := hf'
    obtain ⟨gc, gt⟩ := fempty g hg
    by_cases hs : g.suit_ = (Card.ofIndex last false LocationType.kMissing).suit_
    · rw [if_pos hs] at hgf
      subst hgf
      refine ⟨fun _ => ?_, fun hne => absurd hs hne⟩
      show g.cards_ ++ [(Card.ofIndex last false LocationType.kMissing).SetLocation g.type_]
        = _
      rw [gc, gt]
      rfl
    · rw [if_neg hs] at hgf
      subst hgf
      refine ⟨fun he => absurd he hs, fun _ => ⟨gc, ?_⟩⟩
      unfold Foundation.Targets
      rw [gc]
      rfl

set_option maxRecDepth 100000 in
theorem decision_node_after_29_reveals_witness :
    ∃ s, (AgnesSorelState.new false 150).applyActions constantHasher sampleReveals = some s ∧
      s.tableaus_.map (fun t => t.cards_) =
        chunks [1, 2, 3, 4, 5, 6, 7] ((sampleReveals.take 28).map revealedSlot) ∧
      s.IsChanceNode = false ∧ s.IsTerminal = false ∧ s.foundation_rank_ = 5 := by
  obtain ⟨s, h1, h2, -, h4, h5, h6, -, -⟩ :=
    decision_node_after_29_reveals constantHasher false 150 sampleReveals 5
      (by decide) (by decide) (by decide) (by decide)
  exact ⟨s, h1, h2, h4, h5, h6⟩

/-! ## Legal children of a foundation card, sources and targets of a pile -/

theorem LegalChildrenOf_foundation : ∀ rank suit R : Int, 0 ≤ rank → rank ≤ 13 →
    1 ≤ suit → suit ≤ 4 → 1 ≤ R → R ≤ 13 → ∀ index : Int,
    Card.LegalChildrenOf { rank_ := rank, suit_ := suit, location_ := LocationType.kFoundation,
                           hidden_ := false, index_ := index } R =
      some [Card.new false suit
        (if rank = 0 then R else if rank = 13 then 1 else rank + 1) LocationType.kMissing] := by
  intro rank suit R h1 h2 h3 h4 h5 h6 index
  interval_cases rank <;> interval_cases suit <;> interval_cases R <;> rfl

/-- C21: `LegalChildren(R)` of a card that is not hidden and located in a
foundation, for a foundation rank `R` in Ace..King. For the empty-foundation
sentinel of a suit (rank `kNone`) the result is exactly the card of that suit
and rank `R`. For an ordinary card the result is exactly the card of the same
suit one rank higher, the Ace after a King, whatever `R` is. -/
theorem LegalChildrenOf_foundation_card (p : Card) (R : Int) (hh : p.hidden_ = false)
    (hl : p.location_ = LocationType.kFoundation) (hR : 1 ≤ R ∧ R ≤ 13) :
    (p.rank_ = RankType.kNone → 1 ≤ p.suit_ ∧ p.suit_ ≤ 4 →
      p.LegalChildrenOf R = some [Card.new false p.suit_ R LocationType.kMissing])
    ∧ (p.ordinary →
      p.LegalChildrenOf R =
        some [Card.new false p.suit_ (if p.rank_ = 13 then 1 else p.rank_ + 1)
          LocationType.kMissing]
      ∧ ∀ R' : Int, 1 ≤ R' ∧ R' ≤ 13 → p.LegalChildrenOf R' = p.LegalChildrenOf R) := by
  obtain ⟨rank, suit, location, hidden, index⟩ := p
  simp only at hh hl
  subst hh hl
  refine ⟨?_, ?_⟩
  · intro hr hs
    simp only at hr hs
    subst hr
    exact LegalChildrenOf_foundation 0 suit R (le_refl _) (by decide) hs.1 hs.2 hR.1 hR.2 index
  · intro ho
    obtain ⟨h1, h2, h3, h4⟩ := ho
    simp only at h1 h2 h3 h4
    have hne : ¬ (rank = 0) := by omega
    have e := LegalChildrenOf_foundation rank suit R (by omega) h2 h3 h4 hR.1 hR.2 index
    rw [if_neg hne] at e
    refine ⟨e, ?_⟩
    intro R' hR'
    have e' := LegalChildrenOf_foundation rank suit R' (by omega) h2 h3 h4 hR'.1 hR'.2 index
    rw [if_neg hne] at e'
    rw [e, e']

theorem LegalChildrenOf_foundation_card_witness :
    (Card.new false SuitType.kHearts RankType.kNone LocationType.kFoundation).LegalChildrenOf 7
      = some [Card.new false SuitType.kHearts 7 LocationType.kMissing]
    ∧ (Card.new false SuitType.kClubs RankType.kK LocationType.kFoundation).LegalChildrenOf 7
      = some [Card.new false SuitType.kClubs RankType.kA LocationType.kMissing]
    ∧ (Card.new false SuitType.kClubs 4 LocationType.kFoundation).LegalChildrenOf 7
      = some [Card.new false SuitType.kClubs 5 LocationType.kMissing] :=
  ⟨(LegalChildrenOf_foundation_card
      (Card.new false SuitType.kHearts RankType.kNone LocationType.kFoundation) 7 rfl rfl
      (by decide)).1 rfl (by decide),
   ((LegalChildrenOf_foundation_card
      (Card.new false SuitType.kClubs RankType.kK LocationType.kFoundation) 7 rfl rfl
      (by decide)).2 (by decide)).1,
   ((LegalChildrenOf_foundation_card
      (Card.new false SuitType.kClubs 4 LocationType.kFoundation) 7 rfl rfl
      (by decide)).2 (by decide)).1⟩

/-- C22 (counterexample): `LegalChildren(kNone)` of the five of spades on a
foundation, and of the empty-foundation sentinel of spades, returns the empty
list; it does not abort. -/
theorem LegalChildrenOf_none_returns_empty :
    (Card.new false SuitType.kSpades 5 LocationType.kFoundation).LegalChildrenOf RankType.kNone
      = some []
    ∧ (Card.new false SuitType.kSpades RankType.kNone
        LocationType.kFoundation).LegalChildrenOf RankType.kNone = some [] := by
  decide

/-- C22 (amended): for a card that is not hidden and located in a
foundation, `LegalChildren(foundation_rank)` with the rank `kNone` returns the
empty list, and with the rank `kHidden` it aborts. -/
theorem LegalChildrenOf_none_and_hidden (p : Card) (hh : p.hidden_ = false)
    (hl : p.location_ = LocationType.kFoundation) :
    p.LegalChildrenOf RankType.kNone = some [] ∧ p.LegalChildrenOf RankType.kHidden = none := by
  unfold Card.LegalChildrenOf
  rw [hh, hl]
  exact ⟨rfl, rfl⟩

theorem LegalChildrenOf_none_and_hidden_witness :
    (Card.new false SuitType.kSpades 5 LocationType.kFoundation).LegalChildrenOf RankType.kNone
      = some []
    ∧ (Card.new false SuitType.kSpades 5 LocationType.kFoundation).LegalChildrenOf
        RankType.kHidden = none :=
  LegalChildrenOf_none_and_hidden (Card.new false SuitType.kSpades 5 LocationType.kFoundation)
    rfl rfl

/-- C23 (defect): the sources of the tableau that holds, bottom to top, the
five, the four and the three of spades. The three cards are face up and each
is a legal child of the card below it, so the whole pile is a validly ordered
run, but `Sources()` returns only the three and the four: the loop compares
every card with the top card of the pile, not with the card directly above
it, and the three is not a legal child of the five. -/
theorem tableau_sources_miss_third_card :
    spadeRunPile.cards_.map (fun c => (c.rank_, c.suit_, c.hidden_, c.location_)) =
      [(5, 1, false, LocationType.kTableau), (4, 1, false, LocationType.kTableau),
       (3, 1, false, LocationType.kTableau)]
    ∧ ((Card.new false SuitType.kSpades 5 LocationType.kTableau).LegalChildren.map
        (fun children => (Card.new false SuitType.kSpades 4 LocationType.kTableau).isIn children))
      = some true
    ∧ ((Card.new false SuitType.kSpades 4 LocationType.kTableau).LegalChildren.map
        (fun children => (Card.new false SuitType.kSpades 3 LocationType.kTableau).isIn children))
      = some true
    ∧ Tableau.Sources spadeRunPile =
      some [Card.new false SuitType.kSpades 3 LocationType.kTableau,
            Card.new false SuitType.kSpades 4 LocationType.kTableau] := by
  decide

/-- C24: `Targets()` of each kind of pile. A foundation with cards returns
its top card only, an empty one the empty-foundation sentinel of its own suit.
A tableau with cards returns its top card only when that card is not hidden
and nothing when it is hidden; an empty tableau returns the empty-tableau
sentinel. The waste returns nothing, whatever it holds. -/
theorem Targets_per_pile_kind (p : Pile) (below : List Card) (top : Card) :
    Foundation.Targets (p.SetCards (below ++ [top])) = [top]
    ∧ Foundation.Targets (p.SetCards []) =
        [Card.new false p.suit_ RankType.kNone LocationType.kFoundation]
    ∧ Tableau.Targets (p.SetCards (below ++ [top])) = (if top.hidden_ then [] else [top])
    ∧ Tableau.Targets (p.SetCards []) =
        [Card.new false SuitType.kNone RankType.kNone LocationType.kTableau]
    ∧ Waste.Targets p = [] := by
  refine ⟨?_, rfl, ?_, rfl, rfl⟩
  · unfold Foundation.Targets Pile.SetCards
    simp only [List.getLast?_append, List.getLast?_singleton, Option.or]
  · unfold Tableau.Targets Pile.SetCards
    simp only [List.getLast?_append, List.getLast?_singleton, Option.or]

/-! ## `Split` and `Reveal` of a pile -/

theorem tableauSplitLoop_true (card : Card) : ∀ cards : List Card,
    Tableau.SplitLoop card true cards = ([], cards) := by
  intro cards
  induction cards with
  | nil => rfl
  | cons c rest ih => simp only [Tableau.SplitLoop, Bool.true_or, if_true, ih]

theorem tableauSplitLoop_found (card : Card) : ∀ (pre : List Card) (x : Card)
    (post : List Card), (∀ c ∈ pre, c.equals card = false) → x.equals card = true →
    Tableau.SplitLoop card false (pre ++ x :: post) = (pre, x :: post) := by
  intro pre
  induction pre with
  | nil =>
    intro x post _ hx
    simp only [List.nil_append, Tableau.SplitLoop, hx, Bool.or_true, if_true,
      tableauSplitLoop_true]
  | cons c rest ih =>
    intro x post hpre hx
    have hc : c.equals card = false := hpre c (List.mem_cons_self _ _)
    simp only [List.cons_append, Tableau.SplitLoop, hc, Bool.or_self, Bool.false_eq_true,
      if_false, List.append_eq, ih x post (fun d hd => hpre d (List.mem_cons_of_mem _ hd)) hx]

theorem tableauSplitLoop_not_found (card : Card) : ∀ cards : List Card,
    (∀ c ∈ cards, c.equals card = false) → Tableau.SplitLoop card false cards = (cards, []) := by
  intro cards
  induction cards with
  | nil => intro _; rfl
  | cons c rest ih =>
    intro h
    have hc : c.equals card = false := h c (List.mem_cons_self _ _)
    simp only [Tableau.SplitLoop, hc, Bool.or_self, Bool.false_eq_true, if_false,
      ih (fun d hd => h d (List.mem_cons_of_mem _ hd))]

theorem wasteSplitLoop_found (card : Card) : ∀ (pre : List Card) (x : Card)
    (post : List Card), (∀ c ∈ pre, c.equals card = false) → x.equals card = true →
    Waste.SplitLoop card (pre ++ x :: post) = (pre ++ post, [x]) := by
  intro pre
  induction pre with
  | nil =>
    intro x post _ hx
    simp only [List.nil_append, Waste.SplitLoop, hx, if_true]
  | cons c rest ih =>
    intro x post hpre hx
    have hc : c.equals card = false := hpre c (List.mem_cons_self _ _)
    simp only [List.cons_append, Waste.SplitLoop, hc, Bool.false_eq_true, if_false,
      List.append_eq, ih x post (fun d hd => hpre d (List.mem_cons_of_mem _ hd)) hx]

/-- C25: `Tableau::Split(card)` splits the pile at the first card equal to
`card` (equal in rank and suit). When the pile is `below`, then a card `x`
equal to `card`, then `above`, and no card of `below` equals `card` (as is the
case for every decomposition at `x` when the cards are pairwise distinct),
the run returned is `x` followed by `above`, in the order of the pile, and
the pile keeps exactly `below`; the pile followed by the run is the old pile.
When no card equals `card`, the run returned is empty and the pile is
unchanged. -/
theorem Tableau_Split_at_card (p : Pile) (card : Card) :
    (∀ (below above : List Card) (x : Card),
      (∀ c ∈ below, c.equals card = false) → x.equals card = true →
      Tableau.Split (p.SetCards (below ++ x :: above)) card = (x :: above, p.SetCards below)
      ∧ (Tableau.Split (p.SetCards (below ++ x :: above)) card).2.cards_
          ++ (Tableau.Split (p.SetCards (below ++ x :: above)) card).1
          = (p.SetCards (below ++ x :: above)).cards_)
    ∧ ((∀ c ∈ p.cards_, c.equals card = false) → Tableau.Split p card = ([], p)) := by
  refine ⟨?_, ?_⟩
  · intro below above x hb hx
    have e : Tableau.Split (p.SetCards (below ++ x :: above)) card
        = (x :: above, p.SetCards below) := by
      unfold Tableau.Split Pile.SetCards
      simp only [tableauSplitLoop_found card below x above hb hx]
    rw [e]
    exact ⟨rfl, rfl⟩
  · intro h
    unfold Tableau.Split
    simp only [tableauSplitLoop_not_found card p.cards_ h]

theorem Tableau_Split_at_card_witness :
    Tableau.Split spadeRunPile (Card.new false SuitType.kSpades 4 LocationType.kMissing)
      = ([Card.new false SuitType.kSpades 4 LocationType.kTableau,
          Card.new false SuitType.kSpades 3 LocationType.kTableau],
         (Tableau.new PileID.k1stTableau).SetCards
          [Card.new false SuitType.kSpades 5 LocationType.kTableau])
    ∧ Tableau.Split spadeRunPile (Card.new false SuitType.kHearts 4 LocationType.kMissing)
      = ([], spadeRunPile) :=
  ⟨((Tableau_Split_at_card (Tableau.new PileID.k1stTableau)
      (Card.new false SuitType.kSpades 4 LocationType.kMissing)).1
      [Card.new false SuitType.kSpades 5 LocationType.kTableau]
      [Card.new false SuitType.kSpades 3 LocationType.kTableau]
      (Card.new false SuitType.kSpades 4 LocationType.kTableau) (by decide) (by decide)).1,
   (Tableau_Split_at_card spadeRunPile
      (Card.new false SuitType.kHearts 4 LocationType.kMissing)).2 (by decide)⟩

/-- C26 (counterexample): the spade foundation holds, bottom to top, the five
and the six of spades. `Foundation::Split` with the five of spades, which is
in the pile, returns the empty run and leaves the pile as it is. -/
theorem Foundation_Split_ignores_buried_card :
    spadeFoundationPile.cards_.map (fun c => (c.rank_, c.suit_)) = [(5, 1), (6, 1)]
    ∧ Foundation.Split spadeFoundationPile
        (Card.new false SuitType.kSpades 5 LocationType.kMissing)
      = some ([], spadeFoundationPile) := by
  decide

/-- C26 (amended): `Waste::Split(card)` removes exactly the first card equal
to `card`, wherever it is in the pile, returns it as a one-card run and keeps
the other cards in their order; when no card equals `card` (also when the
waste is empty) it returns the empty run and leaves the pile unchanged.
`Foundation::Split(card)` on a foundation that holds a card looks at the top
card only: when the top card equals `card` it is removed and returned as a
one-card run, the cards below staying in order; otherwise the run is empty
and the pile unchanged. -/
theorem Waste_and_Foundation_Split (p : Pile) (card : Card) :
    (∀ (before after : List Card) (x : Card),
      (∀ c ∈ before, c.equals card = false) → x.equals card = true →
      Waste.Split (p.SetCards (before ++ x :: after)) card = ([x], p.SetCards (before ++ after)))
    ∧ ((∀ c ∈ p.cards_, c.equals card = false) → Waste.Split p card = ([], p))
    ∧ (∀ (below : List Card) (top : Card),
      Foundation.Split (p.SetCards (below ++ [top])) card =
        some (if top.equals card then ([top], p.SetCards below)
              else ([], p.SetCards (below ++ [top])))) := by
  refine ⟨?_, ?_, ?_⟩
  · intro before after x hb hx
    unfold Waste.Split Pile.SetCards
    simp only [wasteSplitLoop_found card before x after hb hx]
  · intro h
    unfold Waste.Split
    simp only [Waste.SplitLoop_not_found card p.cards_ h]
  · intro below top
    unfold Foundation.Split Pile.SetCards
    simp only [List.getLast?_append, List.getLast?_singleton, Option.or,
      List.dropLast_concat]
    split <;> rfl

theorem Waste_and_Foundation_Split_witness :
    Waste.Split (Waste.new.SetCards
        [Card.new false SuitType.kSpades 5 LocationType.kWaste,
         Card.new false SuitType.kSpades 6 LocationType.kWaste,
         Card.new false SuitType.kSpades 7 LocationType.kWaste])
        (Card.new false SuitType.kSpades 6 LocationType.kMissing)
      = ([Card.new false SuitType.kSpades 6 LocationType.kWaste],
         Waste.new.SetCards
          [Card.new false SuitType.kSpades 5 LocationType.kWaste,
           Card.new false SuitType.kSpades 7 LocationType.kWaste])
    ∧ Waste.Split Waste.new (Card.new false SuitType.kSpades 6 LocationType.kMissing)
      = ([], Waste.new) :=
  ⟨(Waste_and_Foundation_Split Waste.new
      (Card.new false SuitType.kSpades 6 LocationType.kMissing)).1
      [Card.new false SuitType.kSpades 5 LocationType.kWaste]
      [Card.new false SuitType.kSpades 7 LocationType.kWaste]
      (Card.new false SuitType.kSpades 6 LocationType.kWaste) (by decide) (by decide),
   (Waste_and_Foundation_Split Waste.new
      (Card.new false SuitType.kSpades 6 LocationType.kMissing)).2.1 (by decide)⟩

theorem RevealLoop_first_hidden (c : Card) : ∀ (before : List Card) (h : Card)
    (after : List Card), (∀ x ∈ before, x.hidden_ = false) → h.hidden_ = true →
    RevealLoop c (before ++ h :: after) =
      before ++ { h with rank_ := c.rank_, suit_ := c.suit_, hidden_ := false } :: after := by
  intro before
  induction before with
  | nil =>
    intro h after _ hh
    simp only [List.nil_append, RevealLoop, hh, if_true]
  | cons x rest ih =>
    intro h after hb hh
    have hx : x.hidden_ = false := hb x (List.mem_cons_self _ _)
    simp only [List.cons_append, RevealLoop, hx, Bool.false_eq_true, if_false, List.append_eq,
      ih h after (fun d hd => hb d (List.mem_cons_of_mem _ hd)) hh]

theorem RevealLoop_no_hidden (c : Card) : ∀ cards : List Card,
    (∀ x ∈ cards, x.hidden_ = false) → RevealLoop c cards = cards := by
  intro cards
  induction cards with
  | nil => intro _; rfl
  | cons x rest ih =>
    intro h
    have hx : x.hidden_ = false := h x (List.mem_cons_self _ _)
    simp only [RevealLoop, hx, Bool.false_eq_true, if_false,
      ih (fun d hd => h d (List.mem_cons_of_mem _ hd))]

/-- C27: `Reveal(c)` of a tableau and of the waste. When the pile is
`before`, then a hidden card `h`, then `after`, and no card of `before` is
hidden, the pile afterwards is `before`, then `h` with the rank and suit of
`c` and not hidden (its location and index kept), then `after`: the same
number of cards in the same order, with one hidden card less. A pile without
a hidden card is left as it is. -/
theorem Reveal_first_hidden_card (p : Pile) (c : Card) :
    (∀ (before after : List Card) (h : Card),
      (∀ x ∈ before, x.hidden_ = false) → h.hidden_ = true →
      Tableau.Reveal (p.SetCards (before ++ h :: after)) c =
        p.SetCards (before ++
          { h with rank_ := c.rank_, suit_ := c.suit_, hidden_ := false } :: after)
      ∧ Waste.Reveal (p.SetCards (before ++ h :: after)) c =
        p.SetCards (before ++
          { h with rank_ := c.rank_, suit_ := c.suit_, hidden_ := false } :: after)
      ∧ (Tableau.Reveal (p.SetCards (before ++ h :: after)) c).cards_.length =
        (before ++ h :: after).length
      ∧ (Tableau.Reveal (p.SetCards (before ++ h :: after)) c).cards_.countP
          (fun x => x.hidden_) + 1 = (before ++ h :: after).countP (fun x => x.hidden_))
    ∧ ((∀ x ∈ p.cards_, x.hidden_ = false) → Tableau.Reveal p c = p ∧ Waste.Reveal p c = p) := by
  refine ⟨?_, ?_⟩
  · intro before after h hb hh
    have e := RevealLoop_first_hidden c before h after hb hh
    have e1 : Tableau.Reveal (p.SetCards (before ++ h :: after)) c =
        p.SetCards (before ++
          { h with rank_ := c.rank_, suit_ := c.suit_, hidden_ := false } :: after) := by
      unfold Tableau.Reveal Pile.SetCards
      simp only [e]
    have e2 : Waste.Reveal (p.SetCards (before ++ h :: after)) c =
        p.SetCards (before ++
          { h with rank_ := c.rank_, suit_ := c.suit_, hidden_ := false } :: after) := by
      unfold Waste.Reveal Pile.SetCards
      simp only [e]
    refine ⟨e1, e2, ?_, ?_⟩
    · rw [e1]
      simp [Pile.SetCards]
    · rw [e1]
      simp [Pile.SetCards, List.countP_append, List.countP_cons, hh]
      omega
  · intro h
    have e := RevealLoop_no_hidden c p.cards_ h
    constructor
    · unfold Tableau.Reveal
      rw [e]
    · unfold Waste.Reveal
      rw [e]

theorem Reveal_first_hidden_card_witness :
    Tableau.Reveal ((Tableau.new PileID.k1stTableau).SetCards
        [Card.new false SuitType.kSpades 5 LocationType.kTableau,
         hiddenCard LocationType.kTableau, hiddenCard LocationType.kTableau])
        (Card.ofIndex 14 false LocationType.kMissing)
      = (Tableau.new PileID.k1stTableau).SetCards
        [Card.new false SuitType.kSpades 5 LocationType.kTableau,
         Card.new false SuitType.kHearts RankType.kA LocationType.kTableau,
         hiddenCard LocationType.kTableau]
    ∧ Tableau.Reveal spadeRunPile (Card.ofIndex 14 false LocationType.kMissing)
      = spadeRunPile :=
  ⟨((Reveal_first_hidden_card (Tableau.new PileID.k1stTableau)
      (Card.ofIndex 14 false LocationType.kMissing)).1
      [Card.new false SuitType.kSpades 5 LocationType.kTableau]
      [hiddenCard LocationType.kTableau] (hiddenCard LocationType.kTableau)
      (by decide) rfl).1,
   ((Reveal_first_hidden_card spadeRunPile
      (Card.ofIndex 14 false LocationType.kMissing)).2 (by decide)).1⟩

/-! ## Candidate moves -/

theorem candidatesFor_mem (s : AgnesSorelState) (sources : List Card) (target : Card) :
    ∀ (children : List Card) (moves : List Move),
      s.candidatesFor sources target children = some moves →
      ∀ m ∈ moves, m.target_ = target ∧ m.source_ ∈ children ∧
        m.source_.isIn sources = true := by
  intro children
  induction children with
  | nil =>
    intro moves h m hm
    unfold AgnesSorelState.candidatesFor at h
    cases h
    simp at hm
  | cons source rest ih =>
    intro moves h m hm
    unfold AgnesSorelState.candidatesFor at h
    cases hrest : s.candidatesFor sources target rest with
    | none => rw [hrest] at h; exact absurd h (by simp)
    | some more =>
      rw [hrest] at h
      simp only [] at h
      have hmore : ∀ m ∈ more, m.target_ = target ∧ m.source_ ∈ source :: rest ∧
          m.source_.isIn sources = true := by
        intro m' hm'
        obtain ⟨a, b, c⟩ := ih more hrest m' hm'
        exact ⟨a, List.mem_cons_of_mem _ b, c⟩
      have hcons : source.isIn sources = true →
          ∀ m ∈ Move.mk target source :: more, m.target_ = target ∧
            m.source_ ∈ source :: rest ∧ m.source_.isIn sources = true := by
        intro hin m' hm'
        rcases List.mem_cons.1 hm' with e | e
        · subst e
          exact ⟨rfl, List.mem_cons_self _ _, hin⟩
        · exact hmore m' e
      by_cases hin : source.isIn sources = true
      · rw [if_pos hin] at h
        split at h
        · exact absurd h (by simp)
        · split at h
          · split at h
            · exact absurd h (by simp)
            · split at h
              · cases h; exact hcons hin m hm
              · cases h; exact hmore m hm
          · split at h
            · split at h
              · cases h; exact hcons hin m hm
              · split at h
                · split at h
                  · exact absurd h (by simp)
                  · split at h
                    · cases h; exact hmore m hm
                    · cases h; exact hcons hin m hm
                · cases h; exact hmore m hm
            · cases h; exact hcons hin m hm
      · rw [if_neg hin] at h
        cases h
        exact hmore m hm

theorem candidatesLoop_mem (s : AgnesSorelState) (sources : List Card) :
    ∀ (targets : List Card) (flag : Bool) (moves : List Move),
      s.candidatesLoop sources flag targets = some moves →
      ∀ m ∈ moves, m.target_ ∈ targets ∧
        ∃ children, m.target_.LegalChildrenOf s.foundation_rank_ = some children ∧
          m.source_ ∈ children ∧ m.source_.isIn sources = true := by
  intro targets
  induction targets with
  | nil =>
    intro flag moves h m hm
    unfold AgnesSorelState.candidatesLoop at h
    cases h
    simp at hm
  | cons target rest ih =>
    intro flag moves h m hm
    unfold AgnesSorelState.candidatesLoop at h
    split at h
    · obtain ⟨a, b⟩ := ih _ _ h m hm
      exact ⟨List.mem_cons_of_mem _ a, b⟩
    · split at h
      · exact absurd h (by simp)
      · rename_i children hch
        split at h
        · rename_i a b ha hb
          cases h
          rcases List.mem_append.1 hm with e | e
          · obtain ⟨e1, e2, e3⟩ := candidatesFor_mem s sources target children a ha m e
            rw [e1]
            exact ⟨List.mem_cons_self _ _, children, hch, e2, e3⟩
          · obtain ⟨e1, e2⟩ := ih _ _ hb m e
            exact ⟨List.mem_cons_of_mem _ e1, e2⟩
        · exact absurd h (by simp)

theorem tableauSources_mem : ∀ (ts : List Pile) (l : List Card),
    tableauSources ts = some l → ∀ c ∈ l,
      ∃ t ∈ ts, ∃ l', Tableau.Sources t = some l' ∧ c ∈ l' := by
  intro ts
  induction ts with
  | nil =>
    intro l h c hc
    unfold tableauSources at h
    cases h
    simp at hc
  | cons t rest ih =>
    intro l h c hc
    unfold tableauSources at h
    split at h
    · rename_i a b ha hb
      cases h
      rcases List.mem_append.1 hc with e | e
      · exact ⟨t, List.mem_cons_self _ _, a, ha, e⟩
      · obtain ⟨t', ht', l', hl', hc'⟩ := ih b hb c e
        exact ⟨t', List.mem_cons_of_mem _ ht', l', hl', hc'⟩
    · exact absurd h (by simp)

theorem Sources_mem (s : AgnesSorelState) (sources : List Card)
    (h : s.Sources LocationType.kMissing = some sources) (c : Card) (hc : c ∈ sources) :
    (∃ t ∈ s.tableaus_, ∃ l, Tableau.Sources t = some l ∧ c ∈ l)
    ∨ (∃ f ∈ s.foundations_, c ∈ Foundation.Sources f)
    ∨ c ∈ Waste.Sources s.waste_ := by
  unfold AgnesSorelState.Sources at h
  simp only [or_true, if_true] at h
  split at h
  · exact absurd h (by simp)
  · rename_i fromTableaus ht
    cases h
    rcases List.mem_append.1 hc with e | e
    · rcases List.mem_append.1 e with e' | e'
      · exact Or.inl (tableauSources_mem _ _ ht c e')
      · obtain ⟨f, hf, hcf⟩ := List.mem_flatMap.1 e'
        exact Or.inr (Or.inl ⟨f, hf, hcf⟩)
    · exact Or.inr (Or.inr e)

theorem Targets_mem (s : AgnesSorelState) (c : Card)
    (hc : c ∈ s.Targets LocationType.kMissing) :
    (∃ t ∈ s.tableaus_, c ∈ Tableau.Targets t)
    ∨ (∃ f ∈ s.foundations_, c ∈ Foundation.Targets f) := by
  unfold AgnesSorelState.Targets at hc
  simp only [or_true, if_true] at hc
  rcases List.mem_append.1 hc with e | e
  · obtain ⟨t, ht, hct⟩ := List.mem_flatMap.1 e
    exact Or.inl ⟨t, ht, hct⟩
  · obtain ⟨f, hf, hcf⟩ := List.mem_flatMap.1 e
    exact Or.inr ⟨f, hf, hcf⟩

theorem CandidateMoves_mem (s : AgnesSorelState) (moves : List Move)
    (h : s.CandidateMoves = some moves) (m : Move) (hm : m ∈ moves) :
    m.target_ ∈ s.Targets LocationType.kMissing ∧
    (∃ sources, s.Sources LocationType.kMissing = some sources ∧
      m.source_.isIn sources = true) ∧
    ∃ children, m.target_.LegalChildrenOf s.foundation_rank_ = some children ∧
      m.source_ ∈ children := by
  unfold AgnesSorelState.CandidateMoves at h
  split at h
  · exact absurd h (by simp)
  · rename_i sources hs
    obtain ⟨a, children, b, c, d⟩ := candidatesLoop_mem s sources _ _ _ h m hm
    exact ⟨a, ⟨sources, hs, d⟩, children, b, c⟩

/-- C30: every move of `CandidateMoves` is sound. Its target is one of the
`Targets()` of a tableau or of a foundation of the state; its source is equal
(in rank and suit, the equality of `Card`) to one of the `Sources()` of a
tableau, of a foundation or of the waste of the state; and its source is a
member of `LegalChildren(foundation_rank_)` of its target. -/
theorem CandidateMoves_sound (s : AgnesSorelState) (moves : List Move)
    (h : s.CandidateMoves = some moves) (m : Move) (hm : m ∈ moves) :
    ((∃ t ∈ s.tableaus_, m.target_ ∈ Tableau.Targets t)
      ∨ (∃ f ∈ s.foundations_, m.target_ ∈ Foundation.Targets f))
    ∧ (∃ c, c.equals m.source_ = true ∧
      ((∃ t ∈ s.tableaus_, ∃ l, Tableau.Sources t = some l ∧ c ∈ l)
        ∨ (∃ f ∈ s.foundations_, c ∈ Foundation.Sources f)
        ∨ c ∈ Waste.Sources s.waste_))
    ∧ ∃ children, m.target_.LegalChildrenOf s.foundation_rank_ = some children ∧
        m.source_ ∈ children := by
  obtain ⟨a, ⟨sources, hs, hin⟩, hch⟩ := CandidateMoves_mem s moves h m hm
  refine ⟨Targets_mem s _ a, ?_, hch⟩
  unfold Card.isIn at hin
  rw [List.any_eq_true] at hin
  obtain ⟨c, hc, he⟩ := hin
  exact ⟨c, he, Sources_mem s sources hs c hc⟩

theorem CandidateMoves_sound_witness :
    rewardSampleState.CandidateMoves =
      some [Move.mk (Card.new false SuitType.kSpades 6 LocationType.kTableau)
              (Card.new false SuitType.kSpades 5 LocationType.kMissing),
            Move.mk (Card.new false SuitType.kSpades 5 LocationType.kFoundation)
              (Card.new false SuitType.kSpades 6 LocationType.kMissing)]
    ∧ ∃ children, (Card.new false SuitType.kSpades 6 LocationType.kTableau).LegalChildrenOf
        rewardSampleState.foundation_rank_ = some children ∧
        Card.new false SuitType.kSpades 5 LocationType.kMissing ∈ children := by
  have h : rewardSampleState.CandidateMoves =
      some [Move.mk (Card.new false SuitType.kSpades 6 LocationType.kTableau)
              (Card.new false SuitType.kSpades 5 LocationType.kMissing),
            Move.mk (Card.new false SuitType.kSpades 5 LocationType.kFoundation)
              (Card.new false SuitType.kSpades 6 LocationType.kMissing)] := by decide
  exact ⟨h, (CandidateMoves_sound rewardSampleState _ h
      (Move.mk (Card.new false SuitType.kSpades 6 LocationType.kTableau)
        (Card.new false SuitType.kSpades 5 LocationType.kMissing))
      (List.mem_cons_self _ _)).2.2⟩

/-! ## Legal actions of a decision node -/

set_option maxRecDepth 1000000 in
theorem ActionId_range_all : ∀ tr : Int, 0 ≤ tr → tr ≤ 14 → ∀ ts : Int, 0 ≤ ts → ts ≤ 5 →
    ∀ sr : Int, 0 ≤ sr → sr ≤ 14 → ∀ ss : Int, 0 ≤ ss → ss ≤ 5 →
    ((Move.ofRanksSuits tr ts sr ss).ActionId.all
      (fun a => decide (53 ≤ a ∧ a ≤ 365))) = true := by
  decide!

theorem ActionId_range (m : Move) (a : Int) (ht : m.target_.enumValued)
    (hs : m.source_.enumValued) (h : m.ActionId = some a) : 53 ≤ a ∧ a ≤ 365 := by
  obtain ⟨t1, t2, t3, t4⟩ := ht
  obtain ⟨s1, s2, s3, s4⟩ := hs
  have e : m.ActionId = (Move.ofRanksSuits m.target_.rank_ m.target_.suit_ m.source_.rank_
      m.source_.suit_).ActionId := rfl
  have k := ActionId_range_all _ t1 t2 _ t3 t4 _ s1 s2 _ s3 s4
  rw [← e, h] at k
  simpa using k

theorem SourcesLoop_subset (top : Card) : ∀ (cards r : List Card),
    Tableau.SourcesLoop top cards = some r → ∀ c ∈ r, c ∈ cards := by
  intro cards
  induction cards with
  | nil =>
    intro r h c hc
    unfold Tableau.SourcesLoop at h
    cases h
    simp at hc
  | cons x rest ih =>
    intro r h c hc
    have hcons : ∀ r', (Tableau.SourcesLoop top rest).map (fun sources => x :: sources)
        = some r' → ∀ c ∈ r', c ∈ x :: rest := by
      intro r' h' c' hc'
      rw [Option.map_eq_some'] at h'
      obtain ⟨l, hl, rfl⟩ := h'
      rcases List.mem_cons.1 hc' with e | e
      · rw [e]; exact List.mem_cons_self _ _
      · exact List.mem_cons_of_mem _ (ih l hl c' e)
    unfold Tableau.SourcesLoop at h
    split at h
    · cases h; simp at hc
    · split at h
      · exact hcons r h c hc
      · split at h
        · exact absurd h (by simp)
        · split at h
          · exact hcons r h c hc
          · cases h; simp at hc

theorem Tableau_Sources_subset (t : Pile) (l : List Card) (h : Tableau.Sources t = some l) :
    ∀ c ∈ l, c ∈ t.cards_ := by
  intro c hc
  unfold Tableau.Sources at h
  split at h
  · cases h; simp at hc
  · exact List.mem_reverse.1 (SourcesLoop_subset _ _ _ h c hc)

theorem Foundation_Sources_subset (f : Pile) : ∀ c ∈ Foundation.Sources f, c ∈ f.cards_ := by
  intro c hc
  unfold Foundation.Sources at hc
  split at hc
  · rename_i back hb
    rw [List.mem_singleton] at hc
    rw [hc]
    exact List.mem_of_getLast?_eq_some hb
  · simp at hc

theorem Waste_Sources_subset (w : Pile) : ∀ c ∈ Waste.Sources w, c ∈ w.cards_ := by
  intro c hc
  exact (List.takeWhile_sublist _).subset hc

theorem Tableau_Targets_enumValued (t : Pile) (ht : ∀ c ∈ t.cards_, c.enumValued) :
    ∀ c ∈ Tableau.Targets t, c.enumValued := by
  intro c hc
  unfold Tableau.Targets at hc
  split at hc
  · rename_i back hb
    split at hc
    · simp at hc
    · rw [List.mem_singleton] at hc
      rw [hc]
      exact ht _ (List.mem_of_getLast?_eq_some hb)
  · rw [List.mem_singleton] at hc
    rw [hc]
    decide

theorem Foundation_Targets_enumValued (f : Pile) (hs : 0 ≤ f.suit_ ∧ f.suit_ ≤ 5)
    (hf : ∀ c ∈ f.cards_, c.enumValued) : ∀ c ∈ Foundation.Targets f, c.enumValued := by
  intro c hc
  unfold Foundation.Targets at hc
  split at hc
  · rename_i back hb
    rw [List.mem_singleton] at hc
    rw [hc]
    exact hf _ (List.mem_of_getLast?_eq_some hb)
  · rw [List.mem_singleton] at hc
    rw [hc]
    exact ⟨le_refl _, (by show (0 : Int) ≤ 14; decide), hs.1, hs.2⟩

theorem enumValued_of_equals (c d : Card) (h : c.equals d = true) (hc : c.enumValued) :
    d.enumValued := by
  unfold Card.equals at h
  simp only [Bool.and_eq_true, decide_eq_true_eq] at h
  unfold Card.enumValued at hc ⊢
  rw [← h.1, ← h.2]
  exact hc

theorem candidate_enumValued (s : AgnesSorelState) (henum : s.enumValued) (moves : List Move)
    (h : s.CandidateMoves = some moves) (m : Move) (hm : m ∈ moves) :
    m.target_.enumValued ∧ m.source_.enumValued := by
  obtain ⟨a, ⟨sources, hs, hin⟩, -⟩ := CandidateMoves_mem s moves h m hm
  have hw := henum s.waste_ (List.mem_cons_self _ _)
  have hfs : ∀ f ∈ s.foundations_, (0 ≤ f.suit_ ∧ f.suit_ ≤ 5) ∧ ∀ c ∈ f.cards_, c.enumValued :=
    fun f hf => henum f (List.mem_cons_of_mem _ (List.mem_append_left _ hf))
  have hts : ∀ t ∈ s.tableaus_, (0 ≤ t.suit_ ∧ t.suit_ ≤ 5) ∧ ∀ c ∈ t.cards_, c.enumValued :=
    fun t ht => henum t (List.mem_cons_of_mem _ (List.mem_append_right _ ht))
  constructor
  · rcases Targets_mem s _ a with ⟨t, ht, hc⟩ | ⟨f, hf, hc⟩
    · exact Tableau_Targets_enumValued t (hts t ht).2 _ hc
    · exact Foundation_Targets_enumValued f (hfs f hf).1 (hfs f hf).2 _ hc
  · unfold Card.isIn at hin
    rw [List.any_eq_true] at hin
    obtain ⟨c, hc, he⟩ := hin
    apply enumValued_of_equals c _ he
    rcases Sources_mem s sources hs c hc with ⟨t, ht, l, hl, hcl⟩ | ⟨f, hf, hcf⟩ | hcw
    · exact (hts t ht).2 c (Tableau_Sources_subset t l hl c hcl)
    · exact (hfs f hf).2 c (Foundation_Sources_subset f c hcf)
    · exact hw.2 c (Waste_Sources_subset _ c hcw)

theorem actionIds_eq_some : ∀ (moves : List Move) (ids : List Int),
    actionIds moves = some ids → moves.map Move.ActionId = ids.map some := by
  intro moves
  induction moves with
  | nil =>
    intro ids h
    unfold actionIds at h
    cases h
    rfl
  | cons m rest ih =>
    intro ids h
    unfold actionIds at h
    split at h
    · rename_i a more ha hmore
      cases h
      simp only [List.map_cons, ha, ih more hmore]
    · exact absurd h (by simp)

theorem LegalActions_irreversible (hasher : String → Nat) (s : AgnesSorelState)
    (candidates : List Move) (ids : List Int)
    (ht : s.IsTerminal = false) (hc : s.IsChanceNode = false) (hr : s.is_reversible_ = false)
    (hcm : s.CandidateMoves = some candidates) (hids : actionIds candidates = some ids) :
    s.LegalActions hasher =
      if (if s.waste_.GetIsEmpty then ids else ids ++ [kDeal]).isEmpty then some [kEnd]
      else some ((if s.waste_.GetIsEmpty then ids else ids ++ [kDeal]).insertionSort
        (fun a b => a ≤ b)) := by
  unfold AgnesSorelState.LegalActions
  simp only [ht, hc, hr, hcm, hids, Bool.false_eq_true, if_false]

/-- C29: `LegalActions()` at a decision node (not terminal, not a chance
node) whose state is irreversible, for a state whose cards carry ranks and
suits of the two enumerations. With `ids` the action ids of the candidate
moves, in the order of `CandidateMoves`: when there is no candidate move and
the waste is empty the result is `[End]`; otherwise it is a rearrangement of
`ids`, followed by Deal when the waste is not empty, in ascending order, and
End is not in it. Deal is in the result exactly when the waste is not
empty. -/
theorem LegalActions_of_irreversible_decision_node (hasher : String → Nat)
    (s : AgnesSorelState) (candidates : List Move) (ids : List Int)
    (ht : s.IsTerminal = false) (hc : s.IsChanceNode = false) (hr : s.is_reversible_ = false)
    (henum : s.enumValued)
    (hcm : s.CandidateMoves = some candidates) (hids : actionIds candidates = some ids) :
    ∃ legal, s.LegalActions hasher = some legal ∧
      (ids = [] ∧ s.waste_.GetIsEmpty = true → legal = [kEnd]) ∧
      (¬ (ids = [] ∧ s.waste_.GetIsEmpty = true) →
        legal.Perm (if s.waste_.GetIsEmpty then ids else ids ++ [kDeal]) ∧
        legal.Sorted (fun a b => a ≤ b) ∧ kEnd ∉ legal) ∧
      (kDeal ∈ legal ↔ s.waste_.GetIsEmpty = false) := by
  have hrange : ∀ a ∈ ids, 53 ≤ a ∧ a ≤ 365 := by
    intro a ha
    have hmap := actionIds_eq_some candidates ids hids
    have : some a ∈ candidates.map Move.ActionId := by
      rw [hmap]
      exact List.mem_map_of_mem _ ha
    obtain ⟨m, hm, hma⟩ := List.mem_map.1 this
    obtain ⟨e1, e2⟩ := candidate_enumValued s henum candidates hcm m hm
    exact ActionId_range m a e1 e2 hma
  have hLA := LegalActions_irreversible hasher s candidates ids ht hc hr hcm hids
  have hEnd : kEnd = 0 := rfl
  have hDeal : kDeal = 366 := rfl
  cases hw : s.waste_.GetIsEmpty with
  | true =>
    rw [hw] at hLA
    simp only [if_true] at hLA
    cases ids with
    | nil =>
      refine ⟨[kEnd], hLA, fun _ => rfl, fun hn => absurd ⟨rfl, rfl⟩ hn, ?_⟩
      rw [hEnd, hDeal]
      simp
    | cons a rest =>
      rw [List.isEmpty_cons] at hLA
      simp only [Bool.false_eq_true, if_false] at hLA
      refine ⟨_, hLA, fun h => absurd h.1 (by simp), fun _ => ⟨?_, ?_, ?_⟩, ?_⟩
      · simp only [if_true]
        exact List.perm_insertionSort _ _
      · exact List.sorted_insertionSort _ _
      · intro hmem
        have := hrange _ ((List.mem_insertionSort _).1 hmem)
        rw [hEnd] at this
        omega
      · constructor
        · intro hmem
          have := hrange _ ((List.mem_insertionSort _).1 hmem)
          rw [hDeal] at this
          omega
        · intro h
          exact absurd h (by simp)
  | false =>
    rw [hw] at hLA
    simp only [Bool.false_eq_true, if_false] at hLA
    have hne : (ids ++ [kDeal]).isEmpty = false := by
      cases ids <;> rfl
    rw [hne] at hLA
    simp only [Bool.false_eq_true, if_false] at hLA
    refine ⟨_, hLA, fun h => absurd h.2 (by simp), fun _ => ⟨?_, ?_, ?_⟩, ?_⟩
    · simp only [Bool.false_eq_true, if_false]
      exact List.perm_insertionSort _ _
    · exact List.sorted_insertionSort _ _
    · intro hmem
      rcases List.mem_append.1 ((List.mem_insertionSort _).1 hmem) with h | h
      · have := hrange _ h
        rw [hEnd] at this
        omega
      · rw [List.mem_singleton, hEnd, hDeal] at h
        omega
    · constructor
      · intro _; rfl
      · intro _
        exact (List.mem_insertionSort _).2 (List.mem_append_right _ (List.mem_singleton_self _))

set_option maxRecDepth 100000 in
theorem LegalActions_of_irreversible_decision_node_witness :
    ∃ legal, rewardSampleState.LegalActions constantHasher = some legal ∧
      legal.Perm [161, 109] ∧ legal.Sorted (fun a b => a ≤ b) ∧ kEnd ∉ legal ∧
      kDeal ∉ legal := by
  have hcm : rewardSampleState.CandidateMoves =
      some [Move.mk (Card.new false SuitType.kSpades 6 LocationType.kTableau)
              (Card.new false SuitType.kSpades 5 LocationType.kMissing),
            Move.mk (Card.new false SuitType.kSpades 5 LocationType.kFoundation)
              (Card.new false SuitType.kSpades 6 LocationType.kMissing)] := by decide
  have henum : rewardSampleState.enumValued := by
    unfold AgnesSorelState.enumValued
    decide
  obtain ⟨legal, h1, -, h3, h4⟩ :=
    LegalActions_of_irreversible_decision_node constantHasher rewardSampleState _ [161, 109]
      rfl (by decide) rfl henum hcm (by decide)
  obtain ⟨p, q, r⟩ := h3 (by simp)
  refine ⟨legal, h1, p, q, r, ?_⟩
  intro hd
  have := h4.1 hd
  exact absurd this (by decide)

/-! ## The effect of a move on the piles -/

theorem pileAt_modifyPile_self (s : AgnesSorelState) (r : PileRef) (f : Pile → Pile)
    (q : Pile) (h : s.pileAt r = some q) : (s.modifyPile r f).pileAt r = some (f q) := by
  cases r with
  | waste =>
    simp only [AgnesSorelState.pileAt, Option.some.injEq] at h
    subst h
    rfl
  | foundation i =>
    show (modifyAt f i s.foundations_)[i]? = some (f q)
    have h' : s.foundations_[i]? = some q := h
    rw [modifyAt_getElem?, if_pos rfl, h']
    rfl
  | tableau i =>
    show (modifyAt f i s.tableaus_)[i]? = some (f q)
    have h' : s.tableaus_[i]? = some q := h
    rw [modifyAt_getElem?, if_pos rfl, h']
    rfl

theorem pileAt_modifyPile_other (s : AgnesSorelState) (r r' : PileRef) (f : Pile → Pile)
    (h : r' ≠ r) : (s.modifyPile r f).pileAt r' = s.pileAt r' := by
  cases r with
  | waste =>
    cases r' with
    | waste => exact absurd rfl h
    | foundation j => rfl
    | tableau j => rfl
  | foundation i =>
    cases r' with
    | waste => rfl
    | foundation j =>
      show (modifyAt f i s.foundations_)[j]? = s.foundations_[j]?
      rw [modifyAt_getElem?, if_neg (fun e => h (by rw [e]))]
    | tableau j => rfl
  | tableau i =>
    cases r' with
    | waste => rfl
    | foundation j => rfl
    | tableau j =>
      show (modifyAt f i s.tableaus_)[j]? = s.tableaus_[j]?
      rw [modifyAt_getElem?, if_neg (fun e => h (by rw [e]))]

theorem pileAt_congr (s t : AgnesSorelState) (hw : t.waste_ = s.waste_)
    (hf : t.foundations_ = s.foundations_) (ht : t.tableaus_ = s.tableaus_) (r : PileRef) :
    t.pileAt r = s.pileAt r := by
  cases r with
  | waste => show some t.waste_ = some s.waste_; rw [hw]
  | foundation i => show t.foundations_[i]? = s.foundations_[i]?; rw [hf]
  | tableau i => show t.tableaus_[i]? = s.tableaus_[i]?; rw [ht]

/-- The piles and the location index after the split and the extension of
`MoveCards`, for two different piles -/
theorem transfer_piles (s : AgnesSorelState) (A B : PileRef) (pa pb rest : Pile)
    (run : List Card) (hAB : A ≠ B) (hpa : s.pileAt A = some pa) (hpb : s.pileAt B = some pb) :
    ((s.modifyPile A (fun _ => rest)).extendWithMap B pb.id_ run).pileAt A = some rest
    ∧ ((s.modifyPile A (fun _ => rest)).extendWithMap B pb.id_ run).pileAt B
        = some (pb.Extend run)
    ∧ (∀ r, r ≠ A → r ≠ B →
        ((s.modifyPile A (fun _ => rest)).extendWithMap B pb.id_ run).pileAt r = s.pileAt r)
    ∧ ((s.modifyPile A (fun _ => rest)).extendWithMap B pb.id_ run).card_map_
        = CardMap.insertAll s.card_map_ (run.map Card.key) pb.id_ := by
  rw [extendWithMap_eq]
  have e0 : ∀ r, (({ s.modifyPile A (fun _ => rest) with
      card_map_ := CardMap.insertAll (s.modifyPile A (fun _ => rest)).card_map_
        (run.map Card.key) pb.id_ } : AgnesSorelState)).pileAt r
      = (s.modifyPile A (fun _ => rest)).pileAt r :=
    fun r => pileAt_congr _ _ rfl rfl rfl r
  refine ⟨?_, ?_, ?_, ?_⟩
  · rw [pileAt_modifyPile_other _ B A _ hAB, e0, pileAt_modifyPile_self s A _ pa hpa]
  · rw [pileAt_modifyPile_self _ B _ pb]
    rw [e0, pileAt_modifyPile_other _ A B _ (fun e => hAB e.symm)]
    exact hpb
  · intro r hrA hrB
    rw [pileAt_modifyPile_other _ B r _ hrB, e0, pileAt_modifyPile_other _ A r _ hrA]
  · rw [card_map_modifyPile]
    show CardMap.insertAll (s.modifyPile A (fun _ => rest)).card_map_ _ _ = _
    rw [card_map_modifyPile]

theorem DoApplyAction_move_board (hasher : String → Nat) (s s2 : AgnesSorelState)
    (action : Int) (move : Move) (source_pile target_pile : Pile)
    (hm : Move.ofAction action = some move)
    (h1 : (s.GetPile move.source_).bind s.pileAt = some source_pile)
    (h2 : (s.GetPile move.target_).bind s.pileAt = some target_pile)
    (h3 : ({ s with is_reversible_ := false, previous_states_ := [] } :
      AgnesSorelState).MoveCards move = some s2) :
    ∃ s', s.DoApplyAction hasher action = some s' ∧ s'.waste_ = s2.waste_ ∧
      s'.foundations_ = s2.foundations_ ∧ s'.tableaus_ = s2.tableaus_ ∧
      s'.card_map_ = s2.card_map_ := by
  have hband : 53 ≤ action ∧ action ≤ 365 := by
    by_contra hn
    rw [ofAction_none_of_outside action hn] at hm
    exact absurd hm (by simp)
  rw [DoApplyAction_move hasher s action hband.1 hband.2, applyMove_eq]
  simp only [hm, h1, h2, h3, Option.map_some']
  refine ⟨_, rfl, ?_, ?_, ?_, ?_⟩ <;> split <;> rfl

theorem exists_first_equal (card : Card) : ∀ cards : List Card,
    (∃ c ∈ cards, c.equals card = true) →
    ∃ below first above, cards = below ++ first :: above ∧ first.equals card = true ∧
      ∀ c ∈ below, c.equals card = false := by
  intro cards
  induction cards with
  | nil => rintro ⟨c, hc, -⟩; simp at hc
  | cons x rest ih =>
    rintro ⟨c, hc, he⟩
    cases hx : x.equals card with
    | true => exact ⟨[], x, rest, rfl, hx, by simp⟩
    | false =>
      rcases List.mem_cons.1 hc with e | e
      · rw [e, hx] at he
        exact absurd he (by simp)
      · obtain ⟨below, first, above, h1, h2, h3⟩ := ih ⟨c, e, he⟩
        refine ⟨x :: below, first, above, by rw [h1]; rfl, h2, ?_⟩
        intro d hd
        rcases List.mem_cons.1 hd with e' | e'
        · rw [e']; exact hx
        · exact h3 d e'

/-- The state after a move whose source pile splits into `below` and `run` -/
theorem DoApplyAction_transfer (hasher : String → Nat) (s : AgnesSorelState) (action : Int)
    (move : Move) (A B : PileRef) (pa pb : Pile) (below run : List Card)
    (hm : Move.ofAction action = some move)
    (hr : pb.type_ = LocationType.kFoundation ∨ pa.type_ = LocationType.kFoundation →
      1 ≤ move.source_.rank_ ∧ move.source_.rank_ ≤ 13)
    (hsA : s.GetPile move.source_ = some A) (htB : s.GetPile move.target_ = some B)
    (hAB : A ≠ B) (hpa : s.pileAt A = some pa) (hpb : s.pileAt B = some pb)
    (hsplit : A.Split pa move.source_ = some (run, pa.SetCards below)) :
    ∃ s', s.DoApplyAction hasher action = some s' ∧
      s'.pileAt A = some (pa.SetCards below) ∧
      s'.pileAt B = some (pb.SetCards
        (pb.cards_ ++ run.map (fun c => c.SetLocation pb.type_))) ∧
      (∀ r, r ≠ A → r ≠ B → s'.pileAt r = s.pileAt r) ∧
      (∀ c ∈ run, CardMap.at s'.card_map_ c.key = some pb.id_) := by
  obtain ⟨r0, hr0⟩ : ∃ r0, (if pb.type_ = LocationType.kFoundation then
        kFoundationPoints move.source_.rank_
      else if pa.type_ = LocationType.kFoundation then
        (kFoundationPoints move.source_.rank_).map (fun points => 0 - points)
      else some 0) = some r0 := by
    by_cases h1 : pb.type_ = LocationType.kFoundation
    · obtain ⟨points, hp⟩ := Option.isSome_iff_exists.mp
        (kFoundationPoints_isSome _ (hr (Or.inl h1)).1 (hr (Or.inl h1)).2)
      exact ⟨points, by rw [if_pos h1, hp]⟩
    · by_cases h2 : pa.type_ = LocationType.kFoundation
      · obtain ⟨points, hp⟩ := Option.isSome_iff_exists.mp
          (kFoundationPoints_isSome _ (hr (Or.inr h2)).1 (hr (Or.inr h2)).2)
        exact ⟨0 - points, by rw [if_neg h1, if_pos h2, hp]; rfl⟩
      · exact ⟨0, by rw [if_neg h1, if_neg h2]⟩
  have hpa0 : ({ s with is_reversible_ := false, previous_states_ := [] } :
      AgnesSorelState).pileAt A = some pa :=
    (pileAt_congr s _ rfl rfl rfl A).trans hpa
  have hpb0 : ({ s with is_reversible_ := false, previous_states_ := [] } :
      AgnesSorelState).pileAt B = some pb :=
    (pileAt_congr s _ rfl rfl rfl B).trans hpb
  obtain ⟨k1, k2, k3, k4⟩ := transfer_piles
    ({ s with is_reversible_ := false, previous_states_ := [] } : AgnesSorelState)
    A B pa pb (pa.SetCards below) run hAB hpa0 hpb0
  obtain ⟨s2, e1, -, -⟩ := MoveCards_some
    ({ s with is_reversible_ := false, previous_states_ := [] } : AgnesSorelState) move
    B A pb pa (pa.SetCards below) (pa.SetCards below) run r0 htB hsA hpb0 hpa0 hsplit k1 hr0
  obtain ⟨tr, sr, tp, sp, split, rest, reward, g1, g2, g3, g4, g5, g6⟩ :=
    MoveCards_eq_some _ _ _ e1
  have i1 : tr = B := Option.some.inj (g1.symm.trans htB)
  have i2 : sr = A := Option.some.inj (g2.symm.trans hsA)
  rw [i1] at g3
  rw [i2] at g4 g5
  have i3 : tp = pb := Option.some.inj (g3.symm.trans hpb0)
  have i4 : sp = pa := Option.some.inj (g4.symm.trans hpa0)
  rw [i4] at g5
  have i5 := Option.some.inj (g5.symm.trans hsplit)
  simp only [Prod.mk.injEq] at i5
  obtain ⟨i6, i7⟩ := i5
  rw [i1, i2, i3, i6, i7] at g6
  obtain ⟨s', d1, d2, d3, d4, d5⟩ := DoApplyAction_move_board hasher s s2 action move pa pb hm
    (by rw [hsA]; exact hpa) (by rw [htB]; exact hpb) e1
  have hpile : ∀ r, s'.pileAt r =
      ((({ s with is_reversible_ := false, previous_states_ := [] } :
        AgnesSorelState).modifyPile A (fun _ => pa.SetCards below)).extendWithMap B
          pb.id_ run).pileAt r := by
    intro r
    rw [pileAt_congr s2 s' d2 d3 d4, g6]
    exact pileAt_congr _ _ rfl rfl rfl r
  refine ⟨s', d1, ?_, ?_, ?_, ?_⟩
  · rw [hpile, k1]
  · rw [hpile, k2]
    rfl
  · intro r hrA hrB
    rw [hpile, k3 r hrA hrB]
    exact pileAt_congr _ _ rfl rfl rfl r
  · intro c hc
    rw [d5, g6]
    show CardMap.at ((({ s with is_reversible_ := false, previous_states_ := [] } :
        AgnesSorelState).modifyPile A (fun _ => pa.SetCards below)).extendWithMap B
          pb.id_ run).card_map_ c.key = some pb.id_
    rw [k4, CardMap.at_insertAll, if_pos (List.mem_map_of_mem _ hc)]

/-- C28: the effect of a move on the piles. `GetPile` finds the source of
the decoded move in pile `A` and the target in a different pile `B`; `A` is a
tableau that holds a card equal to the source, or a foundation whose top card
equals the source; when one of the two piles is a foundation, the source card
has a rank Ace..King (the reward table has no other entry).
Then `DoApplyAction` returns a state in which: `A` is split as `below`, then
the card `first` equal to the source, then `above` (for a tableau no card of
`below` equals the source, for a foundation `above` is empty); pile `A` holds
exactly `below`; pile `B` holds its old cards followed by `first` and `above`
in the same order, each tagged with the kind of `B`; every other pile is as
before; and the location index maps every moved card to the id of `B`. -/
theorem move_relocates_run (hasher : String → Nat) (s : AgnesSorelState) (action : Int)
    (move : Move) (A B : PileRef) (pa pb : Pile)
    (hm : Move.ofAction action = some move)
    (hr : pb.type_ = LocationType.kFoundation ∨ pa.type_ = LocationType.kFoundation →
      1 ≤ move.source_.rank_ ∧ move.source_.rank_ ≤ 13)
    (hsA : s.GetPile move.source_ = some A) (htB : s.GetPile move.target_ = some B)
    (hAB : A ≠ B) (hpa : s.pileAt A = some pa) (hpb : s.pileAt B = some pb)
    (hA : ((∃ j, A = PileRef.tableau j) ∧ ∃ c ∈ pa.cards_, c.equals move.source_ = true)
      ∨ ((∃ i, A = PileRef.foundation i) ∧
          ∃ top, pa.cards_.getLast? = some top ∧ top.equals move.source_ = true)) :
    ∃ s' below first above,
      s.DoApplyAction hasher action = some s' ∧
      pa.cards_ = below ++ first :: above ∧ first.equals move.source_ = true ∧
      ((∃ j, A = PileRef.tableau j) → ∀ c ∈ below, c.equals move.source_ = false) ∧
      ((∃ i, A = PileRef.foundation i) → above = []) ∧
      s'.pileAt A = some (pa.SetCards below) ∧
      s'.pileAt B = some (pb.SetCards
        (pb.cards_ ++ (first :: above).map (fun c => c.SetLocation pb.type_))) ∧
      (∀ r, r ≠ A → r ≠ B → s'.pileAt r = s.pileAt r) ∧
      (∀ c ∈ first :: above, CardMap.at s'.card_map_ c.key = some pb.id_) := by
  rcases hA with ⟨⟨j, hj⟩, hmem⟩ | ⟨⟨i, hi⟩, top, htop, heq⟩
  · obtain ⟨below, first, above, h1, h2, h3⟩ := exists_first_equal move.source_ pa.cards_ hmem
    have hsplit : A.Split pa move.source_ = some (first :: above, pa.SetCards below) := by
      rw [hj]
      show some (Tableau.Split pa move.source_) = _
      unfold Tableau.Split
      rw [h1, tableauSplitLoop_found move.source_ below first above h3 h2]
      rfl
    obtain ⟨s', d1, d2, d3, d4, d5⟩ := DoApplyAction_transfer hasher s action move A B pa pb
      below (first :: above) hm hr hsA htB hAB hpa hpb hsplit
    refine ⟨s', below, first, above, d1, h1, h2, fun _ => h3, ?_, d2, d3, d4, d5⟩
    rintro ⟨i, hi⟩
    rw [hj] at hi
    exact absurd hi (by simp)
  · obtain ⟨below, h1⟩ := List.getLast?_eq_some_iff.1 htop
    have hsplit : A.Split pa move.source_ = some ([top], pa.SetCards below) := by
      rw [hi]
      show Foundation.Split pa move.source_ = _
      unfold Foundation.Split
      rw [htop]
      simp only [heq, if_true]
      rw [h1, List.dropLast_concat]
      rfl
    obtain ⟨s', d1, d2, d3, d4, d5⟩ := DoApplyAction_transfer hasher s action move A B pa pb
      below [top] hm hr hsA htB hAB hpa hpb hsplit
    refine ⟨s', below, top, [], d1, h1, heq, ?_, fun _ => rfl, d2, d3, d4, d5⟩
    rintro ⟨j, hj⟩
    rw [hi] at hj
    exact absurd hj (by simp)

set_option maxRecDepth 100000 in
theorem move_relocates_run_witness :
    ∃ s', rewardSampleState.DoApplyAction constantHasher 109 = some s' ∧
      s'.pileAt (PileRef.tableau 0) = some (Tableau.new PileID.k1stTableau) ∧
      s'.pileAt (PileRef.foundation 0) = some
        ((Foundation.new PileID.kSpades SuitType.kSpades).SetCards
          [Card.new false SuitType.kSpades 5 LocationType.kFoundation,
           Card.new false SuitType.kSpades 6 LocationType.kFoundation]) := by
  have m1 : Move.ofAction 109 = some (Move.ofRanksSuits 5 1 6 1) := by decide
  obtain ⟨s', below, first, above, a1, a2, -, -, -, a6, a7, -, -⟩ :=
    move_relocates_run constantHasher rewardSampleState 109 (Move.ofRanksSuits 5 1 6 1)
      (PileRef.tableau 0) (PileRef.foundation 0) _ _ m1 (fun _ => by decide) (by decide)
      (by decide) (by decide) rfl rfl (Or.inl ⟨⟨0, rfl⟩, by decide⟩)
  have hb : below = [] ∧ first = Card.new false SuitType.kSpades 6 LocationType.kTableau
      ∧ above = [] := by
    have a2' : [Card.new false SuitType.kSpades 6 LocationType.kTableau]
        = below ++ first :: above := a2
    rcases below with _ | ⟨b, bs⟩
    · simp only [List.nil_append, List.cons.injEq] at a2'
      exact ⟨rfl, a2'.1.symm, a2'.2.symm⟩
    · simp only [List.cons_append, List.cons.injEq] at a2'
      have := a2'.2
      simp at this
  obtain ⟨b1, b2, b3⟩ := hb
  subst b1 b2 b3
  exact ⟨s', a1, a6, a7⟩

/-! ## Candidate moves to a foundation and to an empty tableau -/

theorem candidatesFor_top (s : AgnesSorelState) (sources : List Card) (target : Card) :
    ∀ (children : List Card) (moves : List Move),
      s.candidatesFor sources target children = some moves →
      ∀ m ∈ moves, ∀ p, (s.GetPile m.source_).bind s.pileAt = some p →
        target.location_ = LocationType.kFoundation → p.type_ = LocationType.kTableau →
        ∃ last, p.GetLastCard = some last ∧ last.equals m.source_ = true := by
  intro children
  induction children with
  | nil =>
    intro moves h m hm
    unfold AgnesSorelState.candidatesFor at h
    cases h
    simp at hm
  | cons source rest ih =>
    intro moves h m hm
    unfold AgnesSorelState.candidatesFor at h
    cases hrest : s.candidatesFor sources target rest with
    | none => rw [hrest] at h; exact absurd h (by simp)
    | some more =>
      rw [hrest] at h
      simp only [] at h
      have hmore := ih more hrest
      by_cases hin : source.isIn sources = true
      · rw [if_pos hin] at h
        cases hsp : (s.GetPile source).bind s.pileAt with
        | none => rw [hsp] at h; exact absurd h (by simp)
        | some source_pile =>
          rw [hsp] at h
          simp only [] at h
          have hbad : ¬ (target.location_ = LocationType.kFoundation ∧
              source_pile.type_ = LocationType.kTableau) →
              ∀ m ∈ Move.mk target source :: more, ∀ p,
                (s.GetPile m.source_).bind s.pileAt = some p →
                target.location_ = LocationType.kFoundation →
                p.type_ = LocationType.kTableau →
                ∃ last, p.GetLastCard = some last ∧ last.equals m.source_ = true := by
            intro hn m' hm' p hp hl hty
            rcases List.mem_cons.1 hm' with e | e
            · subst e
              have hp' : (s.GetPile source).bind s.pileAt = some p := hp
              rw [hsp] at hp'
              cases hp'
              exact absurd ⟨hl, hty⟩ hn
            · exact hmore m' e p hp hl hty
          by_cases hc : target.location_ = LocationType.kFoundation ∧
              source_pile.type_ = LocationType.kTableau
          · rw [if_pos hc] at h
            cases hlast : source_pile.GetLastCard with
            | none => rw [hlast] at h; exact absurd h (by simp)
            | some last =>
              rw [hlast] at h
              simp only [] at h
              by_cases he : last.equals source = true
              · rw [if_pos he] at h
                cases h
                intro p hp hl hty
                rcases List.mem_cons.1 hm with e | e
                · subst e
                  have hp' : (s.GetPile source).bind s.pileAt = some p := hp
                  rw [hsp] at hp'
                  cases hp'
                  exact ⟨last, hlast, he⟩
                · exact hmore m e p hp hl hty
              · rw [if_neg he] at h
                cases h
                exact hmore m hm
          · rw [if_neg hc] at h
            split at h
            · split at h
              · cases h; exact hbad hc m hm
              · split at h
                · split at h
                  · exact absurd h (by simp)
                  · split at h
                    · cases h; exact hmore m hm
                    · cases h; exact hbad hc m hm
                · cases h; exact hmore m hm
            · cases h; exact hbad hc m hm
      · rw [if_neg hin] at h
        cases h
        exact hmore m hm

theorem candidatesLoop_top (s : AgnesSorelState) (sources : List Card) :
    ∀ (targets : List Card) (flag : Bool) (moves : List Move),
      s.candidatesLoop sources flag targets = some moves →
      ∀ m ∈ moves, ∀ p, (s.GetPile m.source_).bind s.pileAt = some p →
        m.target_.location_ = LocationType.kFoundation → p.type_ = LocationType.kTableau →
        ∃ last, p.GetLastCard = some last ∧ last.equals m.source_ = true := by
  intro targets
  induction targets with
  | nil =>
    intro flag moves h m hm
    unfold AgnesSorelState.candidatesLoop at h
    cases h
    simp at hm
  | cons target rest ih =>
    intro flag moves h m hm
    unfold AgnesSorelState.candidatesLoop at h
    split at h
    · exact ih _ _ h m hm
    · split at h
      · exact absurd h (by simp)
      · rename_i children hch
        split at h
        · rename_i a b ha hb
          cases h
          rcases List.mem_append.1 hm with e | e
          · obtain ⟨e1, -, -⟩ := candidatesFor_mem s sources target children a ha m e
            intro p hp hl hty
            rw [e1] at hl
            exact candidatesFor_top s sources target children a ha m e p hp hl hty
          · exact ih _ _ hb m e
        · exact absurd h (by simp)

/-- C31: a candidate move to a foundation never splits a run. For every move
of `CandidateMoves` whose target is tagged as foundation-located and whose
source `GetPile` finds in a pile of kind tableau, the top card of that pile
is equal to the source. -/
theorem foundation_candidate_is_top_card (s : AgnesSorelState) (moves : List Move)
    (h : s.CandidateMoves = some moves) (m : Move) (hm : m ∈ moves)
    (ht : m.target_.location_ = LocationType.kFoundation)
    (r : PileRef) (p : Pile) (hr : s.GetPile m.source_ = some r) (hp : s.pileAt r = some p)
    (hty : p.type_ = LocationType.kTableau) :
    ∃ top, p.cards_.getLast? = some top ∧ top.equals m.source_ = true := by
  unfold AgnesSorelState.CandidateMoves at h
  split at h
  · exact absurd h (by simp)
  · rename_i sources hs
    exact candidatesLoop_top s sources _ _ _ h m hm p (by rw [hr]; exact hp) ht hty

theorem foundation_candidate_is_top_card_witness :
    rewardSampleState.CandidateMoves =
      some [Move.mk (Card.new false SuitType.kSpades 6 LocationType.kTableau)
              (Card.new false SuitType.kSpades 5 LocationType.kMissing),
            Move.mk (Card.new false SuitType.kSpades 5 LocationType.kFoundation)
              (Card.new false SuitType.kSpades 6 LocationType.kMissing)]
    ∧ ∃ top, ((Tableau.new PileID.k1stTableau).Extend
          [Card.new false SuitType.kSpades 6 LocationType.kMissing]).cards_.getLast? = some top ∧
        top.equals (Card.new false SuitType.kSpades 6 LocationType.kMissing) = true := by
  have h : rewardSampleState.CandidateMoves =
      some [Move.mk (Card.new false SuitType.kSpades 6 LocationType.kTableau)
              (Card.new false SuitType.kSpades 5 LocationType.kMissing),
            Move.mk (Card.new false SuitType.kSpades 5 LocationType.kFoundation)
              (Card.new false SuitType.kSpades 6 LocationType.kMissing)] := by decide
  exact ⟨h, foundation_candidate_is_top_card rewardSampleState _ h
    (Move.mk (Card.new false SuitType.kSpades 5 LocationType.kFoundation)
      (Card.new false SuitType.kSpades 6 LocationType.kMissing))
    (by simp) rfl (PileRef.tableau 0) _ (by decide) rfl rfl⟩

theorem candidatesFor_sublist (s : AgnesSorelState) (sources : List Card) (target : Card) :
    ∀ (children : List Card) (moves : List Move),
      s.candidatesFor sources target children = some moves →
      (moves.map (fun m => m.source_)).Sublist children := by
  intro children
  induction children with
  | nil =>
    intro moves h
    unfold AgnesSorelState.candidatesFor at h
    cases h
    exact List.Sublist.slnil
  | cons source rest ih =>
    intro moves h
    unfold AgnesSorelState.candidatesFor at h
    cases hrest : s.candidatesFor sources target rest with
    | none => rw [hrest] at h; exact absurd h (by simp)
    | some more =>
      rw [hrest] at h
      simp only [] at h
      have hskip : ((more.map (fun m => m.source_))).Sublist (source :: rest) :=
        List.Sublist.cons _ (ih more hrest)
      have hkeep : (((Move.mk target source :: more).map (fun m => m.source_))).Sublist
          (source :: rest) := List.Sublist.cons₂ _ (ih more hrest)
      split at h
      · split at h
        · exact absurd h (by simp)
        · split at h
          · split at h
            · exact absurd h (by simp)
            · split at h
              · cases h; exact hkeep
              · cases h; exact hskip
          · split at h
            · split at h
              · cases h; exact hkeep
              · split at h
                · split at h
                  · exact absurd h (by simp)
                  · split at h
                    · cases h; exact hskip
                    · cases h; exact hkeep
                · cases h; exact hskip
            · cases h; exact hkeep
      · cases h; exact hskip

theorem candidatesLoop_flag (s : AgnesSorelState) (sources : List Card) :
    ∀ (targets : List Card) (moves : List Move),
      s.candidatesLoop sources true targets = some moves →
      ∀ m ∈ moves, ¬ (m.target_.suit_ = SuitType.kNone ∧ m.target_.rank_ = RankType.kNone) := by
  intro targets
  induction targets with
  | nil =>
    intro moves h m hm
    unfold AgnesSorelState.candidatesLoop at h
    cases h
    simp at hm
  | cons target rest ih =>
    intro moves h m hm
    unfold AgnesSorelState.candidatesLoop at h
    split at h
    · exact ih _ h m hm
    · rename_i hn
      split at h
      · exact absurd h (by simp)
      · rename_i children hch
        split at h
        · rename_i a b ha hb
          cases h
          rcases List.mem_append.1 hm with e | e
          · obtain ⟨e1, -, -⟩ := candidatesFor_mem s sources target children a ha m e
            rw [e1]
            intro hs
            exact hn ⟨hs.1, hs.2, rfl⟩
          · rw [Bool.true_or] at hb
            exact ih _ hb m e
        · exact absurd h (by simp)

theorem sentinel_children_nodup (target : Card) (R : Int) (children : List Card)
    (hs : target.suit_ = SuitType.kNone) (hr : target.rank_ = RankType.kNone)
    (h : target.LegalChildrenOf R = some children) : (children.map Card.key).Nodup := by
  obtain ⟨rank, suit, location, hidden, index⟩ := target
  simp only at hs hr
  subst hs hr
  unfold Card.LegalChildrenOf at h
  cases hidden with
  | true =>
    simp only [if_true, Option.some.injEq] at h
    subst h
    exact List.nodup_nil
  | false =>
    simp only [Bool.false_eq_true, if_false] at h
    by_cases hR : R = RankType.kHidden
    · rw [if_pos hR] at h
      exact absurd h (by simp)
    · rw [if_neg hR] at h
      cases location with
      | kTableau =>
        have e : Card.LegalChildren
            { rank_ := RankType.kNone
              suit_ := SuitType.kNone
              location_ := LocationType.kTableau
              hidden_ := false
              index_ := index }
            = some (Card.children kSuits kRanks) := rfl
        simp only [] at h
        rw [e] at h
        cases h
        decide
      | kFoundation =>
        simp only [] at h
        by_cases hR0 : R = RankType.kNone
        · rw [if_pos hR0] at h
          cases h
          exact List.nodup_nil
        · rw [if_neg hR0] at h
          have : (RankType.kNone : Int) = RankType.kNone := rfl
          simp only [if_true, ne_eq, not_true_eq_false, if_false, Option.some.injEq] at h
          subst h
          exact List.nodup_nil
      | kDeck => cases h; exact List.nodup_nil
      | kWaste => cases h; exact List.nodup_nil
      | kMissing => cases h; exact List.nodup_nil

theorem candidatesLoop_sentinel_nodup (s : AgnesSorelState) (sources : List Card) :
    ∀ (targets : List Card) (flag : Bool) (moves : List Move),
      s.candidatesLoop sources flag targets = some moves →
      ((moves.filter (fun m =>
        decide (m.target_.suit_ = SuitType.kNone ∧ m.target_.rank_ = RankType.kNone))).map
          (fun m => m.source_.key)).Nodup := by
  intro targets
  induction targets with
  | nil =>
    intro flag moves h
    unfold AgnesSorelState.candidatesLoop at h
    cases h
    exact List.nodup_nil
  | cons target rest ih =>
    intro flag moves h
    unfold AgnesSorelState.candidatesLoop at h
    split at h
    · exact ih _ _ h
    · split at h
      · exact absurd h (by simp)
      · rename_i children hch
        split at h
        · rename_i a b ha hb
          cases h
          have ha_t : ∀ m ∈ a, m.target_ = target :=
            fun m hm => (candidatesFor_mem s sources target children a ha m hm).1
          rw [List.filter_append]
          by_cases hsent : target.suit_ = SuitType.kNone ∧ target.rank_ = RankType.kNone
          · have hd : decide (target.suit_ = SuitType.kNone ∧ target.rank_ = RankType.kNone)
                = true := by simpa using hsent
            rw [hd, Bool.or_true] at hb
            have fa : a.filter (fun m => decide (m.target_.suit_ = SuitType.kNone ∧
                m.target_.rank_ = RankType.kNone)) = a := by
              rw [List.filter_eq_self]
              intro m hm
              rw [ha_t m hm]
              exact hd
            have fb : b.filter (fun m => decide (m.target_.suit_ = SuitType.kNone ∧
                m.target_.rank_ = RankType.kNone)) = [] := by
              rw [List.filter_eq_nil_iff]
              intro m hm
              have := candidatesLoop_flag s sources rest b hb m hm
              simpa using this
            rw [fa, fb, List.append_nil]
            have hsub := candidatesFor_sublist s sources target children a ha
            have hn := sentinel_children_nodup target s.foundation_rank_ children
              hsent.1 hsent.2 hch
            have hsub2 : (a.map (fun m => m.source_.key)).Sublist (children.map Card.key) := by
              have := hsub.map Card.key
              rwa [List.map_map] at this
            exact hn.sublist hsub2
          · have hd : decide (target.suit_ = SuitType.kNone ∧ target.rank_ = RankType.kNone)
                = false := by simpa using hsent
            rw [hd, Bool.or_false] at hb
            have fa : a.filter (fun m => decide (m.target_.suit_ = SuitType.kNone ∧
                m.target_.rank_ = RankType.kNone)) = [] := by
              rw [List.filter_eq_nil_iff]
              intro m hm
              rw [ha_t m hm, hd]
              simp
            rw [fa, List.nil_append]
            exact ih _ _ hb
        · exact absurd h (by simp)

/-- C32: among the moves of `CandidateMoves` whose target is the
empty-tableau sentinel (rank and suit `kNone`), no two have a source of the
same suit and rank: each source card is moved to the sentinel at most once,
however many tableaus are empty. -/
theorem one_candidate_per_source_to_empty_tableau (s : AgnesSorelState)
    (moves : List Move) (h : s.CandidateMoves = some moves) :
    ((moves.filter (fun m =>
      decide (m.target_.suit_ = SuitType.kNone ∧ m.target_.rank_ = RankType.kNone))).map
        (fun m => m.source_.key)).Nodup := by
  unfold AgnesSorelState.CandidateMoves at h
  split at h
  · exact absurd h (by simp)
  · exact candidatesLoop_sentinel_nodup s _ _ _ _ h

theorem one_candidate_per_source_to_empty_tableau_witness :
    (emptyTableauSampleState.tableaus_.filter (fun t => t.GetIsEmpty)).length = 6
    ∧ emptyTableauSampleState.CandidateMoves =
      some [Move.mk (Card.new false SuitType.kNone RankType.kNone LocationType.kTableau)
              (Card.new false SuitType.kSpades 5 LocationType.kMissing)]
    ∧ (([Move.mk (Card.new false SuitType.kNone RankType.kNone LocationType.kTableau)
              (Card.new false SuitType.kSpades 5 LocationType.kMissing)].filter (fun m =>
        decide (m.target_.suit_ = SuitType.kNone ∧ m.target_.rank_ = RankType.kNone))).map
          (fun m => m.source_.key)).Nodup := by
  have h : emptyTableauSampleState.CandidateMoves =
      some [Move.mk (Card.new false SuitType.kNone RankType.kNone LocationType.kTableau)
              (Card.new false SuitType.kSpades 5 LocationType.kMissing)] := by decide
  exact ⟨by decide, h, one_candidate_per_source_to_empty_tableau emptyTableauSampleState _ h⟩

/-! ## `IsReversible` on a run and the length of the observation tensor -/

/-- C33: on the tableau holding, bottom to top, the five, the four and the
three of spades, the four of spades is not the bottom card, it is a legal child
of the five of spades lying immediately beneath it and a legal child of the
target five of clubs, and yet `IsReversible` returns false for it: the code
looks at the children of the second-to-last card of the pile (the four
itself), not at those of the card beneath the source. -/
theorem IsReversible_false_for_run_start :
    spadeRunPile.cards_.map Card.key =
        [(SuitType.kSpades, 5), (SuitType.kSpades, 4), (SuitType.kSpades, 3)]
    ∧ (∃ children, (Card.new false SuitType.kSpades 5 LocationType.kTableau).LegalChildren
          = some children ∧
        (Card.new false SuitType.kSpades 4 LocationType.kTableau).isIn children = true)
    ∧ clubFivePile.GetLastCard.map Card.key = some (SuitType.kClubs, 5)
    ∧ (∃ children, (Card.new false SuitType.kClubs 5 LocationType.kTableau).LegalChildren
          = some children ∧
        (Card.new false SuitType.kSpades 4 LocationType.kTableau).isIn children = true)
    ∧ AgnesSorelState.IsReversible (Card.new false SuitType.kSpades 4 LocationType.kTableau)
        spadeRunPile (Card.new false SuitType.kClubs 5 LocationType.kTableau) clubFivePile
        = some false := by
  refine ⟨by decide, ⟨_, rfl, by decide⟩, by decide, ⟨_, rfl, by decide⟩, by decide⟩

theorem tensorFoundations_ptr :
    ∀ (piles : List Pile) (values : List Int) (ptr : Int) (r : List Int × Int),
      tensorFoundations piles values ptr = some r →
      r.2 = ptr + kFoundationTensorLength * piles.length ∧ r.1.length = values.length := by
  intro piles
  induction piles with
  | nil =>
    intro values ptr r h
    unfold tensorFoundations at h
    cases h
    simp
  | cons f rest ih =>
    intro values ptr r h
    unfold tensorFoundations at h
    simp only [] at h
    split at h
    · exact absurd h (by simp)
    · rename_i values' hw
      obtain ⟨h1, h2⟩ := ih _ _ _ h
      have hl : values'.length = values.length := by
        unfold writeOne at hw
        repeat' split at hw
        all_goals first
          | (cases hw; simp)
          | exact absurd hw (by simp)
      rw [h1, h2, hl]
      refine ⟨?_, rfl⟩
      rw [List.length_cons]
      push_cast
      ring

theorem writeOne_length (values : List Int) (ptr index : Int) (values' : List Int)
    (h : writeOne values ptr index = some values') : values'.length = values.length := by
  unfold writeOne at h
  split at h
  · cases h; simp
  · exact absurd h (by simp)

theorem tensorTableauCards_length :
    ∀ (cards : List Card) (values : List Int) (ptr n : Int) (r : List Int),
      tensorTableauCards cards values ptr n = some r → r.length = values.length := by
  intro cards
  induction cards with
  | nil =>
    intro values ptr n r h
    unfold tensorTableauCards at h
    cases h
    rfl
  | cons card rest ih =>
    intro values ptr n r h
    unfold tensorTableauCards at h
    split at h
    · split at h
      · exact absurd h (by simp)
      · rename_i v hw
        rw [ih _ _ _ _ h, writeOne_length _ _ _ _ hw]
    · split at h
      · exact absurd h (by simp)
      · split at h
        · exact absurd h (by simp)
        · rename_i v hw
          rw [ih _ _ _ _ h, writeOne_length _ _ _ _ hw]

theorem tensorTableaus_ptr :
    ∀ (piles : List Pile) (values : List Int) (ptr : Int) (r : List Int × Int),
      tensorTableaus piles values ptr = some r →
      r.2 = ptr + kTableauTensorLength * piles.length ∧ r.1.length = values.length := by
  intro piles
  induction piles with
  | nil =>
    intro values ptr r h
    unfold tensorTableaus at h
    cases h
    simp
  | cons t rest ih =>
    intro values ptr r h
    unfold tensorTableaus at h
    simp only [] at h
    split at h
    · exact absurd h (by simp)
    · rename_i values' hw
      obtain ⟨h1, h2⟩ := ih _ _ _ h
      have hl : values'.length = values.length := by
        split at hw
        · exact writeOne_length _ _ _ _ hw
        · exact tensorTableauCards_length _ _ _ _ _ hw
      rw [h1, h2, hl]
      refine ⟨?_, rfl⟩
      rw [List.length_cons]
      push_cast
      ring

theorem tensorWaste_ptr :
    ∀ (cards : List Card) (values : List Int) (ptr : Int) (r : List Int × Int),
      tensorWaste cards values ptr = some r →
      r.2 = ptr + kWasteTensorLength * cards.length ∧ r.1.length = values.length := by
  intro cards
  induction cards with
  | nil =>
    intro values ptr r h
    unfold tensorWaste at h
    cases h
    simp
  | cons card rest ih =>
    intro values ptr r h
    unfold tensorWaste at h
    simp only [] at h
    split at h
    · exact absurd h (by simp)
    · rename_i values' hw
      obtain ⟨h1, h2⟩ := ih _ _ _ h
      have hl : values'.length = values.length := by
        split at hw
        · exact writeOne_length _ _ _ _ hw
        · split at hw
          · exact absurd hw (by simp)
          · exact writeOne_length _ _ _ _ hw
      rw [h1, h2, hl]
      refine ⟨?_, rfl⟩
      rw [List.length_cons]
      push_cast
      ring

theorem tensorLoops_ptr (s : AgnesSorelState) (values : List Int) (r : List Int × Int)
    (h : s.tensorLoops values = some r) :
    r.2 = kFoundationTensorLength * s.foundations_.length
        + kTableauTensorLength * s.tableaus_.length
        + kWasteTensorLength * s.waste_.cards_.length := by
  unfold AgnesSorelState.tensorLoops at h
  split at h
  · exact absurd h (by simp)
  · rename_i v1 p1 h1
    split at h
    · exact absurd h (by simp)
    · rename_i v2 p2 h2
      have e1 := (tensorFoundations_ptr _ _ _ _ h1).1
      have e2 := (tensorTableaus_ptr _ _ _ _ h2).1
      have e3 := (tensorWaste_ptr _ _ _ _ h).1
      simp only at e1 e2
      rw [e3, e2, e1]
      ring

theorem ObservationTensor_of_full_board (s : AgnesSorelState) (player : Int)
    (values : List Int) (hf : s.foundations_.length = 4) (ht : s.tableaus_.length = 7)
    (hw : s.waste_.cards_.length = 23) : s.ObservationTensor player values = none := by
  unfold AgnesSorelState.ObservationTensor
  split
  · rfl
  · split
    · rfl
    · split
      · rfl
      · rename_i hsize
        split
        · rfl
        · rename_i v ptr hl
          have hp := tensorLoops_ptr s values _ hl
          rw [hf, ht, hw] at hp
          simp only at hp
          have hsz : (values.length : Int) = 1647 := by
            have := not_not.1 hsize
            rw [this]
            rfl
          rw [hp, hsz]
          rfl

theorem tensorLoops_congr (s t : AgnesSorelState) (values : List Int)
    (hf : s.foundations_ = t.foundations_) (ht : s.tableaus_ = t.tableaus_)
    (hw : s.waste_ = t.waste_) : s.tensorLoops values = t.tensorLoops values := by
  unfold AgnesSorelState.tensorLoops
  rw [hf, ht, hw]

set_option maxRecDepth 100000 in
theorem initial_tensorLoops :
    ((AgnesSorelState.new false 0).tensorLoops (List.replicate 1647 0)).map Prod.snd
      = some 1688 := by
  decide!

/-- C34: the declared tensor length is 1647 while the three loops of
`ObservationTensor` advance the pointer by 4 x 14 + 7 x 59 + 23 x 53 = 1688. On
the initial state of a game (4 foundations, 7 tableaus, 23 waste cards) and a
buffer of the declared length the loops end at offset 1688 and the final check
`ptr <= values.end()` fails: `ObservationTensor` returns no buffer. -/
theorem ObservationTensor_overruns_declared_length (is_colored : Bool)
    (depth_limit : Int) :
    ObservationTensorShape = [1647]
    ∧ ObservationTensorSize = 1647
    ∧ 4 * kFoundationTensorLength + 7 * kTableauTensorLength + 23 * kWasteTensorLength
        = 1688
    ∧ (AgnesSorelState.new is_colored depth_limit).foundations_.length = 4
    ∧ (AgnesSorelState.new is_colored depth_limit).tableaus_.length = 7
    ∧ (AgnesSorelState.new is_colored depth_limit).waste_.cards_.length = 23
    ∧ ((AgnesSorelState.new is_colored depth_limit).tensorLoops
        (List.replicate 1647 0)).map Prod.snd = some 1688
    ∧ (AgnesSorelState.new is_colored depth_limit).ObservationTensor 0
        (List.replicate 1647 0) = none := by
  refine ⟨rfl, rfl, rfl, rfl, rfl, rfl, ?_, ?_⟩
  · rw [tensorLoops_congr (AgnesSorelState.new is_colored depth_limit)
      (AgnesSorelState.new false 0) _ rfl rfl rfl]
    exact initial_tensorLoops
  · exact ObservationTensor_of_full_board _ _ _ rfl rfl rfl

/-! ## The reversible flag is never set -/

theorem reachable_irreversible (hasher : String → Nat) (s : AgnesSorelState)
    (h : Reachable hasher s) : s.is_reversible_ = false := by
  induction h with
  | initial is_colored depth_limit => rfl
  | step s s' legal action _ _ _ hd ih => exact DoApplyAction_flag hasher s s' action hd ih

theorem actionIds_isSome_of_mem : ∀ (moves : List Move) (ids : List Int),
    actionIds moves = some ids → ∀ m ∈ moves, ∃ id, m.ActionId = some id ∧ id ∈ ids := by
  intro moves ids h m hm
  have hmap := actionIds_eq_some moves ids h
  have : m.ActionId ∈ ids.map some := by
    rw [← hmap]
    exact List.mem_map_of_mem _ hm
  obtain ⟨id, hid, e⟩ := List.mem_map.1 this
  exact ⟨id, e.symm, hid⟩

theorem LegalActions_keeps_candidates (hasher : String → Nat) (s : AgnesSorelState)
    (candidates : List Move) (legal : List Int)
    (ht : s.IsTerminal = false) (hc : s.IsChanceNode = false) (hr : s.is_reversible_ = false)
    (hcm : s.CandidateMoves = some candidates) (hl : s.LegalActions hasher = some legal) :
    ∀ m ∈ candidates, ∃ id, m.ActionId = some id ∧ id ∈ legal := by
  intro m hm
  unfold AgnesSorelState.LegalActions at hl
  simp only [ht, hc, hr, hcm, Bool.false_eq_true, if_false] at hl
  split at hl
  · exact absurd hl (by simp)
  · rename_i ids hids
    obtain ⟨id, e, hid⟩ := actionIds_isSome_of_mem candidates ids hids m hm
    refine ⟨id, e, ?_⟩
    have hne : ∀ l : List Int, id ∈ l → l.isEmpty = false := by
      intro l hl
      cases l with
      | nil => simp at hl
      | cons a rest => rfl
    cases hw : s.waste_.GetIsEmpty with
    | true =>
      rw [hw] at hl
      simp only [if_true] at hl
      rw [hne ids hid] at hl
      simp only [Bool.false_eq_true, if_false, Option.some.injEq] at hl
      rw [← hl, List.mem_insertionSort]
      exact hid
    | false =>
      rw [hw] at hl
      simp only [Bool.false_eq_true, if_false] at hl
      rw [hne (ids ++ [kDeal]) (List.mem_append_left _ hid)] at hl
      simp only [Bool.false_eq_true, if_false, Option.some.injEq] at hl
      rw [← hl, List.mem_insertionSort]
      exact List.mem_append_left _ hid

/-- C35: a Move id in 53..365 on which `DoApplyAction` returns a state
leaves the reversible flag false and the list of visited states empty. The
move decoded from the id has a source card located `kMissing`, for which
`IsReversible` returns false whatever the piles. In every state reachable from
an initial state the flag is false, and at a decision node every candidate
move has its action id in the result of `LegalActions`. -/
theorem move_leaves_state_irreversible (hasher : String → Nat) (s s' : AgnesSorelState)
    (action : Int) (h1 : 53 ≤ action) (h2 : action ≤ 365)
    (h : s.DoApplyAction hasher action = some s') :
    s'.is_reversible_ = false ∧ s'.previous_states_ = []
    ∧ (∃ m, Move.ofAction action = some m ∧ m.source_.location_ = LocationType.kMissing ∧
        ∀ source_pile target_pile : Pile,
          AgnesSorelState.IsReversible m.source_ source_pile m.target_ target_pile = some false)
    ∧ (∀ t, Reachable hasher t → t.is_reversible_ = false ∧
        ∀ candidates legal, t.IsTerminal = false → t.IsChanceNode = false →
          t.CandidateMoves = some candidates → t.LegalActions hasher = some legal →
          ∀ m ∈ candidates, ∃ id, m.ActionId = some id ∧ id ∈ legal) := by
  have hflag : s'.is_reversible_ = false ∧ s'.previous_states_ = [] := by
    rw [DoApplyAction_move hasher s action h1 h2, Option.map_eq_some'] at h
    obtain ⟨s1, hs1, rfl⟩ := h
    obtain ⟨e1, e2⟩ := applyMove_flag hasher s s1 action hs1
    split
    · exact ⟨e1, e2⟩
    · exact ⟨e1, e2⟩
  refine ⟨hflag.1, hflag.2, ?_, ?_⟩
  · obtain ⟨m, hm⟩ := Option.isSome_iff_exists.1 (ofAction_some_of_inside action h1 h2)
    have hloc := ofAction_source_location action m hm
    exact ⟨m, hm, hloc, fun sp tp => IsReversible_of_missing _ sp _ tp hloc⟩
  · intro t ht
    have hr := reachable_irreversible hasher t ht
    exact ⟨hr, fun candidates legal h3 h4 h5 h6 =>
      LegalActions_keeps_candidates hasher t candidates legal h3 h4 hr h5 h6⟩

set_option maxRecDepth 100000 in
theorem move_leaves_state_irreversible_witness :
    ∃ s', ({ rewardSampleState with is_reversible_ := true, previous_states_ := [7] }
        : AgnesSorelState).DoApplyAction constantHasher 109 = some s' ∧
      s'.is_reversible_ = false ∧ s'.previous_states_ = [] := by
  have hs : (({ rewardSampleState with is_reversible_ := true, previous_states_ := [7] }
        : AgnesSorelState).DoApplyAction constantHasher 109).isSome = true := by decide
  obtain ⟨s', hs'⟩ := Option.isSome_iff_exists.1 hs
  have h := move_leaves_state_irreversible constantHasher _ s' 109 (by decide) (by decide) hs'
  exact ⟨s', hs', h.1, h.2.1⟩

/-! ## The move codec on the ids of the Move band and on enumerated moves -/

set_option synthInstance.maxSize 4096 in
set_option synthInstance.maxHeartbeats 400000 in
set_option maxRecDepth 1000000 in
theorem round_trip_all : ∀ id : Int, 53 ≤ id → id ≤ 365 →
    id ∉ ([206, 207, 208, 257, 258, 259, 260] : List Int) →
    (Move.ofAction id).map (fun m => decide (
      m.ActionId = some id
      ∧ (id ≤ 104 → m.target_.rank_ = 0 ∧ m.target_.suit_ = m.source_.suit_ ∧
          m.source_.ordinary ∧
          id = 53 + (m.source_.suit_ - 1) * 13 + (m.source_.rank_ - 1))
      ∧ (105 ≤ id ∧ id ≤ 152 → m.target_.ordinary ∧ m.source_.ordinary ∧
          m.target_.suit_ = m.source_.suit_ ∧ m.source_.rank_ = m.target_.rank_ + 1 ∧
          id = 105 + (m.source_.suit_ - 1) * 12 + (m.source_.rank_ - 2))
      ∧ (153 ≤ id ∧ id ≤ 156 → m.target_.ordinary ∧ m.source_.ordinary ∧
          m.target_.suit_ = m.source_.suit_ ∧ m.source_.rank_ = 1 ∧ m.target_.rank_ = 13 ∧
          id = 153 + (m.source_.suit_ - 1))
      ∧ (157 ≤ id ∧ id ≤ 204 → m.target_.ordinary ∧ m.source_.ordinary ∧
          m.target_.suit_ = m.source_.suit_ ∧ m.target_.rank_ = m.source_.rank_ + 1 ∧
          id = 157 + (m.source_.suit_ - 1) * 12 + (m.source_.rank_ - 1))
      ∧ (id = 205 → m.target_.ordinary ∧ m.source_.ordinary ∧
          m.target_.suit_ = m.source_.suit_ ∧ m.source_.suit_ = 1 ∧
          m.source_.rank_ = 13 ∧ m.target_.rank_ = 1)
      ∧ (209 ≤ id ∧ id ≤ 256 → m.target_.ordinary ∧ m.source_.ordinary ∧
          (m.target_.suit_ = m.source_.suit_ + 2 ∨ m.source_.suit_ = m.target_.suit_ + 2) ∧
          m.target_.rank_ = m.source_.rank_ + 1 ∧
          id = 209 + (m.source_.suit_ - 1) * 12 + (m.source_.rank_ - 1))
      ∧ (261 ≤ id ∧ id ≤ 312 → m.target_.rank_ = 0 ∧ m.target_.suit_ = 0 ∧
          m.source_.ordinary ∧
          id = 261 + (m.source_.suit_ - 1) * 13 + (m.source_.rank_ - 1))
      ∧ (313 ≤ id ∧ id ≤ 364 → m.source_.rank_ = 14 ∧ m.source_.suit_ = 5 ∧
          m.target_.ordinary ∧
          id = 313 + (m.target_.suit_ - 1) * 13 + (m.target_.rank_ - 1))
      ∧ (id = 365 → m.source_.rank_ = 14 ∧ m.source_.suit_ = 5 ∧
          m.target_.rank_ = 0 ∧ m.target_.suit_ = 0))) = some true := by
  decide!

set_option synthInstance.maxSize 4096 in
set_option synthInstance.maxHeartbeats 400000 in
theorem round_trip_facts (id : Int) (h1 : 53 ≤ id) (h2 : id ≤ 365)
    (h3 : id ∉ ([206, 207, 208, 257, 258, 259, 260] : List Int)) :
    ∃ m, Move.ofAction id = some m ∧ (

      m.ActionId = some id
      ∧ (id ≤ 104 → m.target_.rank_ = 0 ∧ m.target_.suit_ = m.source_.suit_ ∧
          m.source_.ordinary ∧
          id = 53 + (m.source_.suit_ - 1) * 13 + (m.source_.rank_ - 1))
      ∧ (105 ≤ id ∧ id ≤ 152 → m.target_.ordinary ∧ m.source_.ordinary ∧
          m.target_.suit_ = m.source_.suit_ ∧ m.source_.rank_ = m.target_.rank_ + 1 ∧
          id = 105 + (m.source_.suit_ - 1) * 12 + (m.source_.rank_ - 2))
      ∧ (153 ≤ id ∧ id ≤ 156 → m.target_.ordinary ∧ m.source_.ordinary ∧
          m.target_.suit_ = m.source_.suit_ ∧ m.source_.rank_ = 1 ∧ m.target_.rank_ = 13 ∧
          id = 153 + (m.source_.suit_ - 1))
      ∧ (157 ≤ id ∧ id ≤ 204 → m.target_.ordinary ∧ m.source_.ordinary ∧
          m.target_.suit_ = m.source_.suit_ ∧ m.target_.rank_ = m.source_.rank_ + 1 ∧
          id = 157 + (m.source_.suit_ - 1) * 12 + (m.source_.rank_ - 1))
      ∧ (id = 205 → m.target_.ordinary ∧ m.source_.ordinary ∧
          m.target_.suit_ = m.source_.suit_ ∧ m.source_.suit_ = 1 ∧
          m.source_.rank_ = 13 ∧ m.target_.rank_ = 1)
      ∧ (209 ≤ id ∧ id ≤ 256 → m.target_.ordinary ∧ m.source_.ordinary ∧
          (m.target_.suit_ = m.source_.suit_ + 2 ∨ m.source_.suit_ = m.target_.suit_ + 2) ∧
          m.target_.rank_ = m.source_.rank_ + 1 ∧
          id = 209 + (m.source_.suit_ - 1) * 12 + (m.source_.rank_ - 1))
      ∧ (261 ≤ id ∧ id ≤ 312 → m.target_.rank_ = 0 ∧ m.target_.suit_ = 0 ∧
          m.source_.ordinary ∧
          id = 261 + (m.source_.suit_ - 1) * 13 + (m.source_.rank_ - 1))
      ∧ (313 ≤ id ∧ id ≤ 364 → m.source_.rank_ = 14 ∧ m.source_.suit_ = 5 ∧
          m.target_.ordinary ∧
          id = 313 + (m.target_.suit_ - 1) * 13 + (m.target_.rank_ - 1))
      ∧ (id = 365 → m.source_.rank_ = 14 ∧ m.source_.suit_ = 5 ∧
          m.target_.rank_ = 0 ∧ m.target_.suit_ = 0)) := by
  have k := round_trip_all id h1 h2 h3
  rw [Option.map_eq_some'] at k
  obtain ⟨m, hm, hd⟩ := k
  exact ⟨m, hm, of_decide_eq_true hd⟩

/-- C36: for every action id in 53..365 other than 206, 207, 208, 257, 258,
259 and 260, `Move(Action)` returns a move that `ActionId` encodes to the same
id, and the move is of the category of its band: 53..104 card to the empty
foundation of its suit; 105..152 card to the foundation card one rank below;
153..156 Ace onto King on a foundation; 157..204 card to the tableau card of
its suit one rank above; 205 King of spades onto Ace of spades; 209..256 card
to the tableau card of the other suit of its colour one rank above; 261..312
card to empty tableau; 313..364 hidden card to an ordinary card; 365 hidden
card to empty tableau. None of the seven excluded ids is returned by
`ActionId` on its decoded move. -/
theorem decode_then_encode_is_identity (id : Int) (h1 : 53 ≤ id) (h2 : id ≤ 365)
    (h3 : id ∉ ([206, 207, 208, 257, 258, 259, 260] : List Int)) :
    (∃ m, Move.ofAction id = some m ∧ m.ActionId = some id ∧ m.InCategory
      ∧ (id ≤ 104 → m.target_.rank_ = 0 ∧ m.target_.suit_ = m.source_.suit_ ∧
          m.source_.ordinary ∧
          id = 53 + (m.source_.suit_ - 1) * 13 + (m.source_.rank_ - 1))
      ∧ (105 ≤ id ∧ id ≤ 152 → m.target_.ordinary ∧ m.source_.ordinary ∧
          m.target_.suit_ = m.source_.suit_ ∧ m.source_.rank_ = m.target_.rank_ + 1 ∧
          id = 105 + (m.source_.suit_ - 1) * 12 + (m.source_.rank_ - 2))
      ∧ (153 ≤ id ∧ id ≤ 156 → m.target_.ordinary ∧ m.source_.ordinary ∧
          m.target_.suit_ = m.source_.suit_ ∧ m.source_.rank_ = 1 ∧ m.target_.rank_ = 13 ∧
          id = 153 + (m.source_.suit_ - 1))
      ∧ (157 ≤ id ∧ id ≤ 204 → m.target_.ordinary ∧ m.source_.ordinary ∧
          m.target_.suit_ = m.source_.suit_ ∧ m.target_.rank_ = m.source_.rank_ + 1 ∧
          id = 157 + (m.source_.suit_ - 1) * 12 + (m.source_.rank_ - 1))
      ∧ (id = 205 → m.target_.ordinary ∧ m.source_.ordinary ∧
          m.target_.suit_ = m.source_.suit_ ∧ m.source_.suit_ = 1 ∧
          m.source_.rank_ = 13 ∧ m.target_.rank_ = 1)
      ∧ (209 ≤ id ∧ id ≤ 256 → m.target_.ordinary ∧ m.source_.ordinary ∧
          m.target_.suit_ ≠ m.source_.suit_ ∧ sameColour m.target_.suit_ m.source_.suit_ ∧
          m.target_.rank_ = m.source_.rank_ + 1 ∧
          id = 209 + (m.source_.suit_ - 1) * 12 + (m.source_.rank_ - 1))
      ∧ (261 ≤ id ∧ id ≤ 312 → m.target_.rank_ = 0 ∧ m.target_.suit_ = 0 ∧
          m.source_.ordinary ∧
          id = 261 + (m.source_.suit_ - 1) * 13 + (m.source_.rank_ - 1))
      ∧ (313 ≤ id ∧ id ≤ 364 → m.source_.rank_ = 14 ∧ m.source_.suit_ = 5 ∧
          m.target_.ordinary ∧
          id = 313 + (m.target_.suit_ - 1) * 13 + (m.target_.rank_ - 1))
      ∧ (id = 365 → m.source_.rank_ = 14 ∧ m.source_.suit_ = 5 ∧
          m.target_.rank_ = 0 ∧ m.target_.suit_ = 0))
    ∧ ∀ bad ∈ ([206, 207, 208, 257, 258, 259, 260] : List Int),
        (Move.ofAction bad).bind Move.ActionId ≠ some bad := by
  constructor
  · obtain ⟨m, hm, a0, a1, a2, a3, a4, a5, a6, a7, a8, a9⟩ := round_trip_facts id h1 h2 h3
    have hbad : id ≠ 206 ∧ id ≠ 207 ∧ id ≠ 208 ∧ id ≠ 257 ∧ id ≠ 258 ∧ id ≠ 259 ∧ id ≠ 260 := by
      simp only [List.mem_cons, List.mem_singleton, List.not_mem_nil, or_false, not_or] at h3
      exact h3
    have hcol : ∀ ts ss : Int, 1 ≤ ts → ts ≤ 4 → 1 ≤ ss → ss ≤ 4 →
        (ts = ss ∨ ts = ss + 2 ∨ ss = ts + 2) → sameColour ts ss :=
      fun ts ss b1 b2 b3 b4 b5 => (sameColour_iff ts ss b1 b2 b3 b4).2 b5
    refine ⟨m, hm, a0, ?_, a1, a2, a3, a4, a5, ?_, a7, a8, a9⟩
    · unfold Move.InCategory
      by_cases c1 : id ≤ 104
      · obtain ⟨b1, b2, b3, -⟩ := a1 c1
        exact Or.inl ⟨b1, b2, b3⟩
      by_cases c2 : id ≤ 152
      · obtain ⟨b1, b2, b3, b4, -⟩ := a2 ⟨by omega, c2⟩
        exact Or.inr (Or.inl ⟨b1, b2, b3, b4⟩)
      by_cases c3 : id ≤ 156
      · obtain ⟨b1, b2, b3, b4, b5, -⟩ := a3 ⟨by omega, c3⟩
        exact Or.inr (Or.inr (Or.inl ⟨b1, b2, b3, b4, b5⟩))
      by_cases c4 : id ≤ 204
      · obtain ⟨b1, b2, b3, b4, -⟩ := a4 ⟨by omega, c4⟩
        refine Or.inr (Or.inr (Or.inr (Or.inl ⟨b1, b2, ?_, b4⟩)))
        exact hcol _ _ b1.2.2.1 b1.2.2.2 b2.2.2.1 b2.2.2.2 (Or.inl b3)
      by_cases c5 : id = 205
      · obtain ⟨b1, b2, b3, -, b5, b6⟩ := a5 c5
        refine Or.inr (Or.inr (Or.inr (Or.inr (Or.inl ⟨b1, b2, ?_, b5, b6⟩))))
        exact hcol _ _ b1.2.2.1 b1.2.2.2 b2.2.2.1 b2.2.2.2 (Or.inl b3)
      by_cases c6 : id ≤ 256
      · obtain ⟨b1, b2, b3, b4, -⟩ := a6 ⟨by omega, c6⟩
        refine Or.inr (Or.inr (Or.inr (Or.inl ⟨b1, b2, ?_, b4⟩)))
        exact hcol _ _ b1.2.2.1 b1.2.2.2 b2.2.2.1 b2.2.2.2 (Or.inr b3)
      by_cases c7 : id ≤ 312
      · obtain ⟨b1, b2, b3, -⟩ := a7 ⟨by omega, c7⟩
        exact Or.inr (Or.inr (Or.inr (Or.inr (Or.inr (Or.inl ⟨b1, b2, b3⟩)))))
      by_cases c8 : id ≤ 364
      · obtain ⟨b1, b2, b3, -⟩ := a8 ⟨by omega, c8⟩
        exact Or.inr (Or.inr (Or.inr (Or.inr (Or.inr (Or.inr (Or.inl ⟨b1, b2, b3⟩))))))
      · obtain ⟨b1, b2, b3, b4⟩ := a9 (by omega)
        exact Or.inr (Or.inr (Or.inr (Or.inr (Or.inr (Or.inr (Or.inr ⟨b1, b2, b3, b4⟩))))))
    · intro c6
      obtain ⟨b1, b2, b3, b4, b5⟩ := a6 c6
      refine ⟨b1, b2, ?_, ?_, b4, b5⟩
      · rcases b3 with e | e <;> omega
      · exact hcol _ _ b1.2.2.1 b1.2.2.2 b2.2.2.1 b2.2.2.2 (Or.inr b3)
  · decide

theorem decode_then_encode_is_identity_witness :
    ∃ m, Move.ofAction 230 = some m ∧ m.ActionId = some 230 ∧
      m.target_.suit_ ≠ m.source_.suit_ ∧ sameColour m.target_.suit_ m.source_.suit_ ∧
      m.target_.rank_ = m.source_.rank_ + 1 := by
  obtain ⟨m, a, b, -, -, -, -, -, -, c, -⟩ :=
    (decode_then_encode_is_identity 230 (by decide) (by decide) (by decide)).1
  obtain ⟨-, -, c3, c4, c5, -⟩ := c ⟨by decide, by decide⟩
  exact ⟨m, a, b, c3, c4, c5⟩

/-! ## The encoder on enumerated moves -/

set_option maxRecDepth 1000000 in
theorem encode_children_all : ∀ tr : Int, 0 ≤ tr → tr ≤ 13 → ∀ ts : Int, 0 ≤ ts → ts ≤ 4 →
    ∀ R : Int, 1 ≤ R → R ≤ 13 →
    ∀ location ∈ [LocationType.kTableau, LocationType.kFoundation],
    ((location = LocationType.kTableau ∧ ((1 ≤ tr ∧ 1 ≤ ts) ∨ (tr = 0 ∧ ts = 0)))
      ∨ (location = LocationType.kFoundation ∧ 1 ≤ ts)) →
    ((Card.new false ts tr location).LegalChildrenOf R).map (fun children =>
      children.all (fun source =>
        ((Move.mk (Card.new false ts tr location) source).ActionId.map
          (fun a => decide (53 ≤ a ∧ a ≤ 365))) == some true)) = some true := by
  decide!

theorem encode_children (target : Card) (foundation_rank : Int)
    (hh : target.hidden_ = false) (hR : 1 ≤ foundation_rank ∧ foundation_rank ≤ 13)
    (hk : (target.location_ = LocationType.kTableau ∧
            (target.ordinary ∨ (target.rank_ = 0 ∧ target.suit_ = 0)))
        ∨ (target.location_ = LocationType.kFoundation ∧
            (target.ordinary ∨ (target.rank_ = 0 ∧ 1 ≤ target.suit_ ∧ target.suit_ ≤ 4)))) :
    ∃ children, target.LegalChildrenOf foundation_rank = some children ∧
      ∀ source ∈ children, ∃ id, (Move.mk target source).ActionId = some id ∧
        53 ≤ id ∧ id ≤ 365 := by
  obtain ⟨rank, suit, location, hidden, index⟩ := target
  simp only at hh hk
  subst hh
  have e1 : ∀ R, Card.LegalChildrenOf ⟨rank, suit, location, false, index⟩ R =
      (Card.new false suit rank location).LegalChildrenOf R := fun _ => rfl
  have e2 : ∀ source, (Move.mk ⟨rank, suit, location, false, index⟩ source).ActionId =
      (Move.mk (Card.new false suit rank location) source).ActionId := fun _ => rfl
  have hb : 0 ≤ rank ∧ rank ≤ 13 ∧ 0 ≤ suit ∧ suit ≤ 4 := by
    unfold Card.ordinary at hk
    simp only at hk
    omega
  have hloc : location ∈ [LocationType.kTableau, LocationType.kFoundation] := by
    rcases hk with ⟨h, -⟩ | ⟨h, -⟩ <;> rw [h] <;> simp
  have hcond : (location = LocationType.kTableau ∧ ((1 ≤ rank ∧ 1 ≤ suit) ∨ (rank = 0 ∧ suit = 0)))
      ∨ (location = LocationType.kFoundation ∧ 1 ≤ suit) := by
    unfold Card.ordinary at hk
    simp only at hk
    rcases hk with ⟨h, h'⟩ | ⟨h, h'⟩
    · exact Or.inl ⟨h, by omega⟩
    · exact Or.inr ⟨h, by omega⟩
  have k := encode_children_all rank hb.1 hb.2.1 suit hb.2.2.1 hb.2.2.2 foundation_rank
    hR.1 hR.2 location hloc hcond
  rw [Option.map_eq_some'] at k
  obtain ⟨children, hc, hall⟩ := k
  refine ⟨children, by rw [e1]; exact hc, ?_⟩
  intro source hs
  rw [List.all_eq_true] at hall
  have := hall source hs
  rw [beq_iff_eq, Option.map_eq_some'] at this
  obtain ⟨id, hid, hd⟩ := this
  exact ⟨id, by rw [e2]; exact hid, of_decide_eq_true hd⟩

/-- C37: encoding does not abort on an enumerated move. For a target that
is not hidden and is an ordinary tableau card, the empty-tableau sentinel, an
ordinary foundation card or the empty-foundation sentinel of a suit, and a
foundation rank Ace..King, `LegalChildren(foundation_rank)` returns a list and
`ActionId` returns an id in 53..365 on the move from each card of that list to
the target. Hence in a state with that foundation rank every candidate move
with that target has an id in 53..365: `ActionId` does not end in `move not
found` on it. -/
theorem ActionId_succeeds_on_legal_children (target : Card) (foundation_rank : Int)
    (hh : target.hidden_ = false) (hR : 1 ≤ foundation_rank ∧ foundation_rank ≤ 13)
    (hk : (target.location_ = LocationType.kTableau ∧
            (target.ordinary ∨ (target.rank_ = 0 ∧ target.suit_ = 0)))
        ∨ (target.location_ = LocationType.kFoundation ∧
            (target.ordinary ∨ (target.rank_ = 0 ∧ 1 ≤ target.suit_ ∧ target.suit_ ≤ 4)))) :
    (∃ children, target.LegalChildrenOf foundation_rank = some children ∧
      ∀ source ∈ children, ∃ id, (Move.mk target source).ActionId = some id ∧
        53 ≤ id ∧ id ≤ 365)
    ∧ ∀ (s : AgnesSorelState) (moves : List Move), s.foundation_rank_ = foundation_rank →
        s.CandidateMoves = some moves → ∀ m ∈ moves, m.target_ = target →
        ∃ id, m.ActionId = some id ∧ 53 ≤ id ∧ id ≤ 365 := by
  have h := encode_children target foundation_rank hh hR hk
  refine ⟨h, ?_⟩
  intro s moves hr hcm m hm ht
  obtain ⟨children, hc, hall⟩ := h
  obtain ⟨-, -, children', hc', hmem⟩ := CandidateMoves_mem s moves hcm m hm
  rw [hr, ht, hc] at hc'
  cases hc'
  have := hall m.source_ hmem
  rw [← ht] at this
  exact this

theorem ActionId_succeeds_on_legal_children_witness :
    (∃ children,
      (Card.new false SuitType.kNone RankType.kNone LocationType.kTableau).LegalChildrenOf 9
        = some children ∧ children.length = 52)
    ∧ ∃ id, (Move.mk (Card.new false SuitType.kNone RankType.kNone LocationType.kTableau)
          (Card.new false SuitType.kSpades 5 LocationType.kMissing)).ActionId = some id ∧
        53 ≤ id ∧ id ≤ 365 := by
  have h := ActionId_succeeds_on_legal_children
    (Card.new false SuitType.kNone RankType.kNone LocationType.kTableau) 9 rfl
    ⟨by decide, by decide⟩ (Or.inl ⟨rfl, Or.inr ⟨rfl, rfl⟩⟩)
  refine ⟨⟨_, rfl, by decide⟩, ?_⟩
  exact h.2 emptyTableauSampleState _ rfl (by decide) _ (List.mem_singleton.2 rfl) rfl

/-! ## The chance outcomes -/

theorem filterMap_ite_eq {α β : Type} (c : α → Prop) [DecidablePred c] (f : α → β) :
    ∀ l : List α, l.filterMap (fun i => if c i then none else some (f i)) =
      (l.filter (fun i => decide (¬ c i))).map f := by
  intro l
  induction l with
  | nil => rfl
  | cons a rest ih =>
    by_cases h : c a
    · simp only [List.filterMap_cons, h, if_true, not_true_eq_false, decide_False,
        List.filter_cons_of_neg, Bool.false_eq_true, not_false_eq_true]
      simpa using ih
    · simp only [List.filterMap_cons, h, if_false, not_false_eq_true, decide_True,
        List.filter_cons_of_pos, List.map_cons, List.cons.injEq, true_and]
      simpa using ih

theorem mem_revealIds (i : Int) :
    i ∈ (List.range 52).map (fun (k : Nat) => (k : Int) + 1) ↔ 1 ≤ i ∧ i ≤ 52 := by
  rw [List.mem_map]
  constructor
  · rintro ⟨k, hk, rfl⟩
    rw [List.mem_range] at hk
    omega
  · intro h
    refine ⟨(i - 1).toNat, ?_, ?_⟩
    · rw [List.mem_range]
      omega
    · omega

theorem revealIds_sorted :
    ((List.range 52).map (fun (k : Nat) => (k : Int) + 1)).Sorted (fun a b => a < b) := by
  unfold List.Sorted
  rw [List.pairwise_map]
  exact (List.pairwise_lt_range 52).imp (fun h => by omega)

theorem ChanceOutcomes_eq (s : AgnesSorelState) :
    s.ChanceOutcomes =
      (((List.range 52).map (fun (k : Nat) => (k : Int) + 1)).filter
        (fun i => decide (¬ i ∈ s.revealed_cards_))).map
        (fun i => (i,
          if (((52 : Int) - (s.revealed_cards_.length : Int)) % 2 ^ 64).toNat = 0 then
            DoubleValue.infinity
          else DoubleValue.finite (doubleReciprocal (doubleOfUnsigned
            (((52 : Int) - (s.revealed_cards_.length : Int)) % 2 ^ 64).toNat)))) := by
  unfold AgnesSorelState.ChanceOutcomes
  exact filterMap_ite_eq (fun i => i ∈ s.revealed_cards_) _ _

theorem remaining_of_lt (k : Nat) (hk : k < 52) :
    (((52 : Int) - (k : Int)) % 2 ^ 64).toNat = 52 - k := by
  have h : ((52 : Int) - (k : Int)) % 2 ^ 64 = (52 : Int) - (k : Int) :=
    Int.emod_eq_of_lt (by omega) (by
      have : ((2 : Int) ^ 64) = 18446744073709551616 := by norm_num
      rw [this]
      omega)
  rw [h]
  omega

theorem doubleReciprocal_facts : ∀ n : Nat, 1 ≤ n → n < 53 →
    doubleOfUnsigned n = n
    ∧ 1 - 1 / 2 ^ 53 ≤ (n : ℚ) * doubleReciprocal n
    ∧ (n : ℚ) * doubleReciprocal n ≤ 1 + 1 / 2 ^ 53
    ∧ ((n : ℚ) * doubleReciprocal n = 1 ↔ n ∈ [1, 2, 4, 8, 16, 32]) := by
  decide!

theorem ChanceOutcomes_probabilities (s : AgnesSorelState)
    (hk : s.revealed_cards_.length < 52) :
    ∀ o ∈ s.ChanceOutcomes,
      o.2 = DoubleValue.finite (doubleReciprocal (52 - s.revealed_cards_.length)) := by
  intro o ho
  rw [ChanceOutcomes_eq] at ho
  obtain ⟨i, -, rfl⟩ := List.mem_map.1 ho
  have hrem := remaining_of_lt s.revealed_cards_.length hk
  have hd := (doubleReciprocal_facts (52 - s.revealed_cards_.length) (by omega) (by omega)).1
  simp only [hrem, hd]
  rw [if_neg (by omega)]

theorem unrevealed_length (revealed : List Int) (hnd : revealed.Nodup)
    (hr : ∀ a ∈ revealed, 1 ≤ a ∧ a ≤ 52) :
    (((List.range 52).map (fun (k : Nat) => (k : Int) + 1)).filter
        (fun i => decide (¬ i ∈ revealed))).length + revealed.length = 52 := by
  have hsorted := revealIds_sorted
  have hnodup : ((List.range 52).map (fun (k : Nat) => (k : Int) + 1)).Nodup :=
    hsorted.imp (fun h => ne_of_lt h)
  have hperm : (((List.range 52).map (fun (k : Nat) => (k : Int) + 1)).filter
      (fun i => decide (i ∈ revealed))).Perm revealed := by
    rw [List.perm_ext_iff_of_nodup (hnodup.filter _) hnd]
    intro a
    rw [List.mem_filter, mem_revealIds, decide_eq_true_iff]
    constructor
    · exact fun h => h.2
    · exact fun h => ⟨hr a h, h⟩
  have hsplit : ((List.range 52).map (fun (k : Nat) => (k : Int) + 1)).length = _ :=
    List.length_eq_length_filter_add (fun i => decide (i ∈ revealed))
  rw [List.length_map, List.length_range, hperm.length_eq] at hsplit
  have e : (fun i => decide (¬ i ∈ revealed)) = (fun i => !(decide (i ∈ revealed))) := by
    funext i
    simp
  rw [e]
  omega

set_option maxRecDepth 1000000 in
theorem outcomes_after_three_reveals :
    ((AgnesSorelState.new false 150).playLegal constantHasher [6, 14, 15]).map
        (fun s => (s.revealed_cards_, s.ChanceOutcomes.map Prod.snd)) =
      some ([6, 14, 15],
        List.replicate 49 (DoubleValue.finite (5882252574524729 / 2 ^ 58))) := by
  decide!

/-- C40 (counterexample): after the three legal reveals 6, 14 and 15 of a
new game the 49 chance outcomes each carry the probability that the `double`
division `1.0 / 49` returns, the binary64 number 5882252574524729 / 2^58. It
is not 1/49, and the 49 probabilities do not sum to 1 as rationals. -/
theorem probabilities_do_not_sum_to_one :
    ((AgnesSorelState.new false 150).playLegal constantHasher [6, 14, 15]).map
        (fun s => (s.revealed_cards_, s.ChanceOutcomes.map Prod.snd)) =
      some ([6, 14, 15], List.replicate 49 (DoubleValue.finite (5882252574524729 / 2 ^ 58)))
    ∧ (5882252574524729 / 2 ^ 58 : ℚ) ≠ 1 / 49
    ∧ (List.replicate 49 (5882252574524729 / 2 ^ 58 : ℚ)).sum ≠ 1 := by
  refine ⟨outcomes_after_three_reveals, by norm_num, ?_⟩
  rw [List.sum_replicate]
  norm_num

/-- C40: for a state whose list of revealed cards holds `k < 52` pairwise
distinct ids of 1..52, `ChanceOutcomes` lists the ids of 1..52 that are not
revealed, in strictly ascending order (so without repetition), `52 - k` of
them; no revealed id is offered. Each has the same probability `p`, the
result of the `double` division `1.0 / (52 - k)`: the binary64 number nearest
to `1 / (52 - k)`, within the relative error `2^-53` of it. Taken as
rationals the `52 - k` probabilities sum to a number within `2^-53` of 1, and
to exactly 1 only when `52 - k` is one of 1, 2, 4, 8, 16, 32. -/
theorem ChanceOutcomes_uniform_over_unrevealed (s : AgnesSorelState)
    (hnd : s.revealed_cards_.Nodup) (hr : ∀ a ∈ s.revealed_cards_, 1 ≤ a ∧ a ≤ 52)
    (hk : s.revealed_cards_.length < 52) :
    (∀ i : Int, i ∈ s.ChanceOutcomes.map Prod.fst ↔
        (1 ≤ i ∧ i ≤ 52 ∧ i ∉ s.revealed_cards_))
    ∧ (s.ChanceOutcomes.map Prod.fst).Sorted (fun a b => a < b)
    ∧ s.ChanceOutcomes.length = 52 - s.revealed_cards_.length
    ∧ ∃ p : ℚ, p = doubleReciprocal (52 - s.revealed_cards_.length)
      ∧ s.ChanceOutcomes.map Prod.snd =
          List.replicate (52 - s.revealed_cards_.length) (DoubleValue.finite p)
      ∧ |p - 1 / ((52 - s.revealed_cards_.length : Nat) : ℚ)| ≤
          1 / 2 ^ 53 * (1 / ((52 - s.revealed_cards_.length : Nat) : ℚ))
      ∧ |(List.replicate (52 - s.revealed_cards_.length) p).sum - 1| ≤ 1 / 2 ^ 53
      ∧ ((List.replicate (52 - s.revealed_cards_.length) p).sum = 1 ↔
          52 - s.revealed_cards_.length ∈ [1, 2, 4, 8, 16, 32]) := by
  have hfst : s.ChanceOutcomes.map Prod.fst =
      ((List.range 52).map (fun (k : Nat) => (k : Int) + 1)).filter
        (fun i => decide (¬ i ∈ s.revealed_cards_)) := by
    rw [ChanceOutcomes_eq, List.map_map]
    exact List.map_id _
  have hlen := unrevealed_length s.revealed_cards_ hnd hr
  have hlen' : s.ChanceOutcomes.length = 52 - s.revealed_cards_.length := by
    have : s.ChanceOutcomes.length = (s.ChanceOutcomes.map Prod.fst).length := by
      rw [List.length_map]
    rw [this, hfst]
    omega
  have hsnd : s.ChanceOutcomes.map Prod.snd =
      List.replicate (52 - s.revealed_cards_.length)
        (DoubleValue.finite (doubleReciprocal (52 - s.revealed_cards_.length))) := by
    rw [List.eq_replicate_iff]
    constructor
    · rw [List.length_map, hlen']
    · intro b hb
      obtain ⟨o, ho, rfl⟩ := List.mem_map.1 hb
      exact ChanceOutcomes_probabilities s hk o ho
  obtain ⟨-, f1, f2, f3⟩ :=
    doubleReciprocal_facts (52 - s.revealed_cards_.length) (by omega) (by omega)
  have hpos : (0 : ℚ) < ((52 - s.revealed_cards_.length : Nat) : ℚ) := by
    have : 0 < 52 - s.revealed_cards_.length := by omega
    exact_mod_cast this
  have hsum : (List.replicate (52 - s.revealed_cards_.length)
      (doubleReciprocal (52 - s.revealed_cards_.length))).sum =
      ((52 - s.revealed_cards_.length : Nat) : ℚ) *
        doubleReciprocal (52 - s.revealed_cards_.length) := by
    rw [List.sum_replicate, nsmul_eq_mul]
  refine ⟨?_, ?_, hlen', _, rfl, hsnd, ?_, ?_, ?_⟩
  · intro i
    rw [hfst, List.mem_filter, mem_revealIds, decide_eq_true_iff]
    constructor
    · exact fun h => ⟨h.1.1, h.1.2, h.2⟩
    · exact fun h => ⟨⟨h.1, h.2.1⟩, h.2.2⟩
  · rw [hfst]
    exact revealIds_sorted.filter _
  · have e : doubleReciprocal (52 - s.revealed_cards_.length)
        - 1 / ((52 - s.revealed_cards_.length : Nat) : ℚ) =
        (((52 - s.revealed_cards_.length : Nat) : ℚ) *
          doubleReciprocal (52 - s.revealed_cards_.length) - 1)
          * (1 / ((52 - s.revealed_cards_.length : Nat) : ℚ)) := by
      field_simp
      ring
    rw [e, abs_mul, abs_of_pos (one_div_pos.2 hpos)]
    apply mul_le_mul_of_nonneg_right _ (le_of_lt (one_div_pos.2 hpos))
    rw [abs_le]
    constructor <;> linarith
  · rw [hsum, abs_le]
    constructor <;> linarith
  · rw [hsum]
    exact f3

set_option maxRecDepth 1000000 in
theorem ChanceOutcomes_uniform_over_unrevealed_witness :
    ∃ s, (AgnesSorelState.new false 150).playLegal constantHasher [6, 14, 15] = some s ∧
      s.revealed_cards_ = [6, 14, 15] ∧ s.ChanceOutcomes.length = 49 ∧
      ∃ p : ℚ, p = doubleReciprocal 49 ∧
        s.ChanceOutcomes.map Prod.snd = List.replicate 49 (DoubleValue.finite p) ∧
        |(List.replicate 49 p).sum - 1| ≤ 1 / 2 ^ 53 := by
  have hs : ((AgnesSorelState.new false 150).playLegal constantHasher [6, 14, 15]).map
      (fun s => s.revealed_cards_) = some [6, 14, 15] := by decide!
  rw [Option.map_eq_some'] at hs
  obtain ⟨s, hs, hrev⟩ := hs
  have h := ChanceOutcomes_uniform_over_unrevealed s (by rw [hrev]; decide)
    (by rw [hrev]; decide) (by rw [hrev]; decide)
  obtain ⟨-, -, h3, p, hp, h5, -, h7, -⟩ := h
  rw [hrev] at h3 hp h5 h7
  exact ⟨s, hs, hrev, h3, p, hp, h5, h7⟩

/-! ## Conservation of the cards -/

theorem faces_of_piles (s : AgnesSorelState) :
    s.faces = (s.piles.flatMap (fun p => p.cards_)).map Card.face := rfl

theorem faces_congr (s t : AgnesSorelState) (hw : t.waste_ = s.waste_)
    (hf : t.foundations_ = s.foundations_) (ht : t.tableaus_ = s.tableaus_) :
    t.faces = s.faces := by
  unfold AgnesSorelState.faces AgnesSorelState.allCards AgnesSorelState.piles
  rw [hw, hf, ht]

theorem faces_modifyPile (s : AgnesSorelState) (r : PileRef) (p : Pile) (f : Pile → Pile)
    (h : s.pileAt r = some p) :
    ∃ pre post : List Card, s.faces = (pre ++ p.cards_ ++ post).map Card.face ∧
      (s.modifyPile r f).faces = (pre ++ (f p).cards_ ++ post).map Card.face := by
  obtain ⟨pre, post, h1, h2⟩ := pileAt_mem s r p h
  refine ⟨pre.flatMap (fun p => p.cards_), post.flatMap (fun p => p.cards_), ?_, ?_⟩
  · rw [faces_of_piles, h1]
    simp only [List.flatMap_append, List.flatMap_cons, List.append_assoc]
  · rw [faces_of_piles, h2 f]
    simp only [List.flatMap_append, List.flatMap_cons, List.append_assoc]

theorem face_SetLocation (location : LocationType) (cards : List Card) :
    (cards.map (fun card => card.SetLocation location)).map Card.face = cards.map Card.face := by
  rw [List.map_map]
  rfl

theorem transfer_faces (s : AgnesSorelState) (rs rt : PileRef) (sp tp : Pile)
    (kept split : List Card) (id : Nat)
    (hs : s.pileAt rs = some sp) (ht : s.pileAt rt = some tp)
    (hperm : (kept ++ split).Perm sp.cards_) :
    ((s.modifyPile rs (fun _ => sp.SetCards kept)).extendWithMap rt id split).faces.Perm
      s.faces := by
  rw [extendWithMap_eq]
  obtain ⟨pre, post, e1, e2⟩ := faces_modifyPile s rs sp (fun _ => sp.SetCards kept) hs
  have hq : ∃ q, (s.modifyPile rs (fun _ => sp.SetCards kept)).pileAt rt = some q := by
    rcases pileAt_modifyPile s rs rt (fun _ => sp.SetCards kept) tp ht with h | h
    · exact ⟨_, h⟩
    · exact ⟨_, h⟩
  obtain ⟨q, hq⟩ := hq
  have hq' : (({ s.modifyPile rs (fun _ => sp.SetCards kept) with
      card_map_ := CardMap.insertAll (s.modifyPile rs (fun _ => sp.SetCards kept)).card_map_
        (split.map Card.key) id } : AgnesSorelState)).pileAt rt = some q := by
    rw [pileAt_congr _ _ rfl rfl rfl rt]
    exact hq
  obtain ⟨pre', post', e3, e4⟩ := faces_modifyPile _ rt q (fun p => p.Extend split) hq'
  have e5 : (({ s.modifyPile rs (fun _ => sp.SetCards kept) with
      card_map_ := CardMap.insertAll (s.modifyPile rs (fun _ => sp.SetCards kept)).card_map_
        (split.map Card.key) id } : AgnesSorelState)).faces =
      (s.modifyPile rs (fun _ => sp.SetCards kept)).faces := faces_congr _ _ rfl rfl rfl
  rw [e4, e1]
  rw [e5, e2] at e3
  have hext : (q.Extend split).cards_ = q.cards_ ++ split.map (fun c => c.SetLocation q.type_) :=
    rfl
  have hset : (sp.SetCards kept).cards_ = kept := rfl
  rw [hset] at e3
  rw [hext]
  simp only [List.map_append, face_SetLocation] at e3 ⊢
  -- the faces after the move are those after the split plus the run
  have s1 : (List.map Card.face pre' ++ (List.map Card.face q.cards_ ++ List.map Card.face split)
      ++ List.map Card.face post').Perm
      ((List.map Card.face pre' ++ List.map Card.face q.cards_ ++ List.map Card.face post')
        ++ List.map Card.face split) := by
    simp only [List.append_assoc]
    exact List.Perm.append_left _ (List.Perm.append_left _ List.perm_append_comm)
  refine s1.trans ?_
  rw [← e3]
  have s2 : (List.map Card.face pre ++ List.map Card.face kept ++ List.map Card.face post
      ++ List.map Card.face split).Perm
      (List.map Card.face pre ++ (List.map Card.face kept ++ List.map Card.face split)
        ++ List.map Card.face post) := by
    simp only [List.append_assoc]
    exact List.Perm.append_left _ (List.Perm.append_left _ List.perm_append_comm)
  refine s2.trans ?_
  have s3 : (List.map Card.face kept ++ List.map Card.face split).Perm
      (List.map Card.face sp.cards_) := by
    rw [← List.map_append]
    exact hperm.map _
  exact List.Perm.append_right _ (List.Perm.append_left _ s3)

theorem MoveCards_faces (s s' : AgnesSorelState) (move : Move)
    (h : s.MoveCards move = some s') : s'.faces.Perm s.faces := by
  obtain ⟨rt, rs, tp, sp, split, rest, reward, -, -, ht, hs, hsplit, rfl⟩ :=
    MoveCards_eq_some s s' move h
  obtain ⟨kept, hrest, hperm⟩ := PileRef.Split_perm rs sp move.source_ split rest hsplit
  subst hrest
  have e : (({ (s.modifyPile rs (fun _ => sp.SetCards kept)).extendWithMap rt tp.id_ split with
      current_rewards_ := reward } : AgnesSorelState)).faces =
      ((s.modifyPile rs (fun _ => sp.SetCards kept)).extendWithMap rt tp.id_ split).faces :=
    faces_congr _ _ rfl rfl rfl
  rw [e]
  exact transfer_faces s rs rt sp tp kept split tp.id_ hs ht hperm

theorem DoApplyAction_move_faces (hasher : String → Nat) (s s' : AgnesSorelState)
    (action : Int) (h1 : 53 ≤ action) (h2 : action ≤ 365)
    (h : s.DoApplyAction hasher action = some s') : s'.faces.Perm s.faces := by
  rw [DoApplyAction_move hasher s action h1 h2, Option.map_eq_some'] at h
  obtain ⟨s1, hs1, rfl⟩ := h
  have e0 : (if s1.current_depth_ + 1 ≥ s1.depth_limit_ then
        ({ s1 with current_depth_ := s1.current_depth_ + 1, is_finished_ := true }
          : AgnesSorelState)
      else { s1 with current_depth_ := s1.current_depth_ + 1 }).faces = s1.faces := by
    split <;> exact faces_congr _ _ rfl rfl rfl
  rw [e0]
  rw [applyMove_eq] at hs1
  split at hs1
  · exact absurd hs1 (by simp)
  · split at hs1
    · split at hs1
      · exact absurd hs1 (by simp)
      · rename_i s2 hmc
        cases hs1
        have e1 : (({ s2 with current_returns_ := s2.current_returns_ + s2.current_rewards_ }
            : AgnesSorelState)).faces = s2.faces := faces_congr _ _ rfl rfl rfl
        rw [e1]
        exact (MoveCards_faces _ _ _ hmc).trans (List.Perm.of_eq (faces_congr _ _ rfl rfl rfl))
    · exact absurd hs1 (by simp)

theorem dealLoop_faces (limit : Option Int) :
    ∀ (count idx : Nat) (s s' : AgnesSorelState),
      AgnesSorelState.dealLoop limit count idx s = some s' → s'.faces.Perm s.faces := by
  intro count
  induction count with
  | zero =>
    intro idx s s' h
    unfold AgnesSorelState.dealLoop at h
    cases h
    exact List.Perm.refl _
  | succ count ih =>
    intro idx s s' h
    unfold AgnesSorelState.dealLoop at h
    split at h
    · split at h
      · rename_i last tableau hl ht
        simp only [] at h
        refine (ih _ _ _ h).trans ?_
        obtain ⟨kept, hrest, hperm⟩ := PileRef.Split_perm PileRef.waste s.waste_ last
          (Waste.Split s.waste_ last).1 (Waste.Split s.waste_ last).2 rfl
        have e : ({ s with waste_ := (Waste.Split s.waste_ last).2 } : AgnesSorelState) =
            s.modifyPile PileRef.waste (fun _ => s.waste_.SetCards kept) := by
          rw [hrest]
          rfl
        rw [e]
        exact transfer_faces s PileRef.waste (PileRef.tableau idx) s.waste_ tableau kept _ _
          rfl ht hperm
      · exact absurd h (by simp)
    · cases h
      exact List.Perm.refl _

theorem DoApplyAction_deal_faces (hasher : String → Nat) (s s' : AgnesSorelState)
    (h : s.DoApplyAction hasher kDeal = some s') : s'.faces.Perm s.faces := by
  rw [DoApplyAction_deal, Option.map_eq_some'] at h
  obtain ⟨s1, hs1, rfl⟩ := h
  have e0 : (if s1.current_depth_ + 1 ≥ s1.depth_limit_ then
        ({ s1 with current_depth_ := s1.current_depth_ + 1, is_finished_ := true }
          : AgnesSorelState)
      else { s1 with current_depth_ := s1.current_depth_ + 1 }).faces = s1.faces := by
    split <;> exact faces_congr _ _ rfl rfl rfl
  rw [e0]
  unfold AgnesSorelState.applyDeal at hs1
  split at hs1
  · exact absurd hs1 (by simp)
  · split at hs1
    · rw [Option.map_eq_some'] at hs1
      obtain ⟨s2, hs2, rfl⟩ := hs1
      have e1 : (({ s2 with is_reversible_ := false, previous_states_ := [] }
          : AgnesSorelState)).faces = s2.faces := faces_congr _ _ rfl rfl rfl
      rw [e1]
      exact dealLoop_faces _ _ _ _ _ hs2
    · exact dealLoop_faces _ _ _ _ _ hs1

theorem faces_length (s : AgnesSorelState) :
    s.faces.length = s.waste_.cards_.length
      + ((s.foundations_.map (fun f => f.cards_.length)).sum
        + (s.tableaus_.map (fun t => t.cards_.length)).sum) := by
  unfold AgnesSorelState.faces AgnesSorelState.allCards AgnesSorelState.piles
  rw [List.length_map, List.flatMap_cons, List.length_append, List.flatMap_append,
    List.length_append, List.length_flatMap, List.length_flatMap]
  rfl

theorem fillPiles_lengths : ∀ (ts : List Pile) (cs : List Card),
    (fillPiles ts cs).map (fun t => t.cards_.length) = ts.map (fun t => t.cards_.length) := by
  intro ts
  induction ts with
  | nil => intro cs; rfl
  | cons t rest ih =>
    intro cs
    simp only [fillPiles, List.map_cons, fillSlots_length, ih]

theorem applyReveal_waste (s s' : AgnesSorelState) (action : Int)
    (h : s.applyReveal action = some s') : s'.waste_ = s.waste_ := by
  unfold AgnesSorelState.applyReveal at h
  simp only [] at h
  have e : ((Option.map (fun (r : List Pile × Nat) =>
      ({ s with tableaus_ := r.1
                card_map_ := CardMap.insert_or_assign s.card_map_
                  (Card.ofIndex action false LocationType.kMissing).key r.2 }
        : AgnesSorelState))
      (revealInTableaus (Card.ofIndex action false LocationType.kMissing) s.tableaus_)).getD
        s).waste_ = s.waste_ := by
    cases revealInTableaus (Card.ofIndex action false LocationType.kMissing) s.tableaus_ <;> rfl
  split at h
  · split at h
    · exact absurd h (by simp)
    · cases h
      exact e
  · cases h
    exact e

theorem applyActions_reveal_waste (hasher : String → Nat) :
    ∀ (ids : List Int) (s s' : AgnesSorelState), (∀ a ∈ ids, 1 ≤ a ∧ a ≤ 52) →
      s.applyActions hasher ids = some s' → s'.waste_ = s.waste_ := by
  intro ids
  induction ids with
  | nil =>
    intro s s' _ h
    unfold AgnesSorelState.applyActions at h
    cases h
    rfl
  | cons a rest ih =>
    intro s s' hids h
    unfold AgnesSorelState.applyActions at h
    split at h
    · exact absurd h (by simp)
    · rename_i s1 hs1
      have ha := hids a (List.mem_cons_self _ _)
      rw [DoApplyAction_reveal hasher s a ha.1 ha.2, Option.map_eq_some'] at hs1
      obtain ⟨s0, hs0, rfl⟩ := hs1
      rw [ih _ _ (fun b hb => hids b (List.mem_cons_of_mem _ hb)) h]
      have : (if s0.current_depth_ + 1 ≥ s0.depth_limit_ then
          ({ s0 with current_depth_ := s0.current_depth_ + 1, is_finished_ := true }
            : AgnesSorelState)
        else { s0 with current_depth_ := s0.current_depth_ + 1 }).waste_ = s0.waste_ := by
        split <;> rfl
      rw [this]
      exact applyReveal_waste s s0 a hs0

theorem opening_reveals_count (hasher : String → Nat) (is_colored : Bool)
    (depth_limit : Int) (ids : List Int) (hlen : ids.length ≤ 28)
    (hids : ∀ a ∈ ids, 1 ≤ a ∧ a ≤ 52) (hd : 29 < depth_limit) :
    ∃ t, (AgnesSorelState.new is_colored depth_limit).applyActions hasher ids = some t ∧
      t.faces.length = 51 ∧
      t.tableaus_ = fillPiles (AgnesSorelState.new is_colored depth_limit).tableaus_
        (ids.map (fun a => Card.ofIndex a false LocationType.kMissing)) ∧
      t.foundations_ = (AgnesSorelState.new is_colored depth_limit).foundations_ ∧
      t.waste_ = (AgnesSorelState.new is_colored depth_limit).waste_ ∧
      t.is_known_foundation_ = false ∧
      t.current_depth_ = ids.length ∧ t.depth_limit_ = depth_limit := by
  obtain ⟨th, -, tlen⟩ := initial_tableaus_facts is_colored depth_limit
  have hsum : ((AgnesSorelState.new is_colored depth_limit).tableaus_.map
      (fun t => t.cards_.length)).sum = 28 := by rw [tlen]; rfl
  have d0 : (AgnesSorelState.new is_colored depth_limit).current_depth_ = 0 := rfl
  have l0 : (AgnesSorelState.new is_colored depth_limit).depth_limit_ = depth_limit := rfl
  obtain ⟨t, e1, e2, e3, e4, -, e6, e7⟩ := applyActions_reveals hasher
    (AgnesSorelState.new is_colored depth_limit).tableaus_ th ids []
    (AgnesSorelState.new is_colored depth_limit) hids (fillPiles_nil _).symm
    (by rw [hsum]; simpa using hlen)
    (by rw [d0, l0]; have : (ids.length : Int) ≤ 28 := by exact_mod_cast hlen
        omega)
  rw [List.nil_append] at e2
  have ew := applyActions_reveal_waste hasher ids _ t hids e1
  refine ⟨t, e1, ?_, e2, e3, ew, e4, by rw [e6, d0]; simp, by rw [e7, l0]⟩
  rw [faces_length, ew, e3, e2, fillPiles_lengths, tlen]
  rfl

/-- C39: a Move id in 53..365 or `Deal` on which `DoApplyAction` returns a
state leaves the cards of the waste, the foundations and the tableaus, taken
by rank, suit and hidden flag, the same up to order. In the opening of a game
(29 Reveal ids in 1..52, depth limit above 29) the state holds 51 cards after
each of the first 28 reveals and 52 cards after the 29th. -/
theorem moves_and_deals_conserve_cards (hasher : String → Nat) (s s' : AgnesSorelState)
    (action : Int) (ha : (53 ≤ action ∧ action ≤ 365) ∨ action = kDeal)
    (h : s.DoApplyAction hasher action = some s') :
    s'.faces.Perm s.faces
    ∧ ∀ (is_colored : Bool) (depth_limit : Int) (ids : List Int),
        ids.length = 29 → (∀ a ∈ ids, 1 ≤ a ∧ a ≤ 52) → 29 < depth_limit →
        (∀ n, n ≤ 28 →
          ∃ t, (AgnesSorelState.new is_colored depth_limit).applyActions hasher (ids.take n)
            = some t ∧ t.faces.length = 51)
        ∧ ∃ t, (AgnesSorelState.new is_colored depth_limit).applyActions hasher ids = some t ∧
            t.faces.length = 52 := by
  constructor
  · rcases ha with ⟨h1, h2⟩ | rfl
    · exact DoApplyAction_move_faces hasher s s' action h1 h2 h
    · exact DoApplyAction_deal_faces hasher s s' h
  · intro is_colored depth_limit ids hlen hids hd
    constructor
    · intro n hn
      obtain ⟨t, e1, e2, -⟩ := opening_reveals_count hasher is_colored depth_limit (ids.take n)
        (by rw [List.length_take]; omega) (fun a ha => hids a (List.mem_of_mem_take ha)) hd
      exact ⟨t, e1, e2⟩
    · obtain ⟨front, last, hfl⟩ : ∃ front last, ids = front ++ [last] := by
        have hne : ids ≠ [] := by
          intro e
          rw [e] at hlen
          simp at hlen
        exact ⟨ids.dropLast, ids.getLast hne, (List.dropLast_append_getLast hne).symm⟩
      subst hfl
      have hflen : front.length = 28 := by
        simp only [List.length_append, List.length_singleton] at hlen
        omega
      obtain ⟨s28, e1, -, e2, e3, e4, e5, e6, e7⟩ := opening_reveals_count hasher is_colored
        depth_limit front (by omega) (fun a ha => hids a (List.mem_append_left _ ha)) hd
      obtain ⟨th, -, tlen⟩ := initial_tableaus_facts is_colored depth_limit
      have hsum : ((AgnesSorelState.new is_colored depth_limit).tableaus_.map
          (fun t => t.cards_.length)).sum = 28 := by rw [tlen]; rfl
      have hl := hids last (by simp)
      have hnone : s28.tableaus_.any (fun tableau =>
          !tableau.GetIsEmpty && tableau.cards_.any (fun card => card.hidden_)) = false := by
        rw [e2]
        exact fillPiles_no_hidden _ _ th (by rw [hsum, List.length_map, hflen])
      obtain ⟨-, ⟨-, -, s1, s2⟩, -⟩ := ofIndex_facts last hl.1 hl.2
      obtain ⟨id, hid⟩ := Option.isSome_iff_exists.mp (kSuitToPile_isSome _ s1 s2)
      have hstep := DoApplyAction_reveal_seed hasher s28 last id hl.1 hl.2
        (revealInTableaus_none _ _ hnone) e5 hid
        (by rw [e6, e7, hflen]; push_cast; omega)
      have happ : (AgnesSorelState.new is_colored depth_limit).applyActions hasher
          (front ++ [last]) = s28.DoApplyAction hasher last := by
        rw [applyActions_append, e1]
        show (match s28.DoApplyAction hasher last with
          | none => none
          | some s' => AgnesSorelState.applyActions hasher s' []) = _
        cases s28.DoApplyAction hasher last <;> rfl
      rw [happ, hstep]
      refine ⟨_, rfl, ?_⟩
      rw [faces_length]
      simp only []
      rw [e4, e2, fillPiles_lengths, tlen, e3]
      have hf : (AgnesSorelState.new is_colored depth_limit).foundations_ =
          (AgnesSorelState.new false 0).foundations_ := rfl
      have hw : (AgnesSorelState.new is_colored depth_limit).waste_.cards_.length = 23 := rfl
      rw [hf, hw]
      generalize (Card.ofIndex last false LocationType.kMissing).suit_ = suit at s1 s2
      generalize Card.ofIndex last false LocationType.kMissing = card
      interval_cases suit <;> rfl

set_option maxRecDepth 100000 in
theorem moves_and_deals_conserve_cards_witness :
    rewardSampleState.faces = [(5, 1, false), (6, 1, false)]
    ∧ ∃ s', rewardSampleState.DoApplyAction constantHasher 109 = some s' ∧
      s'.faces.Perm rewardSampleState.faces := by
  have hs : (rewardSampleState.DoApplyAction constantHasher 109).isSome = true := by decide
  obtain ⟨s', hs'⟩ := Option.isSome_iff_exists.1 hs
  exact ⟨by decide, s', hs', (moves_and_deals_conserve_cards constantHasher rewardSampleState s'
    109 (Or.inl ⟨by decide, by decide⟩) hs').1⟩

/-! ## The waste holds hidden cards only -/

theorem modifyAt_forall {α : Type} (P : α → Prop) (f : α → α) (hf : ∀ x, P x → P (f x)) :
    ∀ (i : Nat) (l : List α), (∀ x ∈ l, P x) → ∀ x ∈ modifyAt f i l, P x := by
  intro i l
  induction l generalizing i with
  | nil => intro _ x hx; cases i <;> simp [modifyAt] at hx
  | cons y ys ih =>
    intro h x hx
    cases i with
    | zero =>
      simp only [modifyAt, List.mem_cons] at hx
      rcases hx with rfl | hx
      · exact hf _ (h y (List.mem_cons_self _ _))
      · exact h x (List.mem_cons_of_mem _ hx)
    | succ i =>
      simp only [modifyAt, List.mem_cons] at hx
      rcases hx with rfl | hx
      · exact h _ (List.mem_cons_self _ _)
      · exact ih i (fun z hz => h z (List.mem_cons_of_mem _ hz)) x hx

theorem WasteInvariant_congr (s t : AgnesSorelState) (h : s.WasteInvariant)
    (hw : t.waste_ = s.waste_) (hf : t.foundations_ = s.foundations_)
    (ht : t.tableaus_ = s.tableaus_) (hm : t.card_map_ = s.card_map_) : t.WasteInvariant := by
  obtain ⟨a, b, c, d, e⟩ := h
  constructor
  · rw [hw]; exact a
  · rw [hm]; exact b
  · rw [hw]; exact c
  · rw [hf]; exact d
  · rw [ht]; exact e

theorem WasteInvariant_modifyPile (s : AgnesSorelState) (r : PileRef) (f : Pile → Pile)
    (h : s.WasteInvariant) (hf : ∀ p, (f p).type_ = p.type_ ∧ (f p).id_ = p.id_)
    (hw : r = PileRef.waste → ∀ c ∈ (f s.waste_).cards_, c.hidden_ = true) :
    (s.modifyPile r f).WasteInvariant := by
  obtain ⟨a, b, c, d, e⟩ := h
  cases r with
  | waste =>
    exact ⟨hw rfl, b, by show (f s.waste_).type_ = _; rw [(hf _).1]; exact c, d, e⟩
  | foundation i =>
    refine ⟨a, b, c, ?_, e⟩
    exact modifyAt_forall
      (fun p => p.type_ = LocationType.kFoundation ∧ p.id_ ≠ PileID.kWaste) f
      (fun p hp => by
        show (f p).type_ = _ ∧ (f p).id_ ≠ _
        rw [(hf p).1, (hf p).2]; exact hp) i _ d
  | tableau i =>
    refine ⟨a, b, c, d, ?_⟩
    exact modifyAt_forall
      (fun p => p.type_ = LocationType.kTableau ∧ p.id_ ≠ PileID.kWaste) f
      (fun p hp => by
        show (f p).type_ = _ ∧ (f p).id_ ≠ _
        rw [(hf p).1, (hf p).2]; exact hp) i _ e

theorem WasteInvariant_insertAll (s : AgnesSorelState) (h : s.WasteInvariant)
    (keys : List CardKey) (id : Nat) (hid : id ≠ PileID.kWaste) :
    ({ s with card_map_ := CardMap.insertAll s.card_map_ keys id }
      : AgnesSorelState).WasteInvariant := by
  obtain ⟨a, b, c, d, e⟩ := h
  refine ⟨a, ?_, c, d, e⟩
  intro key v hv
  have hv' : CardMap.at (CardMap.insertAll s.card_map_ keys id) key = some v := hv
  rw [CardMap.at_insertAll] at hv'
  split at hv'
  · cases hv'
    exact hid
  · exact b key v hv'

theorem WasteInvariant_insert (s : AgnesSorelState) (h : s.WasteInvariant)
    (k : CardKey) (id : Nat) (hid : id ≠ PileID.kWaste) :
    ({ s with card_map_ := CardMap.insert_or_assign s.card_map_ k id }
      : AgnesSorelState).WasteInvariant := by
  obtain ⟨a, b, c, d, e⟩ := h
  refine ⟨a, ?_, c, d, e⟩
  intro key v hv
  have hv' : CardMap.at (CardMap.insert_or_assign s.card_map_ k id) key = some v := hv
  rw [CardMap.at_insert_or_assign] at hv'
  split at hv'
  · cases hv'
    exact hid
  · exact b key v hv'

theorem GetPile_ne_waste (s : AgnesSorelState) (h : s.WasteInvariant) (card : Card) :
    s.GetPile card ≠ some PileRef.waste := by
  intro hg
  unfold AgnesSorelState.GetPile at hg
  split at hg
  · split at hg
    · rw [Option.map_eq_some'] at hg
      obtain ⟨i, -, hi⟩ := hg
      cases hi
    · split at hg
      · rw [Option.map_eq_some'] at hg
        obtain ⟨i, -, hi⟩ := hg
        cases hi
      · cases hg
  · split at hg
    · cases hg
    · rename_i pile_id hat
      have hne := h.mapped _ _ hat
      rw [if_neg hne] at hg
      split at hg
      · split at hg
        · cases hg
        · cases hg
      · split at hg
        · split at hg
          · cases hg
          · cases hg
        · cases hg

theorem pileAt_id_ne_waste (s : AgnesSorelState) (h : s.WasteInvariant) (r : PileRef)
    (p : Pile) (hr : r ≠ PileRef.waste) (hp : s.pileAt r = some p) :
    p.id_ ≠ PileID.kWaste ∧ p.type_ ≠ LocationType.kWaste := by
  cases r with
  | waste => exact absurd rfl hr
  | foundation i =>
    have hm : p ∈ s.foundations_ := List.mem_iff_getElem?.2 ⟨i, hp⟩
    obtain ⟨e1, e2⟩ := h.foundations p hm
    exact ⟨e2, by rw [e1]; decide⟩
  | tableau i =>
    have hm : p ∈ s.tableaus_ := List.mem_iff_getElem?.2 ⟨i, hp⟩
    obtain ⟨e1, e2⟩ := h.tableaus p hm
    exact ⟨e2, by rw [e1]; decide⟩

theorem transfer_wasteInvariant (s : AgnesSorelState) (rs rt : PileRef) (sp : Pile)
    (kept split : List Card) (id : Nat) (h : s.WasteInvariant)
    (hsp : s.pileAt rs = some sp)
    (hkept : rs = PileRef.waste → ∀ c ∈ kept, c.hidden_ = true)
    (hrt : rt ≠ PileRef.waste) (hid : id ≠ PileID.kWaste) :
    ((s.modifyPile rs (fun _ => sp.SetCards kept)).extendWithMap rt id split).WasteInvariant := by
  have hcongr : s.modifyPile rs (fun _ => sp.SetCards kept) =
      s.modifyPile rs (fun p => p.SetCards kept) :=
    modifyPile_congr s rs sp _ _ hsp rfl
  rw [hcongr, extendWithMap_eq]
  have h1 : (s.modifyPile rs (fun p => p.SetCards kept)).WasteInvariant :=
    WasteInvariant_modifyPile s rs _ h (fun _ => ⟨rfl, rfl⟩) hkept
  have h2 := WasteInvariant_insertAll _ h1 (split.map Card.key) id hid
  exact WasteInvariant_modifyPile _ rt _ h2 (fun _ => ⟨rfl, rfl⟩) (fun e => absurd e hrt)

theorem MoveCards_wasteInvariant (s s' : AgnesSorelState) (move : Move)
    (h : s.WasteInvariant) (hm : s.MoveCards move = some s') : s'.WasteInvariant := by
  obtain ⟨rt, rs, tp, sp, split, rest, reward, hgt, hgs, ht, hs, hsplit, rfl⟩ :=
    MoveCards_eq_some s s' move hm
  obtain ⟨kept, hrest, -⟩ := PileRef.Split_perm rs sp move.source_ split rest hsplit
  subst hrest
  have hrs : rs ≠ PileRef.waste := fun e => GetPile_ne_waste s h move.source_ (e ▸ hgs)
  have hrt : rt ≠ PileRef.waste := fun e => GetPile_ne_waste s h move.target_ (e ▸ hgt)
  have hid := (pileAt_id_ne_waste s h rt tp hrt ht).1
  exact WasteInvariant_congr _ _
    (transfer_wasteInvariant s rs rt sp kept split tp.id_ h hs (fun e => absurd e hrs) hrt hid)
    rfl rfl rfl rfl

theorem applyMove_wasteInvariant (hasher : String → Nat) (s s' : AgnesSorelState)
    (action : Int) (h : s.WasteInvariant) (hm : s.applyMove hasher action = some s') :
    s'.WasteInvariant := by
  rw [applyMove_eq] at hm
  split at hm
  · exact absurd hm (by simp)
  · split at hm
    · split at hm
      · exact absurd hm (by simp)
      · rename_i s2 hmc
        cases hm
        have h0 : (({ s with is_reversible_ := false, previous_states_ := [] }
            : AgnesSorelState)).WasteInvariant := WasteInvariant_congr s _ h rfl rfl rfl rfl
        exact WasteInvariant_congr _ _ (MoveCards_wasteInvariant _ _ _ h0 hmc) rfl rfl rfl rfl
    · exact absurd hm (by simp)

theorem dealLoop_wasteInvariant (limit : Option Int) :
    ∀ (count idx : Nat) (s s' : AgnesSorelState), s.WasteInvariant →
      AgnesSorelState.dealLoop limit count idx s = some s' → s'.WasteInvariant := by
  intro count
  induction count with
  | zero =>
    intro idx s s' h hd
    unfold AgnesSorelState.dealLoop at hd
    cases hd
    exact h
  | succ count ih =>
    intro idx s s' h hd
    unfold AgnesSorelState.dealLoop at hd
    split at hd
    · split at hd
      · rename_i last tableau hl ht
        simp only [] at hd
        refine ih _ _ _ ?_ hd
        obtain ⟨kept, hrest, hperm⟩ := PileRef.Split_perm PileRef.waste s.waste_ last
          (Waste.Split s.waste_ last).1 (Waste.Split s.waste_ last).2 rfl
        have e : ({ s with waste_ := (Waste.Split s.waste_ last).2 } : AgnesSorelState) =
            s.modifyPile PileRef.waste (fun _ => s.waste_.SetCards kept) := by
          rw [hrest]
          rfl
        rw [e]
        have hid := (pileAt_id_ne_waste s h (PileRef.tableau idx) tableau
          (fun e => by cases e) ht).1
        exact transfer_wasteInvariant s PileRef.waste (PileRef.tableau idx) s.waste_ kept _ _ h
          rfl (fun _ c hc => h.hidden c (hperm.subset (List.mem_append_left _ hc)))
          (fun e => by cases e) hid
      · exact absurd hd (by simp)
    · cases hd
      exact h

theorem applyDeal_wasteInvariant (s s' : AgnesSorelState) (h : s.WasteInvariant)
    (hd : s.applyDeal = some s') : s'.WasteInvariant := by
  unfold AgnesSorelState.applyDeal at hd
  split at hd
  · exact absurd hd (by simp)
  · split at hd
    · rw [Option.map_eq_some'] at hd
      obtain ⟨s2, hs2, rfl⟩ := hd
      exact WasteInvariant_congr _ _ (dealLoop_wasteInvariant _ _ _ _ _ h hs2) rfl rfl rfl rfl
    · exact dealLoop_wasteInvariant _ _ _ _ _ h hd

theorem kSuitToPile_ne_waste (suit : Int) (id : Nat) (h : kSuitToPile suit = some id) :
    id ≠ PileID.kWaste := by
  unfold kSuitToPile at h
  repeat' split at h
  all_goals first
    | (cases h; decide)
    | exact absurd h (by simp)

theorem applyReveal_wasteInvariant (s s' : AgnesSorelState) (action : Int)
    (h : s.WasteInvariant) (hr : s.applyReveal action = some s') : s'.WasteInvariant := by
  unfold AgnesSorelState.applyReveal at hr
  simp only [] at hr
  have seed : ∀ (s1 : AgnesSorelState) (pile_id : Nat) (rank : Int) (suit : Int) (card : Card)
      (k : CardKey), s1.WasteInvariant → pile_id ≠ PileID.kWaste →
      ({ s1 with
        foundation_rank_ := rank
        is_known_foundation_ := true
        foundations_ := s1.foundations_.map (fun foundation =>
          if foundation.suit_ = suit then foundation.Extend [card] else foundation)
        card_map_ := CardMap.insert_or_assign s1.card_map_ k pile_id
        revealed_cards_ := s1.revealed_cards_ ++ [action] } : AgnesSorelState).WasteInvariant := by
    intro s1 pile_id rank suit card k h1 hid
    have h2 := WasteInvariant_insert s1 h1 k pile_id hid
    refine ⟨h2.hidden, h2.mapped, h2.waste_type, ?_, h2.tableaus⟩
    intro f hf
    obtain ⟨g, hg, rfl⟩ := List.mem_map.1 hf
    have := h1.foundations g hg
    split
    · exact this
    · exact this
  cases hf : revealInTableaus (Card.ofIndex action false LocationType.kMissing) s.tableaus_ with
  | none =>
    rw [hf] at hr
    simp only [Option.map_none', Option.getD_none, Option.isSome_none] at hr
    split at hr
    · split at hr
      · exact absurd hr (by simp)
      · rename_i pile_id hk
        cases hr
        exact seed s pile_id _ _ _ _ h (kSuitToPile_ne_waste _ _ hk)
    · cases hr
      exact WasteInvariant_congr s _ h rfl rfl rfl rfl
  | some r =>
    rw [hf] at hr
    simp only [Option.map_some', Option.getD_some, Option.isSome_some] at hr
    obtain ⟨i, t, hi, hr1, hr2, -⟩ := revealInTableaus_some _ _ _ hf
    have hid : r.2 ≠ PileID.kWaste := by
      rw [hr2]
      exact (h.tableaus t (List.mem_iff_getElem?.2 ⟨i, hi⟩)).2
    have h1 : (({ s with tableaus_ := r.1
                         card_map_ := CardMap.insert_or_assign s.card_map_
                           (Card.ofIndex action false LocationType.kMissing).key r.2 }
        : AgnesSorelState)).WasteInvariant := by
      have h2 := WasteInvariant_insert s h
        (Card.ofIndex action false LocationType.kMissing).key r.2 hid
      have h3 := WasteInvariant_modifyPile _ (PileRef.tableau i)
        (fun t => Tableau.Reveal t (Card.ofIndex action false LocationType.kMissing)) h2
        (fun _ => ⟨rfl, rfl⟩) (fun e => by cases e)
      exact WasteInvariant_congr _ _ h3 rfl rfl (by rw [hr1]; rfl) rfl
    split at hr
    · split at hr
      · exact absurd hr (by simp)
      · rename_i pile_id hk
        cases hr
        exact seed _ pile_id _ _ _ _ h1 (kSuitToPile_ne_waste _ _ hk)
    · cases hr
      exact WasteInvariant_congr _ _ h1 rfl rfl rfl rfl

theorem DoApplyAction_wasteInvariant (hasher : String → Nat) (s s' : AgnesSorelState)
    (action : Int) (h : s.WasteInvariant) (hd : s.DoApplyAction hasher action = some s') :
    s'.WasteInvariant := by
  unfold AgnesSorelState.DoApplyAction at hd
  simp only [] at hd
  rw [Option.map_eq_some'] at hd
  obtain ⟨s1, hb, rfl⟩ := hd
  have h1 : s1.WasteInvariant := by
    split at hb
    · cases hb
      exact WasteInvariant_congr s _ h rfl rfl rfl rfl
    · split at hb
      · exact applyReveal_wasteInvariant _ _ _ h hb
      · split at hb
        · exact applyMove_wasteInvariant _ _ _ _ h hb
        · split at hb
          · exact applyDeal_wasteInvariant _ _ h hb
          · cases hb; exact h
  split <;> exact WasteInvariant_congr s1 _ h1 rfl rfl rfl rfl

theorem initial_wasteInvariant (is_colored : Bool) (depth_limit : Int) :
    (AgnesSorelState.new is_colored depth_limit).WasteInvariant := by
  have h0 : (AgnesSorelState.new false 0).WasteInvariant := by
    refine ⟨by decide, ?_, rfl, by decide, by decide⟩
    intro key id hk
    exact absurd hk (by simp [AgnesSorelState.new, CardMap.at])
  exact WasteInvariant_congr _ _ h0 rfl rfl rfl rfl

theorem reachable_wasteInvariant (hasher : String → Nat) (s : AgnesSorelState)
    (h : Reachable hasher s) : s.WasteInvariant := by
  induction h with
  | initial is_colored depth_limit => exact initial_wasteInvariant is_colored depth_limit
  | step s s' legal action _ _ _ hd ih => exact DoApplyAction_wasteInvariant hasher s s' action ih hd

theorem Waste_Sources_of_hidden (p : Pile) (h : ∀ c ∈ p.cards_, c.hidden_ = true) :
    Waste.Sources p = [] := by
  unfold Waste.Sources
  cases hc : p.cards_ with
  | nil => rfl
  | cons c rest =>
    have := h c (by rw [hc]; exact List.mem_cons_self _ _)
    rw [List.takeWhile_cons, this]
    rfl

theorem pileAt_after_transfer (s : AgnesSorelState) (rs rt r : PileRef) (rest : Pile)
    (id : Nat) (split : List Card) (q : Pile) (h : s.pileAt r = some q) :
    ∃ q', ((s.modifyPile rs (fun _ => rest)).extendWithMap rt id split).pileAt r = some q' := by
  rw [extendWithMap_eq]
  have h1 : ∃ q1, (s.modifyPile rs (fun _ => rest)).pileAt r = some q1 := by
    rcases pileAt_modifyPile s rs r (fun _ => rest) q h with e | e
    · exact ⟨_, e⟩
    · exact ⟨_, e⟩
  obtain ⟨q1, hq1⟩ := h1
  have h2 : (({ s.modifyPile rs (fun _ => rest) with
      card_map_ := CardMap.insertAll (s.modifyPile rs (fun _ => rest)).card_map_
        (split.map Card.key) id } : AgnesSorelState)).pileAt r = some q1 := by
    rw [pileAt_congr _ _ rfl rfl rfl r]
    exact hq1
  rcases pileAt_modifyPile _ rt r (fun p => p.Extend split) q1 h2 with e | e
  · exact ⟨_, e⟩
  · exact ⟨_, e⟩

theorem move_source_pile_not_waste (hasher : String → Nat) (s s' : AgnesSorelState)
    (action : Int) (h : s.WasteInvariant) (h1 : 53 ≤ action) (h2 : action ≤ 365)
    (hd : s.DoApplyAction hasher action = some s') :
    ∃ m r p, Move.ofAction action = some m ∧ s.GetPile m.source_ = some r ∧
      r ≠ PileRef.waste ∧ s'.pileAt r = some p ∧ p.type_ ≠ LocationType.kWaste := by
  have hinv := DoApplyAction_wasteInvariant hasher s s' action h hd
  rw [DoApplyAction_move hasher s action h1 h2, Option.map_eq_some'] at hd
  obtain ⟨s1, hs1, rfl⟩ := hd
  rw [applyMove_eq] at hs1
  split at hs1
  · exact absurd hs1 (by simp)
  · rename_i m hm
    split at hs1
    · split at hs1
      · exact absurd hs1 (by simp)
      · rename_i s2 hmc
        cases hs1
        obtain ⟨rt, rs, tp, sp, split, rest, reward, -, hgs, -, hsp, -, rfl⟩ :=
          MoveCards_eq_some _ _ _ hmc
        have hgs' : s.GetPile m.source_ = some rs := hgs
        have hrs : rs ≠ PileRef.waste := fun e => GetPile_ne_waste s h m.source_ (e ▸ hgs')
        obtain ⟨q', hq'⟩ := pileAt_after_transfer _ rs rt rs rest tp.id_ split sp hsp
        refine ⟨m, rs, q', hm, hgs', hrs, ?_, ?_⟩
        · split
          · rw [pileAt_congr _ _ rfl rfl rfl rs] at hq'
            exact hq'
          · rw [pileAt_congr _ _ rfl rfl rfl rs] at hq'
            exact hq'
        · have hq'' : ((({ s with is_reversible_ := false, previous_states_ := [] }
              : AgnesSorelState).modifyPile rs (fun _ => rest)).extendWithMap rt tp.id_
              split).pileAt rs = some q' := hq'
          have hinv2 : ((({ s with is_reversible_ := false, previous_states_ := [] }
              : AgnesSorelState).modifyPile rs (fun _ => rest)).extendWithMap rt tp.id_
              split).WasteInvariant := by
            apply WasteInvariant_congr _ _ hinv
            · split <;> rfl
            · split <;> rfl
            · split <;> rfl
            · split <;> rfl
          exact (pileAt_id_ne_waste _ hinv2 rs q' hrs hq'').2
    · exact absurd hs1 (by simp)

/-- C38: in every state reachable from an initial state by legal actions
every card of the waste is hidden. Hence `Waste::Sources()` is empty and
`Sources()` returns the sources of the tableaus followed by those of the
foundations; `GetPile` returns the waste for no card, so no candidate move
has its source in the waste; and after a Move id in 53..365 on which
`DoApplyAction` returns a state the source pile is not of kind `kWaste`, the
condition of the waste bonus of 20 points. -/
theorem waste_cards_stay_hidden (hasher : String → Nat) (s : AgnesSorelState)
    (h : Reachable hasher s) :
    (∀ c ∈ s.waste_.cards_, c.hidden_ = true)
    ∧ Waste.Sources s.waste_ = []
    ∧ s.Sources LocationType.kWaste = some []
    ∧ s.Sources LocationType.kMissing =
        (tableauSources s.tableaus_).map (fun fromTableaus =>
          fromTableaus ++ s.foundations_.flatMap Foundation.Sources)
    ∧ (∀ card, s.GetPile card ≠ some PileRef.waste)
    ∧ (∀ moves m r p, s.CandidateMoves = some moves → m ∈ moves →
        s.GetPile m.source_ = some r → s.pileAt r = some p →
        r ≠ PileRef.waste ∧ p.type_ ≠ LocationType.kWaste)
    ∧ (∀ action s', 53 ≤ action → action ≤ 365 →
        s.DoApplyAction hasher action = some s' →
        ∃ m r p, Move.ofAction action = some m ∧ s.GetPile m.source_ = some r ∧
          r ≠ PileRef.waste ∧ s'.pileAt r = some p ∧ p.type_ ≠ LocationType.kWaste) := by
  have hinv := reachable_wasteInvariant hasher s h
  have hsrc := Waste_Sources_of_hidden s.waste_ hinv.hidden
  refine ⟨hinv.hidden, hsrc, ?_, ?_, GetPile_ne_waste s hinv, ?_, ?_⟩
  · unfold AgnesSorelState.Sources
    rw [hsrc]
    rfl
  · unfold AgnesSorelState.Sources
    rw [hsrc]
    cases tableauSources s.tableaus_ with
    | none => rfl
    | some l => simp
  · intro moves m r p _ _ hr hp
    have hne : r ≠ PileRef.waste := fun e => GetPile_ne_waste s hinv m.source_ (e ▸ hr)
    exact ⟨hne, (pileAt_id_ne_waste s hinv r p hne hp).2⟩
  · intro action s' h1 h2 hd
    exact move_source_pile_not_waste hasher s s' action hinv h1 h2 hd

set_option maxRecDepth 1000000 in
theorem waste_cards_stay_hidden_witness :
    ∃ s, (AgnesSorelState.new false 150).playLegal constantHasher (sampleReveals ++ [366])
        = some s ∧
      s.waste_.cards_.length = 16 ∧ (∀ c ∈ s.waste_.cards_, c.hidden_ = true) ∧
      Waste.Sources s.waste_ = [] := by
  have hs : ((AgnesSorelState.new false 150).playLegal constantHasher
      (sampleReveals ++ [366])).map (fun s => s.waste_.cards_.length) = some 16 := by decide!
  rw [Option.map_eq_some'] at hs
  obtain ⟨s, hs, hl⟩ := hs
  have hr := playLegal_reachable constantHasher _ _ s (Reachable.initial false 150) hs
  have h := waste_cards_stay_hidden constantHasher s hr
  exact ⟨s, hs, hl, h.1, h.2.1⟩

/-! ## `Deal` and the cycle guard -/

end AgnesSorel
